import Mathlib

/-!
# bhwmonitoring-go: EC-ElGamal, batched OR-proof, Bloom filter and PCR protocol

A shallow embedding of the Go sources `elgamal/elgamal.go`, `bloom/bloom.go`
and `pcr/pcr.go`.

* `*big.Int` values are `Int`; a pointer that may be `nil` is an `Option`.
* `[]byte` is `List Nat` (every element below 256).
* Code that can panic or call `os.Exit` returns `Except Fault _`.
* Every call of the random source takes the drawn number as an explicit argument.
* Goroutines that fill disjoint slots of a slice are run in index order.
* The Go standard library (`crypto/elliptic`, `crypto/sha1`, `crypto/sha256`,
  `math/big.ModSqrt`) is a parameter: a `Curve` record of operations and a `Lib` record.
-/

/-! ## Faults -/

/-- The ways in which the Go program stops without returning. -/
inductive Fault where
  | nilDeref
  | sliceBounds
  | indexRange
  | divideByZero
  | makechan
  | deadlock
  | invalidArgument
  | exit (code : Int)
  | panicked
  deriving DecidableEq, Repr

deriving instance DecidableEq for Except

/-! ## `math/big` -/

namespace big

/-- Worker of `natBytes`: pushes the base-256 digits of `n` in front of `acc`. -/
def bytesAux : Nat → Nat → List Nat → List Nat
  | 0, _, acc => acc
  | fuel + 1, n, acc => if n = 0 then acc else bytesAux fuel (n / 256) (n % 256 :: acc)

/-- Minimal big-endian bytes of a natural number (empty for zero). -/
def natBytes (n : Nat) : List Nat := bytesAux n n []

/-- `(*big.Int).Bytes`: the big-endian bytes of the absolute value, of minimal length. -/
def Bytes (x : Int) : List Nat := natBytes x.natAbs

/-- `(*big.Int).SetBytes`: the big-endian unsigned integer held by a byte slice. -/
def SetBytes (bs : List Nat) : Nat := bs.foldl (fun acc b => acc * 256 + b) 0

end big

/-! ## `crypto/elliptic` and the other library functions -/

/-- An affine pair `(x, y)`; `(0, 0)` is the point at infinity. -/
abbrev Point := Int × Int

/-- The operations of a Go `elliptic.Curve` (with `Params().P`, `.N`, `.B`) and of the
package-level SEC1 encoders. Scalars are byte slices, as in Go. -/
structure Curve where
  P : Int
  N : Int
  B : Int
  IsOnCurve : Int → Int → Bool
  Add : Point → Point → Point
  ScalarMult : Point → List Nat → Point
  ScalarBaseMult : List Nat → Point
  Marshal : Point → List Nat
  MarshalCompressed : Point → List Nat
  Unmarshal : List Nat → Option Point
  UnmarshalCompressed : List Nat → Option Point

/-- The library functions the program calls: the four NIST curves, the two hash functions
and `(*big.Int).ModSqrt` (which returns `nil`, here `none`, for a non-residue). -/
structure Lib where
  P224 : Curve
  P256 : Curve
  P384 : Curve
  P521 : Curve
  Sha256 : List Nat → List Nat
  Sha1 : List Nat → List Nat
  ModSqrt : Int → Int → Option Int

/-! ## Package `elgamal` -/

namespace elgamal

structure GroupElement where
  X : Int
  Y : Int
  deriving DecidableEq, Repr

/-- The Go `PublicKey`; `Curve` is `none` when `initCurve` left the interface value `nil`. -/
structure PublicKey where
  Curve : Option Curve
  SecParam : Int
  Gx : Int
  Gy : Int
  Hx : Int
  Hy : Int
  PointCompression : Bool

structure SecretKey where
  Curve : Option Curve
  Hx : Int
  Hy : Int
  Priv : List Nat

/-- Four `*big.Int` coordinates; a coordinate is `none` when the pointer is `nil`. -/
structure Ciphertext where
  C1x : Option Int
  C1y : Option Int
  C2x : Option Int
  C2y : Option Int
  deriving DecidableEq, Repr

structure CiphertextByte where
  C1 : List Nat
  C2 : List Nat
  deriving DecidableEq, Repr

structure ZKP where
  A1x : Option Int
  A1y : Option Int
  B1x : Option Int
  B1y : Option Int
  A2x : Option Int
  A2y : Option Int
  B2x : Option Int
  B2y : Option Int
  D1 : Option Int
  D2 : Option Int
  R1 : Option Int
  R2 : Option Int
  deriving DecidableEq, Repr

structure ZKPByte where
  A1 : List Nat
  B1 : List Nat
  A2 : List Nat
  B2 : List Nat
  D1 : List Nat
  D2 : List Nat
  R1 : List Nat
  R2 : List Nat
  deriving DecidableEq, Repr

def PaddingBytes : Nat := 4

/-- Dereference of a `*big.Int`. -/
def deref (x : Option Int) : Except Fault Int :=
  match x with
  | some v => .ok v
  | none => .error .nilDeref

/-- Use of the curve interface value: a method call on a `nil` interface panics. -/
def derefCurve (c : Option Curve) : Except Fault Curve :=
  match c with
  | some v => .ok v
  | none => .error .nilDeref

/-- The two coordinates handed to a curve method. -/
def derefPoint (x y : Option Int) : Except Fault Point := do
  let xv ← deref x
  let yv ← deref y
  return (xv, yv)

/-- `newCryptoRandom(max)`: the bytes of the number that `rand.Int` returned. `rand.Int`
returns a number of `[0, max)`: the outcome is `draw` reduced into that range (`max` is a
group order and never zero). -/
def newCryptoRandom (max : List Nat) (draw : Nat) : List Nat :=
  big.Bytes (draw % big.SetBytes max : Nat)

/-- `initCurve`: the curve for a security parameter, `nil` for any other value. -/
def initCurve (L : Lib) (secParam : Int) : Option Curve :=
  if secParam = 224 then some L.P224
  else if secParam = 256 then some L.P256
  else if secParam = 384 then some L.P384
  else if secParam = 521 then some L.P521
  else none

/-- `(pk *PublicKey).InitCurve`. -/
def PublicKey.InitCurve (L : Lib) (pk : PublicKey) : PublicKey :=
  { pk with Curve := initCurve L pk.SecParam }

/-- `KeyGen`; `priv` is the private scalar returned by `elliptic.GenerateKey`, whose
public point is `ScalarBaseMult(priv)`. -/
def KeyGen (L : Lib) (secParam : Int) (pointCompression : Bool) (priv : List Nat) :
    Except Fault (PublicKey × SecretKey) := do
  let curve ← derefCurve (initCurve L secParam)
  let H := curve.ScalarBaseMult priv
  let G := curve.ScalarBaseMult (big.Bytes 1)
  let pk : PublicKey := ⟨some curve, secParam, G.1, G.2, H.1, H.2, pointCompression⟩
  let sk : SecretKey := ⟨some curve, H.1, H.2, priv⟩
  return (pk, sk)

/-- `(pk *PublicKey).Encrypt`; `zdraw` is the number drawn by `newCryptoRandom`. -/
def PublicKey.Encrypt (pk : PublicKey) (m : Int) (zdraw : Nat) : Except Fault Ciphertext := do
  let curve ← derefCurve pk.Curve
  let m := m % curve.N
  let z := newCryptoRandom (big.Bytes curve.N) zdraw
  let c1 := curve.ScalarBaseMult z
  let Hz := curve.ScalarMult (pk.Hx, pk.Hy) z
  let gm := curve.ScalarBaseMult (big.Bytes m)
  let c2 := curve.Add gm Hz
  return ⟨some c1.1, some c1.2, some c2.1, some c2.2⟩

/-- `(pk *PublicKey).polynomial`: `x³ - 3x + B mod P`. -/
def polynomial (curve : Curve) (x : Int) : Int :=
  let x3 := x * x * x
  let threeX := x * 2 + x
  (x3 - threeX + curve.B) % curve.P

/-- The search loop of `EncryptMul`: at most `n` further candidates starting at `mx`;
`my` is the root found last. `IsOnCurve(mx, nil)` is a nil dereference. -/
def EncryptMul.search (L : Lib) (curve : Curve) : Nat → Int → Int → Except Fault (Int × Int)
  | 0, mx, my => .ok (mx, my)
  | n + 1, mx, _ =>
    match L.ModSqrt (polynomial curve mx) curve.P with
    | none => .error .nilDeref
    | some my => if curve.IsOnCurve mx my then .ok (mx, my) else search L curve n (mx + 1) my

/-- `(pk *PublicKey).EncryptMul`. -/
def PublicKey.EncryptMul (L : Lib) (pk : PublicKey) (msg : List Nat) (zdraw : Nat) :
    Except Fault Ciphertext := do
  let curve ← derefCurve pk.Curve
  let msgExt := msg ++ List.replicate PaddingBytes 0
  let mx0 : Int := big.SetBytes msgExt
  let (mx, my) ← EncryptMul.search L curve (2 ^ (PaddingBytes * 8)) mx0 0
  if !curve.IsOnCurve mx my then .error (.exit (-1)) else
  let z := newCryptoRandom (big.Bytes curve.N) zdraw
  let c1 := curve.ScalarBaseMult z
  let Hz := curve.ScalarMult (pk.Hx, pk.Hy) z
  let c2 := curve.Add (mx, my) Hz
  return ⟨some c1.1, some c1.2, some c2.1, some c2.2⟩

/-- `(sk *SecretKey).Decrypt`: the slice expression panics when the x-coordinate has
fewer than `PaddingBytes` bytes. -/
def SecretKey.Decrypt (sk : SecretKey) (c : Ciphertext) : Except Fault (List Nat) := do
  let curve ← derefCurve sk.Curve
  let invSK : Int := curve.N - big.SetBytes sk.Priv
  let c1 ← derefPoint c.C1x c.C1y
  let temp := curve.ScalarMult c1 (big.Bytes invSK)
  let c2 ← derefPoint c.C2x c.C2y
  let res := curve.Add c2 temp
  let resBytes := big.Bytes res.1
  if resBytes.length < PaddingBytes then .error .sliceBounds
  else return resBytes.take (resBytes.length - PaddingBytes)

/-- `(sk *SecretKey).DecryptAndCheck`. -/
def SecretKey.DecryptAndCheck (sk : SecretKey) (c : Ciphertext) (test : List Nat) :
    Except Fault Bool := do
  let curve ← derefCurve sk.Curve
  let c1 ← derefPoint c.C1x c.C1y
  let temp := curve.ScalarMult c1 sk.Priv
  let gm := curve.ScalarBaseMult test
  let res := curve.Add temp gm
  let c2x ← deref c.C2x
  if res.1 = c2x then
    let c2y ← deref c.C2y
    return decide (res.2 = c2y)
  else return false

/-- `(sk *SecretKey).DecryptAndCheck0`. -/
def SecretKey.DecryptAndCheck0 (sk : SecretKey) (c : Ciphertext) : Except Fault Bool := do
  let curve ← derefCurve sk.Curve
  let c1 ← derefPoint c.C1x c.C1y
  let temp := curve.ScalarMult c1 sk.Priv
  let c2x ← deref c.C2x
  if temp.1 = c2x then
    let c2y ← deref c.C2y
    return decide (temp.2 = c2y)
  else return false

/-- `(pk *PublicKey).Add`; `zdraw` is drawn only when `rand` is set. -/
def PublicKey.Add (pk : PublicKey) (cA cB : Ciphertext) (rand : Bool) (zdraw : Nat) :
    Except Fault Ciphertext := do
  let curve ← derefCurve pk.Curve
  let ctemp1 := curve.Add (← derefPoint cA.C1x cA.C1y) (← derefPoint cB.C1x cB.C1y)
  let ctemp2 := curve.Add (← derefPoint cA.C2x cA.C2y) (← derefPoint cB.C2x cB.C2y)
  if rand then
    let zeroCT ← pk.Encrypt 0 zdraw
    let randCtemp1 := curve.Add ctemp1 (← derefPoint zeroCT.C1x zeroCT.C1y)
    let randCtemp2 := curve.Add ctemp2 (← derefPoint zeroCT.C2x zeroCT.C2y)
    return ⟨some randCtemp1.1, some randCtemp1.2, some randCtemp2.1, some randCtemp2.2⟩
  else
    return ⟨some ctemp1.1, some ctemp1.2, some ctemp2.1, some ctemp2.2⟩

/-- `(pk *PublicKey).ScalarMultRandomizer`; `rdraw` is the scalar drawn, `zdraw` the
randomness of the encryption of zero that is added when `rand` is set. -/
def PublicKey.ScalarMultRandomizer (pk : PublicKey) (cA : Ciphertext) (rand : Bool)
    (rdraw zdraw : Nat) : Except Fault Ciphertext := do
  let curve ← derefCurve pk.Curve
  let scalar := newCryptoRandom (big.Bytes curve.N) rdraw
  let ctemp1 := curve.ScalarMult (← derefPoint cA.C1x cA.C1y) scalar
  let ctemp2 := curve.ScalarMult (← derefPoint cA.C2x cA.C2y) scalar
  if rand then
    let zeroCT ← pk.Encrypt 0 zdraw
    let randCtemp1 := curve.Add ctemp1 (← derefPoint zeroCT.C1x zeroCT.C1y)
    let randCtemp2 := curve.Add ctemp2 (← derefPoint zeroCT.C2x zeroCT.C2y)
    return ⟨some randCtemp1.1, some randCtemp1.2, some randCtemp2.1, some randCtemp2.2⟩
  else
    return ⟨some ctemp1.1, some ctemp1.2, some ctemp2.1, some ctemp2.2⟩

/-- `(pk *PublicKey).EncryptInv`. -/
def PublicKey.EncryptInv (pk : PublicKey) (m : Int) (zdraw : Nat) : Except Fault Ciphertext := do
  let curve ← derefCurve pk.Curve
  pk.Encrypt (curve.N - m) zdraw

/-- `HashSha256`. -/
def HashSha256 (L : Lib) (input : List Nat) : List Nat := L.Sha256 input

/-- The buffered channel `make(chan int, numThreads)` that gates the workers of a loop
over `work` items: a negative capacity panics, and with capacity zero the first send
blocks for ever. -/
def workerChan (numThreads : Int) (work : Nat) : Except Fault Unit :=
  if numThreads < 0 then .error .makechan
  else if numThreads = 0 ∧ 0 < work then .error .deadlock
  else .ok ()

/-- The four numbers drawn for index `i` by `EncryptSeqWithZKP`: the encryption
randomness `zs[i]`, then `w`, then the simulated response `r` and challenge `d`. -/
structure ZKPDraw where
  z : Nat
  w : Nat
  r : Nat
  d : Nat
  deriving DecidableEq, Repr

/-- What the first worker of `EncryptSeqWithZKP` leaves in slot `i`: the reduced message
`ms[i]`, the randomness `zs[i]` and the two points of `cs[i]`. -/
structure EncSlot where
  m : Int
  z : Int
  c1 : Point
  c2 : Point

/-- What the second worker leaves in slot `i`. -/
structure CommitSlot where
  a1 : Point
  b1 : Point
  a2 : Point
  b2 : Point
  d1 : Int
  d2 : Int
  r1 : Int
  r2 : Int
  w : Int

/-- First goroutine of `EncryptSeqWithZKP` (message check and encryption) for one index. -/
def EncryptSeqWithZKP.encrypt (pk : PublicKey) (curve : Curve) (m : Int) (dr : ZKPDraw) :
    Except Fault EncSlot :=
  if (1 : Int).natAbs ≠ m.natAbs then .error (.exit (-1)) else
  let m := m % curve.N
  let gm := curve.ScalarBaseMult (big.Bytes m)
  let z : Int := big.SetBytes (newCryptoRandom (big.Bytes curve.N) dr.z)
  let c1 := curve.ScalarBaseMult (big.Bytes z)
  let Hz := curve.ScalarMult (pk.Hx, pk.Hy) (big.Bytes z)
  let c2 := curve.Add Hz gm
  .ok ⟨m, z, c1, c2⟩

/-- The first loop of `EncryptSeqWithZKP` over the indices, starting at index `i`. -/
def EncryptSeqWithZKP.encryptAll (pk : PublicKey) (curve : Curve) (draws : Nat → ZKPDraw) :
    Nat → List Int → Except Fault (List EncSlot)
  | _, [] => .ok []
  | i, m :: ms => do
    let s ← EncryptSeqWithZKP.encrypt pk curve m (draws i)
    let rest ← encryptAll pk curve draws (i + 1) ms
    return s :: rest

/-- Second goroutine of `EncryptSeqWithZKP` (commitments) for one index. -/
def EncryptSeqWithZKP.commit (pk : PublicKey) (curve : Curve) (s : EncSlot) (dr : ZKPDraw) :
    CommitSlot :=
  if 1 = s.m then
    let w : Int := big.SetBytes (newCryptoRandom (big.Bytes curve.N) dr.w)
    let r1 : Int := big.SetBytes (newCryptoRandom (big.Bytes curve.N) dr.r)
    let d1 : Int := big.SetBytes (newCryptoRandom (big.Bytes curve.N) dr.d)
    let gr1 := curve.ScalarBaseMult (big.Bytes r1)
    let c1d1 := curve.ScalarMult s.c1 (big.Bytes d1)
    let a1 := curve.Add gr1 c1d1
    let hr1 := curve.ScalarMult (pk.Hx, pk.Hy) (big.Bytes r1)
    let c2g := curve.Add s.c2 (pk.Gx, pk.Gy)
    let c2gd1 := curve.ScalarMult c2g (big.Bytes d1)
    let b1 := curve.Add hr1 c2gd1
    let a2 := curve.ScalarBaseMult (big.Bytes w)
    let b2 := curve.ScalarMult (pk.Hx, pk.Hy) (big.Bytes w)
    ⟨a1, b1, a2, b2, d1, 0, r1, 0, w⟩
  else
    let w : Int := big.SetBytes (newCryptoRandom (big.Bytes curve.N) dr.w)
    let r2 : Int := big.SetBytes (newCryptoRandom (big.Bytes curve.N) dr.r)
    let d2 : Int := big.SetBytes (newCryptoRandom (big.Bytes curve.N) dr.d)
    let a1 := curve.ScalarBaseMult (big.Bytes w)
    let b1 := curve.ScalarMult (pk.Hx, pk.Hy) (big.Bytes w)
    let gr2 := curve.ScalarBaseMult (big.Bytes r2)
    let c1d2 := curve.ScalarMult s.c1 (big.Bytes d2)
    let a2 := curve.Add gr2 c1d2
    let invOne : Int := (-1) % curve.N
    let invG := curve.ScalarBaseMult (big.Bytes invOne)
    let hr2 := curve.ScalarMult (pk.Hx, pk.Hy) (big.Bytes r2)
    let c2invg := curve.Add s.c2 invG
    let c2invgd2 := curve.ScalarMult c2invg (big.Bytes d2)
    let b2 := curve.Add hr2 c2invgd2
    ⟨a1, b1, a2, b2, 0, d2, 0, r2, w⟩

/-- The second loop of `EncryptSeqWithZKP`, starting at index `i`. -/
def EncryptSeqWithZKP.commitAll (pk : PublicKey) (curve : Curve) (draws : Nat → ZKPDraw) :
    Nat → List EncSlot → List CommitSlot
  | _, [] => []
  | i, s :: ss => EncryptSeqWithZKP.commit pk curve s (draws i) :: commitAll pk curve draws (i + 1) ss

/-- The bytes `x.Bytes() ‖ y.Bytes()` written to the buffer for one point. -/
def pointBytes (p : Point) : List Nat := big.Bytes p.1 ++ big.Bytes p.2

/-- The bytes written for one ciphertext slot: `C1x ‖ C1y ‖ C2x ‖ C2y`. -/
def EncSlot.bytes (s : EncSlot) : List Nat := pointBytes s.c1 ++ pointBytes s.c2

/-- The bytes written for one commitment slot: `A1 ‖ B1 ‖ A2 ‖ B2`. -/
def CommitSlot.bytes (t : CommitSlot) : List Nat :=
  pointBytes t.a1 ++ pointBytes t.b1 ++ pointBytes t.a2 ++ pointBytes t.b2

/-- Third goroutine of `EncryptSeqWithZKP`: the answer of the real branch and the
finished proof for one index. -/
def EncryptSeqWithZKP.respond (curve : Curve) (challenge : Int) (s : EncSlot) (t : CommitSlot) :
    ZKP :=
  if 1 = s.m then
    let d2 := (challenge - t.d1) % curve.N
    let zd2 := (s.z * d2) % curve.N
    let r2 := (t.w - zd2) % curve.N
    ⟨some t.a1.1, some t.a1.2, some t.b1.1, some t.b1.2, some t.a2.1, some t.a2.2,
      some t.b2.1, some t.b2.2, some t.d1, some d2, some t.r1, some r2⟩
  else
    let d1 := (challenge - t.d2) % curve.N
    let zd1 := (s.z * d1) % curve.N
    let r1 := (t.w - zd1) % curve.N
    ⟨some t.a1.1, some t.a1.2, some t.b1.1, some t.b1.2, some t.a2.1, some t.a2.2,
      some t.b2.1, some t.b2.2, some d1, some t.d2, some r1, some t.r2⟩

/-- `(pk *PublicKey).EncryptSeqWithZKP`; `draws i` are the numbers drawn for index `i`. -/
def PublicKey.EncryptSeqWithZKP (L : Lib) (pk : PublicKey) (ms : List Int) (numThreads : Int)
    (draws : Nat → ZKPDraw) : Except Fault (List Ciphertext × List ZKP × Int) := do
  let curve ← derefCurve pk.Curve
  workerChan numThreads ms.length
  let slots ← EncryptSeqWithZKP.encryptAll pk curve draws 0 ms
  let buf := (slots.map EncSlot.bytes).flatten
  let commits := EncryptSeqWithZKP.commitAll pk curve draws 0 slots
  let commitment := buf ++ (commits.map CommitSlot.bytes).flatten
  let challenge : Int := (big.SetBytes (HashSha256 L commitment) : Int) % curve.N
  let cs := slots.map fun s => (⟨some s.c1.1, some s.c1.2, some s.c2.1, some s.c2.2⟩ : Ciphertext)
  let zkps := List.zipWith (EncryptSeqWithZKP.respond curve challenge) slots commits
  return (cs, zkps, challenge)

/-- The bytes `VerifySeqZKP` writes for one ciphertext. -/
def Ciphertext.bytes (c : Ciphertext) : Except Fault (List Nat) := do
  let c1 ← derefPoint c.C1x c.C1y
  let c2 ← derefPoint c.C2x c.C2y
  return pointBytes c1 ++ pointBytes c2

/-- The bytes `VerifySeqZKP` writes for one proof. -/
def ZKP.bytes (p : ZKP) : Except Fault (List Nat) := do
  let a1 ← derefPoint p.A1x p.A1y
  let b1 ← derefPoint p.B1x p.B1y
  let a2 ← derefPoint p.A2x p.A2y
  let b2 ← derefPoint p.B2x p.B2y
  return pointBytes a1 ++ pointBytes b1 ++ pointBytes a2 ++ pointBytes b2

/-- The goroutine of `VerifySeqZKP` for one index: the number of failed tests it adds. -/
def VerifySeqZKP.check (pk : PublicKey) (curve : Curve) (challenge : Int) (c : Ciphertext)
    (p : ZKP) : Except Fault Nat := do
  let c1 ← derefPoint c.C1x c.C1y
  let c2 ← derefPoint c.C2x c.C2y
  let a1 ← derefPoint p.A1x p.A1y
  let b1 ← derefPoint p.B1x p.B1y
  let a2 ← derefPoint p.A2x p.A2y
  let b2 ← derefPoint p.B2x p.B2y
  let d1 ← deref p.D1
  let d2 ← deref p.D2
  let r1 ← deref p.R1
  let r2 ← deref p.R2
  let d1PLUSd2 := (d1 + d2) % curve.N
  let cTest := if challenge ≠ d1PLUSd2 then 1 else 0
  let gr1 := curve.ScalarBaseMult (big.Bytes r1)
  let c1d1 := curve.ScalarMult c1 (big.Bytes d1)
  let a1' := curve.Add gr1 c1d1
  let a1Test := if a1.1 ≠ a1'.1 ∨ a1.2 ≠ a1'.2 then 1 else 0
  let hr1 := curve.ScalarMult (pk.Hx, pk.Hy) (big.Bytes r1)
  let c2g := curve.Add c2 (pk.Gx, pk.Gy)
  let c2gd1 := curve.ScalarMult c2g (big.Bytes d1)
  let b1' := curve.Add hr1 c2gd1
  let b1Test := if b1.1 ≠ b1'.1 ∨ b1.2 ≠ b1'.2 then 1 else 0
  let gr2 := curve.ScalarBaseMult (big.Bytes r2)
  let c1d2 := curve.ScalarMult c1 (big.Bytes d2)
  let a2' := curve.Add gr2 c1d2
  let a2Test := if a2.1 ≠ a2'.1 ∨ a2.2 ≠ a2'.2 then 1 else 0
  let invOne : Int := (-1) % curve.N
  let invG := curve.ScalarBaseMult (big.Bytes invOne)
  let hr2 := curve.ScalarMult (pk.Hx, pk.Hy) (big.Bytes r2)
  let c2invg := curve.Add c2 invG
  let c2invgd2 := curve.ScalarMult c2invg (big.Bytes d2)
  let b2' := curve.Add hr2 c2invgd2
  let b2Test := if b2.1 ≠ b2'.1 ∨ b2.2 ≠ b2'.2 then 1 else 0
  return cTest + a1Test + b1Test + a2Test + b2Test

/-- The loop `for i := range zkps` of `VerifySeqZKP`: `cs[i]` is indexed with the index
of the proof. -/
def VerifySeqZKP.checkAll (pk : PublicKey) (curve : Curve) (challenge : Int) :
    List Ciphertext → List ZKP → Except Fault Nat
  | _, [] => .ok 0
  | [], _ :: _ => .error .indexRange
  | c :: cs, p :: ps => do
    let n ← VerifySeqZKP.check pk curve challenge c p
    let rest ← checkAll pk curve challenge cs ps
    return n + rest

/-- `(pk *PublicKey).VerifySeqZKP`. -/
def PublicKey.VerifySeqZKP (L : Lib) (pk : PublicKey) (cs : List Ciphertext) (zkps : List ZKP)
    (rcvChallenge : Int) (numThreads : Int) : Except Fault Bool := do
  let curve ← derefCurve pk.Curve
  let csBytes ← cs.mapM Ciphertext.bytes
  let zkpBytes ← zkps.mapM ZKP.bytes
  let commitment := csBytes.flatten ++ zkpBytes.flatten
  let challenge : Int := (big.SetBytes (HashSha256 L commitment) : Int) % curve.N
  let hashTest := if challenge ≠ rcvChallenge then 1 else 0
  workerChan numThreads zkps.length
  let failed ← VerifySeqZKP.checkAll pk curve challenge cs zkps
  return decide (hashTest + failed = 0)

/-- `(pk *PublicKey).RaiseG2M`. -/
def PublicKey.RaiseG2M (pk : PublicKey) (m : List Nat) : Except Fault (List Nat) := do
  let curve ← derefCurve pk.Curve
  let m := big.Bytes ((big.SetBytes m : Int) % curve.N)
  let gm := curve.ScalarBaseMult m
  return big.Bytes gm.1 ++ big.Bytes gm.2

/-- `(pk *PublicKey).Ciphertext2Bytes`. -/
def PublicKey.Ciphertext2Bytes (pk : PublicKey) (ciphertext : Ciphertext)
    (pointCompression : Bool) : Except Fault CiphertextByte := do
  let curve ← derefCurve pk.Curve
  let c1 ← derefPoint ciphertext.C1x ciphertext.C1y
  let c2 ← derefPoint ciphertext.C2x ciphertext.C2y
  if pointCompression then
    return ⟨curve.MarshalCompressed c1, curve.MarshalCompressed c2⟩
  else
    return ⟨curve.Marshal c1, curve.Marshal c2⟩

/-- The pair of pointers returned by `elliptic.Unmarshal`: both `nil` on failure. -/
def unmarshalled (p : Option Point) : Option Int × Option Int :=
  (p.map Prod.fst, p.map Prod.snd)

/-- `(pk *PublicKey).Bytes2Ciphertext`: the check `CheckOnCurve` is commented out in
the source, so a failed decoding leaves `nil` coordinates in the ciphertext. -/
def PublicKey.Bytes2Ciphertext (pk : PublicKey) (ciphertextBytes : CiphertextByte)
    (pointCompression : Bool) : Except Fault Ciphertext := do
  let curve ← derefCurve pk.Curve
  let C1 := unmarshalled (if pointCompression then curve.UnmarshalCompressed ciphertextBytes.C1
    else curve.Unmarshal ciphertextBytes.C1)
  let C2 := unmarshalled (if pointCompression then curve.UnmarshalCompressed ciphertextBytes.C2
    else curve.Unmarshal ciphertextBytes.C2)
  return ⟨C1.1, C1.2, C2.1, C2.2⟩

/-- `(pk *PublicKey).ZKP2Bytes`. -/
def PublicKey.ZKP2Bytes (pk : PublicKey) (zkp : ZKP) (pointCompression : Bool) :
    Except Fault ZKPByte := do
  let curve ← derefCurve pk.Curve
  let a1 ← derefPoint zkp.A1x zkp.A1y
  let a2 ← derefPoint zkp.A2x zkp.A2y
  let b1 ← derefPoint zkp.B1x zkp.B1y
  let b2 ← derefPoint zkp.B2x zkp.B2y
  let enc := fun p => if pointCompression then curve.MarshalCompressed p else curve.Marshal p
  return ⟨enc a1, enc b1, enc a2, enc b2, big.Bytes (← deref zkp.D1), big.Bytes (← deref zkp.D2),
    big.Bytes (← deref zkp.R1), big.Bytes (← deref zkp.R2)⟩

/-- `(pk *PublicKey).Bytes2ZKP`. -/
def PublicKey.Bytes2ZKP (pk : PublicKey) (zkpBytes : ZKPByte) (pointCompression : Bool) :
    Except Fault ZKP := do
  let curve ← derefCurve pk.Curve
  let dec := fun bs => unmarshalled
    (if pointCompression then curve.UnmarshalCompressed bs else curve.Unmarshal bs)
  let A1 := dec zkpBytes.A1
  let A2 := dec zkpBytes.A2
  let B1 := dec zkpBytes.B1
  let B2 := dec zkpBytes.B2
  return ⟨A1.1, A1.2, B1.1, B1.2, A2.1, A2.2, B2.1, B2.2,
    some (big.SetBytes zkpBytes.D1), some (big.SetBytes zkpBytes.D2),
    some (big.SetBytes zkpBytes.R1), some (big.SetBytes zkpBytes.R2)⟩

/-- `(pk *PublicKey).CheckOnCurve`. -/
def PublicKey.CheckOnCurve (pk : PublicKey) (ciphertext : Ciphertext) : Except Fault Bool := do
  let curve ← derefCurve pk.Curve
  let c1 ← derefPoint ciphertext.C1x ciphertext.C1y
  if curve.IsOnCurve c1.1 c1.2 then
    let c2 ← derefPoint ciphertext.C2x ciphertext.C2y
    return curve.IsOnCurve c2.1 c2.2
  else return false

end elgamal

/-! ## `github.com/willf/bitset` -/

namespace bitset

def wordSize : Nat := 64

def log2WordSize : Nat := 6

/-- The largest `uint`. -/
def Cap : Nat := 2 ^ 64 - 1

/-- A bit set: its length in bits and its 64-bit words. -/
structure BitSet where
  length : Nat
  set : List Nat
  deriving DecidableEq, Repr

/-- `wordsNeeded`. -/
def wordsNeeded (i : Nat) : Nat :=
  if i > Cap - wordSize + 1 then Cap >>> log2WordSize
  else (i + (wordSize - 1)) >>> log2WordSize

/-- `bitset.New`. -/
def New (length : Nat) : BitSet := ⟨length, List.replicate (wordsNeeded length) 0⟩

/-- `(b *BitSet).extendSetMaybe`. -/
def BitSet.extendSetMaybe (b : BitSet) (i : Nat) : BitSet :=
  if i ≥ b.length then
    let nsize := wordsNeeded (i + 1)
    ⟨i + 1, b.set ++ List.replicate (nsize - b.set.length) 0⟩
  else b

/-- `(b *BitSet).Set`. -/
def BitSet.Set (b : BitSet) (i : Nat) : BitSet :=
  let b := b.extendSetMaybe i
  ⟨b.length, b.set.set (i >>> log2WordSize)
    (b.set.getD (i >>> log2WordSize) 0 ||| (1 <<< (i &&& (wordSize - 1))))⟩

/-- `(b *BitSet).Test`. -/
def BitSet.Test (b : BitSet) (i : Nat) : Bool :=
  if i ≥ b.length then false
  else b.set.getD (i >>> log2WordSize) 0 &&& (1 <<< (i &&& (wordSize - 1))) ≠ 0

/-- `binary.BigEndian.PutUint64`: the eight bytes of a 64-bit word, most significant first. -/
def be64 (w : Nat) : List Nat :=
  (List.range 8).map fun j => (w >>> (8 * (7 - j))) % 256

/-- `(b *BitSet).WriteTo`: the length, then the words, all big-endian. -/
def BitSet.WriteTo (b : BitSet) : List Nat :=
  be64 b.length ++ (b.set.map be64).flatten

/-- The words read by `binary.Read` from `8 * n` bytes. -/
def readWords : Nat → List Nat → List Nat
  | 0, _ => []
  | n + 1, data => big.SetBytes (data.take 8) :: readWords n (data.drop 8)

/-- `(b *BitSet).ReadFrom`: `none` is a read error (the stream is too short). -/
def ReadFrom (stream : List Nat) : Option BitSet :=
  if stream.length < 8 then none else
  let length := big.SetBytes (stream.take 8)
  let n := wordsNeeded length
  if (stream.drop 8).length < 8 * n then none
  else some ⟨length, readWords n (stream.drop 8)⟩

end bitset

/-! ## Package `bloom` -/

namespace bloom

structure BloomFilter where
  m : Nat
  k : Nat
  b : bitset.BitSet
  deriving DecidableEq, Repr

/-- `New`. -/
def New (m k : Nat) : BloomFilter := ⟨max 1 m, max 1 k, bitset.New m⟩

/-- `HashSha1`: `Uint64()` keeps the low 64 bits of the digest read as a big-endian integer. -/
def HashSha1 (L : Lib) (input : List Nat) : Nat := big.SetBytes (L.Sha1 input) % 2 ^ 64

/-- `binary.LittleEndian.PutUint64`. -/
def le64 (w : Nat) : List Nat :=
  (List.range 8).map fun j => (w >>> (8 * j)) % 256

/-- `(f *BloomFilter).location`: the remainder panics when `f.m` is zero. -/
def BloomFilter.location (L : Lib) (f : BloomFilter) (data : List Nat) (seed_i : Nat) :
    Except Fault Nat :=
  if f.m = 0 then .error .divideByZero
  else .ok (HashSha1 L (data ++ le64 seed_i) % f.m)

def BloomFilter.Cap (f : BloomFilter) : Nat := f.m

def BloomFilter.K (f : BloomFilter) : Nat := f.k

/-- The loop of `Add` from `i` on, for `n` more rounds. -/
def BloomFilter.addLoop (L : Lib) (f : BloomFilter) (data : List Nat) :
    Nat → Nat → bitset.BitSet → Except Fault bitset.BitSet
  | 0, _, b => .ok b
  | n + 1, i, b => do
    let seed := big.SetBytes data % 2 ^ 64
    let loc ← f.location L data ((i + seed) % 2 ^ 64)
    addLoop L f data n (i + 1) (b.Set loc)

/-- `(f *BloomFilter).Add`. -/
def BloomFilter.Add (L : Lib) (f : BloomFilter) (data : List Nat) : Except Fault BloomFilter := do
  let b ← f.addLoop L data f.k 0 f.b
  return { f with b := b }

/-- The loop of `Test` from `i` on, for `n` more rounds. -/
def BloomFilter.testLoop (L : Lib) (f : BloomFilter) (data : List Nat) :
    Nat → Nat → Except Fault Bool
  | 0, _ => .ok true
  | n + 1, i => do
    let seed := big.SetBytes data % 2 ^ 64
    let loc ← f.location L data ((i + seed) % 2 ^ 64)
    if !f.b.Test loc then return false
    else testLoop L f data n (i + 1)

/-- `(f *BloomFilter).Test`. -/
def BloomFilter.Test (L : Lib) (f : BloomFilter) (data : List Nat) : Except Fault Bool :=
  f.testLoop L data f.k 0

/-- `(f *BloomFilter).TestLocations`. -/
def BloomFilter.TestLocations (f : BloomFilter) : List Nat → Except Fault Bool
  | [] => .ok true
  | loc :: locs =>
    if f.m = 0 then .error .divideByZero
    else if !f.b.Test (loc % f.m) then .ok false
    else TestLocations f locs

/-- `(f *BloomFilter).GobEncode` (through `WriteTo`): `m`, `k`, then the bit set. -/
def BloomFilter.GobEncode (f : BloomFilter) : List Nat :=
  bitset.be64 f.m ++ bitset.be64 f.k ++ f.b.WriteTo

/-- `(f *BloomFilter).GobDecode` (through `ReadFrom`): the filter after the call and
whether the call returned no error; on an error the filter is left as it was. -/
def BloomFilter.GobDecode (f : BloomFilter) (data : List Nat) : BloomFilter × Bool :=
  if data.length < 16 then (f, false) else
  let m := big.SetBytes (data.take 8)
  let k := big.SetBytes ((data.drop 8).take 8)
  match bitset.ReadFrom (data.drop 16) with
  | none => (f, false)
  | some b => (⟨m, k, b⟩, true)

end bloom

/-! ## Package `pcr` -/

namespace pcr

open elgamal bloom

structure ReqPara where
  Params : Int
  BfLength : Int
  BfNumOnes : Int
  NumHashFuncs : Int
  NumThreads : Int
  PointCompression : Bool

structure QueryMessage where
  BfLength : Int
  BfNumOnes : Int
  NumHashFuncs : Int
  NumThreads : Int
  PointCompression : Bool
  PK : PublicKey
  EBF : List CiphertextByte
  ZKPs : List ZKPByte
  Challenge : List Nat

structure QueryMessagePlus where
  BfLength : Int
  BfNumOnes : Int
  NumHashFuncs : Int
  NumThreads : Int
  PointCompression : Bool
  PK : PublicKey
  EBF : List CiphertextByte
  C1 : CiphertextByte

structure ResponseMessage where
  Z1 : CiphertextByte
  Z2 : CiphertextByte
  deriving DecidableEq, Repr

/-- The conversion `uint(x)` of a Go `int`. -/
def uint (x : Int) : Nat := (x % 2 ^ 64).toNat

/-- The value of a Go `int` expression after wrap-around to 64 bits. -/
def wrapInt64 (x : Int) : Int := (x + 2 ^ 63) % 2 ^ 64 - 2 ^ 63

/-- `bits.OnesCount` of a `uint`. -/
def OnesCount (x : Nat) : Nat := (List.range 64).countP fun j => x.testBit j

/-- `rand.Intn(n)`: panics for `n <= 0`, else returns a number of `[0, n)`, the outcome
`draw` reduced into that range. -/
def Intn (n : Int) (draw : Nat) : Except Fault Nat :=
  if n ≤ 0 then .error .invalidArgument else .ok (draw % n.toNat)

/-- `GetBFNumOnes`. -/
def GetBFNumOnes (bf : BloomFilter) : Except Fault Int :=
  let bfGob := bf.GobEncode
  (List.range (bf.Cap / 8)).foldlM (fun (currNumOnes : Int) i =>
    match bfGob[24 + i]? with
    | some b => .ok (currNumOnes + OnesCount b)
    | none => .error .indexRange) 0

/-- The padding loop of `ReqBFGen`. Each element of `draws` holds the two numbers drawn in
one round (for the bit, then for the byte). The result is `none` when the loop is still
running after the last element of `draws`. -/
def ReqBFGen.pad (reqPara : ReqPara) :
    List (Nat × Nat) → BloomFilter → List Nat → Except Fault (Option BloomFilter)
  | [], bf, _ => do
    let currNumOnes ← GetBFNumOnes bf
    if currNumOnes < reqPara.BfNumOnes then return none else return some bf
  | d :: draws, bf, bfGob => do
    let currNumOnes ← GetBFNumOnes bf
    if currNumOnes < reqPara.BfNumOnes then
      let randBit := 2 ^ (← Intn 8 d.1)
      let randBFByteIdx := 24 + (← Intn (Int.tdiv reqPara.BfLength 8) d.2)
      match bfGob[randBFByteIdx]? with
      | none => .error .indexRange
      | some old =>
        let bfGob := bfGob.set randBFByteIdx (old ||| randBit)
        pad reqPara draws (bf.GobDecode bfGob).1 bfGob
    else return some bf

/-- `ReqBFGen`. -/
def ReqBFGen (L : Lib) (_pk : PublicKey) (reqPara : ReqPara) (pwd : List Nat)
    (draws : List (Nat × Nat)) : Except Fault (Option BloomFilter) := do
  let hashedPWD := HashSha256 L pwd
  let bf ← (bloom.New (uint reqPara.BfLength) (uint reqPara.NumHashFuncs)).Add L hashedPWD
  let bfGob := bf.GobEncode
  ReqBFGen.pad reqPara draws bf bfGob

/-- `ReqInit`. -/
def ReqInit (L : Lib) (params bfLength bfNumOfOnes numHashFuncs numWorkers : Int)
    (pointCompression : Bool) (priv : List Nat) :
    Except Fault (PublicKey × SecretKey × ReqPara) := do
  let (pk, sk) ← KeyGen L params pointCompression priv
  return (pk, sk, ⟨params, bfLength, bfNumOfOnes, numHashFuncs, numWorkers, pointCompression⟩)

/-- The first loop of `QueryGen`: the entries `+1` / `-1` for the indices `i, i+1, ...`. -/
def QueryGen.bits (bf : BloomFilter) : Nat → Nat → Except Fault (List Int)
  | 0, _ => .ok []
  | n + 1, i => do
    let b ← bf.TestLocations [i]
    let rest ← bits bf n (i + 1)
    return (if b then 1 else -1) :: rest

/-- The second loop of `QueryGen`: encoding of every ciphertext and proof. -/
def QueryGen.encode (pk : PublicKey) (pointCompression : Bool) :
    List Ciphertext → List ZKP → Except Fault (List CiphertextByte × List ZKPByte)
  | [], _ => .ok ([], [])
  | _ :: _, [] => .error .indexRange
  | c :: cs, p :: ps => do
    let cb ← pk.Ciphertext2Bytes c pointCompression
    let pb ← pk.ZKP2Bytes p pointCompression
    let (cbs, pbs) ← encode pk pointCompression cs ps
    return (cb :: cbs, pb :: pbs)

/-- `QueryGen`. The slice `bf2encrypt` has `BfLength` entries and the loop writes the
entries below `bf.Cap()`: a longer filter is an index panic, a shorter one leaves `nil`
entries on which the first worker of `EncryptSeqWithZKP` panics. -/
def QueryGen (L : Lib) (pk : PublicKey) (reqPara : ReqPara) (bf : BloomFilter)
    (draws : Nat → ZKPDraw) : Except Fault QueryMessage := do
  if reqPara.BfLength < 0 then .error .invalidArgument else
  if reqPara.BfLength < bf.Cap then .error .indexRange else
  let bf2encrypt ← QueryGen.bits bf bf.Cap 0
  if (bf.Cap : Int) < reqPara.BfLength then
    let _ ← derefCurve pk.Curve
    workerChan reqPara.NumThreads reqPara.BfLength.toNat
    .error .nilDeref
  else
  let (ebf, zkps, challenge) ← pk.EncryptSeqWithZKP L bf2encrypt reqPara.NumThreads draws
  workerChan reqPara.NumThreads ebf.length
  let (ebfBytes, zkpsBytes) ← QueryGen.encode pk reqPara.PointCompression ebf zkps
  return ⟨reqPara.BfLength, reqPara.BfNumOnes, reqPara.NumHashFuncs, reqPara.NumThreads,
    reqPara.PointCompression, pk, ebfBytes, zkpsBytes, big.Bytes challenge⟩

/-- The decoding loop of `RespDeployment`: `zkpsBytes[i]` is indexed with the index of
the ciphertext. -/
def RespDeployment.decode (pk : PublicKey) (pointCompression : Bool) :
    List CiphertextByte → List ZKPByte → Except Fault (List Ciphertext × List ZKP)
  | [], _ => .ok ([], [])
  | cb :: cbs, zs => do
    let c ← pk.Bytes2Ciphertext cb pointCompression
    match zs with
    | [] => .error .indexRange
    | pb :: pbs =>
      let p ← pk.Bytes2ZKP pb pointCompression
      let (cs, ps) ← decode pk pointCompression cbs pbs
      return (c :: cs, p :: ps)

/-- The loop `for _, ebit := range ebf` of `RespDeployment`. -/
def RespDeployment.sum (pk : PublicKey) : Ciphertext → List Ciphertext → Except Fault Ciphertext
  | resCT, [] => .ok resCT
  | resCT, ebit :: ebf => do
    let resCT ← pk.Add resCT ebit false 0
    sum pk resCT ebf

/-- `RespDeployment`; `zInv` and `zZero` are the numbers drawn by its two encryptions. -/
def RespDeployment (L : Lib) (queryMessage : QueryMessage) (zInv zZero : Nat) :
    Except Fault QueryMessagePlus := do
  let pk := queryMessage.PK.InitCurve L
  let ebfBytes := queryMessage.EBF
  let zkpsBytes := queryMessage.ZKPs
  let challenge : Int := big.SetBytes queryMessage.Challenge
  workerChan queryMessage.NumThreads ebfBytes.length
  let (ebf, zkps) ← RespDeployment.decode pk queryMessage.PointCompression ebfBytes zkpsBytes
  if !(← pk.VerifySeqZKP L ebf zkps challenge queryMessage.NumThreads) then
    .error (.exit (-1))
  else
  let encInvSum ← pk.Encrypt (wrapInt64 (queryMessage.BfLength - 2 * queryMessage.BfNumOnes)) zInv
  let resCT ← pk.Encrypt 0 zZero
  let resCT ← RespDeployment.sum pk resCT ebf
  let resCT ← pk.Add resCT encInvSum false 0
  let c1 ← pk.Ciphertext2Bytes resCT queryMessage.PointCompression
  return ⟨queryMessage.BfLength, queryMessage.BfNumOnes, queryMessage.NumHashFuncs,
    queryMessage.NumThreads, queryMessage.PointCompression, pk, queryMessage.EBF, c1⟩

/-- The numbers drawn in one run of `ResponseGen`: by `EncryptMul`, by the `Encrypt(0)` of
worker `t`, by the `Encrypt(-1)` and the randomizer at index `i`, by the `Encrypt(0)` that
starts `c2`, and by the two randomizers applied to `c1` and to `c1PLUSc2`. -/
structure RespDraws where
  zPwd : Nat
  zWorker : Nat → Nat
  zNeg : Nat → Nat
  rIdx : Nat → Nat
  zC2 : Nat
  rC1 : Nat
  rZ1 : Nat

/-- The body of a worker of `ResponseGen` over the indices `idxs`. -/
def ResponseGen.worker (pk : PublicKey) (bf : BloomFilter) (EBF : List CiphertextByte)
    (pointCompression : Bool) (dr : RespDraws) :
    List Nat → Ciphertext → Except Fault Ciphertext
  | [], encRes => .ok encRes
  | i :: idxs, encRes => do
    if ← bf.TestLocations [i] then
      let encNegOne ← pk.Encrypt (-1) (dr.zNeg i)
      match EBF[i]? with
      | none => .error .indexRange
      | some cb =>
        let encShouldBeZero ← pk.Add encNegOne (← pk.Bytes2Ciphertext cb pointCompression) false 0
        let encShouldBeZero ← pk.ScalarMultRandomizer encShouldBeZero false (dr.rIdx i) 0
        let encRes ← pk.Add encRes encShouldBeZero false 0
        worker pk bf EBF pointCompression dr idxs encRes
    else worker pk bf EBF pointCompression dr idxs encRes

/-- The workers `t, t+1, ...` of `ResponseGen`: worker `t` starts from `Encrypt(0)` and
handles `[t * taskUnit, (t+1) * taskUnit)`, the last one `[t * taskUnit, bf.Cap())`. -/
def ResponseGen.workers (pk : PublicKey) (bf : BloomFilter) (EBF : List CiphertextByte)
    (pointCompression : Bool) (dr : RespDraws) (numThreads taskUnit : Nat) :
    Nat → Nat → Except Fault (List Ciphertext)
  | 0, _ => .ok []
  | n + 1, t => do
    let start := t * taskUnit
    let stop := if t < numThreads - 1 then (t + 1) * taskUnit else bf.Cap
    let encRes ← pk.Encrypt 0 (dr.zWorker t)
    let encRes ← ResponseGen.worker pk bf EBF pointCompression dr
      (List.range' start (stop - start)) encRes
    let rest ← workers pk bf EBF pointCompression dr numThreads taskUnit n (t + 1)
    return encRes :: rest

/-- The detached goroutine of `ResponseGen` that adds worker results to `c2`; `sched`
lists the workers whose result it has added when `c2` is read. -/
def ResponseGen.collect (pk : PublicKey) (results : List Ciphertext) :
    List Nat → Ciphertext → Except Fault Ciphertext
  | [], c2 => .ok c2
  | t :: sched, c2 =>
    match results[t]? with
    | none => collect pk results sched c2
    | some ciphertext => do
      let c2 ← pk.Add c2 ciphertext false 0
      collect pk results sched c2

/-- `ResponseGen`. The secret key argument is not used. The goroutine that sums the
worker results runs unsynchronised with the read of `c2`; `sched` lists, in the order of
the channel, the workers whose result is in `c2` at that read (`List.range numThreads`
when every result is summed). -/
def ResponseGen (L : Lib) (_sk : SecretKey) (queryMessagePlus : QueryMessagePlus)
    (submittedPWD : List Nat) (dr : RespDraws) (sched : List Nat) :
    Except Fault ResponseMessage := do
  let pk := queryMessagePlus.PK.InitCurve L
  let hashedPWD := HashSha256 L submittedPWD
  let encHashedPWD ← pk.EncryptMul L submittedPWD dr.zPwd
  let bf ← (bloom.New (uint queryMessagePlus.BfLength) (uint queryMessagePlus.NumHashFuncs)).Add
    L hashedPWD
  if queryMessagePlus.NumThreads < 0 then .error .makechan else
  if queryMessagePlus.NumThreads = 0 then .error .divideByZero else
  let numThreads := queryMessagePlus.NumThreads.toNat
  let taskUnit := bf.Cap / numThreads
  let results ← ResponseGen.workers pk bf queryMessagePlus.EBF queryMessagePlus.PointCompression
    dr numThreads taskUnit numThreads 0
  let c2 ← pk.Encrypt 0 dr.zC2
  let c2 ← ResponseGen.collect pk results sched c2
  let c1 ← pk.Bytes2Ciphertext queryMessagePlus.C1 queryMessagePlus.PointCompression
  let c1 ← pk.ScalarMultRandomizer c1 false dr.rC1 0
  let c1PLUSc2 ← pk.Add c1 c2 false 0
  let z1 ← pk.Ciphertext2Bytes (← pk.ScalarMultRandomizer c1PLUSc2 false dr.rZ1 0)
    queryMessagePlus.PointCompression
  let z2 ← pk.Ciphertext2Bytes (← pk.Add c1PLUSc2 encHashedPWD false 0)
    queryMessagePlus.PointCompression
  return ⟨z1, z2⟩

/-- `ResponseDecrypt`. -/
def ResponseDecrypt (L : Lib) (pk : PublicKey) (sk : SecretKey) (reqPara : ReqPara)
    (responseMessage : ResponseMessage) (bf : BloomFilter) : Except Fault (Bool × List Nat) := do
  if ← sk.DecryptAndCheck0 (← pk.Bytes2Ciphertext responseMessage.Z1 reqPara.PointCompression) then
    let pt ← sk.Decrypt (← pk.Bytes2Ciphertext responseMessage.Z2 reqPara.PointCompression)
    if ← bf.Test L (HashSha256 L pt) then
      return (true, pt)
    else
      return (false, "Responder is cheating!".data.map Char.toNat)
  else
    return (false, [])

/-- What `gzip.NewReader` returns for a byte string whose header it accepts: the bytes
that `ioutil.ReadAll` then yields, and whether `Close` returns an error. -/
structure GzipReader where
  content : List Nat
  closeErr : Bool
  deriving DecidableEq, Repr

/-- The library functions of the message codec. `NewReader` is `gzip.NewReader` (`none` when
it returns an error). `UnmarshalQuery` is `json.Unmarshal` into a fresh `QueryMessage`: the
value it leaves there and whether it returns an error; `UnmarshalResponse` is the same for
a `ResponseMessage`. `Q` and `R` are the Go values of the two message types. -/
structure Codec (Q R : Type) where
  NewReader : List Nat → Option GzipReader
  UnmarshalQuery : List Nat → Q × Bool
  UnmarshalResponse : List Nat → R × Bool

/-- `DecodeQuery`: the error of `json.Unmarshal` is overwritten by that of the second
`r.Close()` before it is looked at. -/
def DecodeQuery {Q R : Type} (K : Codec Q R) (queryMessageBytes : List Nat) : Except Fault Q :=
  match K.NewReader queryMessageBytes with
  | none => .error .panicked
  | some r =>
    let jsonQM := r.content
    if r.closeErr then .error .panicked else
    let queryMessage := (K.UnmarshalQuery jsonQM).1
    if r.closeErr then .error .panicked else .ok queryMessage

/-- `DecodeResponse`. -/
def DecodeResponse {Q R : Type} (K : Codec Q R) (responseMessageBytes : List Nat) :
    Except Fault R :=
  match K.NewReader responseMessageBytes with
  | none => .error .panicked
  | some r =>
    let jsonRM := r.content
    if r.closeErr then .error .panicked else
    let (responseMessage, err) := K.UnmarshalResponse jsonRM
    if err then .error .panicked else .ok responseMessage

end pcr

namespace pcr

end pcr

/-! ## The driver `performance.go` -/

namespace main

/-- The key lengths that the help text of the flag `-keyLength` of the driver lists:
`"224, 256, 384 or 512"`. -/
def keyLengthHelp : List Int := [224, 256, 384, 512]

end main

/-! ## The contract of the curve library

The program is written against the interface `elliptic.Curve`. What it relies on is that
the points of the curve, with `(0, 0)` for the point at infinity, form a commutative
group in which `Add` is the group law, `ScalarMult` is repeated addition, the base point
has order dividing `N`, `IsOnCurve` tests the range of the coordinates and the equation
`y² = x³ - 3x + B`, and the SEC1 encoders are inverted by the decoders on every element
of the group, the point at infinity included. -/

/-- A group `Pt` that the operations of `c` compute in, through the coordinates of its
elements. -/
structure Curve.Model (c : Curve) (Pt : Type) [AddCommGroup Pt] where
  coords : Pt → Point
  g : Pt
  coords_injective : Function.Injective coords
  coords_zero : coords 0 = (0, 0)
  add_coords : ∀ a b, c.Add (coords a) (coords b) = coords (a + b)
  scalarMult_coords : ∀ a k, c.ScalarMult (coords a) k = coords (big.SetBytes k • a)
  scalarBaseMult_eq : ∀ k, c.ScalarBaseMult k = coords (big.SetBytes k • g)
  N_pos : 0 < c.N
  order : c.N • g = 0
  isOnCurve_iff : ∀ x y, c.IsOnCurve x y = true ↔ ((x, y) ≠ (0, 0) ∧ ∃ a, coords a = (x, y))
  isOnCurve_eqn : ∀ x y, c.IsOnCurve x y = true ↔
    (0 ≤ x ∧ x < c.P ∧ 0 ≤ y ∧ y < c.P ∧ (y * y) % c.P = (x * x * x - 3 * x + c.B) % c.P)
  unmarshal_marshal : ∀ a, c.Unmarshal (c.Marshal (coords a)) = some (coords a)
  unmarshalCompressed_marshalCompressed :
    ∀ a, c.UnmarshalCompressed (c.MarshalCompressed (coords a)) = some (coords a)

/-- `(*big.Int).ModSqrt` returns, when it returns a number, a square root in `[0, p)`. -/
def Lib.ModSqrtSound (L : Lib) : Prop :=
  ∀ a p r, L.ModSqrt a p = some r → 0 ≤ r ∧ r < p ∧ (r * r) % p = a % p

/-- The curve library keeps its contract. -/
def Curve.Lawful (c : Curve) : Prop :=
  ∃ (Pt : Type) (_ : AddCommGroup Pt), Nonempty (c.Model Pt)

/-- The pair is a point of the group: the point at infinity or a point on the curve. -/
def Curve.IsPoint (c : Curve) (p : Point) : Prop :=
  p = (0, 0) ∨ c.IsOnCurve p.1 p.2 = true

/-- The group of the curve has prime order `N`: `N` is prime, the base point is not the
point at infinity, and `N` times any point is the point at infinity. -/
def Curve.PrimeOrder (c : Curve) : Prop :=
  Nat.Prime c.N.natAbs ∧ c.ScalarBaseMult (big.Bytes 1) ≠ (0, 0) ∧
    ∀ p, c.IsPoint p → c.ScalarMult p (big.Bytes c.N) = (0, 0)

/-- The base point has prime order `N`: `N` is prime and the base point is not the point
at infinity. -/
def Curve.BasePrimeOrder (c : Curve) : Prop :=
  Nat.Prime c.N.natAbs ∧ c.ScalarBaseMult (big.Bytes 1) ≠ (0, 0)

/-- The scalar that `newCryptoRandom(N)` returns when the random source yields `d`. -/
def Curve.draw (c : Curve) (d : Nat) : Int := (d % c.N.natAbs : Nat)

namespace elgamal

/-- The ciphertext with the two given points. -/
def Ciphertext.ofPoints (c1 c2 : Point) : Ciphertext :=
  ⟨some c1.1, some c1.2, some c2.1, some c2.2⟩

/-- The Fiat-Shamir challenge that `EncryptSeqWithZKP` derives from the slots. -/
def EncryptSeqWithZKP.challenge (L : Lib) (pk : PublicKey) (c : Curve) (draws : Nat → ZKPDraw)
    (slots : List EncSlot) : Int :=
  (big.SetBytes (HashSha256 L ((slots.map EncSlot.bytes).flatten ++
    ((EncryptSeqWithZKP.commitAll pk c draws 0 slots).map CommitSlot.bytes).flatten)) : Int) % c.N

/-- A key pair on the curve `c` with `H = [sk]G`. -/
def KeyPair (c : Curve) (pk : PublicKey) (sk : SecretKey) : Prop :=
  pk.Curve = some c ∧ sk.Curve = some c ∧
    (pk.Gx, pk.Gy) = c.ScalarBaseMult (big.Bytes 1) ∧
    (pk.Hx, pk.Hy) = c.ScalarBaseMult sk.Priv

/-- What the first worker of `EncryptSeqWithZKP` leaves in a slot, seen in a model of the
curve: an encryption of `+1` (when the reduced message is 1) or of `-1` under a public
point `h` of order dividing `N`, with the recorded randomness. -/
def EncSlot.Good {c : Curve} {Pt : Type} [AddCommGroup Pt] (M : c.Model Pt) (pk : PublicKey)
    (s : EncSlot) : Prop :=
  ∃ h : Pt, (pk.Hx, pk.Hy) = M.coords h ∧ c.N • h = 0 ∧ (pk.Gx, pk.Gy) = M.coords M.g ∧
    0 ≤ s.z ∧ s.c1 = M.coords (s.z • M.g) ∧
    ((1 = s.m ∧ s.c2 = M.coords (s.z • h + M.g)) ∨
      (1 ≠ s.m ∧ s.c2 = M.coords (s.z • h - M.g)))

/-- In a model of the curve, `ct` is a ciphertext `(a, μ + [s]a)` of the point `μ` under
the secret scalar `s`, with `a` in the subgroup `S`. -/
def IsEnc {c : Curve} {Pt : Type} [AddCommGroup Pt] (M : c.Model Pt) (S : AddSubgroup Pt)
    (s : Int) (μ : Pt) (ct : Ciphertext) : Prop :=
  ∃ a ∈ S, ct = Ciphertext.ofPoints (M.coords a) (M.coords (μ + s • a))

/-- In a model of the curve, `ct` is a pair of points. -/
def Ciphertext.IsPair {c : Curve} {Pt : Type} [AddCommGroup Pt] (M : c.Model Pt)
    (ct : Ciphertext) : Prop :=
  ∃ a b : Pt, ct = Ciphertext.ofPoints (M.coords a) (M.coords b)

/-- In a model of the curve, `p` is made of four points and four scalars that are not
negative. -/
def ZKP.IsProof {c : Curve} {Pt : Type} [AddCommGroup Pt] (M : c.Model Pt) (p : ZKP) : Prop :=
  ∃ a1 b1 a2 b2 : Pt, ∃ d1 d2 r1 r2 : Int, 0 ≤ d1 ∧ 0 ≤ d2 ∧ 0 ≤ r1 ∧ 0 ≤ r2 ∧
    p = ⟨some (M.coords a1).1, some (M.coords a1).2, some (M.coords b1).1, some (M.coords b1).2,
      some (M.coords a2).1, some (M.coords a2).2, some (M.coords b2).1, some (M.coords b2).2,
      some d1, some d2, some r1, some r2⟩

/-- The ciphertext `ct` encrypts the scalar `m` under the secret key `sk`: it is a pair
`(C1, [m mod N]G + [sk]C1)` for a point `C1` of the curve. -/
def Encrypts (c : Curve) (sk : SecretKey) (ct : Ciphertext) (m : Int) : Prop :=
  ∃ p : Point, c.IsPoint p ∧
    ct = Ciphertext.ofPoints p
      (c.Add (c.ScalarBaseMult (big.Bytes (m % c.N))) (c.ScalarMult p sk.Priv))

/-- The decoder that `Bytes2Ciphertext` and `Bytes2ZKP` apply to a point field. -/
def decodePoint (c : Curve) (pointCompression : Bool) (bs : List Nat) : Option Point :=
  if pointCompression then c.UnmarshalCompressed bs else c.Unmarshal bs

/-- The ciphertext that `EncryptSeqWithZKP` returns for a slot. -/
def EncSlot.ciphertext (s : EncSlot) : Ciphertext :=
  ⟨some s.c1.1, some s.c1.2, some s.c2.1, some s.c2.2⟩

end elgamal

namespace bloom

/-- A filter of `w` words of 64 bits: the capacity and the length of the bit set are
`64 * w`, and the bit set holds `w` words below `2 ^ 64`. -/
def BloomFilter.WF (f : BloomFilter) (w : Nat) : Prop :=
  f.m = 64 * w ∧ f.b.length = 64 * w ∧ f.b.set.length = w ∧ ∀ x ∈ f.b.set, x < 2 ^ 64

/-- The position that round `j` of `Add` and of `Test` computes for `data` in a filter of
capacity `m`. -/
def loc (L : Lib) (m : Nat) (data : List Nat) (j : Nat) : Nat :=
  HashSha1 L (data ++ le64 ((j + big.SetBytes data % 2 ^ 64) % 2 ^ 64)) % m

/-- The number of positions below the capacity that are set. -/
def BloomFilter.ones (f : BloomFilter) : Nat :=
  (List.range f.m).countP fun i => f.b.Test i

end bloom

namespace pcr

/-- The number of one bits in a list of bytes. -/
def byteOnes (B : List Nat) : Nat := (B.map OnesCount).sum

/-- The indices that worker `t` of `ResponseGen` handles. -/
def ResponseGen.indices (numThreads taskUnit cap t : Nat) : List Nat :=
  List.range' (t * taskUnit)
    ((if t < numThreads - 1 then (t + 1) * taskUnit else cap) - t * taskUnit)

/-- In a model of the curve, what a worker of `ResponseGen` adds for the index `i` when
the query holds an encryption of `μ i` there: nothing when `i` is not set in the candidate
filter `fC`, else the difference to `+1` times the scalar drawn at `i`. -/
def ResponseGen.term {c : Curve} {Pt : Type} [AddCommGroup Pt] (M : c.Model Pt)
    (fC : bloom.BloomFilter) (dr : RespDraws) (μ : Nat → Pt) (i : Nat) : Pt :=
  if fC.b.Test i = true then c.draw (dr.rIdx i) • ((-1 : Int) • M.g + μ i) else 0

/-- In a model of the curve, the plaintext of the result of worker `t`. -/
def ResponseGen.share {c : Curve} {Pt : Type} [AddCommGroup Pt] (M : c.Model Pt)
    (fC : bloom.BloomFilter) (dr : RespDraws) (μ : Nat → Pt) (numThreads taskUnit t : Nat) :
    Pt :=
  (0 : Int) • M.g + ((ResponseGen.indices numThreads taskUnit fC.m t).map
    (ResponseGen.term M fC dr μ)).sum

/-- The first 24 bytes of the encoding of a filter of `w` words with `k` hash functions. -/
def gobHeader (w k : Nat) : List Nat :=
  bitset.be64 (64 * w) ++ (bitset.be64 k ++ bitset.be64 (64 * w))

/-- The state of the padding loop of `ReqBFGen`: the filter `f` is what `GobDecode` reads
from the header of a filter of `w` words followed by the bytes `B`. -/
def PadInv (w k : Nat) (f : bloom.BloomFilter) (B : List Nat) : Prop :=
  f.m = 64 * w ∧ f.k = k ∧ f.b.length = 64 * w ∧ f.b.set = bitset.readWords w B ∧
    B.length = 8 * w ∧ ∀ b ∈ B, b < 256

/-- The first 24 bytes of the encoding of a filter of `m` bits with `k` hash functions. -/
def frameHeader (m k : Nat) : List Nat :=
  bitset.be64 m ++ (bitset.be64 k ++ bitset.be64 m)

/-- The state of the padding loop of `ReqBFGen` for a filter of `m` bits: the filter `f` is
what `GobDecode` reads from the header followed by the bytes `B` of the words. -/
def PadState (m k : Nat) (f : bloom.BloomFilter) (B : List Nat) : Prop :=
  f.m = m ∧ f.k = k ∧ f.b.length = m ∧ f.b.set = bitset.readWords (bitset.wordsNeeded m) B ∧
    B.length = 8 * bitset.wordsNeeded m ∧ ∀ b ∈ B, b < 256

end pcr

namespace elgamal

/-- The bytes of one ciphertext in the byte stream of the challenge, as the specification
words it: `C1.x`, `C1.y`, `C2.x`, `C2.y`, each integer as its minimal big-endian bytes;
`none` when a coordinate is missing. -/
def specCiphertextBytes (c : Ciphertext) : Option (List Nat) :=
  match c.C1x, c.C1y, c.C2x, c.C2y with
  | some c1x, some c1y, some c2x, some c2y =>
    some (big.Bytes c1x ++ big.Bytes c1y ++ big.Bytes c2x ++ big.Bytes c2y)
  | _, _, _, _ => none

/-- The bytes of one proof in the byte stream of the challenge, as the specification words
it: `A1.x`, `A1.y`, `B1.x`, `B1.y`, `A2.x`, `A2.y`, `B2.x`, `B2.y`. -/
def specProofBytes (p : ZKP) : Option (List Nat) :=
  match p.A1x, p.A1y, p.B1x, p.B1y, p.A2x, p.A2y, p.B2x, p.B2y with
  | some a1x, some a1y, some b1x, some b1y, some a2x, some a2y, some b2x, some b2y =>
    some (big.Bytes a1x ++ big.Bytes a1y ++ big.Bytes b1x ++ big.Bytes b1y ++
      big.Bytes a2x ++ big.Bytes a2y ++ big.Bytes b2x ++ big.Bytes b2y)
  | _, _, _, _, _, _, _, _ => none

/-- The byte stream of the challenge as the specification words it: the bytes of every
ciphertext in index order, then the bytes of every proof in index order. -/
def specStream (cs : List Ciphertext) (zkps : List ZKP) : Option (List Nat) := do
  let cBytes ← cs.mapM specCiphertextBytes
  let pBytes ← zkps.mapM specProofBytes
  pure (cBytes.flatten ++ pBytes.flatten)

/-- The challenge as the specification words it: SHA-256 of the byte stream, read as a
big-endian number and reduced modulo `N`. -/
def specChallenge (L : Lib) (N : Int) (cs : List Ciphertext) (zkps : List ZKP) : Option Int :=
  (specStream cs zkps).map fun stream => (big.SetBytes (L.Sha256 stream) : Int) % N

end elgamal

namespace pcr

/-- The number of one bits in a list of bytes, counted over the eight bits of each. -/
def byteOnes8 (B : List Nat) : Nat :=
  (B.map fun b => (List.range 8).countP fun u => b.testBit u).sum

/-- The padding loop of `ReqBFGen` on the bytes of the words alone: `n` is the number of
bytes that can be drawn and `cnt` the number of one bits among them. -/
def ReqBFGen.padBytes (bfNumOnes : Int) (n : Nat) :
    List (Nat × Nat) → List Nat → Nat → Except Fault (Option (List Nat))
  | [], B, cnt => if (cnt : Int) < bfNumOnes then .ok none else .ok (some B)
  | d :: draws, B, cnt =>
    if (cnt : Int) < bfNumOnes then
      if n = 0 then .error .invalidArgument
      else
        padBytes bfNumOnes n draws (B.set (d.2 % n) (B.getD (d.2 % n) 0 ||| 2 ^ (d.1 % 8)))
          (if (B.getD (d.2 % n) 0).testBit (d.1 % 8) then cnt else cnt + 1)
    else .ok (some B)

end pcr

/-! ## A curve library to run the program on

`weierstrass.curve p b n gx gy` is the curve `y² = x³ - 3x + b` over the field with `p`
elements (`p` a prime, `p % 4 = 3`), computed with the affine chord-and-tangent formulas,
with base point `(gx, gy)` of order dividing `n`. It stands where Go has P-224 ... P-521,
which have the same equation; it is used to run the program on concrete inputs. -/

namespace weierstrass

/-- Modular power `b ^ e % p` by repeated squaring; `fuel` bounds the recursion. -/
def powMod (p : Nat) : Nat → Nat → Nat → Nat
  | 0, _, _ => 1 % p
  | fuel + 1, b, e =>
    if e = 0 then 1 % p else
    let h := powMod p fuel b (e / 2)
    if e % 2 = 1 then h * h % p * b % p else h * h % p

/-- The inverse modulo the prime `p`, as the power `x ^ (p - 2)`. -/
def inv (p : Nat) (x : Int) : Int := powMod p p (x % p).toNat (p - 2)

/-- Point addition in affine coordinates. -/
def add (p : Nat) (P Q : Point) : Point :=
  if P = (0, 0) then Q else if Q = (0, 0) then P else
  if P.1 = Q.1 ∧ (P.2 + Q.2) % p = 0 then (0, 0) else
  let L := if P.1 = Q.1 then (3 * P.1 * P.1 - 3) * inv p (2 * P.2)
    else (P.2 - Q.2) * inv p (P.1 - Q.1)
  let x3 := (L * L - P.1 - Q.1) % p
  let y3 := (-(L * (x3 - P.1) + P.2)) % p
  (x3, y3)

/-- Scalar multiplication by double-and-add; `fuel` bounds the recursion. -/
def smulAux (p : Nat) : Nat → Nat → Point → Point
  | 0, _, _ => (0, 0)
  | fuel + 1, n, P =>
    if n = 0 then (0, 0) else
    let h := smulAux p fuel (n / 2) P
    let d := add p h h
    if n % 2 = 1 then add p d P else d

def smul (p n : Nat) (P : Point) : Point := smulAux p n n P

/-- The affine pair is in range and satisfies the curve equation. -/
def isOnCurve (p b : Nat) (x y : Int) : Bool :=
  decide (0 ≤ x ∧ x < p ∧ 0 ≤ y ∧ y < p ∧ (y * y) % p = (x * x * x - 3 * x + b) % p)

/-- The number of bytes of a field element. -/
def byteLen (p : Nat) : Nat := (big.natBytes p).length

/-- Big-endian bytes, padded with leading zeros to `len` bytes. -/
def fixedBytes (len : Nat) (x : Int) : List Nat :=
  List.replicate (len - (big.Bytes x).length) 0 ++ big.Bytes x

/-- A square root modulo `p` (for `p % 4 = 3`), if there is one. -/
def sqrtMod (p : Nat) (a : Int) : Option Int :=
  let r : Int := powMod p p (a % p).toNat ((p + 1) / 4)
  if r * r % p = a % p then some r else none

/-- SEC1 uncompressed encoding; the point at infinity is the single byte 0. -/
def marshal (p : Nat) (P : Point) : List Nat :=
  if P = (0, 0) then [0]
  else 4 :: (fixedBytes (byteLen p) P.1 ++ fixedBytes (byteLen p) P.2)

def unmarshal (p b : Nat) (data : List Nat) : Option Point :=
  match data with
  | [0] => some (0, 0)
  | 4 :: rest =>
    if rest.length = 2 * byteLen p then
      let x : Int := big.SetBytes (rest.take (byteLen p))
      let y : Int := big.SetBytes (rest.drop (byteLen p))
      if isOnCurve p b x y then some (x, y) else none
    else none
  | _ => none

/-- SEC1 compressed encoding: the parity of `y`, then `x`. -/
def marshalCompressed (p : Nat) (P : Point) : List Nat :=
  if P = (0, 0) then [0]
  else (2 + (P.2 % 2).toNat) :: fixedBytes (byteLen p) P.1

def unmarshalCompressed (p b : Nat) (data : List Nat) : Option Point :=
  match data with
  | [0] => some (0, 0)
  | t :: rest =>
    if (t = 2 ∨ t = 3) ∧ rest.length = byteLen p then
      let x : Int := big.SetBytes rest
      match sqrtMod p (x * x * x - 3 * x + b) with
      | none => none
      | some r =>
        let y : Int := if r % 2 = (t : Int) - 2 then r else p - r
        if isOnCurve p b x y then some (x, y) else none
    else none
  | _ => none

/-- The curve `y² = x³ - 3x + b` over the field with `p` elements, with base point
`(gx, gy)` and `n` for the order. -/
def curve (p b n : Nat) (gx gy : Int) : Curve where
  P := p
  N := n
  B := b
  IsOnCurve := isOnCurve p b
  Add := add p
  ScalarMult := fun P k => smul p (big.SetBytes k) P
  ScalarBaseMult := fun k => smul p (big.SetBytes k) (gx, gy)
  Marshal := marshal p
  MarshalCompressed := marshalCompressed p
  Unmarshal := unmarshal p b
  UnmarshalCompressed := unmarshalCompressed p b

/-- The Weierstrass curve of Mathlib with the same equation. -/
def W (p b : Nat) : WeierstrassCurve.Affine (ZMod p) := ⟨0, 0, 0, -3, (b : ZMod p)⟩

/-- The coordinates of a point of `W p b`, as the integers of `[0, p)`. -/
def coords (p b : Nat) : (W p b).Point → Point
  | .zero => (0, 0)
  | @WeierstrassCurve.Affine.Point.some _ _ _ x y _ => ((x.val : Int), (y.val : Int))

/-- A hash function for worked examples: a polynomial checksum, as two bytes. -/
def checksum (input : List Nat) : List Nat :=
  big.natBytes (input.foldl (fun h x => (h * 131 + x + 7) % 65521) 1)

/-- A library in which every security parameter selects the curve `c`. -/
def lib (c : Curve) : Lib where
  P224 := c
  P256 := c
  P384 := c
  P521 := c
  Sha256 := checksum
  Sha1 := fun input => checksum (input ++ [1])
  ModSqrt := fun a p => if 0 < p then sqrtMod p.toNat a else none

/-- A curve with 17 points: `y² = x³ - 3x + 1` over the field with 11 elements. -/
def c11 : Curve := curve 11 1 17 2 5

/-- The library with `c11` for every curve. -/
def lib11 : Lib := lib c11

/-- The key pair of `c11` with private scalar 5: `H = [5]G = (8, 7)`. -/
def pk11 : elgamal.PublicKey := ⟨some c11, 256, 2, 5, 8, 7, true⟩

def sk11 : elgamal.SecretKey := ⟨some c11, 8, 7, [5]⟩

/-- A query on `c11` with three ciphertexts, of `+1`, `-1` and `+1`, and the proofs and
challenge that `EncryptSeqWithZKP` makes for them, in compressed encoding. -/
def query11 : pcr.QueryMessage :=
  ⟨3, 2, 1, 2, true, pk11,
    [⟨[2, 0], [2, 6]⟩, ⟨[2, 7], [3, 7]⟩, ⟨[2, 5], [2, 5]⟩],
    [⟨[2, 0], [2, 4], [3, 2], [3, 8], [7], [3], [5], [12]⟩,
      ⟨[2, 5], [2, 7], [2, 2], [2, 6], [1], [9], [1], [6]⟩,
      ⟨[0], [3, 8], [2, 4], [3, 2], [11], [16], [7], [11]⟩],
    [10]⟩

/-- A prime of 77 bits, `2 * 3 ^ 24 * 5 ^ 16 + 1`, large enough to embed short byte
strings with their four padding bytes. -/
def p77 : Nat := 86190654443664550781251

/-- The number of points of `y² = x³ - 3x + 439` over the field with `p77` elements. -/
def n77 : Nat := 86190654443352726401527

/-- The curve `y² = x³ - 3x + 439` over the field with `p77` elements. -/
def c77 : Curve := curve p77 439 n77 47045267212305608769571 21342955711123822791421

/-- The library with `c77` for every curve. -/
def lib77 : Lib := lib c77

/-- The key pair of `c77` with private scalar `0x012345`. -/
def pk77 : elgamal.PublicKey :=
  ⟨some c77, 256, 47045267212305608769571, 21342955711123822791421,
    80086784436168655507221, 18543984393210588302618, true⟩

def sk77 : elgamal.SecretKey :=
  ⟨some c77, 80086784436168655507221, 18543984393210588302618, [1, 35, 69]⟩

/-- The parameters of the worked examples: 128 filter bits, 30 of them set, 20 hash
functions, 4 threads. -/
def rp128 : pcr.ReqPara := ⟨256, 128, 30, 20, 4, true⟩

/-- Draws for the padding loop of `ReqBFGen`. -/
def padDraws : List (Nat × Nat) := (List.range 60).map fun i => (3 * i + 1, 7 * i + 5)

/-- Draws for `EncryptSeqWithZKP`. -/
def zkpDraws : Nat → elgamal.ZKPDraw := fun i => ⟨i + 2, 3 * i + 1, i + 5, 2 * i + 7⟩

/-- Draws for `ResponseGen`. -/
def respDraws : pcr.RespDraws :=
  ⟨123456789, fun t => t + 11, fun i => 2 * i + 3, fun i => i + 1, 17, 19, 5⟩

/-- The password `"Simba"`. -/
def simba : List Nat := [83, 105, 109, 98, 97]

/-- The password `"Nala"`. -/
def nala : List Nat := [78, 97, 108, 97]

/-- The filter that `Add` makes from `"Simba"` under `lib77`. -/
def bfAddSimba : bloom.BloomFilter := ⟨128, 20, ⟨128, [721141093667766464, 16149943585831129100]⟩⟩

/-- The filter that `ReqBFGen` returns for `"Simba"` with the draws `padDraws`. -/
def bfSimba : bloom.BloomFilter := ⟨128, 20, ⟨128, [730153240993415360, 16222006127671513100]⟩⟩

/-- A digest of 20 bytes for worked examples: the sum of the input and the 19 numbers
after it, each as a byte. -/
def digest20 (input : List Nat) : List Nat :=
  (List.range 20).map fun i => (input.sum + i) % 256

/-- The library of `c11` with the digest of 20 bytes for `Sha1`. -/
def lib20 : Lib where
  P224 := c11
  P256 := c11
  P384 := c11
  P521 := c11
  Sha256 := checksum
  Sha1 := digest20
  ModSqrt := lib11.ModSqrt

/-- A codec for worked examples: a stream is the two bytes `31, 139` followed by its
content, and the only text that decodes without an error is `{}`, to the number 1. -/
def codec : pcr.Codec Nat Nat where
  NewReader := fun bs => if bs.take 2 = [31, 139] then some ⟨bs.drop 2, false⟩ else none
  UnmarshalQuery := fun bs => if bs = [123, 125] then (1, false) else (0, true)
  UnmarshalResponse := fun bs => if bs = [123, 125] then (1, false) else (0, true)

end weierstrass

namespace weierstrass

end weierstrass

namespace weierstrass

/-- Double-and-add over the `k` low bits of `n`, from the point `h` that the higher bits
have made. -/
def smulFrom (p : Nat) : Nat → Nat → Point → Point → Point
  | 0, _, h, _ => h
  | k + 1, n, h, P =>
    let h' := smulFrom p k (n / 2) h P
    let d := add p h' h'
    if n % 2 = 1 then add p d P else d

end weierstrass

/-! # Properties -/

/-! ## Bytes of integers -/

namespace big

theorem bytesAux_eq (fuel n : Nat) (acc : List Nat) (h : n ≤ fuel) :
    bytesAux fuel n acc = (Nat.digits 256 n).reverse ++ acc := by
  induction fuel generalizing n acc with
  | zero =>
    have : n = 0 := by omega
    subst this
    simp [bytesAux]
  | succ fuel ih =>
    unfold bytesAux
    by_cases hn : n = 0
    · subst hn; simp
    · have hpos : 0 < n := Nat.pos_of_ne_zero hn
      rw [if_neg hn, ih _ _ (by omega), Nat.digits_def' (by norm_num) hpos]
      simp

theorem natBytes_eq (n : Nat) : natBytes n = (Nat.digits 256 n).reverse := by
  simp [natBytes, bytesAux_eq]

theorem SetBytes_eq (bs : List Nat) : SetBytes bs = Nat.ofDigits 256 bs.reverse := by
  unfold SetBytes
  induction bs using List.reverseRecOn with
  | nil => simp
  | append_singleton bs b ih =>
    simp [List.foldl_append, ih, Nat.ofDigits_cons]
    ring

theorem SetBytes_natBytes (n : Nat) : SetBytes (natBytes n) = n := by
  rw [SetBytes_eq, natBytes_eq, List.reverse_reverse, Nat.ofDigits_digits]

theorem SetBytes_Bytes (x : Int) (hx : 0 ≤ x) : (SetBytes (Bytes x) : Int) = x := by
  rw [Bytes, SetBytes_natBytes]
  exact Int.natAbs_of_nonneg hx

theorem SetBytes_Bytes_natCast (n : Nat) : SetBytes (Bytes (n : Int)) = n := by
  rw [Bytes, SetBytes_natBytes]
  simp

end big

/-! ## Results of fallible code -/

@[simp] theorem Except.ok_bind_eq {ε α β : Type} (a : α) (f : α → Except ε β) :
    (Except.ok a >>= f) = f a := rfl

@[simp] theorem Except.error_bind_eq {ε α β : Type} (e : ε) (f : α → Except ε β) :
    (Except.error e >>= f) = Except.error e := rfl

@[simp] theorem Except.pure_eq_ok {ε α : Type} (a : α) : (pure a : Except ε α) = Except.ok a := rfl

@[simp] theorem Except.map_ok_eq {ε α β : Type} (a : α) (f : α → β) :
    (f <$> (Except.ok a : Except ε α)) = Except.ok (f a) := rfl

namespace elgamal

@[simp] theorem deref_some (v : Int) : deref (some v) = .ok v := rfl

@[simp] theorem deref_none : deref none = .error .nilDeref := rfl

@[simp] theorem derefCurve_some (c : Curve) : derefCurve (some c) = .ok c := rfl

@[simp] theorem derefPoint_some (x y : Int) : derefPoint (some x) (some y) = .ok (x, y) := rfl

@[simp] theorem ofPoints_C1x (p q : Point) : (Ciphertext.ofPoints p q).C1x = some p.1 := rfl

@[simp] theorem ofPoints_C1y (p q : Point) : (Ciphertext.ofPoints p q).C1y = some p.2 := rfl

@[simp] theorem ofPoints_C2x (p q : Point) : (Ciphertext.ofPoints p q).C2x = some q.1 := rfl

@[simp] theorem ofPoints_C2y (p q : Point) : (Ciphertext.ofPoints p q).C2y = some q.2 := rfl

theorem ofPoints_injective {p q p' q' : Point}
    (h : Ciphertext.ofPoints p q = Ciphertext.ofPoints p' q') : p = p' ∧ q = q' := by
  simp only [Ciphertext.ofPoints, Ciphertext.mk.injEq, Option.some.injEq] at h
  exact ⟨Prod.ext h.1 h.2.1, Prod.ext h.2.2.1 h.2.2.2⟩

end elgamal

/-! ## Arithmetic in a model of the curve -/

namespace Curve.Model

variable {c : Curve} {Pt : Type} [AddCommGroup Pt] (M : c.Model Pt)

theorem coords_eq_iff (a b : Pt) : M.coords a = M.coords b ↔ a = b :=
  M.coords_injective.eq_iff

theorem scalarMult_bytes (a : Pt) (x : Int) (hx : 0 ≤ x) :
    c.ScalarMult (M.coords a) (big.Bytes x) = M.coords (x • a) := by
  rw [M.scalarMult_coords]
  congr 1
  rw [← natCast_zsmul, big.SetBytes_Bytes x hx]

theorem scalarBaseMult_bytes (x : Int) (hx : 0 ≤ x) :
    c.ScalarBaseMult (big.Bytes x) = M.coords (x • M.g) := by
  rw [M.scalarBaseMult_eq]
  congr 1
  rw [← natCast_zsmul, big.SetBytes_Bytes x hx]

theorem scalarMult_nat (a : Pt) (k : List Nat) :
    c.ScalarMult (M.coords a) k = M.coords ((big.SetBytes k : Int) • a) := by
  rw [M.scalarMult_coords, natCast_zsmul]

theorem scalarBaseMult_nat (k : List Nat) :
    c.ScalarBaseMult k = M.coords ((big.SetBytes k : Int) • M.g) := by
  rw [M.scalarBaseMult_eq, natCast_zsmul]

theorem emod_nonneg (M : c.Model Pt) (x : Int) : 0 ≤ x % c.N :=
  Int.emod_nonneg x (ne_of_gt M.N_pos)

/-- Scalars act on multiples of the base point modulo `N`. -/
theorem emod_smul (x y : Int) : (x % c.N) • (y • M.g) = x • (y • M.g) := by
  have h : x % c.N = x - c.N * (x / c.N) := by
    have := Int.emod_add_ediv x c.N
    linarith
  rw [h, sub_smul, mul_comm, mul_smul, smul_comm c.N y, M.order]
  simp

theorem emod_smul_g (x : Int) : (x % c.N) • M.g = x • M.g := by
  have := M.emod_smul x 1
  simpa using this

theorem smul_congr_g {x y : Int} (h : x % c.N = y % c.N) : x • M.g = y • M.g := by
  rw [← M.emod_smul_g x, ← M.emod_smul_g y, h]

theorem isPoint_iff (p : Point) : c.IsPoint p ↔ ∃ a, M.coords a = p := by
  constructor
  · rintro (h | h)
    · exact ⟨0, by rw [M.coords_zero, h]⟩
    · exact ((M.isOnCurve_iff p.1 p.2).1 h).2
  · rintro ⟨a, rfl⟩
    by_cases h : M.coords a = (0, 0)
    · exact Or.inl h
    · exact Or.inr ((M.isOnCurve_iff _ _).2 ⟨h, a, rfl⟩)

theorem base_point : c.ScalarBaseMult (big.Bytes 1) = M.coords M.g := by
  rw [M.scalarBaseMult_bytes 1 (by norm_num), one_smul]

end Curve.Model

/-- The number that `newCryptoRandom` returns for a draw. -/
theorem elgamal.setBytes_newCryptoRandom (c : Curve) (d : Nat) :
    big.SetBytes (elgamal.newCryptoRandom (big.Bytes c.N) d) = d % c.N.natAbs := by
  unfold elgamal.newCryptoRandom
  rw [big.SetBytes_Bytes_natCast]
  congr 1
  rw [big.Bytes, big.SetBytes_natBytes]

/-! ## The ElGamal operations in a model of the curve -/

namespace elgamal

variable {c : Curve} {Pt : Type} [AddCommGroup Pt] (M : c.Model Pt)

theorem draw_nonneg (c : Curve) (d : Nat) : 0 ≤ c.draw d := by
  unfold Curve.draw
  exact Int.natCast_nonneg _

theorem scalarMult_newCryptoRandom (a : Pt) (d : Nat) :
    c.ScalarMult (M.coords a) (newCryptoRandom (big.Bytes c.N) d) = M.coords (c.draw d • a) := by
  rw [M.scalarMult_nat, setBytes_newCryptoRandom]
  rfl

theorem scalarBaseMult_newCryptoRandom (d : Nat) :
    c.ScalarBaseMult (newCryptoRandom (big.Bytes c.N) d) = M.coords (c.draw d • M.g) := by
  rw [M.scalarBaseMult_nat, setBytes_newCryptoRandom]
  rfl

theorem Encrypt_eq {pk : PublicKey} {h : Pt} (hpk : pk.Curve = some c)
    (hH : (pk.Hx, pk.Hy) = M.coords h) (m : Int) (z : Nat) :
    pk.Encrypt m z = .ok (Ciphertext.ofPoints (M.coords (c.draw z • M.g))
      (M.coords (m • M.g + c.draw z • h))) := by
  simp only [PublicKey.Encrypt, hpk, derefCurve_some, Except.ok_bind_eq, Except.pure_eq_ok, hH,
    scalarMult_newCryptoRandom, scalarBaseMult_newCryptoRandom M,
    M.scalarBaseMult_bytes _ (M.emod_nonneg m), M.add_coords, M.emod_smul_g]
  rfl

theorem Add_eq {pk : PublicKey} (hpk : pk.Curve = some c) (a1 a2 b1 b2 : Pt) (z : Nat) :
    pk.Add (Ciphertext.ofPoints (M.coords a1) (M.coords a2))
      (Ciphertext.ofPoints (M.coords b1) (M.coords b2)) false z =
      .ok (Ciphertext.ofPoints (M.coords (a1 + b1)) (M.coords (a2 + b2))) := by
  simp [PublicKey.Add, hpk, M.add_coords, Ciphertext.ofPoints]

theorem Add_rand_eq {pk : PublicKey} {h : Pt} (hpk : pk.Curve = some c)
    (hH : (pk.Hx, pk.Hy) = M.coords h) (a1 a2 b1 b2 : Pt) (z : Nat) :
    pk.Add (Ciphertext.ofPoints (M.coords a1) (M.coords a2))
      (Ciphertext.ofPoints (M.coords b1) (M.coords b2)) true z =
      .ok (Ciphertext.ofPoints (M.coords (a1 + b1 + c.draw z • M.g))
        (M.coords (a2 + b2 + c.draw z • h))) := by
  simp [PublicKey.Add, hpk, M.add_coords, Encrypt_eq M hpk hH, Ciphertext.ofPoints]

theorem ScalarMultRandomizer_eq {pk : PublicKey} (hpk : pk.Curve = some c) (a1 a2 : Pt)
    (r z : Nat) :
    pk.ScalarMultRandomizer (Ciphertext.ofPoints (M.coords a1) (M.coords a2)) false r z =
      .ok (Ciphertext.ofPoints (M.coords (c.draw r • a1)) (M.coords (c.draw r • a2))) := by
  simp [PublicKey.ScalarMultRandomizer, hpk, scalarMult_newCryptoRandom, Ciphertext.ofPoints]

theorem ScalarMultRandomizer_rand_eq {pk : PublicKey} {h : Pt} (hpk : pk.Curve = some c)
    (hH : (pk.Hx, pk.Hy) = M.coords h) (a1 a2 : Pt) (r z : Nat) :
    pk.ScalarMultRandomizer (Ciphertext.ofPoints (M.coords a1) (M.coords a2)) true r z =
      .ok (Ciphertext.ofPoints (M.coords (c.draw r • a1 + c.draw z • M.g))
        (M.coords (c.draw r • a2 + c.draw z • h))) := by
  simp [PublicKey.ScalarMultRandomizer, hpk, scalarMult_newCryptoRandom, M.add_coords,
    Encrypt_eq M hpk hH, Ciphertext.ofPoints]

/-- Comparison of the two coordinates, as `x.Cmp(x') == 0 && y.Cmp(y') == 0` does it. -/
theorem cmp_points (p q : Point) :
    (if p.1 = q.1 then (Except.ok (decide (p.2 = q.2)) : Except Fault Bool) else Except.ok false) =
      Except.ok (decide (p = q)) := by
  by_cases hx : p.1 = q.1
  · by_cases hy : p.2 = q.2
    · have : p = q := Prod.ext hx hy
      simp [hx, hy, this]
    · have : p ≠ q := fun e => hy (by rw [e])
      simp [hx, hy, this]
  · have : p ≠ q := fun e => hx (by rw [e])
    simp [hx, this]

theorem DecryptAndCheck0_eq {sk : SecretKey} (hsk : sk.Curve = some c) (a1 a2 : Pt) :
    ∃ b, sk.DecryptAndCheck0 (Ciphertext.ofPoints (M.coords a1) (M.coords a2)) = .ok b ∧
      (b = true ↔ (big.SetBytes sk.Priv : Int) • a1 = a2) := by
  simp only [SecretKey.DecryptAndCheck0, hsk, derefCurve_some, Except.ok_bind_eq, ofPoints_C1x,
    ofPoints_C1y, ofPoints_C2x, ofPoints_C2y, derefPoint_some, deref_some, M.scalarMult_nat,
    Except.pure_eq_ok, cmp_points]
  refine ⟨_, rfl, ?_⟩
  rw [decide_eq_true_iff, M.coords_eq_iff]

theorem DecryptAndCheck_eq {sk : SecretKey} (hsk : sk.Curve = some c) (a1 a2 : Pt)
    (test : List Nat) :
    ∃ b, sk.DecryptAndCheck (Ciphertext.ofPoints (M.coords a1) (M.coords a2)) test = .ok b ∧
      (b = true ↔
        (big.SetBytes sk.Priv : Int) • a1 + (big.SetBytes test : Int) • M.g = a2) := by
  simp only [SecretKey.DecryptAndCheck, hsk, derefCurve_some, Except.ok_bind_eq, ofPoints_C1x,
    ofPoints_C1y, ofPoints_C2x, ofPoints_C2y, derefPoint_some, deref_some, M.scalarMult_nat,
    M.scalarBaseMult_nat, M.add_coords, Except.pure_eq_ok, cmp_points]
  refine ⟨_, rfl, ?_⟩
  rw [decide_eq_true_iff, M.coords_eq_iff]

end elgamal

/-! ## Key pairs -/

namespace elgamal

theorem KeyGen_keyPair {L : Lib} {secParam : Int} {pointCompression : Bool} {priv : List Nat}
    {pk : PublicKey} {sk : SecretKey}
    (h : KeyGen L secParam pointCompression priv = .ok (pk, sk)) :
    ∃ c, initCurve L secParam = some c ∧ KeyPair c pk sk ∧ sk.Priv = priv ∧
      pk.SecParam = secParam ∧ pk.PointCompression = pointCompression := by
  unfold KeyGen at h
  cases hc : initCurve L secParam with
  | none => simp [hc, derefCurve] at h
  | some c =>
    simp only [hc, derefCurve_some, Except.ok_bind_eq, Except.pure_eq_ok, Except.ok.injEq,
      Prod.mk.injEq] at h
    obtain ⟨rfl, rfl⟩ := h
    exact ⟨c, rfl, ⟨rfl, rfl, rfl, rfl⟩, rfl, rfl, rfl⟩

/-- In a model of the curve, the public point of a key pair is `[sk]G`. -/
theorem KeyPair.H_eq {c : Curve} {Pt : Type} [AddCommGroup Pt] (M : c.Model Pt)
    {pk : PublicKey} {sk : SecretKey} (hk : KeyPair c pk sk) :
    (pk.Hx, pk.Hy) = M.coords ((big.SetBytes sk.Priv : Int) • M.g) := by
  rw [hk.2.2.2, M.scalarBaseMult_nat]

theorem KeyPair.G_eq {c : Curve} {Pt : Type} [AddCommGroup Pt] (M : c.Model Pt)
    {pk : PublicKey} {sk : SecretKey} (hk : KeyPair c pk sk) :
    (pk.Gx, pk.Gy) = M.coords M.g := by
  rw [hk.2.2.1, M.base_point]

end elgamal

/-! ## The batched OR-proof -/

theorem List.mapM_except_ok {ε α β : Type} (f : α → Except ε β) (g : α → β) (l : List α)
    (h : ∀ x ∈ l, f x = .ok (g x)) : l.mapM f = .ok (l.map g) := by
  induction l with
  | nil => rfl
  | cons a l ih =>
    rw [List.mapM_cons, h a (List.mem_cons_self a l),
      ih (fun x hx => h x (List.mem_cons_of_mem a hx))]
    rfl

namespace elgamal

variable {c : Curve} {Pt : Type} [AddCommGroup Pt] (M : c.Model Pt)

/-- The answer of the real branch opens the commitment `[w]P`. -/
theorem response_opens (P : Pt) (hP : c.N • P = 0) (w z d : Int) :
    ((w - z * d % c.N) % c.N) • P + d • (z • P) = w • P := by
  have e : ∀ x : Int, (x % c.N) • P = x • P := by
    intro x
    have h : x % c.N = x - c.N * (x / c.N) := by
      have := Int.emod_add_ediv x c.N
      linarith
    rw [h, sub_smul, mul_comm, mul_smul, hP]
    simp
  rw [e, sub_smul, e, mul_smul, smul_comm z d P]
  abel

theorem pm_one_smul_g (m : Int) (hm : m = 1 ∨ m = -1) :
    (1 = m % c.N ∧ (m % c.N) • M.g = M.g) ∨ (1 ≠ m % c.N ∧ (m % c.N) • M.g = -M.g) := by
  by_cases h1 : 1 = m % c.N
  · left
    refine ⟨h1, ?_⟩
    rw [← h1, one_smul]
  · right
    refine ⟨h1, ?_⟩
    rw [M.emod_smul_g]
    rcases hm with rfl | rfl
    · -- `1 % N ≠ 1` forces `N = 1`, and then the group is trivial
      have hN : c.N = 1 := by
        by_contra hne
        have hpos := M.N_pos
        have : (1 : Int) % c.N = 1 := Int.emod_eq_of_lt (by norm_num) (by omega)
        exact h1 this.symm
      have hg : M.g = 0 := by
        have := M.order
        rwa [hN, one_smul] at this
      simp [hg]
    · simp

theorem encrypt_good {pk : PublicKey} {sk : SecretKey} (hk : KeyPair c pk sk) (m : Int)
    (hm : m = 1 ∨ m = -1) (dr : ZKPDraw) :
    ∃ s, EncryptSeqWithZKP.encrypt pk c m dr = .ok s ∧ EncSlot.Good M pk s := by
  have hH := hk.H_eq M
  have hG := hk.G_eq M
  have habs : ¬((1 : Int).natAbs ≠ m.natAbs) := by
    rcases hm with rfl | rfl <;> simp
  unfold EncryptSeqWithZKP.encrypt
  rw [if_neg habs]
  refine ⟨_, rfl, (big.SetBytes sk.Priv : Int) • M.g, hH, ?_, hG, ?_, ?_, ?_⟩
  · rw [smul_comm, M.order, smul_zero]
  · exact Int.natCast_nonneg _
  · dsimp only
    rw [M.scalarBaseMult_bytes _ (Int.natCast_nonneg _)]
  · dsimp only
    rw [hH, M.scalarMult_bytes _ _ (Int.natCast_nonneg _),
      M.scalarBaseMult_bytes _ (M.emod_nonneg m), M.add_coords]
    rcases pm_one_smul_g M m hm with ⟨h1, h2⟩ | ⟨h1, h2⟩
    · left
      exact ⟨h1, by rw [h2]⟩
    · right
      exact ⟨h1, by rw [h2, sub_eq_add_neg]⟩

theorem encryptAll_good {pk : PublicKey} {sk : SecretKey} (hk : KeyPair c pk sk)
    (draws : Nat → ZKPDraw) (ms : List Int) (hms : ∀ m ∈ ms, m = 1 ∨ m = -1) (i : Nat) :
    ∃ slots, EncryptSeqWithZKP.encryptAll pk c draws i ms = .ok slots ∧
      slots.length = ms.length ∧ ∀ s ∈ slots, EncSlot.Good M pk s := by
  induction ms generalizing i with
  | nil => exact ⟨[], rfl, rfl, by simp⟩
  | cons m ms ih =>
    obtain ⟨s, hs, hgood⟩ := encrypt_good M hk m (hms m (List.mem_cons_self m ms)) (draws i)
    obtain ⟨slots, hslots, hlen, hall⟩ :=
      ih (fun m' hm' => hms m' (List.mem_cons_of_mem m hm')) (i + 1)
    refine ⟨s :: slots, ?_, by simp [hlen], ?_⟩
    · simp only [EncryptSeqWithZKP.encryptAll, hs, hslots, Except.ok_bind_eq, Except.pure_eq_ok]
    · intro s' hs'
      rcases List.mem_cons.1 hs' with rfl | h
      · exact hgood
      · exact hall s' h

theorem challenge_split (N ch d : Int) (hch : ch % N = ch) : ch = (d + (ch - d) % N) % N := by
  rw [Int.add_emod, Int.emod_emod_of_dvd _ (dvd_refl _), ← Int.add_emod]
  simp [hch]

theorem check_respond_commit {pk : PublicKey} (s : EncSlot) (hs : EncSlot.Good M pk s)
    (dr : ZKPDraw) (ch : Int) (hch : ch % c.N = ch) :
    VerifySeqZKP.check pk c ch s.ciphertext
      (EncryptSeqWithZKP.respond c ch s (EncryptSeqWithZKP.commit pk c s dr)) = .ok 0 := by
  obtain ⟨h, hH, hNh, hG, hz, hc1, hcase⟩ := hs
  have hw0 : (0 : Int) ≤ (big.SetBytes (newCryptoRandom (big.Bytes c.N) dr.w) : Int) :=
    Int.natCast_nonneg _
  have hr0 : (0 : Int) ≤ (big.SetBytes (newCryptoRandom (big.Bytes c.N) dr.r) : Int) :=
    Int.natCast_nonneg _
  have hd0 : (0 : Int) ≤ (big.SetBytes (newCryptoRandom (big.Bytes c.N) dr.d) : Int) :=
    Int.natCast_nonneg _
  rcases hcase with ⟨h1, hc2⟩ | ⟨h1, hc2⟩
  · simp only [VerifySeqZKP.check, EncryptSeqWithZKP.respond, EncryptSeqWithZKP.commit, if_pos h1,
      EncSlot.ciphertext, derefPoint_some, deref_some, Except.ok_bind_eq, Except.pure_eq_ok,
      Prod.mk.eta]
    generalize (big.SetBytes (newCryptoRandom (big.Bytes c.N) dr.w) : Int) = w at hw0 ⊢
    generalize (big.SetBytes (newCryptoRandom (big.Bytes c.N) dr.r) : Int) = r at hr0 ⊢
    generalize (big.SetBytes (newCryptoRandom (big.Bytes c.N) dr.d) : Int) = d at hd0 ⊢
    have hC := challenge_split c.N ch d hch
    have hA2 : c.ScalarBaseMult (big.Bytes w) =
        c.Add (c.ScalarBaseMult (big.Bytes ((w - s.z * ((ch - d) % c.N) % c.N) % c.N)))
          (c.ScalarMult s.c1 (big.Bytes ((ch - d) % c.N))) := by
      rw [hc1, M.scalarBaseMult_bytes _ hw0, M.scalarBaseMult_bytes _ (M.emod_nonneg _),
        M.scalarMult_bytes _ _ (M.emod_nonneg _), M.add_coords,
        response_opens M.g M.order]
    have hB2 : c.ScalarMult (pk.Hx, pk.Hy) (big.Bytes w) =
        c.Add (c.ScalarMult (pk.Hx, pk.Hy)
            (big.Bytes ((w - s.z * ((ch - d) % c.N) % c.N) % c.N)))
          (c.ScalarMult (c.Add s.c2 (c.ScalarBaseMult (big.Bytes ((-1) % c.N))))
            (big.Bytes ((ch - d) % c.N))) := by
      rw [hc2, hH, M.scalarMult_bytes _ _ hw0, M.scalarMult_bytes _ _ (M.emod_nonneg _),
        M.scalarBaseMult_bytes _ (M.emod_nonneg _), M.add_coords,
        M.scalarMult_bytes _ _ (M.emod_nonneg _), M.add_coords, M.emod_smul_g]
      congr 1
      rw [neg_smul, one_smul, add_neg_cancel_right, response_opens h hNh]
    simp only [← hA2, ← hB2, ← hC, ne_eq, not_true_eq_false, or_self, if_false]
  · have h1' : ¬(1 = s.m) := h1
    simp only [VerifySeqZKP.check, EncryptSeqWithZKP.respond, EncryptSeqWithZKP.commit, if_neg h1',
      EncSlot.ciphertext, derefPoint_some, deref_some, Except.ok_bind_eq, Except.pure_eq_ok,
      Prod.mk.eta]
    generalize (big.SetBytes (newCryptoRandom (big.Bytes c.N) dr.w) : Int) = w at hw0 ⊢
    generalize (big.SetBytes (newCryptoRandom (big.Bytes c.N) dr.r) : Int) = r at hr0 ⊢
    generalize (big.SetBytes (newCryptoRandom (big.Bytes c.N) dr.d) : Int) = d at hd0 ⊢
    have hC : ch = ((ch - d) % c.N + d) % c.N := by
      rw [add_comm]
      exact challenge_split c.N ch d hch
    have hA1 : c.ScalarBaseMult (big.Bytes w) =
        c.Add (c.ScalarBaseMult (big.Bytes ((w - s.z * ((ch - d) % c.N) % c.N) % c.N)))
          (c.ScalarMult s.c1 (big.Bytes ((ch - d) % c.N))) := by
      rw [hc1, M.scalarBaseMult_bytes _ hw0, M.scalarBaseMult_bytes _ (M.emod_nonneg _),
        M.scalarMult_bytes _ _ (M.emod_nonneg _), M.add_coords,
        response_opens M.g M.order]
    have hB1 : c.ScalarMult (pk.Hx, pk.Hy) (big.Bytes w) =
        c.Add (c.ScalarMult (pk.Hx, pk.Hy)
            (big.Bytes ((w - s.z * ((ch - d) % c.N) % c.N) % c.N)))
          (c.ScalarMult (c.Add s.c2 (pk.Gx, pk.Gy)) (big.Bytes ((ch - d) % c.N))) := by
      rw [hc2, hH, hG, M.scalarMult_bytes _ _ hw0, M.scalarMult_bytes _ _ (M.emod_nonneg _),
        M.add_coords, M.scalarMult_bytes _ _ (M.emod_nonneg _), M.add_coords]
      congr 1
      rw [sub_add_cancel, response_opens h hNh]
    simp only [← hA1, ← hB1, ← hC, ne_eq, not_true_eq_false, or_self, if_false]

theorem ciphertext_bytes (s : EncSlot) : Ciphertext.bytes s.ciphertext = .ok s.bytes := by
  simp [Ciphertext.bytes, EncSlot.ciphertext, EncSlot.bytes]

theorem respond_bytes (N : Curve) (ch : Int) (s : EncSlot) (t : CommitSlot) :
    ZKP.bytes (EncryptSeqWithZKP.respond N ch s t) = .ok t.bytes := by
  unfold EncryptSeqWithZKP.respond
  split <;> simp [ZKP.bytes, CommitSlot.bytes]

theorem mapM_ciphertext_bytes (slots : List EncSlot) :
    (slots.map EncSlot.ciphertext).mapM Ciphertext.bytes = .ok (slots.map EncSlot.bytes) := by
  induction slots with
  | nil => rfl
  | cons s slots ih =>
    rw [List.map_cons, List.mapM_cons, ciphertext_bytes, ih]
    rfl

theorem mapM_respond_bytes (N : Curve) (ch : Int) (slots : List EncSlot)
    (commits : List CommitSlot) (hlen : commits.length = slots.length) :
    (List.zipWith (EncryptSeqWithZKP.respond N ch) slots commits).mapM ZKP.bytes =
      .ok (commits.map CommitSlot.bytes) := by
  induction slots generalizing commits with
  | nil =>
    have : commits = [] := List.length_eq_zero.1 hlen
    subst this
    rfl
  | cons s slots ih =>
    cases commits with
    | nil => simp at hlen
    | cons t commits =>
      rw [List.zipWith_cons_cons, List.mapM_cons, respond_bytes,
        ih commits (by simpa using hlen)]
      rfl

theorem length_commitAll (pk : PublicKey) (N : Curve) (draws : Nat → ZKPDraw) (i : Nat)
    (slots : List EncSlot) :
    (EncryptSeqWithZKP.commitAll pk N draws i slots).length = slots.length := by
  induction slots generalizing i with
  | nil => rfl
  | cons s slots ih => simp [EncryptSeqWithZKP.commitAll, ih]

theorem checkAll_respond_commitAll {pk : PublicKey} (draws : Nat → ZKPDraw) (ch : Int)
    (hch : ch % c.N = ch) (slots : List EncSlot) (hgood : ∀ s ∈ slots, EncSlot.Good M pk s)
    (i : Nat) :
    VerifySeqZKP.checkAll pk c ch (slots.map EncSlot.ciphertext)
      (List.zipWith (EncryptSeqWithZKP.respond c ch) slots
        (EncryptSeqWithZKP.commitAll pk c draws i slots)) = .ok 0 := by
  induction slots generalizing i with
  | nil => rfl
  | cons s slots ih =>
    simp only [List.map_cons, EncryptSeqWithZKP.commitAll, List.zipWith_cons_cons,
      VerifySeqZKP.checkAll,
      check_respond_commit M s (hgood s (List.mem_cons_self s slots)) (draws i) ch hch,
      ih (fun s' hs' => hgood s' (List.mem_cons_of_mem s hs')) (i + 1), Except.ok_bind_eq,
      Except.pure_eq_ok]

theorem workerChan_ok (numThreads : Int) (h : 1 ≤ numThreads) (work : Nat) :
    workerChan numThreads work = .ok () := by
  unfold workerChan
  rw [if_neg (by omega), if_neg (by omega)]

end elgamal

namespace Curve.Model
variable {c : Curve} {Pt : Type} [AddCommGroup Pt] (M : c.Model Pt)

/-- In a model of a curve of prime order, `N` times any element is zero. -/
theorem exponent_of_primeOrder (M : c.Model Pt) (hp : c.PrimeOrder) (a : Pt) : c.N • a = 0 := by
  have h := hp.2.2 (M.coords a) ((M.isPoint_iff _).2 ⟨a, rfl⟩)
  rw [M.scalarMult_bytes _ _ (le_of_lt M.N_pos), ← M.coords_zero, M.coords_eq_iff] at h
  exact h

/-- In a group of prime exponent `N`, a scalar kills a nonzero element only if `N`
divides it. -/
theorem dvd_of_zsmul_eq_zero (M : c.Model Pt) (hprime : Nat.Prime c.N.natAbs)
    (hexp : ∀ a : Pt, c.N • a = 0)
    (a : Pt) (ha : a ≠ 0) (d : Int) (hd : d • a = 0) : c.N ∣ d := by
  haveI : Fact (Nat.Prime c.N.natAbs) := ⟨hprime⟩
  have hN : (c.N.natAbs : Int) = c.N := Int.natAbs_of_nonneg (le_of_lt M.N_pos)
  have h1 : c.N.natAbs • a = 0 := by
    rw [← natCast_zsmul, hN]
    exact hexp a
  have hord : addOrderOf a = c.N.natAbs := addOrderOf_eq_prime h1 ha
  have := (addOrderOf_dvd_iff_zsmul_eq_zero (x := a) (i := d)).2 hd
  rwa [hord, hN] at this

end Curve.Model

namespace elgamal
variable {c : Curve} {Pt : Type} [AddCommGroup Pt] (M : c.Model Pt)

end elgamal

namespace elgamal

variable {c : Curve} {Pt : Type} [AddCommGroup Pt] (M : c.Model Pt)

end elgamal

namespace elgamal
variable {c : Curve} {Pt : Type} [AddCommGroup Pt] (M : c.Model Pt)

end elgamal

namespace elgamal
variable {c : Curve} {Pt : Type} [AddCommGroup Pt] (M : c.Model Pt)

theorem challenge_emod (L : Lib) (pk : PublicKey) (N : Curve) (draws : Nat → ZKPDraw)
    (slots : List EncSlot) :
    EncryptSeqWithZKP.challenge L pk N draws slots % N.N =
      EncryptSeqWithZKP.challenge L pk N draws slots :=
  Int.emod_emod_of_dvd _ (dvd_refl _)

/-- The result of `EncryptSeqWithZKP` on a vector of `+1` / `-1`, slot by slot. -/
theorem EncryptSeqWithZKP_eq (L : Lib) {pk : PublicKey} {sk : SecretKey}
    (hk : KeyPair c pk sk) (ms : List Int) (hms : ∀ m ∈ ms, m = 1 ∨ m = -1)
    (numThreads : Int) (hT : 1 ≤ numThreads) (draws : Nat → ZKPDraw) :
    ∃ slots, EncryptSeqWithZKP.encryptAll pk c draws 0 ms = .ok slots ∧
      slots.length = ms.length ∧ (∀ s ∈ slots, EncSlot.Good M pk s) ∧
      pk.EncryptSeqWithZKP L ms numThreads draws =
        .ok (slots.map EncSlot.ciphertext,
          List.zipWith (EncryptSeqWithZKP.respond c (EncryptSeqWithZKP.challenge L pk c draws slots))
            slots (EncryptSeqWithZKP.commitAll pk c draws 0 slots),
          EncryptSeqWithZKP.challenge L pk c draws slots) := by
  obtain ⟨slots, hslots, hlen, hgood⟩ := encryptAll_good M hk draws ms hms 0
  refine ⟨slots, hslots, hlen, hgood, ?_⟩
  simp only [PublicKey.EncryptSeqWithZKP, hk.1, derefCurve_some, Except.ok_bind_eq,
    workerChan_ok numThreads hT, hslots, Except.pure_eq_ok]
  rfl

end elgamal

namespace big

theorem natBytes_SetBytes (bs : List Nat) (hlt : ∀ b ∈ bs, b < 256)
    (hhead : ∀ h : bs ≠ [], bs.head h ≠ 0) : natBytes (SetBytes bs) = bs := by
  rw [natBytes_eq, SetBytes_eq, Nat.digits_ofDigits 256 (by norm_num) bs.reverse
    (by simpa using hlt) ?_, List.reverse_reverse]
  intro h
  rw [List.getLast_reverse]
  exact hhead _

end big

namespace elgamal
variable {c : Curve} {Pt : Type} [AddCommGroup Pt] (M : c.Model Pt)

theorem polynomial_eq (N : Curve) (x : Int) :
    polynomial N x = (x * x * x - 3 * x + N.B) % N.P := by
  have h : x * x * x - (x * 2 + x) + N.B = x * x * x - 3 * x + N.B := by ring
  show (x * x * x - (x * 2 + x) + N.B) % N.P = _
  rw [h]

/-- Candidates from `P` on are never accepted. -/
theorem search_out_of_range (M : c.Model Pt) (L : Lib) (n : Nat) (mx my0 mx' my' : Int)
    (hP : c.P ≤ mx) (hs : EncryptMul.search L c n mx my0 = .ok (mx', my')) :
    c.IsOnCurve mx' my' = false := by
  induction n generalizing mx my0 with
  | zero =>
    simp only [EncryptMul.search, Except.ok.injEq, Prod.mk.injEq] at hs
    obtain ⟨rfl, rfl⟩ := hs
    by_contra hon
    rw [Bool.not_eq_false] at hon
    have := (M.isOnCurve_eqn _ _).1 hon
    omega
  | succ n ih =>
    unfold EncryptMul.search at hs
    split at hs
    · simp at hs
    · rename_i r hr
      have hoff : c.IsOnCurve mx r = false := by
        by_contra hon
        rw [Bool.not_eq_false] at hon
        have := (M.isOnCurve_eqn _ _).1 hon
        omega
      rw [hoff] at hs
      simp only [Bool.false_eq_true, if_false] at hs
      exact ih (mx + 1) r (by omega) hs

/-- With a sound `ModSqrt`, a search that ends on a point of the curve ends on its first
candidate: a rejected candidate with a root is out of range, and so are all later ones. -/
theorem search_found (M : c.Model Pt) (L : Lib) (hsound : L.ModSqrtSound) (n : Nat)
    (mx my0 mx' my' : Int) (h0 : 0 ≤ mx)
    (hs : EncryptMul.search L c (n + 1) mx my0 = .ok (mx', my'))
    (hon : c.IsOnCurve mx' my' = true) : mx' = mx := by
  unfold EncryptMul.search at hs
  split at hs
  · simp at hs
  · rename_i r hr
    by_cases hfirst : c.IsOnCurve mx r = true
    · rw [if_pos hfirst] at hs
      simp only [Except.ok.injEq, Prod.mk.injEq] at hs
      exact hs.1.symm
    · rw [if_neg hfirst] at hs
      exfalso
      have hrange : c.P ≤ mx := by
        by_contra hlt
        apply hfirst
        obtain ⟨hr0, hrP, hrsq⟩ := hsound _ _ _ hr
        rw [M.isOnCurve_eqn]
        refine ⟨h0, by omega, hr0, hrP, ?_⟩
        rw [hrsq, polynomial_eq]
        exact Int.emod_emod_of_dvd _ (dvd_refl _)
      have := search_out_of_range M L n (mx + 1) r mx' my' (by omega) hs
      rw [hon] at this
      exact Bool.noConfusion this

/-- What a successful `EncryptMul` returns: an encryption of a point of the curve whose
x-coordinate is the padded message. -/
theorem EncryptMul_eq (M : c.Model Pt) (L : Lib) (hsound : L.ModSqrtSound) {pk : PublicKey}
    {h : Pt} (hpk : pk.Curve = some c) (hH : (pk.Hx, pk.Hy) = M.coords h) (msg : List Nat)
    (z : Nat) (ct : Ciphertext) (hE : pk.EncryptMul L msg z = .ok ct) :
    ∃ P : Pt, (M.coords P).1 = (big.SetBytes (msg ++ List.replicate PaddingBytes 0) : Int) ∧
      ct = Ciphertext.ofPoints (M.coords (c.draw z • M.g)) (M.coords (P + c.draw z • h)) := by
  simp only [PublicKey.EncryptMul, hpk, derefCurve_some, Except.ok_bind_eq] at hE
  cases hsearch : EncryptMul.search L c (2 ^ (PaddingBytes * 8))
      (big.SetBytes (msg ++ List.replicate PaddingBytes 0) : Int) 0 with
  | error e => simp [hsearch] at hE
  | ok r =>
    obtain ⟨mx, my⟩ := r
    rw [hsearch] at hE
    simp only [Except.ok_bind_eq] at hE
    by_cases hon : c.IsOnCurve mx my = true
    · simp only [hon, Bool.not_true, Bool.false_eq_true, if_false, Except.pure_eq_ok,
        Except.ok.injEq] at hE
      have hmx : mx = (big.SetBytes (msg ++ List.replicate PaddingBytes 0) : Int) :=
        search_found M L hsound (2 ^ (PaddingBytes * 8) - 1) _ 0 mx my (Int.natCast_nonneg _)
          hsearch hon
      obtain ⟨-, P, hP⟩ := (M.isOnCurve_iff mx my).1 hon
      refine ⟨P, by rw [hP, hmx], ?_⟩
      rw [← hE, ← hP, hH, scalarBaseMult_newCryptoRandom M, scalarMult_newCryptoRandom,
        M.add_coords]
      rfl
    · simp [hon] at hE

theorem Decrypt_eq (M : c.Model Pt) {sk : SecretKey} (hsk : sk.Curve = some c)
    (hs : (big.SetBytes sk.Priv : Int) ≤ c.N) (a μ : Pt) (ha : c.N • a = 0) :
    sk.Decrypt (Ciphertext.ofPoints (M.coords a)
        (M.coords (μ + (big.SetBytes sk.Priv : Int) • a))) =
      if (big.Bytes (M.coords μ).1).length < PaddingBytes then .error .sliceBounds
      else .ok ((big.Bytes (M.coords μ).1).take
        ((big.Bytes (M.coords μ).1).length - PaddingBytes)) := by
  have hplain : μ + (big.SetBytes sk.Priv : Int) • a +
      (c.N - (big.SetBytes sk.Priv : Int)) • a = μ := by
    rw [sub_smul, ha]
    abel
  simp only [SecretKey.Decrypt, hsk, derefCurve_some, Except.ok_bind_eq, ofPoints_C1x,
    ofPoints_C1y, ofPoints_C2x, ofPoints_C2y, derefPoint_some, Prod.mk.eta,
    M.scalarMult_bytes _ _ (sub_nonneg.2 hs), M.add_coords, hplain, Except.pure_eq_ok]

end elgamal

theorem bloom.BloomFilter.location_ok (L : Lib) (f : bloom.BloomFilter) (hm : f.m ≠ 0)
    (data : List Nat) (i : Nat) :
    f.location L data i = .ok (bloom.HashSha1 L (data ++ bloom.le64 i) % f.m) := by
  unfold bloom.BloomFilter.location
  rw [if_neg hm]

theorem bloom.BloomFilter.testLoop_isOk (L : Lib) (f : bloom.BloomFilter) (hm : f.m ≠ 0)
    (data : List Nat) (n i : Nat) : ∃ t, f.testLoop L data n i = .ok t := by
  induction n generalizing i with
  | zero => exact ⟨true, rfl⟩
  | succ n ih =>
    unfold bloom.BloomFilter.testLoop
    simp only [bloom.BloomFilter.location_ok L f hm, Except.ok_bind_eq]
    split
    · exact ⟨false, rfl⟩
    · exact ih _

theorem bloom.BloomFilter.test_isOk (L : Lib) (f : bloom.BloomFilter) (hm : f.m ≠ 0)
    (data : List Nat) : ∃ t, f.Test L data = .ok t :=
  bloom.BloomFilter.testLoop_isOk L f hm data _ _

namespace elgamal
variable {c : Curve} {Pt : Type} [AddCommGroup Pt] (M : c.Model Pt)

section IsEnc
variable {S : AddSubgroup Pt} {s : Int} {pk : PublicKey} (hpk : pk.Curve = some c)
include hpk

theorem IsEnc.encrypt (hH : (pk.Hx, pk.Hy) = M.coords (s • M.g)) (hg : M.g ∈ S) (m : Int)
    (z : Nat) : ∃ ct, pk.Encrypt m z = .ok ct ∧ IsEnc M S s (m • M.g) ct := by
  refine ⟨_, Encrypt_eq M hpk hH m z, c.draw z • M.g, S.zsmul_mem hg _, ?_⟩
  rw [smul_comm]

theorem IsEnc.add {μ₁ μ₂ : Pt} {ct₁ ct₂ : Ciphertext} (h₁ : IsEnc M S s μ₁ ct₁)
    (h₂ : IsEnc M S s μ₂ ct₂) (z : Nat) :
    ∃ ct, pk.Add ct₁ ct₂ false z = .ok ct ∧ IsEnc M S s (μ₁ + μ₂) ct := by
  obtain ⟨a₁, ha₁, rfl⟩ := h₁
  obtain ⟨a₂, ha₂, rfl⟩ := h₂
  refine ⟨_, Add_eq M hpk _ _ _ _ z, a₁ + a₂, S.add_mem ha₁ ha₂, ?_⟩
  congr 2
  rw [smul_add]
  abel

theorem IsEnc.scalarMultRandomizer {μ : Pt} {ct : Ciphertext} (h : IsEnc M S s μ ct)
    (r z : Nat) :
    ∃ ct', pk.ScalarMultRandomizer ct false r z = .ok ct' ∧ IsEnc M S s (c.draw r • μ) ct' := by
  obtain ⟨a, ha, rfl⟩ := h
  refine ⟨_, ScalarMultRandomizer_eq M hpk _ _ r z, c.draw r • a, S.zsmul_mem ha _, ?_⟩
  congr 2
  rw [smul_add, smul_comm]

theorem IsEnc.encryptMul (L : Lib) (hsound : L.ModSqrtSound)
    (hH : (pk.Hx, pk.Hy) = M.coords (s • M.g)) (hg : M.g ∈ S) (msg : List Nat) (z : Nat)
    (ct : Ciphertext) (hE : pk.EncryptMul L msg z = .ok ct) :
    ∃ P : Pt, (M.coords P).1 = (big.SetBytes (msg ++ List.replicate PaddingBytes 0) : Int) ∧
      IsEnc M S s P ct := by
  obtain ⟨P, hP, rfl⟩ := EncryptMul_eq M L hsound hpk hH msg z ct hE
  refine ⟨P, hP, c.draw z • M.g, S.zsmul_mem hg _, ?_⟩
  rw [smul_comm]

theorem IsEnc.bytes_roundtrip {μ : Pt} {ct : Ciphertext} (h : IsEnc M S s μ ct)
    (pointCompression : Bool) :
    ∃ Z, pk.Ciphertext2Bytes ct pointCompression = .ok Z ∧
      pk.Bytes2Ciphertext Z pointCompression = .ok ct := by
  obtain ⟨a, -, rfl⟩ := h
  cases pointCompression
  · refine ⟨_, by simp [PublicKey.Ciphertext2Bytes, hpk]; rfl, ?_⟩
    simp [PublicKey.Bytes2Ciphertext, hpk, M.unmarshal_marshal, unmarshalled,
      Ciphertext.ofPoints]
  · refine ⟨_, by simp [PublicKey.Ciphertext2Bytes, hpk]; rfl, ?_⟩
    simp [PublicKey.Bytes2Ciphertext, hpk, M.unmarshalCompressed_marshalCompressed,
      unmarshalled, Ciphertext.ofPoints]

end IsEnc

theorem IsEnc.decryptAndCheck0 {S : AddSubgroup Pt} {sk : SecretKey} (hsk : sk.Curve = some c)
    {μ : Pt} {ct : Ciphertext} (h : IsEnc M S (big.SetBytes sk.Priv : Int) μ ct) :
    ∃ b, sk.DecryptAndCheck0 ct = .ok b ∧ (b = true ↔ μ = 0) := by
  obtain ⟨a, -, rfl⟩ := h
  obtain ⟨b, hb, hiff⟩ := DecryptAndCheck0_eq M hsk a (μ + (big.SetBytes sk.Priv : Int) • a)
  refine ⟨b, hb, hiff.trans ?_⟩
  constructor
  · intro h
    have := congrArg (fun x => x - (big.SetBytes sk.Priv : Int) • a) h
    simpa using this.symm
  · intro h
    rw [h, zero_add]

theorem Encrypts.isEnc {sk : SecretKey} {ct : Ciphertext} {m : Int} (h : Encrypts c sk ct m) :
    IsEnc M ⊤ (big.SetBytes sk.Priv : Int) (m • M.g) ct := by
  obtain ⟨p, hp, rfl⟩ := h
  obtain ⟨a, rfl⟩ := (M.isPoint_iff p).1 hp
  refine ⟨a, AddSubgroup.mem_top a, ?_⟩
  rw [M.scalarBaseMult_bytes _ (M.emod_nonneg m), M.scalarMult_nat, M.add_coords,
    M.emod_smul_g]

end elgamal

namespace elgamal

theorem verifySeqZKP_workerChan {L : Lib} {pk : PublicKey} {cs : List Ciphertext}
    {zkps : List ZKP} {ch numThreads : Int} {b : Bool}
    (h : pk.VerifySeqZKP L cs zkps ch numThreads = .ok b) :
    workerChan numThreads zkps.length = .ok () := by
  unfold PublicKey.VerifySeqZKP at h
  cases hc : derefCurve pk.Curve with
  | error e =>
    rw [hc, Except.error_bind_eq] at h
    cases h
  | ok curve =>
    cases h1 : cs.mapM Ciphertext.bytes with
    | error e =>
      rw [hc, Except.ok_bind_eq, h1, Except.error_bind_eq] at h
      cases h
    | ok csBytes =>
      cases h2 : zkps.mapM ZKP.bytes with
      | error e =>
        rw [hc, Except.ok_bind_eq, h1, Except.ok_bind_eq, h2, Except.error_bind_eq] at h
        cases h
      | ok zkpBytes =>
        cases h3 : workerChan numThreads zkps.length with
        | error e =>
          rw [hc, Except.ok_bind_eq, h1, Except.ok_bind_eq, h2, Except.ok_bind_eq] at h
          dsimp only at h
          rw [h3, Except.error_bind_eq] at h
          cases h
        | ok u => rfl

theorem workerChan_length {numThreads : Int} {n m : Nat}
    (h : workerChan numThreads n = .ok ()) (hnm : m = n) : workerChan numThreads m = .ok () := by
  rw [hnm]
  exact h

end elgamal

namespace pcr
open elgamal bloom

theorem RespDeployment.decode_length (pk : PublicKey) (pc : Bool) :
    ∀ (cbs : List CiphertextByte) (zs : List ZKPByte) (cs : List Ciphertext) (ps : List ZKP),
      RespDeployment.decode pk pc cbs zs = .ok (cs, ps) →
      cs.length = cbs.length ∧ ps.length = cbs.length
  | [], _, cs, ps, h => by
    simp only [RespDeployment.decode, Except.ok.injEq, Prod.mk.injEq] at h
    obtain ⟨rfl, rfl⟩ := h
    exact ⟨rfl, rfl⟩
  | cb :: cbs, [], cs, ps, h => by
    unfold RespDeployment.decode at h
    cases hc : pk.Bytes2Ciphertext cb pc <;> simp [hc] at h
  | cb :: cbs, pb :: pbs, cs, ps, h => by
    unfold RespDeployment.decode at h
    cases hc : pk.Bytes2Ciphertext cb pc with
    | error e => simp [hc] at h
    | ok ct =>
      cases hp : pk.Bytes2ZKP pb pc with
      | error e => simp [hc, hp] at h
      | ok p =>
        cases hr : RespDeployment.decode pk pc cbs pbs with
        | error e => simp [hc, hp, hr] at h
        | ok r =>
          obtain ⟨cs', ps'⟩ := r
          simp only [hc, hp, hr, Except.ok_bind_eq, Except.pure_eq_ok, Except.ok.injEq,
            Prod.mk.injEq] at h
          obtain ⟨rfl, rfl⟩ := h
          obtain ⟨h1, h2⟩ := RespDeployment.decode_length pk pc cbs pbs cs' ps' hr
          simp [h1, h2]

theorem RespDeployment.sum_isEnc {c : Curve} {Pt : Type} [AddCommGroup Pt] (M : c.Model Pt)
    {S : AddSubgroup Pt} {s : Int} {pk : PublicKey} (hpk : pk.Curve = some c) :
    ∀ (ebf : List Ciphertext) (μs : List Pt),
      List.Forall₂ (fun ct μ => IsEnc M S s μ ct) ebf μs →
      ∀ (ct₀ : Ciphertext) (μ₀ : Pt), IsEnc M S s μ₀ ct₀ →
      ∃ ct, RespDeployment.sum pk ct₀ ebf = .ok ct ∧ IsEnc M S s (μ₀ + μs.sum) ct := by
  intro ebf μs h
  induction h with
  | nil =>
    intro ct₀ μ₀ h₀
    exact ⟨ct₀, rfl, by simpa using h₀⟩
  | cons hhead _ ih =>
    intro ct₀ μ₀ h₀
    obtain ⟨ct₁, hadd, h₁⟩ := IsEnc.add M hpk h₀ hhead 0
    obtain ⟨ct, hsum, hct⟩ := ih ct₁ _ h₁
    refine ⟨ct, ?_, ?_⟩
    · unfold RespDeployment.sum
      simp only [hadd, Except.ok_bind_eq]
      exact hsum
    · simpa [add_assoc] using hct

theorem sum_pm_one : ∀ (ms : List Int), (∀ m ∈ ms, m = 1 ∨ m = -1) →
    ms.sum = 2 * (ms.count 1 : Int) - ms.length
  | [], _ => by simp
  | m :: ms, h => by
    have ih := sum_pm_one ms (fun x hx => h x (List.mem_cons_of_mem _ hx))
    rcases h m (List.mem_cons_self _ _) with rfl | rfl
    · simp only [List.sum_cons, List.count_cons_self, List.length_cons, ih]
      push_cast
      ring
    · rw [List.sum_cons, List.count_cons_of_ne (by decide), List.length_cons, ih]
      push_cast
      ring

theorem wrapInt64_eq (x : Int) (h1 : -2 ^ 63 ≤ x) (h2 : x < 2 ^ 63) : wrapInt64 x = x := by
  unfold wrapInt64
  omega

end pcr

theorem List.sum_map_zsmul {Pt : Type} [AddCommGroup Pt] (g : Pt) :
    ∀ ms : List Int, (ms.map (fun m => m • g)).sum = ms.sum • g
  | [] => by simp
  | m :: ms => by
    rw [List.map_cons, List.sum_cons, List.sum_cons, add_smul, List.sum_map_zsmul g ms]

namespace elgamal
variable {c : Curve} {Pt : Type} [AddCommGroup Pt] (M : c.Model Pt)

theorem Ciphertext.IsPair.pair_roundtrip {pk : PublicKey} (hpk : pk.Curve = some c)
    {ct : Ciphertext} (h : ct.IsPair M) (pointCompression : Bool) :
    ∃ Z, pk.Ciphertext2Bytes ct pointCompression = .ok Z ∧
      pk.Bytes2Ciphertext Z pointCompression = .ok ct := by
  obtain ⟨a, b, rfl⟩ := h
  cases pointCompression
  · refine ⟨_, by simp [PublicKey.Ciphertext2Bytes, hpk]; rfl, ?_⟩
    simp [PublicKey.Bytes2Ciphertext, hpk, M.unmarshal_marshal, unmarshalled,
      Ciphertext.ofPoints]
  · refine ⟨_, by simp [PublicKey.Ciphertext2Bytes, hpk]; rfl, ?_⟩
    simp [PublicKey.Bytes2Ciphertext, hpk, M.unmarshalCompressed_marshalCompressed,
      unmarshalled, Ciphertext.ofPoints]

theorem ZKP.IsProof.proof_roundtrip {pk : PublicKey} (hpk : pk.Curve = some c)
    {p : ZKP} (h : p.IsProof M) (pointCompression : Bool) :
    ∃ Z, pk.ZKP2Bytes p pointCompression = .ok Z ∧
      pk.Bytes2ZKP Z pointCompression = .ok p := by
  obtain ⟨a1, b1, a2, b2, d1, d2, r1, r2, hd1, hd2, hr1, hr2, rfl⟩ := h
  have e1 := big.SetBytes_Bytes d1 hd1
  have e2 := big.SetBytes_Bytes d2 hd2
  have e3 := big.SetBytes_Bytes r1 hr1
  have e4 := big.SetBytes_Bytes r2 hr2
  cases pointCompression
  · refine ⟨_, by simp [PublicKey.ZKP2Bytes, hpk]; rfl, ?_⟩
    simp [PublicKey.Bytes2ZKP, hpk, M.unmarshal_marshal, unmarshalled, e1, e2, e3, e4]
  · refine ⟨_, by simp [PublicKey.ZKP2Bytes, hpk]; rfl, ?_⟩
    simp [PublicKey.Bytes2ZKP, hpk, M.unmarshalCompressed_marshalCompressed, unmarshalled,
      e1, e2, e3, e4]

end elgamal

namespace elgamal
variable {c : Curve} {Pt : Type} [AddCommGroup Pt] (M : c.Model Pt)

theorem respond_isProof {pk : PublicKey} (s : EncSlot) (hs : EncSlot.Good M pk s)
    (dr : ZKPDraw) (ch : Int) :
    (EncryptSeqWithZKP.respond c ch s (EncryptSeqWithZKP.commit pk c s dr)).IsProof M := by
  obtain ⟨h, hH, -, hG, hz, hc1, hcase⟩ := hs
  have hw0 : (0 : Int) ≤ (big.SetBytes (newCryptoRandom (big.Bytes c.N) dr.w) : Int) :=
    Int.natCast_nonneg _
  have hr0 : (0 : Int) ≤ (big.SetBytes (newCryptoRandom (big.Bytes c.N) dr.r) : Int) :=
    Int.natCast_nonneg _
  have hd0 : (0 : Int) ≤ (big.SetBytes (newCryptoRandom (big.Bytes c.N) dr.d) : Int) :=
    Int.natCast_nonneg _
  rcases hcase with ⟨h1, hc2⟩ | ⟨h1, hc2⟩
  · simp only [EncryptSeqWithZKP.respond, EncryptSeqWithZKP.commit, if_pos h1, hc1, hc2, hH, hG,
      M.scalarBaseMult_bytes _ hw0, M.scalarBaseMult_bytes _ hr0, M.scalarMult_bytes _ _ hw0,
      M.scalarMult_bytes _ _ hr0, M.scalarMult_bytes _ _ hd0, M.add_coords]
    exact ⟨_, _, _, _, _, _, _, _, hd0, M.emod_nonneg _, hr0, M.emod_nonneg _, rfl⟩
  · simp only [EncryptSeqWithZKP.respond, EncryptSeqWithZKP.commit, if_neg h1, hc1, hc2, hH, hG,
      M.scalarBaseMult_bytes _ hw0, M.scalarBaseMult_bytes _ hr0, M.scalarMult_bytes _ _ hw0,
      M.scalarMult_bytes _ _ hr0, M.scalarMult_bytes _ _ hd0, M.add_coords,
      M.scalarBaseMult_bytes _ (M.emod_nonneg _)]
    exact ⟨_, _, _, _, _, _, _, _, M.emod_nonneg _, hd0, M.emod_nonneg _, hr0, rfl⟩

theorem zipWith_respond_isProof {pk : PublicKey} (draws : Nat → ZKPDraw) (ch : Int) :
    ∀ (slots : List EncSlot) (j : Nat), (∀ s ∈ slots, EncSlot.Good M pk s) →
      ∀ p ∈ List.zipWith (EncryptSeqWithZKP.respond c ch) slots
        (EncryptSeqWithZKP.commitAll pk c draws j slots), p.IsProof M
  | [], _, _, p, hp => by simp [EncryptSeqWithZKP.commitAll] at hp
  | s :: slots, j, hgood, p, hp => by
    simp only [EncryptSeqWithZKP.commitAll, List.zipWith_cons_cons, List.mem_cons] at hp
    rcases hp with rfl | hp
    · exact respond_isProof M s (hgood s (List.mem_cons_self _ _)) _ ch
    · exact zipWith_respond_isProof draws ch slots (j + 1)
        (fun s' hs' => hgood s' (List.mem_cons_of_mem _ hs')) p hp

theorem EncSlot.Good.slotPair {pk : PublicKey} {s : EncSlot} (hs : EncSlot.Good M pk s) :
    s.ciphertext.IsPair M := by
  obtain ⟨h, -, -, -, -, hc1, hcase⟩ := hs
  rcases hcase with ⟨-, hc2⟩ | ⟨-, hc2⟩
  · exact ⟨_, _, by rw [EncSlot.ciphertext, hc1, hc2]; rfl⟩
  · exact ⟨_, _, by rw [EncSlot.ciphertext, hc1, hc2]; rfl⟩

end elgamal

namespace pcr
open elgamal bloom

theorem encode_decode {c : Curve} {Pt : Type} [AddCommGroup Pt] (M : c.Model Pt)
    {pk : PublicKey} (hpk : pk.Curve = some c) (pc : Bool) :
    ∀ (cs : List Ciphertext) (zkps : List ZKP), (∀ ct ∈ cs, ct.IsPair M) →
      (∀ p ∈ zkps, p.IsProof M) → cs.length = zkps.length →
      ∃ eb zb, QueryGen.encode pk pc cs zkps = .ok (eb, zb) ∧
        RespDeployment.decode pk pc eb zb = .ok (cs, zkps) ∧ eb.length = cs.length
  | [], [], _, _, _ => ⟨[], [], rfl, rfl, rfl⟩
  | [], _ :: _, _, _, h => by simp at h
  | _ :: _, [], _, _, h => by simp at h
  | ct :: cs, p :: ps, hcs, hps, hlen => by
    obtain ⟨Z, hZ, hZ'⟩ := (hcs ct (List.mem_cons_self _ _)).pair_roundtrip M hpk pc
    obtain ⟨Y, hY, hY'⟩ := (hps p (List.mem_cons_self _ _)).proof_roundtrip M hpk pc
    obtain ⟨eb, zb, he, hd, hl⟩ := encode_decode M hpk pc cs ps
      (fun x hx => hcs x (List.mem_cons_of_mem _ hx))
      (fun x hx => hps x (List.mem_cons_of_mem _ hx)) (by simpa using hlen)
    refine ⟨Z :: eb, Y :: zb, ?_, ?_, by simp [hl]⟩
    · simp only [QueryGen.encode, hZ, hY, he, Except.ok_bind_eq, Except.pure_eq_ok]
    · simp only [RespDeployment.decode, hZ', hY', hd, Except.ok_bind_eq, Except.pure_eq_ok]

end pcr

namespace elgamal

theorem initCurve_eq_self {L : Lib} {pk : PublicKey} {c : Curve}
    (hpk : pk.Curve = some c) (hsec : initCurve L pk.SecParam = some c) :
    pk.InitCurve L = pk := by
  cases pk
  simp only [PublicKey.InitCurve] at *
  rw [hsec, hpk]

end elgamal

/-! ## Bits of bytes and words -/

namespace big

theorem SetBytes_append_singleton (bs : List Nat) (b : Nat) :
    SetBytes (bs ++ [b]) = SetBytes bs * 256 + b := by
  simp [SetBytes, List.foldl_append]

theorem SetBytes_lt (bs : List Nat) (h : ∀ b ∈ bs, b < 256) : SetBytes bs < 256 ^ bs.length := by
  induction bs using List.reverseRecOn with
  | nil => simp [SetBytes]
  | append_singleton bs b ih =>
    have h1 := ih (fun x hx => h x (List.mem_append_left _ hx))
    have h2 : b < 256 := h b (by simp)
    rw [SetBytes_append_singleton, List.length_append, List.length_singleton, pow_succ]
    nlinarith

/-- The bits set in a byte string: those of its bytes, eight per byte. -/
theorem countP_testBit_SetBytes (bs : List Nat) (h : ∀ b ∈ bs, b < 256) :
    (List.range (8 * bs.length)).countP (fun u => (SetBytes bs).testBit u) =
      (bs.map fun b => (List.range 8).countP fun u => b.testBit u).sum := by
  induction bs using List.reverseRecOn with
  | nil => simp
  | append_singleton bs b ih =>
    have h1 := ih (fun x hx => h x (List.mem_append_left _ hx))
    have h2 : b < 2 ^ 8 := h b (by simp)
    have hlen : 8 * (bs ++ [b]).length = 8 + 8 * bs.length := by
      rw [List.length_append, List.length_singleton]
      ring
    have hbits : ∀ u, (SetBytes (bs ++ [b])).testBit u =
        if u < 8 then b.testBit u else (SetBytes bs).testBit (u - 8) := by
      intro u
      rw [SetBytes_append_singleton, mul_comm]
      exact Nat.testBit_mul_pow_two_add _ h2 u
    rw [hlen, List.range_add, List.countP_append, List.countP_map, List.map_append,
      List.sum_append, List.map_singleton, List.sum_singleton, ← h1, add_comm]
    congr 1
    · apply List.countP_congr
      intro u _
      simp [hbits]
    · apply List.countP_congr
      intro u hu
      have : u < 8 := List.mem_range.1 hu
      simp [hbits, this]

/-- The order on numbers "every bit of `a` is a bit of `b`". -/
theorem testBit_mono_SetBytes {bs bs' : List Nat}
    (h : List.Forall₂ (fun a b => a < 256 ∧ b < 256 ∧ ∀ u, a.testBit u = true → b.testBit u = true)
      bs bs') :
    ∀ u, (SetBytes bs).testBit u = true → (SetBytes bs').testBit u = true := by
  have key : ∀ (acc acc' : Nat), (∀ u, acc.testBit u = true → acc'.testBit u = true) →
      ∀ u, (bs.foldl (fun a b => a * 256 + b) acc).testBit u = true →
        (bs'.foldl (fun a b => a * 256 + b) acc').testBit u = true := by
    induction h with
    | nil => intro acc acc' hacc; exact hacc
    | cons hab _ ih =>
      intro acc acc' hacc
      simp only [List.foldl_cons]
      apply ih
      intro u
      obtain ⟨ha, hb, hbits⟩ := hab
      rw [mul_comm acc, mul_comm acc', Nat.testBit_mul_pow_two_add acc (i := 8) ha,
        Nat.testBit_mul_pow_two_add acc' (i := 8) hb]
      split
      · exact hbits u
      · exact hacc _
  exact key 0 0 (fun u h => h)

end big

namespace pcr

theorem OnesCount_byte (b : Nat) (h : b < 256) :
    OnesCount b = (List.range 8).countP fun u => b.testBit u := by
  unfold OnesCount
  rw [show (64 : Nat) = 8 + 56 from rfl, List.range_add, List.countP_append, List.countP_map]
  have : (List.range 56).countP ((fun j => b.testBit j) ∘ fun x => 8 + x) = 0 := by
    rw [List.countP_eq_zero]
    intro u _
    have hlt : b < 2 ^ (8 + u) := lt_of_lt_of_le h (by
      rw [pow_add]
      exact Nat.le_mul_of_pos_right _ (pow_pos (by norm_num) u))
    simp [Nat.testBit_lt_two_pow hlt]
  rw [this, add_zero]

theorem byteOnes_eq (B : List Nat) (h : ∀ b ∈ B, b < 256) :
    byteOnes B = (List.range (8 * B.length)).countP fun u => (big.SetBytes B).testBit u := by
  rw [big.countP_testBit_SetBytes B h]
  unfold byteOnes
  congr 1
  apply List.map_congr_left
  intro b hb
  exact OnesCount_byte b (h b hb)

theorem byteOnes_append (A B : List Nat) : byteOnes (A ++ B) = byteOnes A + byteOnes B := by
  simp [byteOnes]

end pcr

namespace bitset

theorem length_be64 (x : Nat) : (be64 x).length = 8 := by
  simp [be64]

theorem be64_lt (x : Nat) : ∀ b ∈ be64 x, b < 256 := by
  intro b hb
  simp only [be64, List.mem_map] at hb
  obtain ⟨j, -, rfl⟩ := hb
  exact Nat.mod_lt _ (by norm_num)

theorem SetBytes_be64 (x : Nat) (h : x < 2 ^ 64) : big.SetBytes (be64 x) = x := by
  simp only [be64, big.SetBytes, List.range_succ, List.range_zero, List.nil_append,
    List.map_append, List.map_cons, List.map_nil, List.foldl_append, List.foldl_cons,
    List.foldl_nil, Nat.shiftRight_eq_div_pow]
  omega

theorem byteOnes_be64 (x : Nat) (h : x < 2 ^ 64) : pcr.byteOnes (be64 x) = pcr.OnesCount x := by
  rw [pcr.byteOnes_eq _ (be64_lt x), length_be64, SetBytes_be64 x h]
  rfl

theorem length_readWords : ∀ (n : Nat) (data : List Nat), (readWords n data).length = n
  | 0, _ => rfl
  | n + 1, data => by simp [readWords, length_readWords n]

theorem readWords_lt : ∀ (n : Nat) (data : List Nat), (∀ b ∈ data, b < 256) →
    ∀ x ∈ readWords n data, x < 2 ^ 64
  | 0, _, _, x, hx => by simp [readWords] at hx
  | n + 1, data, h, x, hx => by
    simp only [readWords, List.mem_cons] at hx
    rcases hx with rfl | hx
    · have h1 := big.SetBytes_lt (data.take 8) (fun b hb => h b (List.mem_of_mem_take hb))
      have h2 : (data.take 8).length ≤ 8 := by simp
      calc big.SetBytes (data.take 8) < 256 ^ (data.take 8).length := h1
        _ ≤ 256 ^ 8 := Nat.pow_le_pow_right (by norm_num) h2
        _ = 2 ^ 64 := by norm_num
    · exact readWords_lt n _ (fun b hb => h b (List.mem_of_mem_drop hb)) x hx

theorem readWords_be64 : ∀ (words : List Nat) (rest : List Nat), (∀ x ∈ words, x < 2 ^ 64) →
    readWords words.length ((words.map be64).flatten ++ rest) = words
  | [], _, _ => rfl
  | x :: words, rest, h => by
    have hx := h x (List.mem_cons_self _ _)
    simp only [List.length_cons, readWords, List.map_cons, List.flatten_cons, List.append_assoc]
    rw [List.take_left' (length_be64 x), List.drop_left' (length_be64 x), SetBytes_be64 x hx,
      readWords_be64 words rest (fun y hy => h y (List.mem_cons_of_mem _ hy))]

/-- The one bits of the words read from a byte string are those of the bytes. -/
theorem sum_OnesCount_readWords : ∀ (n : Nat) (B : List Nat), B.length = 8 * n →
    (∀ b ∈ B, b < 256) → ((readWords n B).map pcr.OnesCount).sum = pcr.byteOnes B
  | 0, B, hlen, _ => by
    have : B = [] := List.eq_nil_of_length_eq_zero (by simpa using hlen)
    subst this
    rfl
  | n + 1, B, hlen, h => by
    have ht : (B.take 8).length = 8 := by
      rw [List.length_take]
      omega
    have ih := sum_OnesCount_readWords n (B.drop 8) (by rw [List.length_drop]; omega)
      (fun b hb => h b (List.mem_of_mem_drop hb))
    have h8 := pcr.byteOnes_eq (B.take 8) (fun b hb => h b (List.mem_of_mem_take hb))
    rw [ht] at h8
    simp only [readWords, List.map_cons, List.sum_cons, ih]
    conv_rhs => rw [← List.take_append_drop 8 B, pcr.byteOnes_append, h8]
    rfl

end bitset

namespace bitset

theorem BitSet.Test_eq (b : BitSet) (i : Nat) (h : i < b.length) :
    b.Test i = (b.set.getD (i / 64) 0).testBit (i % 64) := by
  unfold BitSet.Test
  rw [if_neg (by omega)]
  have e1 : i >>> log2WordSize = i / 64 := by
    rw [Nat.shiftRight_eq_div_pow]
    rfl
  have e2 : i &&& (wordSize - 1) = i % 64 := Nat.and_pow_two_sub_one_eq_mod i 6
  rw [e1, e2, Nat.one_shiftLeft, Nat.and_two_pow]
  cases (b.set.getD (i / 64) 0).testBit (i % 64)
  · simp
  · simp

theorem countP_testBit_words (words : List Nat) :
    (List.range (64 * words.length)).countP
        (fun i => (words.getD (i / 64) 0).testBit (i % 64)) =
      (words.map pcr.OnesCount).sum := by
  induction words using List.reverseRecOn with
  | nil => simp
  | append_singleton ws x ih =>
    have hlen : 64 * (ws ++ [x]).length = 64 * ws.length + 64 := by
      rw [List.length_append, List.length_singleton]
      ring
    rw [hlen, List.range_add, List.countP_append, List.countP_map, List.map_append,
      List.sum_append, List.map_singleton, List.sum_singleton, ← ih]
    congr 1
    · apply List.countP_congr
      intro i hi
      have h1 : i / 64 < ws.length := by
        have := List.mem_range.1 hi
        omega
      rw [List.getD_append _ _ _ _ h1]
    · unfold pcr.OnesCount
      apply List.countP_congr
      intro t ht
      have ht' : t < 64 := List.mem_range.1 ht
      have h1 : (64 * ws.length + t) / 64 = ws.length := by omega
      have h2 : (64 * ws.length + t) % 64 = t := by omega
      simp only [Function.comp, h1, h2]
      rw [List.getD_append_right _ _ _ _ (le_refl _)]
      simp

end bitset

namespace bloom
open bitset

theorem BloomFilter.ones_eq {f : BloomFilter} {w : Nat} (h : f.WF w) :
    f.ones = (f.b.set.map pcr.OnesCount).sum := by
  obtain ⟨hm, hl, hs, -⟩ := h
  unfold BloomFilter.ones
  rw [← countP_testBit_words, hs, hm]
  apply List.countP_congr
  intro i hi
  rw [BitSet.Test_eq _ _ (by rw [hl]; exact List.mem_range.1 hi)]

end bloom

namespace pcr
open bloom bitset

theorem byteOnes_flatten_be64 : ∀ (words : List Nat), (∀ x ∈ words, x < 2 ^ 64) →
    byteOnes (words.map be64).flatten = (words.map OnesCount).sum
  | [], _ => rfl
  | x :: words, h => by
    rw [List.map_cons, List.flatten_cons, byteOnes_append,
      byteOnes_be64 x (h x (List.mem_cons_self _ _)),
      byteOnes_flatten_be64 words (fun y hy => h y (List.mem_cons_of_mem _ hy))]
    rfl

theorem length_flatten_be64 (words : List Nat) : (words.map be64).flatten.length = 8 * words.length := by
  induction words with
  | nil => rfl
  | cons x words ih =>
    rw [List.map_cons, List.flatten_cons, List.length_append, length_be64, ih, List.length_cons]
    ring

theorem foldlM_onesCount (hdr B : List Nat) (hh : hdr.length = 24) :
    ∀ (n : Nat), n ≤ B.length → ∀ init : Int,
      (List.range n).foldlM (fun (currNumOnes : Int) i =>
        match (hdr ++ B)[24 + i]? with
        | some b => (Except.ok (currNumOnes + OnesCount b) : Except Fault Int)
        | none => .error .indexRange) init = .ok (init + byteOnes (B.take n))
  | 0, _, init => by simp [byteOnes]
  | n + 1, hn, init => by
    have hget : (hdr ++ B)[24 + n]? = some (B[n]) := by
      rw [List.getElem?_append_right (by omega), hh, Nat.add_sub_cancel_left,
        List.getElem?_eq_getElem]
    rw [List.range_succ, List.foldlM_append, foldlM_onesCount hdr B hh n (by omega) init]
    simp only [Except.ok_bind_eq, List.foldlM_cons, hget, List.foldlM_nil, Except.pure_eq_ok]
    rw [List.take_succ, List.getElem?_eq_getElem (by omega)]
    simp only [Option.toList, byteOnes_append]
    simp only [byteOnes, List.map_cons, List.map_nil, List.sum_cons, List.sum_nil, add_zero]
    push_cast
    rw [add_assoc]

theorem GetBFNumOnes_eq {f : BloomFilter} {w : Nat} (h : f.WF w) :
    GetBFNumOnes f = .ok (f.ones : Int) := by
  have hones := BloomFilter.ones_eq h
  obtain ⟨hm, hl, hs, hlt⟩ := h
  unfold GetBFNumOnes
  have hgob : f.GobEncode = (be64 f.m ++ be64 f.k ++ be64 f.b.length) ++
      (f.b.set.map be64).flatten := by
    simp [BloomFilter.GobEncode, BitSet.WriteTo]
  have hlenB : (f.b.set.map be64).flatten.length = f.Cap / 8 := by
    rw [length_flatten_be64, hs, BloomFilter.Cap, hm]
    omega
  dsimp only
  rw [hgob, foldlM_onesCount _ _ (by simp [length_be64]) _ (le_of_eq hlenB.symm), ← hlenB,
    List.take_length, byteOnes_flatten_be64 _ hlt, hones]
  simp

end pcr

namespace bitset

theorem BitSet.Set_spec (b : BitSet) (w loc : Nat) (hl : b.length = 64 * w)
    (hs : b.set.length = w) (hlt : ∀ x ∈ b.set, x < 2 ^ 64) (hloc : loc < 64 * w) :
    (b.Set loc).length = 64 * w ∧ (b.Set loc).set.length = w ∧
      (∀ x ∈ (b.Set loc).set, x < 2 ^ 64) ∧
      ∀ i < 64 * w, (b.Set loc).Test i = (b.Test i || decide (i = loc)) := by
  have hext : b.extendSetMaybe loc = b := by
    unfold BitSet.extendSetMaybe
    rw [if_neg (by omega)]
  have e1 : loc >>> log2WordSize = loc / 64 := by
    rw [Nat.shiftRight_eq_div_pow]
    rfl
  have e2 : loc &&& (wordSize - 1) = loc % 64 := Nat.and_pow_two_sub_one_eq_mod loc 6
  have hset : b.Set loc = ⟨b.length, b.set.set (loc / 64)
      (b.set.getD (loc / 64) 0 ||| 2 ^ (loc % 64))⟩ := by
    unfold BitSet.Set
    simp only [hext, e1, e2, Nat.one_shiftLeft]
  have hj : loc / 64 < b.set.length := by omega
  rw [hset]
  refine ⟨hl, by simp [hs], ?_, ?_⟩
  · intro x hx
    rcases List.mem_or_eq_of_mem_set hx with h | h
    · exact hlt x h
    · rw [h]
      apply Nat.or_lt_two_pow
      · rw [List.getD_eq_getElem _ _ hj]
        exact hlt _ (List.getElem_mem _)
      · exact Nat.pow_lt_pow_right (by norm_num) (Nat.mod_lt _ (by norm_num))
  · intro i hi
    rw [BitSet.Test_eq _ _ (by simpa [hl] using hi), BitSet.Test_eq _ _ (by simpa [hl] using hi)]
    dsimp only
    by_cases hij : i / 64 = loc / 64
    · rw [hij, List.getD_eq_getElem?_getD, List.getElem?_set_self hj, Option.getD_some,
        Nat.testBit_or, Nat.testBit_two_pow]
      congr 1
      have : (loc % 64 = i % 64) ↔ i = loc := by omega
      simp only [this]
    · have hne : i ≠ loc := fun h => hij (by rw [h])
      rw [List.getD_eq_getElem?_getD, List.getElem?_set_ne (Ne.symm hij),
        ← List.getD_eq_getElem?_getD]
      simp [hne]

end bitset

namespace bloom
open bitset

theorem countP_or_eq_le (p : Nat → Bool) (a m : Nat) :
    (List.range m).countP (fun i => p i || decide (i = a)) ≤ (List.range m).countP p + 1 := by
  have h1 : (List.range m).countP (fun i => p i || decide (i = a)) ≤
      (List.range m).countP p + (List.range m).countP (fun i => decide (i = a)) := by
    induction (List.range m) with
    | nil => simp
    | cons x xs ih =>
      simp only [List.countP_cons]
      cases p x <;> by_cases hx : x = a <;> simp [hx] <;> omega
  have h2 : (List.range m).countP (fun i => decide (i = a)) ≤ 1 := by
    have : (List.range m).countP (fun i => decide (i = a)) = (List.range m).count a := by
      rw [List.count]
      apply List.countP_congr
      intro x _
      by_cases hx : x = a
      · simp [hx]
      · have hx' : ¬ (a = x) := fun h => hx h.symm
        simp [hx, hx']
    rw [this]
    exact List.nodup_iff_count_le_one.1 (List.nodup_range m) a
  omega

/-- What the loop of `Add` does to the bit set of a filter of `w` words. -/
theorem BloomFilter.addLoop_spec (L : Lib) (f : BloomFilter) (data : List Nat) (w : Nat)
    (hw : 0 < w) (hm : f.m = 64 * w) :
    ∀ (n i : Nat) (b : BitSet), b.length = 64 * w → b.set.length = w →
      (∀ x ∈ b.set, x < 2 ^ 64) →
      ∃ b', f.addLoop L data n i b = .ok b' ∧ b'.length = 64 * w ∧ b'.set.length = w ∧
        (∀ x ∈ b'.set, x < 2 ^ 64) ∧ (∀ x, b.Test x = true → b'.Test x = true) ∧
        (∀ j < n, b'.Test (loc L f.m data (i + j)) = true) ∧
        (List.range (64 * w)).countP (fun x => b'.Test x) ≤
          (List.range (64 * w)).countP (fun x => b.Test x) + n
  | 0, i, b, hl, hs, hlt => ⟨b, rfl, hl, hs, hlt, fun _ h => h, by simp, by simp⟩
  | n + 1, i, b, hl, hs, hlt => by
    have hm0 : f.m ≠ 0 := by omega
    have hloc : loc L f.m data i < 64 * w := by
      unfold loc
      rw [← hm]
      exact Nat.mod_lt _ (by omega)
    obtain ⟨hl1, hs1, hlt1, htest1⟩ := BitSet.Set_spec b w _ hl hs hlt hloc
    obtain ⟨b', hb', hl', hs', hlt', hmono, hset, hcnt⟩ :=
      BloomFilter.addLoop_spec L f data w hw hm n (i + 1) (b.Set (loc L f.m data i)) hl1 hs1 hlt1
    refine ⟨b', ?_, hl', hs', hlt', ?_, ?_, ?_⟩
    · unfold BloomFilter.addLoop
      simp only [BloomFilter.location_ok L f hm0, Except.ok_bind_eq]
      exact hb'
    · intro x hx
      apply hmono
      by_cases hxl : x < 64 * w
      · rw [htest1 x hxl, hx]
        rfl
      · unfold BitSet.Test at hx
        rw [if_pos (by omega)] at hx
        cases hx
    · intro j hj
      rcases Nat.eq_zero_or_pos j with rfl | hpos
      · apply hmono
        rw [Nat.add_zero, htest1 _ hloc]
        simp
      · have := hset (j - 1) (by omega)
        rwa [show i + 1 + (j - 1) = i + j by omega] at this
    · have h1 : (List.range (64 * w)).countP (fun x => (b.Set (loc L f.m data i)).Test x) ≤
          (List.range (64 * w)).countP (fun x => b.Test x) + 1 := by
        rw [List.countP_congr (fun x hx => by rw [htest1 x (List.mem_range.1 hx)])]
        exact countP_or_eq_le _ _ _
      omega

end bloom

namespace bitset

theorem wordsNeeded_eq (w : Nat) (h : 64 * w < 2 ^ 63) : wordsNeeded (64 * w) = w := by
  unfold wordsNeeded
  have h1 : ¬ (64 * w > Cap - wordSize + 1) := by
    simp only [Cap, wordSize]
    omega
  rw [if_neg h1, Nat.shiftRight_eq_div_pow]
  simp only [wordSize, log2WordSize]
  omega

theorem BitSet.Test_of_ge (b : BitSet) (i : Nat) (h : b.length ≤ i) : b.Test i = false := by
  unfold BitSet.Test
  rw [if_pos h]

end bitset

namespace bloom
open bitset

theorem OnesCount_zero : pcr.OnesCount 0 = 0 := by
  unfold pcr.OnesCount
  rw [List.countP_eq_zero]
  intro j _
  simp

theorem New_wf (w k : Nat) (hw : 0 < w) (h : 64 * w < 2 ^ 63) : (New (64 * w) k).WF w := by
  refine ⟨?_, rfl, ?_, ?_⟩
  · show max 1 (64 * w) = 64 * w
    omega
  · show (List.replicate (wordsNeeded (64 * w)) 0).length = w
    rw [List.length_replicate, wordsNeeded_eq w h]
  · intro x hx
    have : x = 0 := List.eq_of_mem_replicate hx
    rw [this]
    norm_num

theorem New_ones (w k : Nat) (hw : 0 < w) (h : 64 * w < 2 ^ 63) : (New (64 * w) k).ones = 0 := by
  rw [BloomFilter.ones_eq (New_wf w k hw h)]
  apply List.sum_eq_zero
  intro x hx
  obtain ⟨y, hy, rfl⟩ := List.mem_map.1 hx
  have : y = 0 := List.eq_of_mem_replicate hy
  rw [this, OnesCount_zero]

/-- What `Add` does to a new filter of `w` words. -/
theorem Add_new_spec (L : Lib) (w k : Nat) (hw : 0 < w) (h : 64 * w < 2 ^ 63)
    (data : List Nat) :
    ∃ f, (New (64 * w) k).Add L data = .ok f ∧ f.WF w ∧ f.k = max 1 k ∧ f.ones ≤ max 1 k ∧
      ∀ j < max 1 k, f.b.Test (loc L (64 * w) data j) = true := by
  obtain ⟨hm, hl, hs, hlt⟩ := New_wf w k hw h
  obtain ⟨b', hb', hl', hs', hlt', -, hset, hcnt⟩ :=
    BloomFilter.addLoop_spec L (New (64 * w) k) data w hw hm (New (64 * w) k).k 0
      (New (64 * w) k).b hl hs hlt
  have hmax : max 1 (64 * w) = 64 * w := hm
  refine ⟨⟨max 1 (64 * w), max 1 k, b'⟩, ?_, ⟨hm, hl', hs', hlt'⟩, rfl, ?_, ?_⟩
  · unfold BloomFilter.Add
    rw [hb']
    rfl
  · have h0 := New_ones w k hw h
    unfold BloomFilter.ones at h0
    rw [hm] at h0
    show (List.range (max 1 (64 * w))).countP (fun i => b'.Test i) ≤ max 1 k
    rw [hmax]
    have hk : (New (64 * w) k).k = max 1 k := rfl
    rw [h0, hk, Nat.zero_add] at hcnt
    exact hcnt
  · intro j hj
    have := hset j hj
    rwa [hm, Nat.zero_add] at this

theorem BloomFilter.testLoop_true (L : Lib) (f : BloomFilter) (data : List Nat) (hm : f.m ≠ 0) :
    ∀ (n i : Nat), (∀ j < n, f.b.Test (loc L f.m data (i + j)) = true) →
      f.testLoop L data n i = .ok true
  | 0, _, _ => rfl
  | n + 1, i, h => by
    unfold BloomFilter.testLoop
    simp only [BloomFilter.location_ok L f hm, Except.ok_bind_eq]
    have h0 := h 0 (by omega)
    rw [Nat.add_zero] at h0
    have h0' : f.b.Test (HashSha1 L (data ++ le64 ((i + big.SetBytes data % 2 ^ 64) % 2 ^ 64)) %
        f.m) = true := h0
    rw [h0']
    simp only [Bool.not_true, Bool.false_eq_true, if_false]
    apply BloomFilter.testLoop_true L f data hm n (i + 1)
    intro j hj
    have := h (j + 1) (by omega)
    rwa [show i + (j + 1) = i + 1 + j by omega] at this

theorem BloomFilter.TestLocations_single (f : BloomFilter) (hm : f.m ≠ 0) (i : Nat)
    (hi : i < f.m) : f.TestLocations [i] = .ok (f.b.Test i) := by
  unfold BloomFilter.TestLocations
  rw [if_neg hm, Nat.mod_eq_of_lt hi]
  cases f.b.Test i <;> rfl

end bloom

namespace pcr
open bloom bitset

theorem PadInv.wf {w k : Nat} {f : BloomFilter} {B : List Nat} (h : PadInv w k f B) : f.WF w := by
  obtain ⟨hm, -, hl, hs, -, hB⟩ := h
  refine ⟨hm, hl, ?_, ?_⟩
  · rw [hs, length_readWords]
  · rw [hs]
    exact readWords_lt w B hB

theorem PadInv.ones {w k : Nat} {f : BloomFilter} {B : List Nat} (h : PadInv w k f B) :
    f.ones = byteOnes B := by
  rw [BloomFilter.ones_eq h.wf, h.2.2.2.1, sum_OnesCount_readWords w B h.2.2.2.2.1 h.2.2.2.2.2]

theorem PadInv.init {w : Nat} {f : BloomFilter} (h : f.WF w) :
    PadInv w f.k f (f.b.set.map be64).flatten ∧
      f.GobEncode = gobHeader w f.k ++ (f.b.set.map be64).flatten := by
  obtain ⟨hm, hl, hs, hlt⟩ := h
  refine ⟨⟨hm, rfl, hl, ?_, ?_, ?_⟩, ?_⟩
  · have := readWords_be64 f.b.set [] hlt
    rw [List.append_nil, hs] at this
    exact this.symm
  · rw [length_flatten_be64, hs]
  · intro b hb
    obtain ⟨l, hl', hbl⟩ := List.mem_flatten.1 hb
    obtain ⟨x, -, rfl⟩ := List.mem_map.1 hl'
    exact be64_lt x b hbl
  · simp [BloomFilter.GobEncode, BitSet.WriteTo, gobHeader, hm, hl]

theorem GobDecode_header (f₀ : BloomFilter) (w k : Nat) (hw : 64 * w < 2 ^ 63) (hk : k < 2 ^ 64)
    (B : List Nat) (hB : B.length = 8 * w) :
    f₀.GobDecode (gobHeader w k ++ B) = (⟨64 * w, k, ⟨64 * w, readWords w B⟩⟩, true) := by
  have hm64 : 64 * w < 2 ^ 64 := by omega
  have e : gobHeader w k ++ B = be64 (64 * w) ++ (be64 k ++ (be64 (64 * w) ++ B)) := by
    simp [gobHeader]
  have hlen : ¬ (gobHeader w k ++ B).length < 16 := by
    simp only [gobHeader, List.length_append, length_be64]
    omega
  unfold BloomFilter.GobDecode
  rw [if_neg hlen, e]
  have d16 : (be64 (64 * w) ++ (be64 k ++ (be64 (64 * w) ++ B))).drop 16 = be64 (64 * w) ++ B := by
    rw [show (16 : Nat) = 8 + 8 from rfl, ← List.drop_drop, List.drop_left' (length_be64 _),
      List.drop_left' (length_be64 _)]
  have hread : ReadFrom (be64 (64 * w) ++ B) = some ⟨64 * w, readWords w B⟩ := by
    unfold ReadFrom
    rw [if_neg (by simp [length_be64])]
    simp only [List.take_left' (length_be64 _), List.drop_left' (length_be64 _),
      SetBytes_be64 _ hm64, wordsNeeded_eq w hw]
    rw [if_neg (by omega)]
  simp only [d16, hread, List.take_left' (length_be64 _), List.drop_left' (length_be64 _),
    SetBytes_be64 _ hm64, SetBytes_be64 _ hk]

end pcr

namespace pcr
open bloom bitset

theorem forall₂_set {R : Nat → Nat → Prop} : ∀ (B : List Nat) (r : Nat) (v : Nat),
    (∀ b ∈ B, R b b) → (∀ h : r < B.length, R (B.get ⟨r, h⟩) v) → List.Forall₂ R B (B.set r v)
  | [], _, _, _, _ => List.Forall₂.nil
  | b :: B, 0, v, hrefl, hv => by
    refine List.Forall₂.cons (hv (by simp)) ?_
    exact List.forall₂_same.2 (fun x hx => hrefl x (List.mem_cons_of_mem _ hx))
  | b :: B, r + 1, v, hrefl, hv => by
    refine List.Forall₂.cons (hrefl b (List.mem_cons_self _ _)) ?_
    exact forall₂_set B r v (fun x hx => hrefl x (List.mem_cons_of_mem _ hx))
      (fun h => hv (by simpa using h))

theorem readWords_mono : ∀ (n : Nat) (data data' : List Nat),
    List.Forall₂ (fun a b => a < 256 ∧ b < 256 ∧ ∀ u, a.testBit u = true → b.testBit u = true)
      data data' →
    List.Forall₂ (fun a b => ∀ u, a.testBit u = true → b.testBit u = true)
      (readWords n data) (readWords n data')
  | 0, _, _, _ => List.Forall₂.nil
  | n + 1, data, data', h => by
    unfold readWords
    exact List.Forall₂.cons (big.testBit_mono_SetBytes (List.forall₂_take 8 h))
      (readWords_mono n _ _ (List.forall₂_drop 8 h))

theorem getD_mono {l l' : List Nat}
    (h : List.Forall₂ (fun a b => ∀ u, a.testBit u = true → b.testBit u = true) l l') :
    ∀ (j u : Nat), (l.getD j 0).testBit u = true → (l'.getD j 0).testBit u = true := by
  induction h with
  | nil => intro j u hu; exact hu
  | cons hab _ ih =>
    intro j u hu
    cases j with
    | zero => exact hab u hu
    | succ j => exact ih j u hu

theorem OnesCount_or_two_pow (a t : Nat) : OnesCount (a ||| 2 ^ t) ≤ OnesCount a + 1 := by
  unfold OnesCount
  have : (List.range 64).countP (fun j => (a ||| 2 ^ t).testBit j) =
      (List.range 64).countP (fun j => a.testBit j || decide (j = t)) := by
    apply List.countP_congr
    intro j _
    rw [Nat.testBit_or, Nat.testBit_two_pow]
    by_cases h : j = t
    · simp [h]
    · have h' : ¬ (t = j) := fun e => h e.symm
      simp [h, h']
  rw [this]
  exact countP_or_eq_le _ _ _

theorem byteOnes_set : ∀ (B : List Nat) (r v : Nat),
    (∀ h : r < B.length, OnesCount v ≤ OnesCount (B.get ⟨r, h⟩) + 1) →
    byteOnes (B.set r v) ≤ byteOnes B + 1
  | [], _, _, _ => by simp [byteOnes]
  | b :: B, 0, v, h => by
    have := h (by simp)
    simp only [List.get_eq_getElem, List.getElem_cons_zero] at this
    simp only [List.set_cons_zero, byteOnes, List.map_cons, List.sum_cons]
    omega
  | b :: B, r + 1, v, h => by
    have ih := byteOnes_set B r v (fun hr => by simpa using h (by simpa using hr))
    simp only [List.set_cons_succ, byteOnes, List.map_cons, List.sum_cons] at ih ⊢
    omega

end pcr

namespace pcr
open bloom bitset

/-- One round of the padding loop keeps the invariant, keeps every set position and adds
at most one. -/
theorem PadInv.step {w k : Nat} {f : BloomFilter} {B : List Nat} (h : PadInv w k f B)
    (hw : 64 * w < 2 ^ 63) (hk : k < 2 ^ 64) (r t : Nat) (hr : r < 8 * w) (ht : t < 8) :
    B[r]? = some (B.getD r 0) ∧
    PadInv w k (f.GobDecode (gobHeader w k ++ B.set r (B.getD r 0 ||| 2 ^ t))).1
        (B.set r (B.getD r 0 ||| 2 ^ t)) ∧
      byteOnes (B.set r (B.getD r 0 ||| 2 ^ t)) ≤ byteOnes B + 1 ∧
      ∀ x, f.b.Test x = true →
        (f.GobDecode (gobHeader w k ++ B.set r (B.getD r 0 ||| 2 ^ t))).1.b.Test x = true := by
  obtain ⟨hm, hk', hl, hs, hB, hlt⟩ := h
  have hrB : r < B.length := by omega
  have hget : B.getD r 0 = B[r] := List.getD_eq_getElem _ _ hrB
  have hold : B[r] < 256 := hlt _ (List.getElem_mem _)
  have hnew : B[r] ||| 2 ^ t < 256 := by
    have : (256 : Nat) = 2 ^ 8 := by norm_num
    rw [this] at hold ⊢
    exact Nat.or_lt_two_pow hold (Nat.pow_lt_pow_right (by norm_num) ht)
  have hB' : (B.set r (B[r] ||| 2 ^ t)).length = 8 * w := by rw [List.length_set, hB]
  have hlt' : ∀ b ∈ B.set r (B[r] ||| 2 ^ t), b < 256 := by
    intro b hb
    rcases List.mem_or_eq_of_mem_set hb with h | h
    · exact hlt b h
    · rw [h]
      exact hnew
  have hdec := GobDecode_header f w k hw hk _ hB'
  have hrel : List.Forall₂
      (fun a b => a < 256 ∧ b < 256 ∧ ∀ u, a.testBit u = true → b.testBit u = true)
      B (B.set r (B[r] ||| 2 ^ t)) := by
    apply forall₂_set
    · intro b hb
      exact ⟨hlt b hb, hlt b hb, fun _ h => h⟩
    · intro _
      refine ⟨hold, hnew, ?_⟩
      intro u hu
      rw [Nat.testBit_or]
      simp only [List.get_eq_getElem] at hu
      simp [hu]
  rw [hget, hdec]
  refine ⟨List.getElem?_eq_getElem hrB, ⟨rfl, rfl, rfl, rfl, hB', hlt'⟩, ?_, ?_⟩
  · apply byteOnes_set
    intro _
    exact OnesCount_or_two_pow _ _
  · intro x hx
    by_cases hxl : x < 64 * w
    · rw [BitSet.Test_eq _ _ (by rw [hl]; exact hxl)] at hx
      rw [BitSet.Test_eq _ _ hxl]
      rw [hs] at hx
      exact getD_mono (readWords_mono w _ _ hrel) _ _ hx
    · rw [BitSet.Test_of_ge _ _ (by rw [hl]; omega)] at hx
      cases hx

/-- When the padding loop returns a filter, that filter has exactly `BfNumOnes` positions
set, among them every position that was set before. -/
theorem ReqBFGen.pad_spec (reqPara : ReqPara) (w k : Nat) (hw0 : 0 < w) (hw : 64 * w < 2 ^ 63)
    (hk : k < 2 ^ 64) (hlen : reqPara.BfLength = ((64 * w : Nat) : Int)) :
    ∀ (draws : List (Nat × Nat)) (f : BloomFilter) (B : List Nat) (f' : BloomFilter),
      PadInv w k f B → (byteOnes B : Int) ≤ reqPara.BfNumOnes →
      ReqBFGen.pad reqPara draws f (gobHeader w k ++ B) = .ok (some f') →
      ∃ B', PadInv w k f' B' ∧ (byteOnes B' : Int) = reqPara.BfNumOnes ∧
        ∀ x, f.b.Test x = true → f'.b.Test x = true
  | [], f, B, f', hinv, hle, h => by
    unfold ReqBFGen.pad at h
    rw [GetBFNumOnes_eq hinv.wf, hinv.ones] at h
    simp only [Except.ok_bind_eq] at h
    by_cases hlt : (byteOnes B : Int) < reqPara.BfNumOnes
    · rw [if_pos hlt] at h
      cases h
    · rw [if_neg hlt] at h
      have e : f = f' := by
        simpa using h
      subst e
      exact ⟨B, hinv, by omega, fun _ hx => hx⟩
  | d :: draws, f, B, f', hinv, hle, h => by
    unfold ReqBFGen.pad at h
    rw [GetBFNumOnes_eq hinv.wf, hinv.ones] at h
    simp only [Except.ok_bind_eq] at h
    by_cases hlt : (byteOnes B : Int) < reqPara.BfNumOnes
    · rw [if_pos hlt] at h
      have hdiv : Int.tdiv reqPara.BfLength 8 = ((8 * w : Nat) : Int) := by
        rw [hlen, Int.tdiv_eq_ediv (by positivity) (by norm_num)]
        push_cast
        omega
      have hI1 : Intn 8 d.1 = .ok (d.1 % 8) := by
        unfold Intn
        rw [if_neg (by norm_num)]
        rfl
      have hI2 : Intn (Int.tdiv reqPara.BfLength 8) d.2 = .ok (d.2 % (8 * w)) := by
        unfold Intn
        rw [hdiv, if_neg (by push_cast; omega), Int.toNat_ofNat]
      have hr : d.2 % (8 * w) < 8 * w := Nat.mod_lt _ (by omega)
      have ht : d.1 % 8 < 8 := Nat.mod_lt _ (by norm_num)
      obtain ⟨hget, hinv', hcnt, hmono⟩ := hinv.step hw hk _ _ hr ht
      have hhdr : (gobHeader w k).length = 24 := by
        simp [gobHeader, length_be64]
      have hidx : (gobHeader w k ++ B)[24 + d.2 % (8 * w)]? = some (B.getD (d.2 % (8 * w)) 0) := by
        rw [List.getElem?_append_right (by omega), hhdr, Nat.add_sub_cancel_left, hget]
      have hsetg : (gobHeader w k ++ B).set (24 + d.2 % (8 * w))
          (B.getD (d.2 % (8 * w)) 0 ||| 2 ^ (d.1 % 8)) =
          gobHeader w k ++ B.set (d.2 % (8 * w)) (B.getD (d.2 % (8 * w)) 0 ||| 2 ^ (d.1 % 8)) := by
        rw [List.set_append_right _ _ (by omega), hhdr, Nat.add_sub_cancel_left]
      simp only [hI1, hI2, Except.ok_bind_eq, hidx, hsetg] at h
      obtain ⟨B', hB', hones, hmono'⟩ := ReqBFGen.pad_spec reqPara w k hw0 hw hk hlen draws _ _ f'
        hinv' (by omega) h
      exact ⟨B', hB', hones, fun x hx => hmono' x (hmono x hx)⟩
    · rw [if_neg hlt] at h
      have e : f = f' := by
        simpa using h
      subst e
      exact ⟨B, hinv, by omega, fun _ hx => hx⟩

end pcr

namespace pcr
open bloom bitset elgamal

theorem uint_natCast (n : Nat) (h : n < 2 ^ 63) : uint (n : Int) = n := by
  unfold uint
  have : ((n : Int) % 2 ^ 64) = n := Int.emod_eq_of_lt (by positivity) (by omega)
  rw [this, Int.toNat_ofNat]

/-- What `ReqBFGen` returns, when it returns: a filter of `w` words with exactly
`BfNumOnes` positions set, among them the positions of the hashed password. -/
theorem ReqBFGen_spec (L : Lib) (pk : PublicKey) (reqPara : ReqPara) (pwd : List Nat)
    (draws : List (Nat × Nat)) (bf : BloomFilter) (w k : Nat) (hw0 : 0 < w)
    (hw : 64 * w < 2 ^ 63) (hlen : reqPara.BfLength = ((64 * w : Nat) : Int))
    (hk : reqPara.NumHashFuncs = (k : Int)) (hk1 : 1 ≤ k) (hk63 : k < 2 ^ 63)
    (hkK : (k : Int) ≤ reqPara.BfNumOnes)
    (h : ReqBFGen L pk reqPara pwd draws = .ok (some bf)) :
    bf.WF w ∧ bf.k = k ∧ (bf.ones : Int) = reqPara.BfNumOnes ∧
      ∃ fA, (New (64 * w) k).Add L (HashSha256 L pwd) = .ok fA ∧ fA.WF w ∧
        (∀ x, fA.b.Test x = true → bf.b.Test x = true) ∧
        ∀ j < k, fA.b.Test (loc L (64 * w) (HashSha256 L pwd) j) = true := by
  obtain ⟨fA, hA, hwf, hfk, hones, hset⟩ := Add_new_spec L w k hw0 hw (HashSha256 L pwd)
  have hmax : max 1 k = k := by omega
  rw [hmax] at hfk hones hset
  unfold ReqBFGen at h
  rw [hlen, hk, uint_natCast _ hw, uint_natCast _ hk63] at h
  dsimp only at h
  rw [hA] at h
  simp only [Except.ok_bind_eq] at h
  obtain ⟨hinv, hgob⟩ := PadInv.init hwf
  rw [hfk] at hinv hgob
  rw [hgob] at h
  obtain ⟨B', hB', hcnt, hmono⟩ := ReqBFGen.pad_spec reqPara w k hw0 hw (by omega) hlen draws fA _ bf
    hinv (by rw [← hinv.ones]; omega) h
  exact ⟨hB'.wf, hB'.2.1, by rw [hB'.ones]; exact hcnt, fA, hA, hwf, hmono, hset⟩

theorem QueryGen.bits_eq (bf : BloomFilter) (hm : bf.m ≠ 0) :
    ∀ (n i : Nat), i + n ≤ bf.m →
      QueryGen.bits bf n i =
        .ok ((List.range' i n).map fun x => if bf.b.Test x = true then (1 : Int) else -1)
  | 0, _, _ => rfl
  | n + 1, i, h => by
    unfold QueryGen.bits
    rw [BloomFilter.TestLocations_single bf hm i (by omega),
      QueryGen.bits_eq bf hm n (i + 1) (by omega)]
    simp only [Except.ok_bind_eq, Except.pure_eq_ok, List.range'_succ, List.map_cons]

theorem count_one_bits (p : Nat → Bool) (l : List Nat) :
    (l.map fun x => if p x = true then (1 : Int) else -1).count 1 = l.countP p := by
  induction l with
  | nil => rfl
  | cons x l ih =>
    rw [List.map_cons, List.countP_cons, ← ih]
    cases hp : p x
    · rw [List.count_cons_of_ne (by simp)]
      simp
    · simp

end pcr

namespace elgamal
variable {c : Curve} {Pt : Type} [AddCommGroup Pt] (M : c.Model Pt)

theorem encrypt_isEnc {pk : PublicKey} {sk : SecretKey} (hk : KeyPair c pk sk) (m : Int)
    (dr : ZKPDraw) (s : EncSlot) (h : EncryptSeqWithZKP.encrypt pk c m dr = .ok s) :
    IsEnc M (AddSubgroup.zmultiples M.g) (big.SetBytes sk.Priv : Int) (m • M.g) s.ciphertext := by
  have hH := hk.H_eq M
  unfold EncryptSeqWithZKP.encrypt at h
  split at h
  · cases h
  · simp only [Except.ok.injEq] at h
    subst h
    refine ⟨(big.SetBytes (newCryptoRandom (big.Bytes c.N) dr.z) : Int) • M.g,
      AddSubgroup.zsmul_mem _ (AddSubgroup.mem_zmultiples M.g) _, ?_⟩
    simp only [EncSlot.ciphertext]
    rw [hH, M.scalarBaseMult_bytes _ (Int.natCast_nonneg _),
      M.scalarMult_bytes _ _ (Int.natCast_nonneg _),
      M.scalarBaseMult_bytes _ (M.emod_nonneg m), M.add_coords, M.emod_smul_g, smul_comm,
      add_comm]
    rfl

theorem encryptAll_isEnc {pk : PublicKey} {sk : SecretKey} (hk : KeyPair c pk sk)
    (draws : Nat → ZKPDraw) :
    ∀ (ms : List Int) (i : Nat) (slots : List EncSlot),
      EncryptSeqWithZKP.encryptAll pk c draws i ms = .ok slots →
      List.Forall₂ (fun s m => IsEnc M (AddSubgroup.zmultiples M.g) (big.SetBytes sk.Priv : Int)
        (m • M.g) s.ciphertext) slots ms
  | [], _, slots, h => by
    simp only [EncryptSeqWithZKP.encryptAll, Except.ok.injEq] at h
    subst h
    exact List.Forall₂.nil
  | m :: ms, i, slots, h => by
    unfold EncryptSeqWithZKP.encryptAll at h
    cases hs : EncryptSeqWithZKP.encrypt pk c m (draws i) with
    | error e =>
      rw [hs, Except.error_bind_eq] at h
      cases h
    | ok s =>
      cases hr : EncryptSeqWithZKP.encryptAll pk c draws (i + 1) ms with
      | error e =>
        rw [hs, Except.ok_bind_eq, hr, Except.error_bind_eq] at h
        cases h
      | ok rest =>
        rw [hs, Except.ok_bind_eq, hr, Except.ok_bind_eq] at h
        simp only [Except.pure_eq_ok, Except.ok.injEq] at h
        subst h
        exact List.Forall₂.cons (encrypt_isEnc M hk m _ s hs) (encryptAll_isEnc hk draws ms _ _ hr)

/-- The verifier accepts the ciphertexts and proofs that the prover makes from good slots. -/
theorem verifySeqZKP_slots (L : Lib) {pk : PublicKey} {sk : SecretKey} (hk : KeyPair c pk sk)
    (draws : Nat → ZKPDraw) (slots : List EncSlot) (hgood : ∀ s ∈ slots, EncSlot.Good M pk s)
    (numThreads : Int) (hT : 1 ≤ numThreads) :
    pk.VerifySeqZKP L (slots.map EncSlot.ciphertext)
      (List.zipWith (EncryptSeqWithZKP.respond c (EncryptSeqWithZKP.challenge L pk c draws slots))
        slots (EncryptSeqWithZKP.commitAll pk c draws 0 slots))
      (EncryptSeqWithZKP.challenge L pk c draws slots) numThreads = .ok true := by
  have hcl := length_commitAll pk c draws 0 slots
  have hch := challenge_emod L pk c draws slots
  simp only [PublicKey.VerifySeqZKP, hk.1, derefCurve_some, Except.ok_bind_eq,
    mapM_ciphertext_bytes, mapM_respond_bytes c _ slots _ hcl, workerChan_ok numThreads hT,
    checkAll_respond_commitAll M draws _ hch slots hgood 0, Except.pure_eq_ok]
  have e : (big.SetBytes (HashSha256 L ((slots.map EncSlot.bytes).flatten ++
      ((EncryptSeqWithZKP.commitAll pk c draws 0 slots).map CommitSlot.bytes).flatten)) : Int) %
      c.N = EncryptSeqWithZKP.challenge L pk c draws slots := rfl
  simp [e, checkAll_respond_commitAll M draws _ hch slots hgood 0]

end elgamal

namespace pcr
open bloom bitset elgamal

/-- What `QueryGen` returns for a filter of `w` words: a query whose entries decode to
encryptions of `+1` at the set positions and of `-1` at the others, with proofs that
verify. -/
theorem QueryGen_spec {c : Curve} {Pt : Type} [AddCommGroup Pt] (M : c.Model Pt) (L : Lib)
    {pk : PublicKey} {sk : SecretKey} (hk : KeyPair c pk sk) (reqPara : ReqPara)
    (bf : BloomFilter) (w : Nat) (hw0 : 0 < w) (hwf : bf.WF w)
    (hlen : reqPara.BfLength = ((64 * w : Nat) : Int)) (hT : 1 ≤ reqPara.NumThreads)
    (draws : Nat → ZKPDraw) :
    ∃ q cs zkps, QueryGen L pk reqPara bf draws = .ok q ∧
      q.BfLength = reqPara.BfLength ∧ q.BfNumOnes = reqPara.BfNumOnes ∧
      q.NumHashFuncs = reqPara.NumHashFuncs ∧ q.NumThreads = reqPara.NumThreads ∧
      q.PointCompression = reqPara.PointCompression ∧ q.PK = pk ∧
      RespDeployment.decode pk q.PointCompression q.EBF q.ZKPs = .ok (cs, zkps) ∧
      pk.VerifySeqZKP L cs zkps (big.SetBytes q.Challenge) q.NumThreads = .ok true ∧
      List.Forall₂ (fun ct m => IsEnc M (AddSubgroup.zmultiples M.g)
          (big.SetBytes sk.Priv : Int) (m • M.g) ct) cs
        ((List.range' 0 (64 * w)).map fun x => if bf.b.Test x = true then (1 : Int) else -1) := by
  obtain ⟨hm, hl, hs, hlt⟩ := hwf
  have hm0 : bf.m ≠ 0 := by omega
  have hbits := QueryGen.bits_eq bf hm0 bf.m 0 (by omega)
  rw [hm] at hbits
  have hms : ∀ m ∈ (List.range' 0 (64 * w)).map
      (fun x => if bf.b.Test x = true then (1 : Int) else -1), m = 1 ∨ m = -1 := by
    intro m hmem
    obtain ⟨x, -, rfl⟩ := List.mem_map.1 hmem
    by_cases hx : bf.b.Test x = true
    · left; rw [if_pos hx]
    · right; rw [if_neg hx]
  obtain ⟨slots, hslots, hslen, hgood, hE⟩ :=
    EncryptSeqWithZKP_eq M L hk _ hms reqPara.NumThreads hT draws
  have hencs := encryptAll_isEnc M hk draws _ 0 slots hslots
  have hch0 : 0 ≤ EncryptSeqWithZKP.challenge L pk c draws slots := M.emod_nonneg _
  obtain ⟨eb, zb, henc, hdec, hebl⟩ := encode_decode M hk.1 reqPara.PointCompression
    (slots.map EncSlot.ciphertext) _
    (fun ct hct => by
      obtain ⟨s, hs', rfl⟩ := List.mem_map.1 hct
      exact (hgood s hs').slotPair M)
    (zipWith_respond_isProof M draws (EncryptSeqWithZKP.challenge L pk c draws slots) slots 0 hgood)
    (by rw [List.length_map, List.length_zipWith, length_commitAll, min_self])
  refine ⟨⟨reqPara.BfLength, reqPara.BfNumOnes, reqPara.NumHashFuncs, reqPara.NumThreads,
    reqPara.PointCompression, pk, eb, zb,
    big.Bytes (EncryptSeqWithZKP.challenge L pk c draws slots)⟩, _, _, ?_, rfl, rfl, rfl, rfl,
    rfl, rfl, hdec, ?_, ?_⟩
  · unfold QueryGen
    have h1 : ¬ reqPara.BfLength < 0 := by
      rw [hlen]
      exact not_lt.2 (Int.natCast_nonneg _)
    have h2 : ¬ reqPara.BfLength < (bf.Cap : Int) := by
      rw [hlen, BloomFilter.Cap, hm]
      exact lt_irrefl _
    have h3 : ¬ ((64 * w : Nat) : Int) < reqPara.BfLength := by
      rw [hlen]
      exact lt_irrefl _
    have hcap : bf.Cap = 64 * w := hm
    rw [if_neg h1, if_neg h2, hcap, hbits]
    simp only [Except.ok_bind_eq]
    rw [if_neg h3, hE]
    simp only [Except.ok_bind_eq, workerChan_ok reqPara.NumThreads hT, henc, Except.pure_eq_ok]
  · show pk.VerifySeqZKP L _ _ (big.SetBytes (big.Bytes (EncryptSeqWithZKP.challenge L pk c draws slots)))
      reqPara.NumThreads = .ok true
    rw [big.SetBytes_Bytes _ hch0]
    exact verifySeqZKP_slots M L hk draws slots hgood reqPara.NumThreads hT
  · rw [List.forall₂_map_left_iff]
    exact hencs

end pcr

namespace pcr
open bloom bitset elgamal

/-- What `RespDeployment` returns for a query whose entries decode to encryptions of
scalars that sum to `2 * BfNumOnes - BfLength` and whose proofs verify: the query with an
encryption of zero for `C1`. -/
theorem RespDeployment_spec {c : Curve} {Pt : Type} [AddCommGroup Pt] (M : c.Model Pt) (L : Lib)
    {pk : PublicKey} {sk : SecretKey} (hk : KeyPair c pk sk)
    (hsec : initCurve L pk.SecParam = some c) (q : QueryMessage) (hqpk : q.PK = pk)
    (cs : List Ciphertext) (zkps : List ZKP)
    (hdec : RespDeployment.decode pk q.PointCompression q.EBF q.ZKPs = .ok (cs, zkps))
    (hver : pk.VerifySeqZKP L cs zkps (big.SetBytes q.Challenge) q.NumThreads = .ok true)
    (ms : List Int)
    (henc : List.Forall₂ (fun ct m => IsEnc M (AddSubgroup.zmultiples M.g)
      (big.SetBytes sk.Priv : Int) (m • M.g) ct) cs ms)
    (hsum : ms.sum + wrapInt64 (q.BfLength - 2 * q.BfNumOnes) = 0) (zInv zZero : Nat) :
    ∃ qp ct, RespDeployment L q zInv zZero = .ok qp ∧ qp.BfLength = q.BfLength ∧
      qp.NumHashFuncs = q.NumHashFuncs ∧ qp.NumThreads = q.NumThreads ∧
      qp.PointCompression = q.PointCompression ∧ qp.PK = pk ∧ qp.EBF = q.EBF ∧
      pk.Bytes2Ciphertext qp.C1 q.PointCompression = .ok ct ∧
      IsEnc M (AddSubgroup.zmultiples M.g) (big.SetBytes sk.Priv : Int) 0 ct := by
  have hpk := hk.1
  have hH := hk.H_eq M
  have hg := AddSubgroup.mem_zmultiples M.g
  have hinit : q.PK.InitCurve L = pk := by
    rw [hqpk]
    exact initCurve_eq_self hk.1 hsec
  obtain ⟨-, hl2⟩ := RespDeployment.decode_length _ _ _ _ _ _ hdec
  have hwc : workerChan q.NumThreads q.EBF.length = .ok () :=
    workerChan_length (verifySeqZKP_workerChan hver) hl2.symm
  obtain ⟨ctInv, hInv, eInv⟩ := IsEnc.encrypt M hpk hH hg
    (wrapInt64 (q.BfLength - 2 * q.BfNumOnes)) zInv
  obtain ⟨ct₀, hZero, eZero⟩ := IsEnc.encrypt M hpk hH hg 0 zZero
  have hall : List.Forall₂
      (fun ct μ => IsEnc M (AddSubgroup.zmultiples M.g) (big.SetBytes sk.Priv : Int) μ ct) cs
      (ms.map (fun m => m • M.g)) := by
    rw [List.forall₂_map_right_iff]
    exact henc
  obtain ⟨ct₁, hSum, e₁⟩ := RespDeployment.sum_isEnc M hpk cs _ hall ct₀ _ eZero
  obtain ⟨ct₂, hAdd, e₂⟩ := IsEnc.add M hpk e₁ eInv 0
  obtain ⟨Z, hZ, hZ'⟩ := IsEnc.bytes_roundtrip M hpk e₂ q.PointCompression
  have hzero : (0 : Int) • M.g + (ms.map (fun m => m • M.g)).sum +
      wrapInt64 (q.BfLength - 2 * q.BfNumOnes) • M.g = 0 := by
    rw [List.sum_map_zsmul, ← add_smul, ← add_smul, zero_add, hsum, zero_smul]
  rw [hzero] at e₂
  refine ⟨⟨q.BfLength, q.BfNumOnes, q.NumHashFuncs, q.NumThreads, q.PointCompression,
    pk, q.EBF, Z⟩, ct₂, ?_, rfl, rfl, rfl, rfl, rfl, rfl, hZ', e₂⟩
  unfold RespDeployment
  simp only [hinit, hwc, hdec, hver, hInv, hZero, hSum, hAdd, hZ, Except.ok_bind_eq,
    Except.pure_eq_ok, Bool.not_true, Bool.false_eq_true, if_false]

end pcr

namespace pcr
open bloom bitset elgamal

section ResponseGen
variable {c : Curve} {Pt : Type} [AddCommGroup Pt] (M : c.Model Pt)
  {pk : PublicKey} {sk : SecretKey} (hk : KeyPair c pk sk) (fC : BloomFilter)
  (EBF : List CiphertextByte) (pc : Bool) (dr : RespDraws) (μ : Nat → Pt)
include hk

/-- The loop of a worker of `ResponseGen` adds, for every index that is set in the
candidate filter, the randomized difference between the entry of the query and `+1`. -/
theorem ResponseGen.worker_spec (hm : fC.m ≠ 0)
    (hEBF : ∀ i < fC.m, ∃ cb ct, EBF[i]? = some cb ∧ pk.Bytes2Ciphertext cb pc = .ok ct ∧
      IsEnc M (AddSubgroup.zmultiples M.g) (big.SetBytes sk.Priv : Int) (μ i) ct) :
    ∀ (idxs : List Nat), (∀ i ∈ idxs, i < fC.m) → ∀ (encRes : Ciphertext) (μ₀ : Pt),
      IsEnc M (AddSubgroup.zmultiples M.g) (big.SetBytes sk.Priv : Int) μ₀ encRes →
      ∃ ct, ResponseGen.worker pk fC EBF pc dr idxs encRes = .ok ct ∧
        IsEnc M (AddSubgroup.zmultiples M.g) (big.SetBytes sk.Priv : Int)
          (μ₀ + (idxs.map fun i => if fC.b.Test i = true
            then c.draw (dr.rIdx i) • ((-1 : Int) • M.g + μ i) else 0).sum) ct
  | [], _, encRes, μ₀, h₀ => ⟨encRes, rfl, by simpa using h₀⟩
  | i :: idxs, hidx, encRes, μ₀, h₀ => by
    have hi : i < fC.m := hidx i (List.mem_cons_self _ _)
    have hrest : ∀ j ∈ idxs, j < fC.m := fun j hj => hidx j (List.mem_cons_of_mem _ hj)
    unfold ResponseGen.worker
    rw [BloomFilter.TestLocations_single fC hm i hi]
    simp only [Except.ok_bind_eq]
    by_cases ht : fC.b.Test i = true
    · obtain ⟨cb, cti, hcb, hdec, henc⟩ := hEBF i hi
      obtain ⟨ctN, hN, eN⟩ := IsEnc.encrypt M hk.1 (hk.H_eq M)
        (AddSubgroup.mem_zmultiples M.g) (-1) (dr.zNeg i)
      obtain ⟨ctA, hA, eA⟩ := IsEnc.add M hk.1 eN henc 0
      obtain ⟨ctS, hS, eS⟩ := IsEnc.scalarMultRandomizer M hk.1 eA (dr.rIdx i) 0
      obtain ⟨ctR, hR, eR⟩ := IsEnc.add M hk.1 h₀ eS 0
      obtain ⟨ct, hct, ect⟩ := ResponseGen.worker_spec hm hEBF idxs hrest ctR _ eR
      refine ⟨ct, ?_, ?_⟩
      · rw [if_pos ht]
        simp only [hN, hcb, hdec, hA, hS, hR, Except.ok_bind_eq]
        exact hct
      · rw [List.map_cons, List.sum_cons, if_pos ht, ← add_assoc]
        exact ect
    · obtain ⟨ct, hct, ect⟩ := ResponseGen.worker_spec hm hEBF idxs hrest encRes μ₀ h₀
      refine ⟨ct, ?_, ?_⟩
      · rw [if_neg ht]
        exact hct
      · rw [List.map_cons, List.sum_cons, if_neg ht, zero_add]
        exact ect

end ResponseGen

end pcr

namespace pcr
open bloom bitset elgamal

theorem ResponseGen.indices_lt (numThreads cap t : Nat) (h0 : 0 < numThreads) :
    ∀ i ∈ ResponseGen.indices numThreads (cap / numThreads) cap t, i < cap := by
  intro i hi
  unfold ResponseGen.indices at hi
  rw [List.mem_range'_1] at hi
  obtain ⟨h1, h2⟩ := hi
  have hu : numThreads * (cap / numThreads) ≤ cap := Nat.mul_div_le cap numThreads
  split at h2
  · rename_i ht
    have h3 : (t + 1) * (cap / numThreads) ≤ numThreads * (cap / numThreads) :=
      Nat.mul_le_mul_right _ (by omega)
    omega
  · omega

section ResponseGen
variable {c : Curve} {Pt : Type} [AddCommGroup Pt] (M : c.Model Pt)
  {pk : PublicKey} {sk : SecretKey} (hk : KeyPair c pk sk) (fC : BloomFilter)
  (EBF : List CiphertextByte) (pc : Bool) (dr : RespDraws) (μ : Nat → Pt)
include hk

theorem ResponseGen.workers_spec (hm : fC.m ≠ 0)
    (hEBF : ∀ i < fC.m, ∃ cb ct, EBF[i]? = some cb ∧ pk.Bytes2Ciphertext cb pc = .ok ct ∧
      IsEnc M (AddSubgroup.zmultiples M.g) (big.SetBytes sk.Priv : Int) (μ i) ct)
    (numThreads : Nat) (h0 : 0 < numThreads) :
    ∀ (n t : Nat), ∃ results,
      ResponseGen.workers pk fC EBF pc dr numThreads (fC.Cap / numThreads) n t = .ok results ∧
      results.length = n ∧
      ∀ j < n, ∃ ct, results[j]? = some ct ∧
        IsEnc M (AddSubgroup.zmultiples M.g) (big.SetBytes sk.Priv : Int)
          (ResponseGen.share M fC dr μ numThreads (fC.m / numThreads) (t + j)) ct
  | 0, _ => ⟨[], rfl, rfl, fun j hj => absurd hj (Nat.not_lt_zero j)⟩
  | n + 1, t => by
    obtain ⟨ct₀, h₀, e₀⟩ := IsEnc.encrypt M hk.1 (hk.H_eq M)
      (AddSubgroup.mem_zmultiples M.g) 0 (dr.zWorker t)
    obtain ⟨ct, hct, ect⟩ := ResponseGen.worker_spec M hk fC EBF pc dr μ hm hEBF
      (ResponseGen.indices numThreads (fC.m / numThreads) fC.m t)
      (ResponseGen.indices_lt numThreads fC.m t h0) ct₀ _ e₀
    obtain ⟨rest, hrest, hlen, hall⟩ := ResponseGen.workers_spec hm hEBF numThreads h0 n (t + 1)
    refine ⟨ct :: rest, ?_, by simp [hlen], ?_⟩
    · unfold ResponseGen.workers
      simp only [h₀, Except.ok_bind_eq, Except.pure_eq_ok]
      have hw : ResponseGen.worker pk fC EBF pc dr
          (List.range' (t * (fC.Cap / numThreads))
            ((if t < numThreads - 1 then (t + 1) * (fC.Cap / numThreads) else fC.Cap) -
              t * (fC.Cap / numThreads))) ct₀ = .ok ct := hct
      rw [hw, Except.ok_bind_eq, hrest, Except.ok_bind_eq]
    · intro j hj
      cases j with
      | zero => exact ⟨ct, by simp, ect⟩
      | succ j =>
        obtain ⟨ct', hct', ect'⟩ := hall j (by omega)
        refine ⟨ct', by simpa using hct', ?_⟩
        rwa [show t + (j + 1) = t + 1 + j by omega]

theorem ResponseGen.collect_spec (results : List Ciphertext) (W : Nat → Pt)
    (hres : ∀ j < results.length, ∃ ct, results[j]? = some ct ∧
      IsEnc M (AddSubgroup.zmultiples M.g) (big.SetBytes sk.Priv : Int) (W j) ct) :
    ∀ (sched : List Nat) (c2 : Ciphertext) (μ₀ : Pt),
      IsEnc M (AddSubgroup.zmultiples M.g) (big.SetBytes sk.Priv : Int) μ₀ c2 →
      ∃ ct, ResponseGen.collect pk results sched c2 = .ok ct ∧
        IsEnc M (AddSubgroup.zmultiples M.g) (big.SetBytes sk.Priv : Int)
          (μ₀ + ((sched.filter fun t => decide (t < results.length)).map W).sum) ct
  | [], c2, μ₀, h₀ => ⟨c2, rfl, by simpa using h₀⟩
  | t :: sched, c2, μ₀, h₀ => by
    unfold ResponseGen.collect
    by_cases ht : t < results.length
    · obtain ⟨ctt, hctt, ett⟩ := hres t ht
      obtain ⟨ctA, hA, eA⟩ := IsEnc.add M hk.1 h₀ ett 0
      obtain ⟨ct, hct, ect⟩ := ResponseGen.collect_spec results W hres sched ctA _ eA
      refine ⟨ct, ?_, ?_⟩
      · simp only [hctt, hA, Except.ok_bind_eq]
        exact hct
      · rw [List.filter_cons_of_pos (by simpa using ht), List.map_cons, List.sum_cons,
          ← add_assoc]
        exact ect
    · obtain ⟨ct, hct, ect⟩ := ResponseGen.collect_spec results W hres sched c2 μ₀ h₀
      have hnone : results[t]? = none := List.getElem?_eq_none (by omega)
      refine ⟨ct, ?_, ?_⟩
      · simp only [hnone]
        exact hct
      · rw [List.filter_cons_of_neg (by simpa using ht)]
        exact ect

end ResponseGen

end pcr

namespace pcr
open bloom bitset elgamal

/-- What `ResponseGen` returns: `Z1` encrypts the sum of the workers' shares that were
collected, times the last scalar drawn, and `Z2` encrypts that sum plus the point that
embeds the candidate password. -/
theorem ResponseGen_spec {c : Curve} {Pt : Type} [AddCommGroup Pt] (M : c.Model Pt) (L : Lib)
    (hsound : L.ModSqrtSound) {pk : PublicKey} {sk : SecretKey} (hk : KeyPair c pk sk)
    (hsec : initCurve L pk.SecParam = some c) (qp : QueryMessagePlus) (hqpk : qp.PK = pk)
    (w k : Nat) (hw0 : 0 < w) (hw : 64 * w < 2 ^ 63)
    (hlen : qp.BfLength = ((64 * w : Nat) : Int)) (hkq : qp.NumHashFuncs = (k : Int))
    (hk63 : k < 2 ^ 63) (hT : 1 ≤ qp.NumThreads) (μ : Nat → Pt)
    (hEBF : ∀ i < 64 * w, ∃ cb ct, qp.EBF[i]? = some cb ∧
      pk.Bytes2Ciphertext cb qp.PointCompression = .ok ct ∧
      IsEnc M (AddSubgroup.zmultiples M.g) (big.SetBytes sk.Priv : Int) (μ i) ct)
    (ct₁ : Ciphertext) (hC1 : pk.Bytes2Ciphertext qp.C1 qp.PointCompression = .ok ct₁)
    (e₁ : IsEnc M (AddSubgroup.zmultiples M.g) (big.SetBytes sk.Priv : Int) 0 ct₁)
    (cand : List Nat) (dr : RespDraws) (sched : List Nat) (ctP : Ciphertext)
    (hP : pk.EncryptMul L cand dr.zPwd = .ok ctP) :
    ∃ fC r z1 z2 P, (New (64 * w) k).Add L (HashSha256 L cand) = .ok fC ∧
      ResponseGen L sk qp cand dr sched = .ok r ∧
      pk.Bytes2Ciphertext r.Z1 qp.PointCompression = .ok z1 ∧
      IsEnc M (AddSubgroup.zmultiples M.g) (big.SetBytes sk.Priv : Int)
        (c.draw dr.rZ1 • ((sched.filter fun t => decide (t < qp.NumThreads.toNat)).map
          (ResponseGen.share M fC dr μ qp.NumThreads.toNat (64 * w / qp.NumThreads.toNat))).sum) z1 ∧
      pk.Bytes2Ciphertext r.Z2 qp.PointCompression = .ok z2 ∧
      IsEnc M (AddSubgroup.zmultiples M.g) (big.SetBytes sk.Priv : Int)
        (((sched.filter fun t => decide (t < qp.NumThreads.toNat)).map
          (ResponseGen.share M fC dr μ qp.NumThreads.toNat (64 * w / qp.NumThreads.toNat))).sum + P)
        z2 ∧
      (M.coords P).1 = (big.SetBytes (cand ++ List.replicate PaddingBytes 0) : Int) := by
  have hpk := hk.1
  have hH := hk.H_eq M
  have hg := AddSubgroup.mem_zmultiples M.g
  have hinit : qp.PK.InitCurve L = pk := by
    rw [hqpk]
    exact initCurve_eq_self hk.1 hsec
  obtain ⟨fC, hAdd, hwf, -, -, -⟩ := Add_new_spec L w k hw0 hw (HashSha256 L cand)
  have hm : fC.m = 64 * w := hwf.1
  have hm0 : fC.m ≠ 0 := by omega
  obtain ⟨P, hPx, eP⟩ := IsEnc.encryptMul M hpk L hsound hH hg cand dr.zPwd ctP hP
  have hT0 : 0 < qp.NumThreads.toNat := by omega
  obtain ⟨results, hres, hrl, hall⟩ := ResponseGen.workers_spec M hk fC qp.EBF
    qp.PointCompression dr μ hm0 (by rw [hm]; exact hEBF) qp.NumThreads.toNat hT0
    qp.NumThreads.toNat 0
  obtain ⟨c2₀, h2₀, e2₀⟩ := IsEnc.encrypt M hpk hH hg 0 dr.zC2
  obtain ⟨c2, hc2, ec2⟩ := ResponseGen.collect_spec M hk results
    (ResponseGen.share M fC dr μ qp.NumThreads.toNat (fC.m / qp.NumThreads.toNat))
    (fun j hj => by
      obtain ⟨ct, h1, h2⟩ := hall j (by omega)
      rw [Nat.zero_add] at h2
      exact ⟨ct, h1, h2⟩) sched c2₀ _ e2₀
  obtain ⟨c1', hc1', ec1'⟩ := IsEnc.scalarMultRandomizer M hpk e₁ dr.rC1 0
  obtain ⟨c12, hc12, ec12⟩ := IsEnc.add M hpk ec1' ec2 0
  obtain ⟨cz1, hcz1, ecz1⟩ := IsEnc.scalarMultRandomizer M hpk ec12 dr.rZ1 0
  obtain ⟨cz2, hcz2, ecz2⟩ := IsEnc.add M hpk ec12 eP 0
  obtain ⟨Z1, hZ1, hZ1'⟩ := IsEnc.bytes_roundtrip M hpk ecz1 qp.PointCompression
  obtain ⟨Z2, hZ2, hZ2'⟩ := IsEnc.bytes_roundtrip M hpk ecz2 qp.PointCompression
  rw [hrl, hm] at ec2
  simp only [smul_zero, zero_smul, zero_add] at ecz1 ecz2
  rw [hrl, hm] at ecz1 ecz2
  refine ⟨fC, ⟨Z1, Z2⟩, cz1, cz2, P, hAdd, ?_, hZ1', ecz1, hZ2', ecz2, hPx⟩
  unfold ResponseGen
  have hn1 : ¬ qp.NumThreads < 0 := by omega
  have hn2 : ¬ qp.NumThreads = 0 := by omega
  rw [hlen, hkq, uint_natCast _ hw, uint_natCast _ hk63]
  simp only [hinit, hP, hAdd, Except.ok_bind_eq, if_neg hn1, if_neg hn2, hres, h2₀, hc2, hC1,
    hc1', hc12, hcz1, hcz2, hZ1, hZ2, Except.pure_eq_ok]

end pcr

namespace pcr
open bloom bitset elgamal

theorem RespDeployment.decode_forall₂ (pk : PublicKey) (pc : Bool) :
    ∀ (cbs : List CiphertextByte) (zs : List ZKPByte) (cs : List Ciphertext) (ps : List ZKP),
      RespDeployment.decode pk pc cbs zs = .ok (cs, ps) →
      List.Forall₂ (fun cb ct => pk.Bytes2Ciphertext cb pc = .ok ct) cbs cs
  | [], _, cs, ps, h => by
    simp only [RespDeployment.decode, Except.ok.injEq, Prod.mk.injEq] at h
    obtain ⟨rfl, rfl⟩ := h
    exact List.Forall₂.nil
  | cb :: cbs, [], cs, ps, h => by
    unfold RespDeployment.decode at h
    cases hc : pk.Bytes2Ciphertext cb pc <;> simp [hc] at h
  | cb :: cbs, pb :: pbs, cs, ps, h => by
    unfold RespDeployment.decode at h
    cases hc : pk.Bytes2Ciphertext cb pc with
    | error e => simp [hc] at h
    | ok ct =>
      cases hp : pk.Bytes2ZKP pb pc with
      | error e => simp [hc, hp] at h
      | ok p =>
        cases hr : RespDeployment.decode pk pc cbs pbs with
        | error e => simp [hc, hp, hr] at h
        | ok r =>
          obtain ⟨cs', ps'⟩ := r
          simp only [hc, hp, hr, Except.ok_bind_eq, Except.pure_eq_ok, Except.ok.injEq,
            Prod.mk.injEq] at h
          obtain ⟨rfl, rfl⟩ := h
          exact List.Forall₂.cons hc (RespDeployment.decode_forall₂ pk pc cbs pbs cs' ps' hr)

/-- The entries of a decoded query, index by index. -/
theorem entries_of_forall₂ {pk : PublicKey} {pc : Bool} {cbs : List CiphertextByte}
    {cs : List Ciphertext} {R : Ciphertext → Int → Prop} (f : Nat → Int) (n : Nat)
    (h1 : List.Forall₂ (fun cb ct => pk.Bytes2Ciphertext cb pc = .ok ct) cbs cs)
    (h2 : List.Forall₂ R cs ((List.range' 0 n).map f)) :
    ∀ i < n, ∃ cb ct, cbs[i]? = some cb ∧ pk.Bytes2Ciphertext cb pc = .ok ct ∧ R ct (f i) := by
  intro i hi
  have hl2 : cs.length = n := by simpa using h2.length_eq
  have hl1 : cbs.length = n := by rw [h1.length_eq, hl2]
  have hi1 : i < cbs.length := by omega
  have hi2 : i < cs.length := by omega
  have hi3 : i < ((List.range' 0 n).map f).length := by simpa using hi
  refine ⟨cbs[i], cs[i], List.getElem?_eq_getElem hi1, ?_, ?_⟩
  · exact (List.forall₂_iff_get.1 h1).2 i hi1 hi2
  · have := (List.forall₂_iff_get.1 h2).2 i hi2 hi3
    simpa using this

end pcr

namespace pcr
open bloom bitset elgamal

/-- The protocol from the query to the response, for a filter that `ReqBFGen` returned:
the three steps return, `Z1` decodes to an encryption of the collected shares times the
last scalar drawn, and `Z2` to an encryption of the collected shares plus the point that
embeds the candidate password. -/
theorem pipeline_spec {c : Curve} {Pt : Type} [AddCommGroup Pt] (M : c.Model Pt) (L : Lib)
    (hsound : L.ModSqrtSound) {pk : PublicKey} {sk : SecretKey} (hk : KeyPair c pk sk)
    (hsec : initCurve L pk.SecParam = some c) (reqPara : ReqPara) (w k : Nat) (hw0 : 0 < w)
    (hw : 64 * w < 2 ^ 63) (hlen : reqPara.BfLength = ((64 * w : Nat) : Int))
    (hkq : reqPara.NumHashFuncs = (k : Int)) (hk1 : 1 ≤ k) (hk63 : k < 2 ^ 63)
    (hkK : (k : Int) ≤ reqPara.BfNumOnes) (hT : 1 ≤ reqPara.NumThreads)
    (pwd : List Nat) (draws : List (Nat × Nat)) (bf : BloomFilter)
    (hbf : ReqBFGen L pk reqPara pwd draws = .ok (some bf))
    (qdraws : Nat → ZKPDraw) (zInv zZero : Nat) (cand : List Nat) (dr : RespDraws)
    (sched : List Nat) (ctP : Ciphertext) (hP : pk.EncryptMul L cand dr.zPwd = .ok ctP) :
    ∃ fC q qp r z1 z2 P,
      (New (64 * w) k).Add L (HashSha256 L cand) = .ok fC ∧
      QueryGen L pk reqPara bf qdraws = .ok q ∧ RespDeployment L q zInv zZero = .ok qp ∧
      ResponseGen L sk qp cand dr sched = .ok r ∧
      pk.Bytes2Ciphertext r.Z1 reqPara.PointCompression = .ok z1 ∧
      IsEnc M (AddSubgroup.zmultiples M.g) (big.SetBytes sk.Priv : Int)
        (c.draw dr.rZ1 • ((sched.filter fun t => decide (t < reqPara.NumThreads.toNat)).map
          (ResponseGen.share M fC dr
            (fun i => (if bf.b.Test i = true then (1 : Int) else -1) • M.g)
            reqPara.NumThreads.toNat (64 * w / reqPara.NumThreads.toNat))).sum) z1 ∧
      pk.Bytes2Ciphertext r.Z2 reqPara.PointCompression = .ok z2 ∧
      IsEnc M (AddSubgroup.zmultiples M.g) (big.SetBytes sk.Priv : Int)
        (((sched.filter fun t => decide (t < reqPara.NumThreads.toNat)).map
          (ResponseGen.share M fC dr
            (fun i => (if bf.b.Test i = true then (1 : Int) else -1) • M.g)
            reqPara.NumThreads.toNat (64 * w / reqPara.NumThreads.toNat))).sum + P) z2 ∧
      (M.coords P).1 = (big.SetBytes (cand ++ List.replicate PaddingBytes 0) : Int) := by
  obtain ⟨hwf, -, hones, -⟩ := ReqBFGen_spec L pk reqPara pwd draws bf w k hw0 hw hlen hkq hk1
    hk63 hkK hbf
  obtain ⟨q, cs, zkps, hq, hq1, hq2, hq3, hq4, hq5, hq6, hdec, hver, henc⟩ :=
    QueryGen_spec M L hk reqPara bf w hw0 hwf hlen hT qdraws
  have hms : ∀ m ∈ (List.range' 0 (64 * w)).map
      (fun x => if bf.b.Test x = true then (1 : Int) else -1), m = 1 ∨ m = -1 := by
    intro m hmem
    obtain ⟨x, -, rfl⟩ := List.mem_map.1 hmem
    by_cases hx : bf.b.Test x = true
    · left; rw [if_pos hx]
    · right; rw [if_neg hx]
  have hcount : (((List.range' 0 (64 * w)).map
      (fun x => if bf.b.Test x = true then (1 : Int) else -1)).count 1 : Int) =
      reqPara.BfNumOnes := by
    rw [count_one_bits (fun x => bf.b.Test x), ← List.range_eq_range', ← hones,
      BloomFilter.ones, hwf.1]
  have hKle : reqPara.BfNumOnes ≤ ((64 * w : Nat) : Int) := by
    rw [← hones, BloomFilter.ones]
    have := List.countP_le_length (fun i => bf.b.Test i) (l := List.range bf.m)
    rw [List.length_range] at this
    have hm := hwf.1
    omega
  have hK0 : 0 ≤ reqPara.BfNumOnes := by omega
  have hsum : ((List.range' 0 (64 * w)).map
      (fun x => if bf.b.Test x = true then (1 : Int) else -1)).sum +
      wrapInt64 (q.BfLength - 2 * q.BfNumOnes) = 0 := by
    rw [sum_pm_one _ hms, hcount, hq1, hq2, wrapInt64_eq _ (by omega) (by omega), hlen]
    simp only [List.length_map, List.length_range']
    ring
  obtain ⟨qp, ct₁, hqp, hp1, hp2, hp3, hp4, hp5, hp6, hC1, e₁⟩ :=
    RespDeployment_spec M L hk hsec q hq6 cs zkps (by rw [hq5] at hdec ⊢; exact hdec)
      hver _ henc hsum zInv zZero
  have hEBF := entries_of_forall₂ (fun x => if bf.b.Test x = true then (1 : Int) else -1)
    (64 * w) (RespDeployment.decode_forall₂ _ _ _ _ _ _ hdec) henc
  obtain ⟨fC, r, z1, z2, P, hfC, hr, hz1, ez1, hz2, ez2, hPx⟩ :=
    ResponseGen_spec M L hsound hk hsec qp hp5 w k hw0 hw (by rw [hp1, hq1, hlen])
      (by rw [hp2, hq3, hkq]) hk63 (by rw [hp3, hq4]; exact hT)
      (fun i => (if bf.b.Test i = true then (1 : Int) else -1) • M.g)
      (by rw [hp6, hp4]; exact hEBF) ct₁ (by rw [hp4]; exact hC1) e₁ cand dr sched ctP hP
  rw [hp3, hq4] at ez1 ez2
  rw [hp4, hq5] at hz1 hz2
  exact ⟨fC, q, qp, r, z1, z2, P, hfC, hq, hqp, hr, hz1, ez1, hz2, ez2, hPx⟩

end pcr

namespace pcr
open bloom bitset elgamal

end pcr

namespace Curve.Model
variable {c : Curve} {Pt : Type} [AddCommGroup Pt]

/-- When the base point has prime order `N`, a scalar kills it only if `N` divides it. -/
theorem dvd_of_zsmul_g_eq_zero (M : c.Model Pt) (hp : c.BasePrimeOrder) (d : Int)
    (hd : d • M.g = 0) : c.N ∣ d := by
  haveI : Fact (Nat.Prime c.N.natAbs) := ⟨hp.1⟩
  have hN : (c.N.natAbs : Int) = c.N := Int.natAbs_of_nonneg (le_of_lt M.N_pos)
  have hg : M.g ≠ 0 := by
    intro h0
    apply hp.2
    rw [M.base_point, h0, M.coords_zero]
  have h1 : c.N.natAbs • M.g = 0 := by
    rw [← natCast_zsmul, hN]
    exact M.order
  have hord : addOrderOf M.g = c.N.natAbs := addOrderOf_eq_prime h1 hg
  have := (addOrderOf_dvd_iff_zsmul_eq_zero (x := M.g) (i := d)).2 hd
  rwa [hord, hN] at this

theorem zsmul_g_eq_zero_of_dvd (M : c.Model Pt) (d : Int) (hd : c.N ∣ d) : d • M.g = 0 := by
  obtain ⟨k, rfl⟩ := hd
  rw [mul_comm, mul_smul, M.order, smul_zero]

end Curve.Model

namespace pcr
open bloom bitset elgamal

end pcr

namespace pcr
open bloom bitset elgamal

end pcr

namespace pcr
open bloom bitset elgamal

end pcr

/-! ## The curve library `weierstrass.curve` keeps the contract -/

namespace weierstrass

theorem powMod_eq (p : Nat) (fuel b e : Nat) (h : e ≤ fuel) :
    powMod p fuel b e = b ^ e % p := by
  induction fuel generalizing e with
  | zero =>
    have : e = 0 := by omega
    subst this
    simp [powMod]
  | succ fuel ih =>
    unfold powMod
    by_cases he : e = 0
    · subst he; simp
    · rw [if_neg he]
      have hlt : e / 2 ≤ fuel := by omega
      simp only [ih _ hlt]
      have hsplit : e = 2 * (e / 2) + e % 2 := (Nat.div_add_mod e 2).symm
      by_cases hodd : e % 2 = 1
      · rw [if_pos hodd]
        have hpow : b ^ e = b ^ (e / 2) * b ^ (e / 2) * b := by
          conv_lhs => rw [hsplit, hodd]
          ring
        rw [hpow]
        generalize b ^ (e / 2) = h0
        simp [Nat.mul_mod]
      · rw [if_neg hodd]
        have hev : e % 2 = 0 := by omega
        have hpow : b ^ e = b ^ (e / 2) * b ^ (e / 2) := by
          conv_lhs => rw [hsplit, hev]
          ring
        rw [hpow]
        generalize b ^ (e / 2) = h0
        simp [Nat.mul_mod]

variable {p : Nat} [hp : Fact p.Prime]

theorem powMod_cast (x : Int) (e : Nat) (he : e ≤ p) :
    ((powMod p p (x % p).toNat e : Nat) : ZMod p) = (x : ZMod p) ^ e := by
  rw [powMod_eq p p _ e he, ZMod.natCast_mod, Nat.cast_pow]
  congr 1
  have hpos : (0 : Int) < p := by exact_mod_cast hp.out.pos
  have hnn : 0 ≤ x % p := Int.emod_nonneg x (ne_of_gt hpos)
  have : (((x % p).toNat : Nat) : Int) = x % p := Int.toNat_of_nonneg hnn
  calc (((x % p).toNat : Nat) : ZMod p) = (((x % p).toNat : Int) : ZMod p) := by push_cast; rfl
    _ = ((x % p : Int) : ZMod p) := by rw [this]
    _ = (x : ZMod p) := ZMod.intCast_mod x p

theorem inv_cast (h2 : p ≠ 2) (x : Int) : ((inv p x : Int) : ZMod p) = (x : ZMod p)⁻¹ := by
  unfold inv
  rw [Int.cast_natCast, powMod_cast x (p - 2) (Nat.sub_le p 2)]
  have hp3 : 3 ≤ p := by
    have := hp.out.two_le
    omega
  by_cases hx : (x : ZMod p) = 0
  · rw [hx, inv_zero, zero_pow (by omega)]
  · apply eq_inv_of_mul_eq_one_left
    rw [← pow_succ]
    have : p - 2 + 1 = p - 1 := by omega
    rw [this]
    exact ZMod.pow_card_sub_one_eq_one hx

variable {b : Nat}

theorem cast_val_int (x : ZMod p) : (((x.val : Nat) : Int) : ZMod p) = x := by
  rw [Int.cast_natCast, ZMod.natCast_zmod_val]

theorem emod_eq_val (e : Int) (E : ZMod p) (h : (e : ZMod p) = E) :
    e % (p : Int) = (E.val : Int) := by
  rw [← h, ZMod.val_intCast]

theorem val_int_eq_iff (x y : ZMod p) : ((x.val : Int) = (y.val : Int)) ↔ x = y := by
  rw [Int.natCast_inj]
  exact (ZMod.val_injective p).eq_iff

theorem equation_iff (x y : ZMod p) :
    (W p b).Equation x y ↔ y ^ 2 = x ^ 3 - 3 * x + (b : ZMod p) := by
  rw [WeierstrassCurve.Affine.equation_iff]
  simp only [W]
  constructor
  · intro h
    linear_combination h
  · intro h
    linear_combination h

theorem coords_some_ne_zero (hb : (b : ZMod p) ≠ 0) {x y : ZMod p}
    (h : (W p b).Nonsingular x y) : coords p b (.some h) ≠ (0, 0) := by
  intro e
  simp only [coords, Prod.mk.injEq] at e
  have hx : x = 0 := by
    have := e.1
    have h0 : x.val = 0 := by exact_mod_cast this
    exact (ZMod.val_eq_zero x).1 h0
  have hy : y = 0 := by
    have := e.2
    have h0 : y.val = 0 := by exact_mod_cast this
    exact (ZMod.val_eq_zero y).1 h0
  have heq := (equation_iff x y).1 h.1
  rw [hx, hy] at heq
  apply hb
  linear_combination -heq

theorem coords_injective (hb : (b : ZMod p) ≠ 0) : Function.Injective (coords p b) := by
  rintro (_ | ⟨h1⟩) (_ | ⟨h2⟩) e
  · rfl
  · exact absurd e.symm (coords_some_ne_zero hb h2)
  · exact absurd e (coords_some_ne_zero hb h1)
  · simp only [coords, Prod.mk.injEq] at e
    have hx := (val_int_eq_iff _ _).1 e.1
    have hy := (val_int_eq_iff _ _).1 e.2
    subst hx
    subst hy
    rfl

omit hp in
theorem coords_zero : coords p b 0 = (0, 0) := rfl

theorem add_emod_eq_zero_iff (x y : ZMod p) :
    ((x.val : Int) + (y.val : Int)) % (p : Int) = 0 ↔ x = -y := by
  rw [emod_eq_val _ (x + y) (by push_cast; simp)]
  constructor
  · intro h
    have h0 : (x + y).val = 0 := by exact_mod_cast h
    exact eq_neg_of_add_eq_zero_left ((ZMod.val_eq_zero _).1 h0)
  · intro h
    rw [h]
    simp

theorem slope_cast (h2 : p ≠ 2) (x1 y1 x2 y2 : ZMod p)
    (hxy : ¬(x1 = x2 ∧ y1 = (W p b).negY x2 y2)) :
    (((if (x1.val : Int) = (x2.val : Int)
      then (3 * (x1.val : Int) * (x1.val : Int) - 3) * inv p (2 * (y1.val : Int))
      else ((y1.val : Int) - (y2.val : Int)) * inv p ((x1.val : Int) - (x2.val : Int)) : Int)) :
        ZMod p) = (W p b).slope x1 x2 y1 y2 := by
  by_cases hx : x1 = x2
  · have hy : y1 ≠ (W p b).negY x2 y2 := fun e => hxy ⟨hx, e⟩
    rw [if_pos ((val_int_eq_iff _ _).2 hx), WeierstrassCurve.Affine.slope_of_Y_ne hx hy]
    push_cast
    rw [inv_cast h2]
    push_cast
    simp only [ZMod.natCast_zmod_val, W, WeierstrassCurve.Affine.negY]
    rw [div_eq_mul_inv]
    congr 1
    · ring
    · congr 1
      ring
  · rw [if_neg (fun e => hx ((val_int_eq_iff _ _).1 e)),
      WeierstrassCurve.Affine.slope_of_X_ne hx]
    push_cast
    rw [inv_cast h2]
    push_cast
    simp only [ZMod.natCast_zmod_val]
    rw [div_eq_mul_inv]

theorem coords_add (h2 : p ≠ 2) (hb : (b : ZMod p) ≠ 0) (P Q : (W p b).Point) :
    add p (coords p b P) (coords p b Q) = coords p b (P + Q) := by
  rcases P with _ | @⟨x1, y1, h1⟩
  · rw [WeierstrassCurve.Affine.Point.zero_def, zero_add]
    simp [coords_zero, add]
  rcases Q with _ | @⟨x2, y2, h2'⟩
  · rw [WeierstrassCurve.Affine.Point.zero_def, add_zero]
    unfold add
    rw [if_neg (coords_some_ne_zero hb h1), if_pos coords_zero]
  unfold add
  rw [if_neg (coords_some_ne_zero hb h1), if_neg (coords_some_ne_zero hb h2')]
  have e1 : coords p b (.some h1) = ((x1.val : Int), (y1.val : Int)) := rfl
  have e2 : coords p b (.some h2') = ((x2.val : Int), (y2.val : Int)) := rfl
  rw [e1, e2]
  dsimp only
  have hcond : ((x1.val : Int) = (x2.val : Int) ∧ ((y1.val : Int) + (y2.val : Int)) % (p : Int) = 0) ↔
      (x1 = x2 ∧ y1 = (W p b).negY x2 y2) := by
    rw [val_int_eq_iff, add_emod_eq_zero_iff]
    simp [W]
  by_cases hxy : x1 = x2 ∧ y1 = (W p b).negY x2 y2
  · rw [if_pos (hcond.2 hxy), WeierstrassCurve.Affine.Point.add_of_Y_eq hxy.1 hxy.2]
    rfl
  · rw [if_neg (fun h => hxy (hcond.1 h)),
      WeierstrassCurve.Affine.Point.add_of_imp (fun hx hy => hxy ⟨hx, hy⟩)]
    have hL := slope_cast (b := b) h2 x1 y1 x2 y2 hxy
    generalize (if (x1.val : Int) = (x2.val : Int)
      then (3 * (x1.val : Int) * (x1.val : Int) - 3) * inv p (2 * (y1.val : Int))
      else ((y1.val : Int) - (y2.val : Int)) * inv p ((x1.val : Int) - (x2.val : Int))) = L at hL ⊢
    have hX : ((L * L - (x1.val : Int) - (x2.val : Int) : Int) : ZMod p) =
        (W p b).addX x1 x2 ((W p b).slope x1 x2 y1 y2) := by
      rw [Int.cast_sub, Int.cast_sub, Int.cast_mul, hL, cast_val_int, cast_val_int]
      simp only [W, WeierstrassCurve.Affine.addX]
      ring
    show _ = ((_ : Int), (_ : Int))
    refine Prod.ext ?_ ?_
    · exact emod_eq_val _ _ hX
    · apply emod_eq_val
      rw [Int.cast_neg, Int.cast_add, Int.cast_mul, hL, Int.cast_sub, ZMod.intCast_mod, hX,
        cast_val_int, cast_val_int]
      simp only [W, WeierstrassCurve.Affine.addY, WeierstrassCurve.Affine.negAddY,
        WeierstrassCurve.Affine.negY, WeierstrassCurve.Affine.addX]
      ring

theorem smulAux_coords (h2 : p ≠ 2) (hb : (b : ZMod p) ≠ 0) (P : (W p b).Point)
    (fuel n : Nat) (h : n ≤ fuel) :
    smulAux p fuel n (coords p b P) = coords p b (n • P) := by
  induction fuel generalizing n with
  | zero =>
    have : n = 0 := by omega
    subst this
    rw [zero_nsmul]
    rfl
  | succ fuel ih =>
    unfold smulAux
    by_cases hn : n = 0
    · subst hn
      rw [zero_nsmul, if_pos rfl]
      rfl
    · rw [if_neg hn]
      have hlt : n / 2 ≤ fuel := by omega
      simp only [ih _ hlt, coords_add h2 hb]
      have hsplit : n = 2 * (n / 2) + n % 2 := (Nat.div_add_mod n 2).symm
      by_cases hodd : n % 2 = 1
      · rw [if_pos hodd]
        congr 1
        conv_rhs => rw [hsplit, hodd]
        rw [add_smul, mul_smul, two_smul, one_smul]
      · rw [if_neg hodd]
        have hev : n % 2 = 0 := by omega
        congr 1
        conv_rhs => rw [hsplit, hev]
        rw [add_zero, mul_smul, two_smul]

theorem smul_coords (h2 : p ≠ 2) (hb : (b : ZMod p) ≠ 0) (P : (W p b).Point) (n : Nat) :
    smul p n (coords p b P) = coords p b (n • P) :=
  smulAux_coords h2 hb P n n le_rfl

theorem isOnCurve_iff (hb : (b : ZMod p) ≠ 0) (hΔ : (W p b).Δ ≠ 0) (x y : Int) :
    isOnCurve p b x y = true ↔ ((x, y) ≠ (0, 0) ∧ ∃ P, coords p b P = (x, y)) := by
  unfold isOnCurve
  rw [decide_eq_true_iff]
  constructor
  · rintro ⟨hx0, hxp, hy0, hyp, heq⟩
    have hE : (W p b).Equation (x : ZMod p) (y : ZMod p) := by
      rw [equation_iff]
      have := (ZMod.intCast_eq_intCast_iff' _ _ p).2 heq
      push_cast at this
      linear_combination this
    have hN := WeierstrassCurve.Affine.nonsingular_of_Δ_ne_zero (W p b) hE hΔ
    have hc : coords p b (.some hN) = (x, y) := by
      show (((x : ZMod p).val : Int), ((y : ZMod p).val : Int)) = (x, y)
      rw [ZMod.val_intCast, ZMod.val_intCast, Int.emod_eq_of_lt hx0 hxp,
        Int.emod_eq_of_lt hy0 hyp]
    refine ⟨?_, _, hc⟩
    rw [← hc]
    exact coords_some_ne_zero hb hN
  · rintro ⟨hne, P, hP⟩
    rcases P with _ | @⟨X, Y, hN⟩
    · exact absurd hP.symm hne
    · have hc : (((X.val : Nat) : Int), ((Y.val : Nat) : Int)) = (x, y) := hP
      simp only [Prod.mk.injEq] at hc
      obtain ⟨rfl, rfl⟩ := hc
      refine ⟨Int.natCast_nonneg _, by exact_mod_cast ZMod.val_lt X, Int.natCast_nonneg _,
        by exact_mod_cast ZMod.val_lt Y, ?_⟩
      apply (ZMod.intCast_eq_intCast_iff' _ _ p).1
      have := (equation_iff X Y).1 hN.1
      push_cast
      simp only [ZMod.natCast_zmod_val]
      linear_combination this

omit hp in
theorem SetBytes_replicate_zero_append (k : Nat) (bs : List Nat) :
    big.SetBytes (List.replicate k 0 ++ bs) = big.SetBytes bs := by
  unfold big.SetBytes
  rw [List.foldl_append]
  congr 1
  induction k with
  | zero => rfl
  | succ k ih => simpa [List.replicate_succ] using ih

omit hp in
theorem SetBytes_fixedBytes (len : Nat) (x : Int) (hx : 0 ≤ x) :
    (big.SetBytes (fixedBytes len x) : Int) = x := by
  unfold fixedBytes
  rw [SetBytes_replicate_zero_append, big.SetBytes_Bytes x hx]

omit hp in
theorem length_fixedBytes (x : Int) (hx : 0 ≤ x) (hxp : x < p) :
    (fixedBytes (byteLen p) x).length = byteLen p := by
  unfold fixedBytes byteLen
  have hle : (big.Bytes x).length ≤ (big.natBytes p).length := by
    unfold big.Bytes
    rw [big.natBytes_eq, big.natBytes_eq, List.length_reverse, List.length_reverse]
    apply Nat.le_digits_len_le
    omega
  rw [List.length_append, List.length_replicate]
  omega

theorem unmarshal_marshal (hb : (b : ZMod p) ≠ 0) (hΔ : (W p b).Δ ≠ 0) (P : (W p b).Point) :
    unmarshal p b (marshal p (coords p b P)) = some (coords p b P) := by
  rcases P with _ | @⟨X, Y, hN⟩
  · rfl
  · have hne := coords_some_ne_zero hb hN
    have hon : isOnCurve p b (X.val : Int) (Y.val : Int) = true :=
      (isOnCurve_iff hb hΔ _ _).2 ⟨hne, .some hN, rfl⟩
    have hon' := hon
    unfold isOnCurve at hon'
    rw [decide_eq_true_iff] at hon'
    obtain ⟨hx0, hxp, hy0, hyp, -⟩ := hon'
    have e : coords p b (.some hN) = ((X.val : Int), (Y.val : Int)) := rfl
    rw [e] at hne ⊢
    unfold marshal
    rw [if_neg hne]
    unfold unmarshal
    have hlx := length_fixedBytes _ hx0 hxp
    have hly := length_fixedBytes _ hy0 hyp
    simp only [List.length_append, hlx, hly, two_mul, if_true, List.take_left' hlx,
      List.drop_left' hlx, SetBytes_fixedBytes _ _ hx0, SetBytes_fixedBytes _ _ hy0, hon]

omit hp in
theorem powMod_lt (hp0 : 0 < p) (fuel x e : Nat) (h : e ≤ fuel) : powMod p fuel x e < p := by
  rw [powMod_eq p fuel x e h]
  exact Nat.mod_lt _ hp0

theorem sqrtMod_eq (h4 : p % 4 = 3) (x y : Int) (hy0 : 0 ≤ y) (hyp : y < p)
    (heq : (y * y) % p = (x * x * x - 3 * x + b) % p) :
    ∃ r : Int, sqrtMod p (x * x * x - 3 * x + b) = some r ∧
      (if r % 2 = y % 2 then r else p - r) = y := by
  have hp0 : 0 < p := hp.out.pos
  have h4le : (p + 1) / 4 ≤ p := by omega
  have hr_cast := powMod_cast (p := p) (x * x * x - 3 * x + b) ((p + 1) / 4) h4le
  have hr_lt := powMod_lt hp0 p ((x * x * x - 3 * x + (b : Int)) % p).toNat ((p + 1) / 4) h4le
  unfold sqrtMod
  dsimp only
  generalize powMod p p ((x * x * x - 3 * x + (b : Int)) % p).toNat ((p + 1) / 4) = r
    at hr_cast hr_lt ⊢
  have ha : ((x * x * x - 3 * x + b : Int) : ZMod p) = (y : ZMod p) ^ 2 := by
    have := (ZMod.intCast_eq_intCast_iff' _ _ p).2 heq
    rw [← this]
    push_cast
    ring
  have hsq : (r : ZMod p) ^ 2 = (y : ZMod p) ^ 2 := by
    rw [hr_cast, ha, ← pow_mul, ← pow_mul]
    have : 2 * ((p + 1) / 4 * 2) = p + 1 := by omega
    rw [this, pow_succ, ZMod.pow_card]
    ring
  have hcond : ((r : Int) * (r : Int)) % p = (x * x * x - 3 * x + b) % p := by
    apply (ZMod.intCast_eq_intCast_iff' _ _ p).1
    rw [ha, ← hsq]
    push_cast
    ring
  refine ⟨(r : Int), ?_, ?_⟩
  · rw [if_pos hcond]
  · rcases sq_eq_sq_iff_eq_or_eq_neg.1 hsq with h | h
    · have h' : ((r : Int) : ZMod p) = ((y : Int) : ZMod p) := by
        rw [Int.cast_natCast]
        exact h
      have := (ZMod.intCast_eq_intCast_iff' _ _ p).1 h'
      rw [Int.emod_eq_of_lt (Int.natCast_nonneg r) (by exact_mod_cast hr_lt),
        Int.emod_eq_of_lt hy0 hyp] at this
      rw [this]
      simp
    · have h' : (((r : Int) + y : Int) : ZMod p) = 0 := by
        push_cast
        rw [h]
        ring
      have hdvd := (ZMod.intCast_zmod_eq_zero_iff_dvd _ p).1 h'
      obtain ⟨k, hk⟩ := hdvd
      have hr0 : (0 : Int) ≤ r := Int.natCast_nonneg r
      have hrp : (r : Int) < p := by exact_mod_cast hr_lt
      have hp4 : (p : Int) % 4 = 3 := by exact_mod_cast h4
      have hk01 : k = 0 ∨ k = 1 := by
        have hpp : (0 : Int) < p := by exact_mod_cast hp0
        have h1 : (p : Int) * k < (p : Int) * 2 := by nlinarith
        have h2 : (p : Int) * (-1) < (p : Int) * k := by nlinarith
        have h3 : k < 2 := lt_of_mul_lt_mul_left h1 (le_of_lt hpp)
        have h4' : -1 < k := lt_of_mul_lt_mul_left h2 (le_of_lt hpp)
        omega
      rcases hk01 with rfl | rfl
      · have hr : (r : Int) = 0 := by omega
        have hy : y = 0 := by omega
        rw [hr, hy]
        simp
      · rw [mul_one] at hk
        split_ifs with hpar
        · omega
        · omega

theorem unmarshalCompressed_marshalCompressed (h4 : p % 4 = 3) (hb : (b : ZMod p) ≠ 0)
    (hΔ : (W p b).Δ ≠ 0) (P : (W p b).Point) :
    unmarshalCompressed p b (marshalCompressed p (coords p b P)) = some (coords p b P) := by
  rcases P with _ | @⟨X, Y, hN⟩
  · rfl
  · have hne := coords_some_ne_zero hb hN
    have hon : isOnCurve p b (X.val : Int) (Y.val : Int) = true :=
      (isOnCurve_iff hb hΔ _ _).2 ⟨hne, .some hN, rfl⟩
    have hon' := hon
    unfold isOnCurve at hon'
    rw [decide_eq_true_iff] at hon'
    obtain ⟨hx0, hxp, hy0, hyp, heq⟩ := hon'
    have e : coords p b (.some hN) = ((X.val : Int), (Y.val : Int)) := rfl
    rw [e] at hne ⊢
    unfold marshalCompressed
    rw [if_neg hne]
    obtain ⟨r, hr, hsel⟩ := sqrtMod_eq (b := b) h4 _ _ hy0 hyp heq
    have hlx := length_fixedBytes _ hx0 hxp
    have htag : (((2 + ((Y.val : Int) % 2).toNat : Nat) : Int)) - 2 = (Y.val : Int) % 2 := by
      have : 0 ≤ (Y.val : Int) % 2 := Int.emod_nonneg _ (by norm_num)
      push_cast
      rw [Int.toNat_of_nonneg this]
      ring
    have ht23 : 2 + ((Y.val : Int) % 2).toNat = 2 ∨ 2 + ((Y.val : Int) % 2).toNat = 3 := by
      omega
    unfold unmarshalCompressed
    split
    · rename_i heq0
      simp only [List.cons.injEq] at heq0
      omega
    · rename_i t rest hne0 hd
      simp only [List.cons.injEq] at hd
      obtain ⟨rfl, rfl⟩ := hd
      rw [if_pos ⟨ht23, hlx⟩]
      simp only [SetBytes_fixedBytes _ _ hx0, hr, htag, hsel, hon, if_true]
    · rename_i hne0 hne1
      exact absurd rfl (hne1 _ _)

end weierstrass

/-- The curve `y² = x³ - 3x + b` over the field with `p` elements keeps the contract of the
curve library: its points form the group of Mathlib's `WeierstrassCurve.Affine.Point`. -/
theorem weierstrass.curve_lawful (p b n : Nat) (gx gy : Int) (hp : p.Prime) (h4 : p % 4 = 3)
    (hb : b % p ≠ 0) (hΔ : ((1728 : Int) - 432 * b * b) % p ≠ 0)
    (hG : weierstrass.isOnCurve p b gx gy = true) (hn : 0 < n)
    (hord : weierstrass.smul p n (gx, gy) = (0, 0)) :
    (weierstrass.curve p b n gx gy).Lawful := by
  haveI : Fact p.Prime := ⟨hp⟩
  have h2 : p ≠ 2 := by
    intro h
    rw [h] at h4
    norm_num at h4
  have hb' : (b : ZMod p) ≠ 0 := by
    rw [Ne, ZMod.natCast_zmod_eq_zero_iff_dvd, Nat.dvd_iff_mod_eq_zero]
    exact hb
  have hΔ' : (weierstrass.W p b).Δ ≠ 0 := by
    have hcast : (weierstrass.W p b).Δ = (((1728 : Int) - 432 * b * b : Int) : ZMod p) := by
      simp only [WeierstrassCurve.Δ, WeierstrassCurve.b₂, WeierstrassCurve.b₄,
        WeierstrassCurve.b₆, WeierstrassCurve.b₈, weierstrass.W]
      push_cast
      ring
    rw [hcast, Ne, ZMod.intCast_zmod_eq_zero_iff_dvd, Int.dvd_iff_emod_eq_zero]
    exact hΔ
  obtain ⟨-, G, hGc⟩ := (weierstrass.isOnCurve_iff hb' hΔ' gx gy).1 hG
  refine ⟨(weierstrass.W p b).Point, inferInstance, ⟨?_⟩⟩
  exact
    { coords := weierstrass.coords p b
      g := G
      coords_injective := weierstrass.coords_injective hb'
      coords_zero := weierstrass.coords_zero
      add_coords := fun a c => weierstrass.coords_add h2 hb' a c
      scalarMult_coords := fun a k => weierstrass.smul_coords h2 hb' a _
      scalarBaseMult_eq := fun k => by
        show weierstrass.smul p (big.SetBytes k) (gx, gy) = _
        rw [← hGc]
        exact weierstrass.smul_coords h2 hb' G _
      N_pos := by
        show (0 : Int) < (n : Int)
        exact_mod_cast hn
      order := by
        show (n : Int) • G = 0
        rw [natCast_zsmul]
        apply weierstrass.coords_injective hb'
        rw [← weierstrass.smul_coords h2 hb', hGc, hord]
        rfl
      isOnCurve_iff := fun x y => weierstrass.isOnCurve_iff hb' hΔ' x y
      isOnCurve_eqn := fun x y => by
        show weierstrass.isOnCurve p b x y = true ↔ _
        unfold weierstrass.isOnCurve
        rw [decide_eq_true_iff]
        rfl
      unmarshal_marshal := fun a => weierstrass.unmarshal_marshal hb' hΔ' a
      unmarshalCompressed_marshalCompressed := fun a =>
        weierstrass.unmarshalCompressed_marshalCompressed h4 hb' hΔ' a }

/-- The curve with 17 points keeps the contract. -/
theorem weierstrass.c11_lawful : weierstrass.c11.Lawful :=
  weierstrass.curve_lawful 11 1 17 2 5 (by norm_num) (by decide) (by decide) (by decide)
    (by decide) (by decide) (by decide)

/-- The square root of the library `weierstrass.lib` is sound. -/
theorem weierstrass.lib_modSqrtSound (c : Curve) : (weierstrass.lib c).ModSqrtSound := by
  intro a p r h
  have h' : (if 0 < p then weierstrass.sqrtMod p.toNat a else none) = some r := h
  by_cases hp : 0 < p
  · rw [if_pos hp] at h'
    have hpn : (p.toNat : Int) = p := Int.toNat_of_nonneg (le_of_lt hp)
    unfold weierstrass.sqrtMod at h'
    dsimp only at h'
    rw [hpn] at h'
    split at h'
    · rename_i hsq
      simp only [Option.some.injEq] at h'
      subst h'
      have hlt := weierstrass.powMod_lt (p := p.toNat) (by omega) p.toNat
        (a % p).toNat ((p.toNat + 1) / 4) (by omega)
      exact ⟨Int.natCast_nonneg _, lt_of_lt_of_eq (by exact_mod_cast hlt) hpn, hsq⟩
    · simp at h'
  · rw [if_neg hp] at h'
    simp at h'

namespace weierstrass

theorem smulFrom_succ (p : Nat) (h P : Point) (k n : Nat) :
    smulFrom p (k + 1) n h P =
      if n % 2 = 1 then add p (add p (smulFrom p k (n / 2) h P) (smulFrom p k (n / 2) h P)) P
      else add p (smulFrom p k (n / 2) h P) (smulFrom p k (n / 2) h P) := by
  conv_lhs => unfold smulFrom

theorem smulFrom_zero (p : Nat) (P : Point) : ∀ k : Nat, smulFrom p k 0 (0, 0) P = (0, 0)
  | 0 => rfl
  | k + 1 => by
    rw [smulFrom_succ, Nat.zero_div, smulFrom_zero p P k, if_neg (by decide)]
    unfold add
    rw [if_pos rfl]

theorem smulAux_zero (p : Nat) (P : Point) : ∀ f : Nat, smulAux p f 0 P = (0, 0)
  | 0 => rfl
  | f + 1 => by
    unfold smulAux
    rw [if_pos rfl]

theorem smulAux_succ (p : Nat) (P : Point) (f n : Nat) (hn : n ≠ 0) :
    smulAux p (f + 1) n P =
      if n % 2 = 1 then add p (add p (smulAux p f (n / 2) P) (smulAux p f (n / 2) P)) P
      else add p (smulAux p f (n / 2) P) (smulAux p f (n / 2) P) := by
  conv_lhs => unfold smulAux
  rw [if_neg hn]

theorem smulAux_split (p : Nat) (P : Point) :
    ∀ (k f n : Nat), smulAux p (f + k) n P = smulFrom p k n (smulAux p f (n / 2 ^ k) P) P
  | 0, f, n => by
    rw [pow_zero, Nat.div_one]
    rfl
  | k + 1, f, n => by
    by_cases hn : n = 0
    · subst hn
      rw [Nat.zero_div, smulAux_zero, smulAux_zero, smulFrom_zero]
    · have e : (n / 2) / 2 ^ k = n / 2 ^ (k + 1) := by
        rw [Nat.div_div_eq_div_mul, pow_succ']
      rw [show f + (k + 1) = (f + k) + 1 from rfl, smulAux_succ p P _ n hn, smulFrom_succ,
        smulAux_split p P k f (n / 2), e]

theorem smulFrom_add (p : Nat) (h P : Point) :
    ∀ (b a n : Nat), smulFrom p (a + b) n h P = smulFrom p b n (smulFrom p a (n / 2 ^ b) h P) P
  | 0, a, n => by
    rw [pow_zero, Nat.div_one]
    rfl
  | b + 1, a, n => by
    have e : (n / 2) / 2 ^ b = n / 2 ^ (b + 1) := by
      rw [Nat.div_div_eq_div_mul, pow_succ']
    rw [show a + (b + 1) = (a + b) + 1 from rfl, smulFrom_succ, smulFrom_succ,
      smulFrom_add p h P b a (n / 2), e]

/-- Scalar multiplication as double-and-add over `K` bits. -/
theorem smul_eq_smulFrom (p n K : Nat) (P : Point) (hK : K ≤ n) (hn : n < 2 ^ K) :
    smul p n P = smulFrom p K n (0, 0) P := by
  unfold smul
  have h := smulAux_split p P K (n - K) n
  rw [Nat.sub_add_cancel hK, Nat.div_eq_of_lt hn, smulAux_zero] at h
  exact h

/-- Scalar multiplication in four runs of `k` bits each. -/
theorem smul_chunk4 (p n k : Nat) (P Q1 Q2 Q3 Q4 : Point) (hk : 4 * k ≤ n)
    (hn : n < 2 ^ (4 * k))
    (h1 : smulFrom p k (n / 2 ^ (3 * k)) (0, 0) P = Q1)
    (h2 : smulFrom p k (n / 2 ^ (2 * k)) Q1 P = Q2)
    (h3 : smulFrom p k (n / 2 ^ k) Q2 P = Q3)
    (h4 : smulFrom p k n Q3 P = Q4) : smul p n P = Q4 := by
  have e2 : n / 2 ^ k / 2 ^ k = n / 2 ^ (2 * k) := by
    rw [Nat.div_div_eq_div_mul, ← pow_add, two_mul]
  have e3 : n / 2 ^ (2 * k) / 2 ^ k = n / 2 ^ (3 * k) := by
    rw [Nat.div_div_eq_div_mul, ← pow_add]
    congr 2
    omega
  rw [smul_eq_smulFrom p n (4 * k) P hk hn, show 4 * k = (k + k + k) + k by omega,
    smulFrom_add, smulFrom_add, smulFrom_add, e2, e3, h1, h2, h3, h4]

theorem curve_scalarBaseMult (p b n : Nat) (gx gy : Int) (k : List Nat) :
    (curve p b n gx gy).ScalarBaseMult k = smul p (big.SetBytes k) (gx, gy) := rfl

theorem curve_scalarMult (p b n : Nat) (gx gy : Int) (P : Point) (k : List Nat) :
    (curve p b n gx gy).ScalarMult P k = smul p (big.SetBytes k) P := rfl

end weierstrass

theorem weierstrass.p77_prime : Nat.Prime weierstrass.p77 := by
  have hpow : ∀ e : Nat, e ≤ weierstrass.p77 →
      (2 : ZMod weierstrass.p77) ^ e = ((weierstrass.powMod weierstrass.p77 weierstrass.p77 2 e : Nat) : ZMod weierstrass.p77) := by
    intro e he
    rw [weierstrass.powMod_eq _ _ _ _ he, ZMod.natCast_mod, Nat.cast_pow]
    rfl
  have hne : ∀ k : Nat, k ≠ 1 → k < weierstrass.p77 → ((k : Nat) : ZMod weierstrass.p77) ≠ 1 := by
    intro k hk hlt h
    have h1 : ((k : Nat) : ZMod weierstrass.p77) = ((1 : Nat) : ZMod weierstrass.p77) := by
      rw [h, Nat.cast_one]
    rw [ZMod.natCast_eq_natCast_iff, Nat.ModEq, Nat.mod_eq_of_lt hlt,
      Nat.mod_eq_of_lt (by decide)] at h1
    exact hk h1
  apply lucas_primality weierstrass.p77 2
  · rw [hpow _ (by decide)]
    have : weierstrass.powMod weierstrass.p77 weierstrass.p77 2 (weierstrass.p77 - 1) = 1 := by
      decide!
    rw [this, Nat.cast_one]
  · intro q hq hdvd
    have hfac : weierstrass.p77 - 1 = 2 * 3 ^ 24 * 5 ^ 16 := by decide
    rw [hfac] at hdvd
    have hq235 : q = 2 ∨ q = 3 ∨ q = 5 := by
      rcases (Nat.Prime.dvd_mul hq).1 hdvd with h | h
      · rcases (Nat.Prime.dvd_mul hq).1 h with h | h
        · exact Or.inl ((Nat.prime_dvd_prime_iff_eq hq Nat.prime_two).1 h)
        · exact Or.inr (Or.inl ((Nat.prime_dvd_prime_iff_eq hq Nat.prime_three).1
            (hq.dvd_of_dvd_pow h)))
      · exact Or.inr (Or.inr ((Nat.prime_dvd_prime_iff_eq hq Nat.prime_five).1
          (hq.dvd_of_dvd_pow h)))
    rcases hq235 with rfl | rfl | rfl
    · rw [hpow _ (by decide)]
      exact hne _ (by decide!) (by decide!)
    · rw [hpow _ (by decide)]
      exact hne _ (by decide!) (by decide!)
    · rw [hpow _ (by decide)]
      exact hne _ (by decide!) (by decide!)

/-- The base point of `c77` times `n77` is the point at infinity. -/
theorem weierstrass.smul77_order :
    weierstrass.smul weierstrass.p77 weierstrass.n77
      (47045267212305608769571, 21342955711123822791421) = (0, 0) :=
  weierstrass.smul_chunk4 weierstrass.p77 weierstrass.n77 20 _
    (56549800070172599642753, 14895022526975456091851)
    (22536389986226756412035, 8732895123300827336767)
    (25292367056503582325868, 14084069252009265145045) _
    (by decide) (by decide) (by decide!) (by decide!) (by decide!) (by decide!)

theorem weierstrass.c77_lawful : weierstrass.c77.Lawful :=
  weierstrass.curve_lawful weierstrass.p77 439 weierstrass.n77 47045267212305608769571 21342955711123822791421
    weierstrass.p77_prime (by decide) (by decide) (by decide)
    (by decide!) (by decide) weierstrass.smul77_order

/-- The pair `pk11`, `sk11` is a key pair of the curve with 17 points. -/
theorem elgamal.keyPair11 :
    elgamal.KeyPair weierstrass.c11 weierstrass.pk11 weierstrass.sk11 :=
  ⟨rfl, rfl, by decide, by decide⟩

namespace elgamal

/-- The pair `pk77`, `sk77` is what `KeyGen` returns for the private scalar `0x012345`. -/
theorem keyGen77 :
    KeyGen weierstrass.lib77 256 true [1, 35, 69] = .ok (weierstrass.pk77, weierstrass.sk77) := by
  have h1 : weierstrass.c77.ScalarBaseMult (big.Bytes 1) =
      (47045267212305608769571, 21342955711123822791421) := by decide!
  have h2 : weierstrass.c77.ScalarBaseMult [1, 35, 69] =
      (80086784436168655507221, 18543984393210588302618) := by decide!
  have hK : KeyGen weierstrass.lib77 256 true [1, 35, 69] =
      .ok (⟨some weierstrass.c77, 256, (weierstrass.c77.ScalarBaseMult (big.Bytes 1)).1,
          (weierstrass.c77.ScalarBaseMult (big.Bytes 1)).2,
          (weierstrass.c77.ScalarBaseMult [1, 35, 69]).1,
          (weierstrass.c77.ScalarBaseMult [1, 35, 69]).2, true⟩,
        ⟨some weierstrass.c77, (weierstrass.c77.ScalarBaseMult [1, 35, 69]).1,
          (weierstrass.c77.ScalarBaseMult [1, 35, 69]).2, [1, 35, 69]⟩) := rfl
  rw [hK, h1, h2]
  rfl

end elgamal

/-- The curve with 17 points has prime order. -/
theorem weierstrass.c11_primeOrder : weierstrass.c11.PrimeOrder := by
  refine ⟨by norm_num [weierstrass.c11, weierstrass.curve], by decide, ?_⟩
  have hall : ∀ x < 11, ∀ y < 11, weierstrass.c11.IsOnCurve (x : Nat) (y : Nat) = true →
      weierstrass.c11.ScalarMult ((x : Nat), (y : Nat)) (big.Bytes weierstrass.c11.N) = (0, 0) := by
    decide
  rintro ⟨x, y⟩ (h | h)
  · rw [h]
    decide
  · have hb : 0 ≤ x ∧ x < 11 ∧ 0 ≤ y ∧ y < 11 := by
      have h' : weierstrass.isOnCurve 11 1 x y = true := h
      unfold weierstrass.isOnCurve at h'
      rw [decide_eq_true_iff] at h'
      exact ⟨h'.1, by exact_mod_cast h'.2.1, h'.2.2.1, by exact_mod_cast h'.2.2.2.1⟩
    obtain ⟨hx0, hx1, hy0, hy1⟩ := hb
    lift x to Nat using hx0
    lift y to Nat using hy0
    exact hall x (by exact_mod_cast hx1) y (by exact_mod_cast hy1) h

/-- Lucas test with the powers computed by `powMod`: `p` is prime when `a ^ (p - 1) = 1`
and `a ^ ((p - 1) / q) ≠ 1` modulo `p` for each `q` of a list of primes with product
`p - 1`. -/
theorem weierstrass.prime_of_lucas (p a : Nat) (fl : List Nat) (hp : 1 < p)
    (hfl : ∀ q ∈ fl, Nat.Prime q) (hprod : fl.prod = p - 1)
    (h1 : weierstrass.powMod p p a (p - 1) = 1)
    (h2 : ∀ q ∈ fl, weierstrass.powMod p p a ((p - 1) / q) ≠ 1) : Nat.Prime p := by
  have hpow : ∀ e : Nat, e ≤ p →
      (a : ZMod p) ^ e = ((weierstrass.powMod p p a e : Nat) : ZMod p) := by
    intro e he
    rw [weierstrass.powMod_eq _ _ _ _ he, ZMod.natCast_mod, Nat.cast_pow]
  have hlt : ∀ e, e ≤ p → weierstrass.powMod p p a e < p := by
    intro e he
    rw [weierstrass.powMod_eq _ _ _ _ he]
    exact Nat.mod_lt _ (by omega)
  apply lucas_primality p (a : ZMod p)
  · rw [hpow _ (by omega), h1, Nat.cast_one]
  · intro q hq hdvd
    rw [← hprod] at hdvd
    obtain ⟨x, hx, hqx⟩ := (Prime.dvd_prod_iff (Nat.Prime.prime hq)).1 hdvd
    have hqx' : q = x := (Nat.prime_dvd_prime_iff_eq hq (hfl x hx)).1 hqx
    subst hqx'
    rw [hpow _ (le_trans (Nat.div_le_self _ _) (by omega))]
    intro h
    apply h2 q hx
    have h' : ((weierstrass.powMod p p a ((p - 1) / q) : Nat) : ZMod p) = ((1 : Nat) : ZMod p) := by
      rw [h, Nat.cast_one]
    rw [ZMod.natCast_eq_natCast_iff, Nat.ModEq,
      Nat.mod_eq_of_lt (hlt _ (le_trans (Nat.div_le_self _ _) (by omega))),
      Nat.mod_eq_of_lt hp] at h'
    exact h'

theorem weierstrass.prime_47279717 : Nat.Prime 47279717 := by
  have h1 : Nat.Prime 10639 := by norm_num
  apply weierstrass.prime_of_lucas 47279717 2 [2, 2, 11, 101, 10639] (by norm_num)
  · intro q hq
    simp only [List.mem_cons, List.mem_singleton, List.not_mem_nil, or_false] at hq
    rcases hq with rfl | rfl | rfl | rfl | rfl
    all_goals first | exact Nat.prime_two | exact h1 | norm_num
  · decide
  · decide!
  · decide!

theorem weierstrass.prime_1049471 : Nat.Prime 1049471 := by
  have h1 : Nat.Prime 104947 := by norm_num
  apply weierstrass.prime_of_lucas 1049471 11 [2, 5, 104947] (by norm_num)
  · intro q hq
    simp only [List.mem_cons, List.mem_singleton, List.not_mem_nil, or_false] at hq
    rcases hq with rfl | rfl | rfl
    all_goals first | exact Nat.prime_two | exact h1 | norm_num
  · decide
  · decide!
  · decide!

theorem weierstrass.prime_1955421768802993 : Nat.Prime 1955421768802993 := by
  have h1 : Nat.Prime 123091 := by norm_num
  have h2 : Nat.Prime 47279717 := weierstrass.prime_47279717
  apply weierstrass.prime_of_lucas 1955421768802993 5 [2, 2, 2, 2, 3, 7, 123091, 47279717]
    (by norm_num)
  · intro q hq
    simp only [List.mem_cons, List.mem_singleton, List.not_mem_nil, or_false] at hq
    rcases hq with rfl | rfl | rfl | rfl | rfl | rfl | rfl | rfl
    all_goals first | exact Nat.prime_two | exact Nat.prime_three | exact h1 | exact h2 | norm_num
  · decide
  · decide!
  · decide!

theorem weierstrass.n77_prime : Nat.Prime weierstrass.n77 := by
  have h1 : Nat.Prime 1049471 := weierstrass.prime_1049471
  apply weierstrass.prime_of_lucas weierstrass.n77 5 [2, 3, 7, 1049471, 1955421768802993]
    (by decide)
  · intro q hq
    simp only [List.mem_cons, List.mem_singleton, List.not_mem_nil, or_false] at hq
    rcases hq with rfl | rfl | rfl | rfl | rfl
    all_goals first | exact Nat.prime_two | exact Nat.prime_three | exact h1 |
      exact weierstrass.prime_1955421768802993 | norm_num
  · decide
  · decide!
  · decide!

/-- The base point of `c77` has prime order. -/
theorem weierstrass.c77_basePrimeOrder : weierstrass.c77.BasePrimeOrder :=
  ⟨weierstrass.n77_prime, by decide!⟩

/-! ## Bit sets and filters of any length -/

namespace bitset

theorem wordsNeeded_of_le (n : Nat) (h : n ≤ Cap - 63) : wordsNeeded n = (n + 63) / 64 := by
  unfold wordsNeeded
  have h1 : ¬ (n > Cap - wordSize + 1) := by
    simp only [Cap, wordSize] at h ⊢
    omega
  rw [if_neg h1, Nat.shiftRight_eq_div_pow]
  rfl

/-- What `extendSetMaybe` leaves: the old words followed by zero words, enough of them for
the position `i`. -/
theorem BitSet.extendSetMaybe_spec (b : BitSet) (i : Nat)
    (hs : b.set.length = wordsNeeded b.length) (hb : b.length ≤ Cap - 63)
    (hi : i + 1 ≤ Cap - 63) :
    (b.extendSetMaybe i).length = max b.length (i + 1) ∧
      (b.extendSetMaybe i).set.length = wordsNeeded (b.extendSetMaybe i).length ∧
      ∃ r, (b.extendSetMaybe i).set = b.set ++ List.replicate r 0 := by
  unfold BitSet.extendSetMaybe
  by_cases h : i ≥ b.length
  · rw [if_pos h]
    refine ⟨by dsimp only; omega, ?_, _, rfl⟩
    dsimp only
    rw [List.length_append, List.length_replicate, hs, wordsNeeded_of_le _ hb,
      wordsNeeded_of_le _ hi]
    omega
  · rw [if_neg h]
    exact ⟨by omega, hs, 0, by simp⟩

end bitset

namespace bitset

theorem byteOnes_append_zeros (l : List Nat) (r : Nat) :
    pcr.byteOnes (l ++ List.replicate r 0) = pcr.byteOnes l := by
  rw [pcr.byteOnes_append]
  have : pcr.byteOnes (List.replicate r 0) = 0 := by
    unfold pcr.byteOnes
    apply List.sum_eq_zero
    intro x hx
    obtain ⟨y, hy, rfl⟩ := List.mem_map.1 hx
    rw [List.eq_of_mem_replicate hy, bloom.OnesCount_zero]
  rw [this, Nat.add_zero]

/-- What `Set` does to a bit set whose words match its length: the position is set, no
position is cleared, and the words hold at most one more one bit. -/
theorem BitSet.Set_general (b : BitSet) (loc : Nat)
    (hs : b.set.length = wordsNeeded b.length) (hb : b.length ≤ Cap - 63)
    (hloc : loc + 1 ≤ Cap - 63) :
    (b.Set loc).length = max b.length (loc + 1) ∧
      (b.Set loc).set.length = wordsNeeded (b.Set loc).length ∧
      (b.Set loc).Test loc = true ∧
      (∀ x, b.Test x = true → (b.Set loc).Test x = true) ∧
      ((∀ x ∈ b.set, x < 2 ^ 64) → ∀ x ∈ (b.Set loc).set, x < 2 ^ 64) ∧
      pcr.byteOnes (b.Set loc).set ≤ pcr.byteOnes b.set + 1 := by
  obtain ⟨hel, hes, r, her⟩ := b.extendSetMaybe_spec loc hs hb hloc
  have e1 : loc >>> log2WordSize = loc / 64 := by
    rw [Nat.shiftRight_eq_div_pow]
    rfl
  have e2 : loc &&& (wordSize - 1) = loc % 64 := Nat.and_pow_two_sub_one_eq_mod loc 6
  have hset : b.Set loc = ⟨(b.extendSetMaybe loc).length, (b.extendSetMaybe loc).set.set (loc / 64)
      ((b.extendSetMaybe loc).set.getD (loc / 64) 0 ||| 2 ^ (loc % 64))⟩ := by
    unfold BitSet.Set
    simp only [e1, e2, Nat.one_shiftLeft]
  have hel' : (b.extendSetMaybe loc).length ≤ Cap - 63 := by
    rw [hel]
    omega
  have hj : loc / 64 < (b.extendSetMaybe loc).set.length := by
    rw [hes, wordsNeeded_of_le _ hel', hel]
    omega
  have hlocl : loc < (b.Set loc).length := by
    rw [hset]
    dsimp only
    omega
  rw [hset] at hlocl ⊢
  generalize b.extendSetMaybe loc = e at hel hes her hel' hj hlocl ⊢
  refine ⟨hel, by simpa using hes, ?_, ?_, ?_, ?_⟩
  · rw [BitSet.Test_eq _ _ hlocl]
    dsimp only
    rw [List.getD_eq_getElem?_getD, List.getElem?_set_self hj, Option.getD_some,
      Nat.testBit_or, Nat.testBit_two_pow]
    simp
  · intro x hx
    have hxl : x < b.length := by
      by_contra hge
      rw [BitSet.Test_of_ge _ _ (by omega)] at hx
      cases hx
    have hxl' : x < e.length := by
      rw [hel]
      omega
    have hxw : x / 64 < b.set.length := by
      rw [hs, wordsNeeded_of_le _ hb]
      omega
    rw [BitSet.Test_eq _ _ hxl] at hx
    rw [BitSet.Test_eq ⟨e.length, e.set.set (loc / 64) (e.set.getD (loc / 64) 0 ||| 2 ^ (loc % 64))⟩
      x hxl']
    dsimp only
    have hsame : e.set.getD (x / 64) 0 = b.set.getD (x / 64) 0 := by
      rw [her, List.getD_append _ _ _ _ hxw]
    by_cases hij : x / 64 = loc / 64
    · rw [hij, List.getD_eq_getElem?_getD, List.getElem?_set_self hj, Option.getD_some,
        Nat.testBit_or, ← hij, hsame, hx]
      rfl
    · rw [List.getD_eq_getElem?_getD, List.getElem?_set_ne (Ne.symm hij),
        ← List.getD_eq_getElem?_getD, hsame, hx]
  · intro hlt x hx
    have hlt' : ∀ y ∈ e.set, y < 2 ^ 64 := by
      intro y hy
      rw [her] at hy
      rcases List.mem_append.1 hy with h | h
      · exact hlt y h
      · rw [List.eq_of_mem_replicate h]
        norm_num
    rcases List.mem_or_eq_of_mem_set hx with h | h
    · exact hlt' x h
    · rw [h]
      apply Nat.or_lt_two_pow
      · rw [List.getD_eq_getElem _ _ hj]
        exact hlt' _ (List.getElem_mem _)
      · exact Nat.pow_lt_pow_right (by norm_num) (Nat.mod_lt _ (by norm_num))
  · dsimp only
    have h0 : pcr.byteOnes e.set = pcr.byteOnes b.set := by
      rw [her, byteOnes_append_zeros]
    rw [← h0]
    apply pcr.byteOnes_set
    intro h
    have : e.set.getD (loc / 64) 0 = e.set.get ⟨loc / 64, h⟩ := by
      rw [List.getD_eq_getElem _ _ h]
      rfl
    rw [this]
    exact pcr.OnesCount_or_two_pow _ _

end bitset

namespace bloom
open bitset

/-- What the loop of `Add` does to a bit set whose words match its length, in a filter of
any capacity: every position of `data` is set, no position is cleared, and the words hold
at most `n` more one bits. -/
theorem BloomFilter.addLoop_general (L : Lib) (f : BloomFilter) (data : List Nat)
    (hm0 : f.m ≠ 0) (hm : f.m ≤ bitset.Cap - 63) :
    ∀ (n i : Nat) (b : BitSet), b.set.length = wordsNeeded b.length → b.length ≤ bitset.Cap - 63 →
      ∃ b', f.addLoop L data n i b = .ok b' ∧ b'.set.length = wordsNeeded b'.length ∧
        b'.length ≤ bitset.Cap - 63 ∧ (f.m ≤ b.length → b'.length = b.length) ∧
        (∀ x, b.Test x = true → b'.Test x = true) ∧
        (∀ j < n, b'.Test (loc L f.m data (i + j)) = true) ∧
        ((∀ x ∈ b.set, x < 2 ^ 64) → ∀ x ∈ b'.set, x < 2 ^ 64) ∧
        pcr.byteOnes b'.set ≤ pcr.byteOnes b.set + n
  | 0, i, b, hs, hb => ⟨b, rfl, hs, hb, fun _ => rfl, fun _ h => h, by simp, fun h => h, by simp⟩
  | n + 1, i, b, hs, hb => by
    have hloc : loc L f.m data i < f.m := Nat.mod_lt _ (by omega)
    obtain ⟨hl1, hs1, ht1, hmono1, hlt1, hcnt1⟩ :=
      BitSet.Set_general b (loc L f.m data i) hs hb (by omega)
    have hb1 : (b.Set (loc L f.m data i)).length ≤ bitset.Cap - 63 := by
      rw [hl1]
      omega
    obtain ⟨b', hb', hs', hbl', hlen', hmono, hset, hlt', hcnt⟩ :=
      BloomFilter.addLoop_general L f data hm0 hm n (i + 1) (b.Set (loc L f.m data i)) hs1 hb1
    refine ⟨b', ?_, hs', hbl', ?_, fun x hx => hmono x (hmono1 x hx), ?_, fun h => hlt' (hlt1 h),
      by omega⟩
    · unfold BloomFilter.addLoop
      simp only [BloomFilter.location_ok L f hm0, Except.ok_bind_eq]
      exact hb'
    · intro hle
      rw [hlen' (by rw [hl1]; omega), hl1]
      omega
    · intro j hj
      rcases Nat.eq_zero_or_pos j with rfl | hpos
      · exact hmono _ ht1
      · have := hset (j - 1) (by omega)
        rwa [show i + 1 + (j - 1) = i + j by omega] at this

/-- What `Add` does to a filter of any capacity whose bit set has the words its length
needs. -/
theorem BloomFilter.Add_general (L : Lib) (f : BloomFilter) (data : List Nat)
    (hm0 : f.m ≠ 0) (hm : f.m ≤ bitset.Cap - 63) (hs : f.b.set.length = wordsNeeded f.b.length)
    (hb : f.b.length ≤ bitset.Cap - 63) :
    ∃ f', f.Add L data = .ok f' ∧ f'.m = f.m ∧ f'.k = f.k ∧
      f'.b.set.length = wordsNeeded f'.b.length ∧ f'.b.length ≤ bitset.Cap - 63 ∧
      (f.m ≤ f.b.length → f'.b.length = f.b.length) ∧
      (∀ x, f.b.Test x = true → f'.b.Test x = true) ∧
      (∀ j < f.k, f'.b.Test (loc L f.m data j) = true) ∧
      ((∀ x ∈ f.b.set, x < 2 ^ 64) → ∀ x ∈ f'.b.set, x < 2 ^ 64) ∧
      pcr.byteOnes f'.b.set ≤ pcr.byteOnes f.b.set + f.k := by
  obtain ⟨b', hb', hs', hbl', hlen', hmono, hset, hlt', hcnt⟩ :=
    BloomFilter.addLoop_general L f data hm0 hm f.k 0 f.b hs hb
  refine ⟨⟨f.m, f.k, b'⟩, ?_, rfl, rfl, hs', hbl', hlen', hmono, ?_, hlt', hcnt⟩
  · unfold BloomFilter.Add
    rw [hb']
    rfl
  · intro j hj
    have := hset j hj
    rwa [Nat.zero_add] at this

/-- A sequence of `Add` calls sets every position of every element added and clears
none. -/
theorem foldlM_Add_general (L : Lib) : ∀ (ds : List (List Nat)) (f : BloomFilter),
    f.m ≠ 0 → f.m ≤ bitset.Cap - 63 → f.b.set.length = wordsNeeded f.b.length →
    f.b.length ≤ bitset.Cap - 63 →
    ∃ f', ds.foldlM (fun g d => g.Add L d) f = .ok f' ∧ f'.m = f.m ∧ f'.k = f.k ∧
      (∀ x, f.b.Test x = true → f'.b.Test x = true) ∧
      ∀ d ∈ ds, ∀ j < f.k, f'.b.Test (loc L f.m d j) = true
  | [], f, _, _, _, _ => ⟨f, rfl, rfl, rfl, fun _ h => h, by simp⟩
  | d :: ds, f, hm0, hm, hs, hb => by
    obtain ⟨f1, hf1, hm1, hk1, hs1, hb1, -, hmono1, hset1, -, -⟩ :=
      BloomFilter.Add_general L f d hm0 hm hs hb
    obtain ⟨f', hf', hm', hk', hmono, hset⟩ :=
      foldlM_Add_general L ds f1 (by rw [hm1]; exact hm0) (by rw [hm1]; exact hm) hs1 hb1
    refine ⟨f', ?_, by rw [hm', hm1], by rw [hk', hk1], fun x hx => hmono x (hmono1 x hx), ?_⟩
    · rw [List.foldlM_cons, hf1]
      exact hf'
    · intro d' hd' j hj
      rcases List.mem_cons.1 hd' with rfl | h
      · exact hmono _ (hset1 j hj)
      · have := hset d' h j (by rw [hk1]; exact hj)
        rwa [hm1] at this

end bloom

namespace bitset

theorem be64_SetBytes (bs : List Nat) (hlen : bs.length = 8) (hlt : ∀ b ∈ bs, b < 256) :
    be64 (big.SetBytes bs) = bs := by
  match bs, hlen with
  | [a, b, c, d, e, f, g, h], _ =>
    have ha := hlt a (by simp)
    have hb := hlt b (by simp)
    have hc := hlt c (by simp)
    have hd := hlt d (by simp)
    have he := hlt e (by simp)
    have hf := hlt f (by simp)
    have hg := hlt g (by simp)
    have hh := hlt h (by simp)
    simp only [be64, big.SetBytes, List.range_succ, List.range_zero, List.nil_append,
      List.map_append, List.map_cons, List.map_nil, List.foldl_cons, List.foldl_nil,
      Nat.shiftRight_eq_div_pow, List.cons_append, List.cons.injEq, and_true]
    refine ⟨?_, ?_, ?_, ?_, ?_, ?_, ?_, ?_⟩ <;> omega

/-- Writing the words read from a byte string gives the byte string back. -/
theorem flatten_be64_readWords : ∀ (n : Nat) (B : List Nat), B.length = 8 * n →
    (∀ b ∈ B, b < 256) → ((readWords n B).map be64).flatten = B
  | 0, B, hlen, _ => by
    have : B = [] := List.eq_nil_of_length_eq_zero (by simpa using hlen)
    subst this
    rfl
  | n + 1, B, hlen, h => by
    have ht : (B.take 8).length = 8 := by
      rw [List.length_take]
      omega
    have ih := flatten_be64_readWords n (B.drop 8) (by rw [List.length_drop]; omega)
      (fun b hb => h b (List.mem_of_mem_drop hb))
    simp only [readWords, List.map_cons, List.flatten_cons, ih]
    rw [be64_SetBytes _ ht (fun b hb => h b (List.mem_of_mem_take hb)), List.take_append_drop]

end bitset

namespace pcr
open bloom bitset

theorem byteOnes_take_le (B : List Nat) (n : Nat) : byteOnes (B.take n) ≤ byteOnes B := by
  conv_rhs => rw [← List.take_append_drop n B, byteOnes_append]
  omega

theorem div8_le_words (m : Nat) (hm : m ≤ bitset.Cap - 63) : m / 8 ≤ 8 * wordsNeeded m := by
  rw [wordsNeeded_of_le m hm]
  omega

/-- In a state of the padding loop, `GetBFNumOnes` counts the one bits of the first `m / 8`
bytes of the words. -/
theorem PadState.count {m k : Nat} {f : BloomFilter} {B : List Nat}
    (h : PadState m k f B) (hm : m ≤ bitset.Cap - 63) :
    GetBFNumOnes f = .ok (byteOnes (B.take (m / 8)) : Int) := by
  obtain ⟨hfm, -, -, hs, hB, hlt⟩ := h
  unfold GetBFNumOnes
  have hgob : f.GobEncode = (be64 f.m ++ be64 f.k ++ be64 f.b.length) ++ B := by
    simp only [BloomFilter.GobEncode, BitSet.WriteTo, hs, flatten_be64_readWords _ B hB hlt,
      List.append_assoc]
  have hle : f.Cap / 8 ≤ B.length := by
    rw [BloomFilter.Cap, hfm, hB]
    exact div8_le_words m hm
  dsimp only
  rw [hgob, foldlM_onesCount _ _ (by simp [length_be64]) _ hle, BloomFilter.Cap, hfm]
  simp

theorem PadState.start {f : BloomFilter} (hl : f.b.length = f.m)
    (hs : f.b.set.length = wordsNeeded f.b.length) (hlt : ∀ x ∈ f.b.set, x < 2 ^ 64) :
    PadState f.m f.k f (f.b.set.map be64).flatten ∧
      f.GobEncode = frameHeader f.m f.k ++ (f.b.set.map be64).flatten ∧
      byteOnes (f.b.set.map be64).flatten = byteOnes f.b.set := by
  rw [hl] at hs
  refine ⟨⟨rfl, rfl, hl, ?_, ?_, ?_⟩, ?_, ?_⟩
  · have := readWords_be64 f.b.set [] hlt
    rw [List.append_nil, hs] at this
    exact this.symm
  · rw [length_flatten_be64, hs]
  · intro b hb
    obtain ⟨l, hl', hbl⟩ := List.mem_flatten.1 hb
    obtain ⟨x, -, rfl⟩ := List.mem_map.1 hl'
    exact be64_lt x b hbl
  · simp [BloomFilter.GobEncode, BitSet.WriteTo, frameHeader, hl]
  · exact byteOnes_flatten_be64 _ hlt

theorem GobDecode_frame (f₀ : BloomFilter) (m k : Nat) (hm : m < 2 ^ 64) (hk : k < 2 ^ 64)
    (B : List Nat) (hB : B.length = 8 * wordsNeeded m) :
    f₀.GobDecode (frameHeader m k ++ B) = (⟨m, k, ⟨m, readWords (wordsNeeded m) B⟩⟩, true) := by
  have e : frameHeader m k ++ B = be64 m ++ (be64 k ++ (be64 m ++ B)) := by
    simp [frameHeader]
  have hlen : ¬ (frameHeader m k ++ B).length < 16 := by
    simp only [frameHeader, List.length_append, length_be64]
    omega
  unfold BloomFilter.GobDecode
  rw [if_neg hlen, e]
  have d16 : (be64 m ++ (be64 k ++ (be64 m ++ B))).drop 16 = be64 m ++ B := by
    rw [show (16 : Nat) = 8 + 8 from rfl, ← List.drop_drop, List.drop_left' (length_be64 _),
      List.drop_left' (length_be64 _)]
  have hread : ReadFrom (be64 m ++ B) = some ⟨m, readWords (wordsNeeded m) B⟩ := by
    unfold ReadFrom
    rw [if_neg (by simp [length_be64])]
    simp only [List.take_left' (length_be64 _), List.drop_left' (length_be64 _),
      SetBytes_be64 _ hm]
    rw [if_neg (by omega)]
  simp only [d16, hread, List.take_left' (length_be64 _), List.drop_left' (length_be64 _),
    SetBytes_be64 _ hm, SetBytes_be64 _ hk]

/-- One round of the padding loop keeps the state and adds at most one to the count. -/
theorem PadState.round {m k : Nat} {f : BloomFilter} {B : List Nat} (h : PadState m k f B)
    (hm : m ≤ bitset.Cap - 63) (hk : k < 2 ^ 64) (r t : Nat) (hr : r < m / 8) (ht : t < 8) :
    B[r]? = some (B.getD r 0) ∧
    PadState m k (f.GobDecode (frameHeader m k ++ B.set r (B.getD r 0 ||| 2 ^ t))).1
        (B.set r (B.getD r 0 ||| 2 ^ t)) ∧
      byteOnes ((B.set r (B.getD r 0 ||| 2 ^ t)).take (m / 8)) ≤
        byteOnes (B.take (m / 8)) + 1 := by
  obtain ⟨hfm, hk', hl, hs, hB, hlt⟩ := h
  have hdiv := div8_le_words m hm
  have hrB : r < B.length := by omega
  have hget : B.getD r 0 = B[r] := List.getD_eq_getElem _ _ hrB
  have hold : B[r] < 256 := hlt _ (List.getElem_mem _)
  have hnew : B[r] ||| 2 ^ t < 256 := by
    have : (256 : Nat) = 2 ^ 8 := by norm_num
    rw [this] at hold ⊢
    exact Nat.or_lt_two_pow hold (Nat.pow_lt_pow_right (by norm_num) ht)
  have hB' : (B.set r (B[r] ||| 2 ^ t)).length = 8 * wordsNeeded m := by rw [List.length_set, hB]
  have hlt' : ∀ b ∈ B.set r (B[r] ||| 2 ^ t), b < 256 := by
    intro b hb
    rcases List.mem_or_eq_of_mem_set hb with h | h
    · exact hlt b h
    · rw [h]
      exact hnew
  have hm64 : m < 2 ^ 64 := by
    have : bitset.Cap = 2 ^ 64 - 1 := rfl
    omega
  have hdec := GobDecode_frame f m k hm64 hk _ hB'
  rw [hget, hdec]
  refine ⟨List.getElem?_eq_getElem hrB, ⟨rfl, rfl, rfl, rfl, hB', hlt'⟩, ?_⟩
  rw [List.set_take]
  apply byteOnes_set
  intro hr'
  have : (B.take (m / 8)).get ⟨r, hr'⟩ = B[r] := by
    simp [List.getElem_take]
  rw [this]
  exact OnesCount_or_two_pow _ _

end pcr

namespace pcr
open bloom bitset elgamal

/-- When the padding loop returns a filter, `GetBFNumOnes` reports exactly `BfNumOnes` for
it, whatever the capacity. -/
theorem ReqBFGen.pad_general (reqPara : ReqPara) (m k : Nat) (hm : m ≤ bitset.Cap - 63)
    (hk : k < 2 ^ 64) (hlen : reqPara.BfLength = (m : Int)) :
    ∀ (draws : List (Nat × Nat)) (f : BloomFilter) (B : List Nat) (f' : BloomFilter),
      PadState m k f B → (byteOnes (B.take (m / 8)) : Int) ≤ reqPara.BfNumOnes →
      ReqBFGen.pad reqPara draws f (frameHeader m k ++ B) = .ok (some f') →
      GetBFNumOnes f' = .ok reqPara.BfNumOnes
  | [], f, B, f', hinv, hle, h => by
    unfold ReqBFGen.pad at h
    rw [hinv.count hm] at h
    simp only [Except.ok_bind_eq] at h
    by_cases hlt : (byteOnes (B.take (m / 8)) : Int) < reqPara.BfNumOnes
    · rw [if_pos hlt] at h
      cases h
    · rw [if_neg hlt] at h
      have e : f = f' := by
        simpa using h
      subst e
      rw [hinv.count hm]
      congr 1
      omega
  | d :: draws, f, B, f', hinv, hle, h => by
    unfold ReqBFGen.pad at h
    rw [hinv.count hm] at h
    simp only [Except.ok_bind_eq] at h
    by_cases hlt : (byteOnes (B.take (m / 8)) : Int) < reqPara.BfNumOnes
    · rw [if_pos hlt] at h
      have hdiv : Int.tdiv reqPara.BfLength 8 = ((m / 8 : Nat) : Int) := by
        rw [hlen, Int.tdiv_eq_ediv (by positivity) (by norm_num)]
        push_cast
        rfl
      have hI1 : Intn 8 d.1 = .ok (d.1 % 8) := by
        unfold Intn
        rw [if_neg (by norm_num)]
        rfl
      by_cases hz : m / 8 = 0
      · have hI2 : Intn (Int.tdiv reqPara.BfLength 8) d.2 = .error .invalidArgument := by
          unfold Intn
          rw [hdiv, hz, if_pos (by norm_num)]
        simp only [hI1, hI2, Except.ok_bind_eq, Except.error_bind_eq] at h
        cases h
      have hI2 : Intn (Int.tdiv reqPara.BfLength 8) d.2 = .ok (d.2 % (m / 8)) := by
        unfold Intn
        rw [hdiv, if_neg (by push_cast; omega), Int.toNat_ofNat]
      have hr : d.2 % (m / 8) < m / 8 := Nat.mod_lt _ (by omega)
      have ht : d.1 % 8 < 8 := Nat.mod_lt _ (by norm_num)
      obtain ⟨hget, hinv', hcnt⟩ := hinv.round hm hk _ _ hr ht
      have hhdr : (frameHeader m k).length = 24 := by
        simp [frameHeader, length_be64]
      have hidx : (frameHeader m k ++ B)[24 + d.2 % (m / 8)]? =
          some (B.getD (d.2 % (m / 8)) 0) := by
        rw [List.getElem?_append_right (by omega), hhdr, Nat.add_sub_cancel_left, hget]
      have hsetg : (frameHeader m k ++ B).set (24 + d.2 % (m / 8))
          (B.getD (d.2 % (m / 8)) 0 ||| 2 ^ (d.1 % 8)) =
          frameHeader m k ++ B.set (d.2 % (m / 8)) (B.getD (d.2 % (m / 8)) 0 ||| 2 ^ (d.1 % 8)) := by
        rw [List.set_append_right _ _ (by omega), hhdr, Nat.add_sub_cancel_left]
      simp only [hI1, hI2, Except.ok_bind_eq, hidx, hsetg] at h
      exact ReqBFGen.pad_general reqPara m k hm hk hlen draws _ _ f' hinv' (by omega) h
    · rw [if_neg hlt] at h
      have e : f = f' := by
        simpa using h
      subst e
      rw [hinv.count hm]
      congr 1
      omega

/-- What `GetBFNumOnes` reports for the filter that `ReqBFGen` returns, for a capacity of
any positive number of bits. -/
theorem ReqBFGen_general (L : Lib) (pk : PublicKey) (reqPara : ReqPara) (pwd : List Nat)
    (draws : List (Nat × Nat)) (bf : BloomFilter) (m k : Nat) (hm0 : 0 < m)
    (hm : m < 2 ^ 63) (hlen : reqPara.BfLength = (m : Int))
    (hk : reqPara.NumHashFuncs = (k : Int)) (hk63 : k < 2 ^ 63)
    (hkK : ((max 1 k : Nat) : Int) ≤ reqPara.BfNumOnes)
    (h : ReqBFGen L pk reqPara pwd draws = .ok (some bf)) :
    GetBFNumOnes bf = .ok reqPara.BfNumOnes := by
  have hC : bitset.Cap = 2 ^ 64 - 1 := rfl
  have hmC : m ≤ bitset.Cap - 63 := by omega
  have hmax : max 1 m = m := by omega
  have hNs : (New m k).b.set.length = wordsNeeded (New m k).b.length := by
    show (List.replicate (wordsNeeded m) 0).length = wordsNeeded m
    rw [List.length_replicate]
  obtain ⟨fA, hA, hAm, hAk, hAs, -, hAl, -, -, hAlt, hAcnt⟩ :=
    BloomFilter.Add_general L (New m k) (HashSha256 L pwd)
      (show max 1 m ≠ 0 by omega) (show max 1 m ≤ bitset.Cap - 63 by omega) hNs
      (show m ≤ bitset.Cap - 63 from hmC)
  have hAm' : fA.m = m := by rw [hAm]; exact hmax
  have hAk' : fA.k = max 1 k := hAk
  have hAl' : fA.b.length = fA.m := by
    rw [hAl (show max 1 m ≤ m by omega), hAm']
    rfl
  have hzero : byteOnes (New m k).b.set = 0 := by
    have := byteOnes_append_zeros [] (wordsNeeded m)
    rw [List.nil_append] at this
    exact this
  have hlt0 : ∀ x ∈ (New m k).b.set, x < 2 ^ 64 := by
    intro x hx
    have : x = 0 := List.eq_of_mem_replicate hx
    rw [this]
    norm_num
  obtain ⟨hinv, hgob, hones⟩ := PadState.start hAl' hAs (hAlt hlt0)
  rw [hAm', hAk'] at hinv hgob
  unfold ReqBFGen at h
  rw [hlen, hk, uint_natCast _ hm, uint_natCast _ hk63] at h
  dsimp only at h
  rw [hA] at h
  simp only [Except.ok_bind_eq] at h
  rw [hgob] at h
  refine ReqBFGen.pad_general reqPara m (max 1 k) hmC (by omega) hlen draws fA _ bf hinv ?_ h
  have h1 := byteOnes_take_le (fA.b.set.map be64).flatten (m / 8)
  have h2 : (New m k).k = max 1 k := rfl
  rw [hzero, h2] at hAcnt
  have h3 : (byteOnes (List.take (m / 8) (fA.b.set.map be64).flatten) : Int) ≤ (max 1 k : Nat) := by
    exact_mod_cast (by omega : byteOnes (List.take (m / 8) (fA.b.set.map be64).flatten) ≤ max 1 k)
  omega

end pcr

namespace big

theorem SetBytes_append (as bs : List Nat) :
    SetBytes (as ++ bs) = SetBytes as * 256 ^ bs.length + SetBytes bs := by
  induction bs using List.reverseRecOn with
  | nil => simp [SetBytes]
  | append_singleton bs b ih =>
    rw [← List.append_assoc, SetBytes_append_singleton, ih, SetBytes_append_singleton,
      List.length_append, List.length_singleton, pow_succ]
    ring

/-- The low 64 bits of a byte string of at least eight bytes are its last eight bytes. -/
theorem SetBytes_mod_two_pow_64 (bs : List Nat) (n : Nat) (hlen : bs.length = n + 8)
    (hlt : ∀ b ∈ bs, b < 256) : SetBytes bs % 2 ^ 64 = SetBytes (bs.drop n) := by
  have hd : (bs.drop n).length = 8 := by
    rw [List.length_drop]
    omega
  have h1 := SetBytes_lt (bs.drop n) (fun b hb => hlt b (List.mem_of_mem_drop hb))
  rw [hd] at h1
  conv_lhs => rw [← List.take_append_drop n bs, SetBytes_append, hd]
  have e : (256 : Nat) ^ 8 = 2 ^ 64 := by norm_num
  rw [e] at h1 ⊢
  rw [Nat.mul_add_mod_of_lt h1]

end big

namespace elgamal

/-- The first loop of `EncryptSeqWithZKP` stops with exit status -1 exactly when an entry
is neither `+1` nor `-1`, and else fills a slot for every entry. -/
theorem encryptAll_cases (pk : PublicKey) (c : Curve) (draws : Nat → ZKPDraw) :
    ∀ (ms : List Int) (i : Nat),
      ((∃ m ∈ ms, m ≠ 1 ∧ m ≠ -1) ∧
        EncryptSeqWithZKP.encryptAll pk c draws i ms = .error (.exit (-1))) ∨
      ((∀ m ∈ ms, m = 1 ∨ m = -1) ∧
        ∃ slots, EncryptSeqWithZKP.encryptAll pk c draws i ms = .ok slots ∧
          slots.length = ms.length)
  | [], _ => Or.inr ⟨by simp, [], rfl, rfl⟩
  | m :: ms, i => by
    by_cases hm : m = 1 ∨ m = -1
    · have henc : ∃ s, EncryptSeqWithZKP.encrypt pk c m (draws i) = .ok s := by
        unfold EncryptSeqWithZKP.encrypt
        have : ¬ ((1 : Int).natAbs ≠ m.natAbs) := by
          rcases hm with rfl | rfl <;> simp
        rw [if_neg this]
        exact ⟨_, rfl⟩
      obtain ⟨s, hs⟩ := henc
      rcases encryptAll_cases pk c draws ms (i + 1) with ⟨⟨m', hm', hne⟩, herr⟩ | ⟨hall, slots, hok, hlen⟩
      · left
        refine ⟨⟨m', List.mem_cons_of_mem _ hm', hne⟩, ?_⟩
        simp only [EncryptSeqWithZKP.encryptAll, hs, Except.ok_bind_eq, herr, Except.error_bind_eq]
      · right
        refine ⟨?_, s :: slots, ?_, by simp [hlen]⟩
        · intro x hx
          rcases List.mem_cons.1 hx with rfl | h
          · exact hm
          · exact hall x h
        · simp only [EncryptSeqWithZKP.encryptAll, hs, Except.ok_bind_eq, hok, Except.pure_eq_ok]
    · left
      have hm' : m ≠ 1 ∧ m ≠ -1 := by
        constructor
        · exact fun h => hm (Or.inl h)
        · exact fun h => hm (Or.inr h)
      refine ⟨⟨m, List.mem_cons_self _ _, hm'⟩, ?_⟩
      have henc : EncryptSeqWithZKP.encrypt pk c m (draws i) = .error (.exit (-1)) := by
        unfold EncryptSeqWithZKP.encrypt
        have : (1 : Int).natAbs ≠ m.natAbs := by
          intro h
          have h1 : m.natAbs = 1 := by simpa using h.symm
          rcases Int.natAbs_eq m with h2 | h2
          · exact hm'.1 (by rw [h2, h1]; rfl)
          · exact hm'.2 (by rw [h2, h1]; rfl)
        rw [if_pos this]
      simp only [EncryptSeqWithZKP.encryptAll, henc, Except.error_bind_eq]

end elgamal

/-! ## Lemmas for the claims C21 to C30 -/

namespace pcr
open bloom bitset elgamal

theorem flatten_range'_blocks (u : Nat) :
    ∀ k : Nat, ((List.range k).map (fun t => List.range' (t * u) u)).flatten =
      List.range' 0 (k * u)
  | 0 => by simp
  | k + 1 => by
    rw [List.range_succ, List.map_append, List.flatten_append, flatten_range'_blocks u k,
      List.map_singleton, List.flatten_singleton]
    have := List.range'_append_1 0 (k * u) u
    rw [Nat.zero_add] at this
    rw [this]
    congr 1
    ring

/-- The index ranges of the workers of `ResponseGen`, one after the other, are the indices
below the capacity in order. -/
theorem ResponseGen.flatten_indices (T m : Nat) (hT : 0 < T) :
    ((List.range T).map (fun t => ResponseGen.indices T (m / T) m t)).flatten =
      List.range m := by
  obtain ⟨n, rfl⟩ : ∃ n, T = n + 1 := ⟨T - 1, by omega⟩
  have hu : n * (m / (n + 1)) ≤ m := by
    have h1 : (n + 1) * (m / (n + 1)) ≤ m := Nat.mul_div_le m (n + 1)
    have h2 : n * (m / (n + 1)) ≤ (n + 1) * (m / (n + 1)) := Nat.mul_le_mul_right _ (by omega)
    omega
  rw [List.range_succ, List.map_append, List.flatten_append, List.map_singleton,
    List.flatten_singleton]
  have hfirst : (List.range n).map (fun t => ResponseGen.indices (n + 1) (m / (n + 1)) m t) =
      (List.range n).map (fun t => List.range' (t * (m / (n + 1))) (m / (n + 1))) := by
    apply List.map_congr_left
    intro t ht
    have ht' : t < n := List.mem_range.1 ht
    unfold ResponseGen.indices
    rw [if_pos (by omega)]
    congr 1
    rw [Nat.add_mul, Nat.one_mul, Nat.add_sub_cancel_left]
  have hlast : ResponseGen.indices (n + 1) (m / (n + 1)) m n =
      List.range' (n * (m / (n + 1))) (m - n * (m / (n + 1))) := by
    unfold ResponseGen.indices
    rw [if_neg (by omega)]
  rw [hfirst, hlast, flatten_range'_blocks]
  have := List.range'_append_1 0 (n * (m / (n + 1))) (m - n * (m / (n + 1)))
  rw [Nat.zero_add] at this
  rw [this, List.range_eq_range']
  congr 1
  omega

end pcr

namespace elgamal

theorem bytes_of_specCiphertextBytes {c : Ciphertext} {bs : List Nat}
    (h : specCiphertextBytes c = some bs) : Ciphertext.bytes c = .ok bs := by
  unfold specCiphertextBytes at h
  split at h
  · rename_i c1x c1y c2x c2y h1 h2 h3 h4
    cases h
    simp only [Ciphertext.bytes, h1, h2, h3, h4, derefPoint_some, Except.ok_bind_eq,
      Except.pure_eq_ok, pointBytes, List.append_assoc]
  · cases h

theorem bytes_of_specProofBytes {p : ZKP} {bs : List Nat}
    (h : specProofBytes p = some bs) : ZKP.bytes p = .ok bs := by
  unfold specProofBytes at h
  split at h
  · rename_i a1x a1y b1x b1y a2x a2y b2x b2y h1 h2 h3 h4 h5 h6 h7 h8
    cases h
    simp only [ZKP.bytes, h1, h2, h3, h4, h5, h6, h7, h8, derefPoint_some, Except.ok_bind_eq,
      Except.pure_eq_ok, pointBytes, List.append_assoc]
  · cases h

theorem mapM_of_option {α β : Type} {f : α → Option β} {g : α → Except Fault β}
    (hfg : ∀ a b, f a = some b → g a = .ok b) :
    ∀ (l : List α) (bs : List β), l.mapM f = some bs → l.mapM g = .ok bs
  | [], bs, h => by
    rw [List.mapM_nil] at h
    cases h
    rfl
  | a :: l, bs, h => by
    rw [List.mapM_cons] at h
    cases ha : f a with
    | none =>
      rw [ha] at h
      cases h
    | some b =>
      cases hl : l.mapM f with
      | none =>
        rw [ha, hl] at h
        cases h
      | some bs' =>
        rw [ha, hl] at h
        cases h
        rw [List.mapM_cons, hfg a b ha, mapM_of_option hfg l bs' hl]
        rfl

/-- When the stream of the specification exists, it is the stream that `VerifySeqZKP`
writes to its buffer. -/
theorem stream_of_specStream {cs : List Ciphertext} {zkps : List ZKP} {stream : List Nat}
    (h : specStream cs zkps = some stream) :
    ∃ cBytes pBytes, cs.mapM Ciphertext.bytes = .ok cBytes ∧
      zkps.mapM ZKP.bytes = .ok pBytes ∧ cBytes.flatten ++ pBytes.flatten = stream := by
  unfold specStream at h
  cases hc : cs.mapM specCiphertextBytes with
  | none =>
    rw [hc] at h
    cases h
  | some cBytes =>
    cases hp : zkps.mapM specProofBytes with
    | none =>
      rw [hc, hp] at h
      cases h
    | some pBytes =>
      rw [hc, hp] at h
      cases h
      exact ⟨cBytes, pBytes, mapM_of_option (fun _ _ => bytes_of_specCiphertextBytes) cs _ hc,
        mapM_of_option (fun _ _ => bytes_of_specProofBytes) zkps _ hp, rfl⟩

end elgamal

namespace elgamal

theorem specCiphertextBytes_ciphertext (s : EncSlot) :
    specCiphertextBytes s.ciphertext = some s.bytes := by
  simp only [specCiphertextBytes, EncSlot.ciphertext, EncSlot.bytes, pointBytes,
    List.append_assoc]

theorem specProofBytes_respond (N : Curve) (ch : Int) (s : EncSlot) (t : CommitSlot) :
    specProofBytes (EncryptSeqWithZKP.respond N ch s t) = some t.bytes := by
  unfold EncryptSeqWithZKP.respond
  split <;> simp only [specProofBytes, CommitSlot.bytes, pointBytes, List.append_assoc]

theorem mapM_specCiphertextBytes (slots : List EncSlot) :
    (slots.map EncSlot.ciphertext).mapM specCiphertextBytes = some (slots.map EncSlot.bytes) := by
  induction slots with
  | nil => rfl
  | cons s slots ih =>
    rw [List.map_cons, List.mapM_cons, specCiphertextBytes_ciphertext, ih]
    rfl

theorem mapM_specProofBytes (N : Curve) (ch : Int) (slots : List EncSlot)
    (commits : List CommitSlot) (hlen : commits.length = slots.length) :
    (List.zipWith (EncryptSeqWithZKP.respond N ch) slots commits).mapM specProofBytes =
      some (commits.map CommitSlot.bytes) := by
  induction slots generalizing commits with
  | nil =>
    have : commits = [] := List.length_eq_zero.1 hlen
    subst this
    rfl
  | cons s slots ih =>
    cases commits with
    | nil => simp at hlen
    | cons t commits =>
      rw [List.zipWith_cons_cons, List.mapM_cons, specProofBytes_respond,
        ih commits (by simpa using hlen)]
      rfl

/-- The stream of the specification for what `EncryptSeqWithZKP` returns is the
commitment that it hashes. -/
theorem specStream_slots (pk : PublicKey) (c : Curve) (ch : Int) (draws : Nat → ZKPDraw)
    (slots : List EncSlot) :
    specStream (slots.map EncSlot.ciphertext)
        (List.zipWith (EncryptSeqWithZKP.respond c ch) slots
          (EncryptSeqWithZKP.commitAll pk c draws 0 slots)) =
      some ((slots.map EncSlot.bytes).flatten ++
        ((EncryptSeqWithZKP.commitAll pk c draws 0 slots).map CommitSlot.bytes).flatten) := by
  unfold specStream
  rw [mapM_specCiphertextBytes, mapM_specProofBytes c ch slots _ (length_commitAll pk c draws 0 slots)]
  rfl

end elgamal

namespace elgamal

/-- The loop of `VerifySeqZKP` runs over the proofs: ciphertexts beyond the last proof are
not looked at. -/
theorem checkAll_append (pk : PublicKey) (c : Curve) (ch : Int) (extra : List Ciphertext) :
    ∀ (cs : List Ciphertext) (zkps : List ZKP), zkps.length ≤ cs.length →
      VerifySeqZKP.checkAll pk c ch (cs ++ extra) zkps = VerifySeqZKP.checkAll pk c ch cs zkps
  | cs, [], _ => by
    cases cs <;> cases extra <;> rfl
  | [], _ :: _, h => by simp at h
  | x :: cs, p :: zkps, h => by
    have ih := checkAll_append pk c ch extra cs zkps (by simpa using h)
    show VerifySeqZKP.checkAll pk c ch (x :: (cs ++ extra)) (p :: zkps) = _
    simp only [VerifySeqZKP.checkAll, ih]

/-- What `VerifySeqZKP` returns when the stream of the specification exists: the test of
the challenge and the tests of the loop over the proofs. -/
theorem VerifySeqZKP_of_specChallenge (L : Lib) {pk : PublicKey} {c : Curve}
    (hc : pk.Curve = some c) {cs : List Ciphertext} {zkps : List ZKP} {ch : Int}
    (hch : specChallenge L c.N cs zkps = some ch) (rcv numThreads : Int)
    (hT : workerChan numThreads zkps.length = .ok ()) :
    pk.VerifySeqZKP L cs zkps rcv numThreads =
      (VerifySeqZKP.checkAll pk c ch cs zkps).map
        (fun failed => decide ((if ch ≠ rcv then 1 else 0) + failed = 0)) := by
  unfold specChallenge at hch
  cases hs : specStream cs zkps with
  | none =>
    rw [hs] at hch
    cases hch
  | some stream =>
    rw [hs] at hch
    cases hch
    obtain ⟨cBytes, pBytes, h1, h2, h3⟩ := stream_of_specStream hs
    simp only [PublicKey.VerifySeqZKP, hc, derefCurve_some, Except.ok_bind_eq, h1, h2, h3, hT,
      HashSha256]
    cases VerifySeqZKP.checkAll pk c ((big.SetBytes (L.Sha256 stream) : Int) % c.N) cs zkps <;> rfl

end elgamal

namespace big

/-- The minimal big-endian encoding of `n` has fewer than four bytes exactly when
`n < 2 ^ 24`. -/
theorem length_natBytes_lt_four (n : Nat) : (natBytes n).length < 4 ↔ n < 2 ^ 24 := by
  rw [natBytes_eq, List.length_reverse]
  constructor
  · intro h
    have h1 := Nat.lt_base_pow_length_digits (b := 256) (m := n) (by norm_num)
    have h2 : 256 ^ (Nat.digits 256 n).length ≤ 256 ^ 3 :=
      Nat.pow_le_pow_right (by norm_num) (by omega)
    have : (256 : Nat) ^ 3 = 2 ^ 24 := by norm_num
    omega
  · intro h
    by_contra hge
    have hn : n ≠ 0 := by
      rintro rfl
      simp at hge
    have h1 := Nat.base_pow_length_digits_le 256 n (by norm_num) hn
    have h2 : 256 ^ 4 ≤ 256 ^ (Nat.digits 256 n).length :=
      Nat.pow_le_pow_right (by norm_num) (by omega)
    have : (256 : Nat) ^ 4 = 256 * 2 ^ 24 := by norm_num
    omega

end big

namespace Curve.Model
variable {c : Curve} {Pt : Type} [AddCommGroup Pt] (M : c.Model Pt)

/-- The x-coordinate of an element of the group is not negative. -/
theorem coords_x_nonneg (a : Pt) : 0 ≤ (M.coords a).1 := by
  by_cases h : M.coords a = (0, 0)
  · rw [h]
  · have hon : c.IsOnCurve (M.coords a).1 (M.coords a).2 = true :=
      (M.isOnCurve_iff _ _).2 ⟨h, a, rfl⟩
    exact ((M.isOnCurve_eqn _ _).1 hon).1

end Curve.Model

namespace pcr
open bloom bitset elgamal

/-- What `RespDeployment` returns for a query whose entries decode to encryptions of the
scalars `ms` and whose proofs verify: the `C1` it emits encodes a ciphertext that passes
`DecryptAndCheck0` exactly when the sum of `ms` and of the number it encrypts itself is a
scalar that kills the base point. -/
theorem RespDeployment_check {c : Curve} {Pt : Type} [AddCommGroup Pt] (M : c.Model Pt) (L : Lib)
    (q : QueryMessage) (sk : SecretKey) (hcurve : initCurve L q.PK.SecParam = some c)
    (hsk : sk.Curve = some c) (hH : (q.PK.Hx, q.PK.Hy) = c.ScalarBaseMult sk.Priv)
    (ebf : List Ciphertext) (zkps : List ZKP)
    (hdec : RespDeployment.decode (q.PK.InitCurve L) q.PointCompression q.EBF q.ZKPs =
      .ok (ebf, zkps))
    (ms : List Int) (henc : List.Forall₂ (Encrypts c sk) ebf ms)
    (hver : (q.PK.InitCurve L).VerifySeqZKP L ebf zkps (big.SetBytes q.Challenge) q.NumThreads =
      .ok true)
    (zInv zZero : Nat) :
    ∃ qp resCT b, RespDeployment L q zInv zZero = .ok qp ∧
      qp.PK.Ciphertext2Bytes resCT qp.PointCompression = .ok qp.C1 ∧
      sk.DecryptAndCheck0 resCT = .ok b ∧
      (b = true ↔ (ms.sum + wrapInt64 (q.BfLength - 2 * q.BfNumOnes)) • M.g = 0) := by
  have hpk : (q.PK.InitCurve L).Curve = some c := hcurve
  have hH' : ((q.PK.InitCurve L).Hx, (q.PK.InitCurve L).Hy) =
      M.coords ((big.SetBytes sk.Priv : Int) • M.g) := by
    rw [← M.scalarBaseMult_nat]
    exact hH
  obtain ⟨hl1, hl2⟩ := RespDeployment.decode_length _ _ _ _ _ _ hdec
  have hwc : workerChan q.NumThreads q.EBF.length = .ok () :=
    workerChan_length (verifySeqZKP_workerChan hver) hl2.symm
  obtain ⟨ctInv, hInv, eInv⟩ := IsEnc.encrypt M hpk hH' (AddSubgroup.mem_top M.g)
    (wrapInt64 (q.BfLength - 2 * q.BfNumOnes)) zInv
  obtain ⟨ct₀, hZero, eZero⟩ := IsEnc.encrypt M hpk hH' (AddSubgroup.mem_top M.g) 0 zZero
  have hall : List.Forall₂
      (fun ct μ => IsEnc M ⊤ (big.SetBytes sk.Priv : Int) μ ct) ebf
      (ms.map (fun m => m • M.g)) := by
    rw [List.forall₂_map_right_iff]
    exact henc.imp (fun _ _ h => h.isEnc M)
  obtain ⟨ct₁, hSum, e₁⟩ := RespDeployment.sum_isEnc M hpk ebf _ hall ct₀ _ eZero
  obtain ⟨ct₂, hAdd, e₂⟩ := IsEnc.add M hpk e₁ eInv 0
  obtain ⟨Z, hZ, -⟩ := IsEnc.bytes_roundtrip M hpk e₂ q.PointCompression
  obtain ⟨b, hb, hiff⟩ := IsEnc.decryptAndCheck0 M hsk e₂
  have htotal : (0 : Int) • M.g + (ms.map (fun m => m • M.g)).sum +
      wrapInt64 (q.BfLength - 2 * q.BfNumOnes) • M.g =
      (ms.sum + wrapInt64 (q.BfLength - 2 * q.BfNumOnes)) • M.g := by
    rw [List.sum_map_zsmul, ← add_smul, ← add_smul, zero_add]
  rw [htotal] at hiff
  refine ⟨⟨q.BfLength, q.BfNumOnes, q.NumHashFuncs, q.NumThreads, q.PointCompression,
    q.PK.InitCurve L, q.EBF, Z⟩, ct₂, b, ?_, hZ, hb, hiff⟩
  unfold RespDeployment
  simp only [hwc, hdec, hver, hInv, hZero, hSum, hAdd, hZ, Except.ok_bind_eq, Except.pure_eq_ok,
    Bool.not_true, Bool.false_eq_true, if_false]

end pcr

/-! ## Lemmas for the claim C31 -/

namespace pcr
open bloom bitset elgamal

/-- One round of the padding loop leaves every set position set. -/
theorem PadState.round_keeps {m k : Nat} {f : BloomFilter} {B : List Nat} (h : PadState m k f B)
    (hm : m ≤ bitset.Cap - 63) (hk : k < 2 ^ 64) (r t : Nat) (hr : r < m / 8) (ht : t < 8) :
    ∀ x, f.b.Test x = true →
      (f.GobDecode (frameHeader m k ++ B.set r (B.getD r 0 ||| 2 ^ t))).1.b.Test x = true := by
  obtain ⟨-, -, hl, hs, hB, hlt⟩ := h
  have hdiv := div8_le_words m hm
  have hrB : r < B.length := by omega
  have hget : B.getD r 0 = B[r] := List.getD_eq_getElem _ _ hrB
  have hold : B[r] < 256 := hlt _ (List.getElem_mem _)
  have hnew : B[r] ||| 2 ^ t < 256 := by
    have : (256 : Nat) = 2 ^ 8 := by norm_num
    rw [this] at hold ⊢
    exact Nat.or_lt_two_pow hold (Nat.pow_lt_pow_right (by norm_num) ht)
  have hB' : (B.set r (B[r] ||| 2 ^ t)).length = 8 * wordsNeeded m := by rw [List.length_set, hB]
  have hm64 : m < 2 ^ 64 := by
    have : bitset.Cap = 2 ^ 64 - 1 := rfl
    omega
  have hdec := GobDecode_frame f m k hm64 hk _ hB'
  have hrel : List.Forall₂
      (fun a b => a < 256 ∧ b < 256 ∧ ∀ u, a.testBit u = true → b.testBit u = true)
      B (B.set r (B[r] ||| 2 ^ t)) := by
    apply forall₂_set
    · intro b hb
      exact ⟨hlt b hb, hlt b hb, fun _ h => h⟩
    · intro _
      refine ⟨hold, hnew, ?_⟩
      intro u hu
      rw [Nat.testBit_or]
      simp only [List.get_eq_getElem] at hu
      simp [hu]
  rw [hget, hdec]
  intro x hx
  by_cases hxl : x < m
  · rw [BitSet.Test_eq _ _ (by rw [hl]; exact hxl)] at hx
    rw [BitSet.Test_eq _ _ hxl]
    rw [hs] at hx
    exact getD_mono (readWords_mono (wordsNeeded m) _ _ hrel) _ _ hx
  · rw [BitSet.Test_of_ge _ _ (by rw [hl]; omega)] at hx
    cases hx

/-- When the padding loop returns a filter, it has the capacity and the number of hash
functions it started with, and every position that was set is still set. -/
theorem ReqBFGen.pad_keeps (reqPara : ReqPara) (m k : Nat) (hm : m ≤ bitset.Cap - 63)
    (hk : k < 2 ^ 64) (hlen : reqPara.BfLength = (m : Int)) :
    ∀ (draws : List (Nat × Nat)) (f : BloomFilter) (B : List Nat) (f' : BloomFilter),
      PadState m k f B →
      ReqBFGen.pad reqPara draws f (frameHeader m k ++ B) = .ok (some f') →
      f'.m = m ∧ f'.k = k ∧ ∀ x, f.b.Test x = true → f'.b.Test x = true
  | [], f, B, f', hinv, h => by
    unfold ReqBFGen.pad at h
    rw [hinv.count hm] at h
    simp only [Except.ok_bind_eq] at h
    by_cases hlt : (byteOnes (B.take (m / 8)) : Int) < reqPara.BfNumOnes
    · rw [if_pos hlt] at h
      cases h
    · rw [if_neg hlt] at h
      have e : f = f' := by
        simpa using h
      subst e
      exact ⟨hinv.1, hinv.2.1, fun _ hx => hx⟩
  | d :: draws, f, B, f', hinv, h => by
    unfold ReqBFGen.pad at h
    rw [hinv.count hm] at h
    simp only [Except.ok_bind_eq] at h
    by_cases hlt : (byteOnes (B.take (m / 8)) : Int) < reqPara.BfNumOnes
    · rw [if_pos hlt] at h
      have hdiv : Int.tdiv reqPara.BfLength 8 = ((m / 8 : Nat) : Int) := by
        rw [hlen, Int.tdiv_eq_ediv (by positivity) (by norm_num)]
        push_cast
        rfl
      have hI1 : Intn 8 d.1 = .ok (d.1 % 8) := by
        unfold Intn
        rw [if_neg (by norm_num)]
        rfl
      by_cases hz : m / 8 = 0
      · have hI2 : Intn (Int.tdiv reqPara.BfLength 8) d.2 = .error .invalidArgument := by
          unfold Intn
          rw [hdiv, hz, if_pos (by norm_num)]
        simp only [hI1, hI2, Except.ok_bind_eq, Except.error_bind_eq] at h
        cases h
      have hI2 : Intn (Int.tdiv reqPara.BfLength 8) d.2 = .ok (d.2 % (m / 8)) := by
        unfold Intn
        rw [hdiv, if_neg (by push_cast; omega), Int.toNat_ofNat]
      have hr : d.2 % (m / 8) < m / 8 := Nat.mod_lt _ (by omega)
      have ht : d.1 % 8 < 8 := Nat.mod_lt _ (by norm_num)
      obtain ⟨hget, hinv', -⟩ := hinv.round hm hk _ _ hr ht
      have hkeep := hinv.round_keeps hm hk _ _ hr ht
      have hhdr : (frameHeader m k).length = 24 := by
        simp [frameHeader, length_be64]
      have hidx : (frameHeader m k ++ B)[24 + d.2 % (m / 8)]? =
          some (B.getD (d.2 % (m / 8)) 0) := by
        rw [List.getElem?_append_right (by omega), hhdr, Nat.add_sub_cancel_left, hget]
      have hsetg : (frameHeader m k ++ B).set (24 + d.2 % (m / 8))
          (B.getD (d.2 % (m / 8)) 0 ||| 2 ^ (d.1 % 8)) =
          frameHeader m k ++ B.set (d.2 % (m / 8)) (B.getD (d.2 % (m / 8)) 0 ||| 2 ^ (d.1 % 8)) := by
        rw [List.set_append_right _ _ (by omega), hhdr, Nat.add_sub_cancel_left]
      simp only [hI1, hI2, Except.ok_bind_eq, hidx, hsetg] at h
      obtain ⟨h1, h2, h3⟩ := ReqBFGen.pad_keeps reqPara m k hm hk hlen draws _ _ f' hinv' h
      exact ⟨h1, h2, fun x hx => h3 x (hkeep x hx)⟩
    · rw [if_neg hlt] at h
      have e : f = f' := by
        simpa using h
      subst e
      exact ⟨hinv.1, hinv.2.1, fun _ hx => hx⟩

/-- A filter of one bit counts no byte, so the padding loop returns it as it is or not
at all. -/
theorem ReqBFGen.pad_one (reqPara : ReqPara) (hlen : reqPara.BfLength = 0)
    (f : BloomFilter) (hf : f.m = 1) (B : List Nat) :
    ∀ (draws : List (Nat × Nat)) (f' : BloomFilter),
      ReqBFGen.pad reqPara draws f B = .ok (some f') → f' = f := by
  have hcount : GetBFNumOnes f = .ok 0 := by
    unfold GetBFNumOnes
    dsimp only
    rw [BloomFilter.Cap, hf]
    rfl
  intro draws f' h
  cases draws with
  | nil =>
    unfold ReqBFGen.pad at h
    rw [hcount] at h
    simp only [Except.ok_bind_eq] at h
    by_cases hlt : (0 : Int) < reqPara.BfNumOnes
    · rw [if_pos hlt] at h
      cases h
    · rw [if_neg hlt] at h
      have e : f = f' := by
        simpa using h
      exact e.symm
  | cons d draws =>
    unfold ReqBFGen.pad at h
    rw [hcount] at h
    simp only [Except.ok_bind_eq] at h
    by_cases hlt : (0 : Int) < reqPara.BfNumOnes
    · rw [if_pos hlt] at h
      have hI1 : Intn 8 d.1 = .ok (d.1 % 8) := by
        unfold Intn
        rw [if_neg (by norm_num)]
        rfl
      have hI2 : Intn (Int.tdiv reqPara.BfLength 8) d.2 = .error .invalidArgument := by
        unfold Intn
        rw [hlen, if_pos (by decide)]
      simp only [hI1, hI2, Except.ok_bind_eq, Except.error_bind_eq] at h
      cases h
    · rw [if_neg hlt] at h
      have e : f = f' := by
        simpa using h
      exact e.symm

/-- The filter that `ReqBFGen` returns still holds the hashed password, and it has the
capacity and the number of hash functions of `bloom.New`. -/
theorem ReqBFGen_keeps (L : Lib) (pk : PublicKey) (reqPara : ReqPara) (pwd : List Nat)
    (draws : List (Nat × Nat)) (bf : BloomFilter) (m k : Nat)
    (hm : m < 2 ^ 63) (hlen : reqPara.BfLength = (m : Int))
    (hk : reqPara.NumHashFuncs = (k : Int)) (hk63 : k < 2 ^ 63)
    (h : ReqBFGen L pk reqPara pwd draws = .ok (some bf)) :
    bf.Test L (HashSha256 L pwd) = .ok true ∧ bf.Cap = max 1 m ∧ bf.K = max 1 k := by
  have hC : bitset.Cap = 2 ^ 64 - 1 := rfl
  have hmC : m ≤ bitset.Cap - 63 := by omega
  have hNs : (New m k).b.set.length = wordsNeeded (New m k).b.length := by
    show (List.replicate (wordsNeeded m) 0).length = wordsNeeded m
    rw [List.length_replicate]
  obtain ⟨fA, hA, hAm, hAk, hAs, -, hAl, -, hAloc, hAlt, -⟩ :=
    BloomFilter.Add_general L (New m k) (HashSha256 L pwd)
      (show max 1 m ≠ 0 by omega) (show max 1 m ≤ bitset.Cap - 63 by omega) hNs
      (show m ≤ bitset.Cap - 63 from hmC)
  have hAm' : fA.m = max 1 m := hAm
  have hAk' : fA.k = max 1 k := hAk
  have hNm : (New m k).m = max 1 m := rfl
  have hNk : (New m k).k = max 1 k := rfl
  rw [hNm, hNk] at hAloc
  unfold ReqBFGen at h
  rw [hlen, hk, uint_natCast _ hm, uint_natCast _ hk63] at h
  dsimp only at h
  rw [hA] at h
  simp only [Except.ok_bind_eq] at h
  have key : bf.m = max 1 m ∧ bf.k = max 1 k ∧ ∀ x, fA.b.Test x = true → bf.b.Test x = true := by
    by_cases hm0 : m = 0
    · subst hm0
      have e := ReqBFGen.pad_one reqPara (by rw [hlen]; rfl) fA hAm' _ draws bf h
      subst e
      exact ⟨hAm', hAk', fun _ hx => hx⟩
    · have hmax : max 1 m = m := by omega
      have hAl' : fA.b.length = fA.m := by
        rw [hAl (show max 1 m ≤ m by omega), hAm', hmax]
        rfl
      have hlt0 : ∀ x ∈ (New m k).b.set, x < 2 ^ 64 := by
        intro x hx
        have : x = 0 := List.eq_of_mem_replicate hx
        rw [this]
        norm_num
      obtain ⟨hinv, hgob, -⟩ := PadState.start hAl' hAs (hAlt hlt0)
      rw [hAm', hAk', hmax] at hinv hgob
      rw [hgob] at h
      rw [hmax]
      exact ReqBFGen.pad_keeps reqPara m (max 1 k) hmC (by omega) hlen draws fA _ bf hinv h
  obtain ⟨hbm, hbk, hkeep⟩ := key
  refine ⟨?_, hbm, hbk⟩
  unfold BloomFilter.Test
  apply BloomFilter.testLoop_true L bf _ (by rw [hbm]; omega)
  intro j hj
  rw [Nat.zero_add, hbm]
  exact hkeep _ (hAloc j (by rw [← hbk]; exact hj))

end pcr

/-! ## Worked examples in steps

The examples on the curve `c77` are evaluated in steps that are small each: a scalar multiple
in runs of bits, the filter of `ReqBFGen` through the loop on the bytes alone. -/

namespace pcr
open bloom bitset elgamal

theorem byteOnes_eq_byteOnes8 (B : List Nat) (h : ∀ b ∈ B, b < 256) :
    byteOnes B = byteOnes8 B := by
  unfold byteOnes byteOnes8
  congr 1
  apply List.map_congr_left
  intro b hb
  exact OnesCount_byte b (h b hb)

theorem countP_or_eq (p : Nat → Bool) (a : Nat) (hp : p a = false) :
    ∀ m : Nat, a < m →
      (List.range m).countP (fun i => p i || decide (i = a)) = (List.range m).countP p + 1
  | 0, h => by omega
  | m + 1, h => by
    rw [List.range_succ, List.countP_append, List.countP_append]
    by_cases ham : a = m
    · subst ham
      have h1 : (List.range a).countP (fun i => p i || decide (i = a)) =
          (List.range a).countP p := by
        apply List.countP_congr
        intro i hi
        have : i ≠ a := Nat.ne_of_lt (List.mem_range.1 hi)
        simp [this]
      rw [h1, List.countP_cons, List.countP_cons, List.countP_nil, List.countP_nil, hp]
      simp
    · have ih := countP_or_eq p a hp m (by omega)
      rw [ih]
      have hma : ¬ (m = a) := fun e => ham e.symm
      rw [List.countP_cons, List.countP_cons, List.countP_nil, List.countP_nil]
      simp only [hma, decide_False, Bool.or_false]
      omega

theorem OnesCount_or_two_pow_eq (a t : Nat) (ht : t < 64) :
    OnesCount (a ||| 2 ^ t) = OnesCount a + if a.testBit t then 0 else 1 := by
  unfold OnesCount
  have h0 : (List.range 64).countP (fun j => (a ||| 2 ^ t).testBit j) =
      (List.range 64).countP (fun j => a.testBit j || decide (j = t)) := by
    apply List.countP_congr
    intro j _
    rw [Nat.testBit_or, Nat.testBit_two_pow]
    by_cases h : j = t
    · simp [h]
    · have h' : ¬ (t = j) := fun e => h e.symm
      simp [h, h']
  rw [h0]
  by_cases hb : a.testBit t = true
  · rw [if_pos hb, Nat.add_zero]
    apply List.countP_congr
    intro j _
    by_cases h : j = t
    · subst h
      simp [hb]
    · simp [h]
  · rw [if_neg hb]
    exact countP_or_eq _ t (by simpa using hb) 64 ht

theorem byteOnes_set_eq : ∀ (B : List Nat) (r v : Nat), r < B.length →
    byteOnes (B.set r v) + OnesCount (B.getD r 0) = byteOnes B + OnesCount v
  | [], _, _, h => by simp at h
  | b :: B, 0, v, _ => by
    simp only [List.set_cons_zero, byteOnes, List.map_cons, List.sum_cons, List.getD_cons_zero]
    omega
  | b :: B, r + 1, v, h => by
    have ih := byteOnes_set_eq B r v (by simpa using h)
    simp only [List.set_cons_succ, byteOnes, List.map_cons, List.sum_cons,
      List.getD_cons_succ] at ih ⊢
    omega

end pcr

namespace pcr
open bloom bitset elgamal

theorem PadState.eq_mk {m k : Nat} {f : BloomFilter} {B : List Nat} (h : PadState m k f B) :
    f = ⟨m, k, ⟨m, readWords (wordsNeeded m) B⟩⟩ := by
  obtain ⟨hfm, hfk, hl, hs, -, -⟩ := h
  obtain ⟨fm, fk, ⟨bl, bs⟩⟩ := f
  simp only at hfm hfk hl hs
  subst hfm hfk hl hs
  rfl

/-- One round of the padding loop adds one to the number of one bits exactly when the bit
drawn was not set. -/
theorem PadState.round_count {m k : Nat} {f : BloomFilter} {B : List Nat} (h : PadState m k f B)
    (hm : m ≤ bitset.Cap - 63) (r t : Nat) (hr : r < m / 8) (ht : t < 8) :
    byteOnes ((B.set r (B.getD r 0 ||| 2 ^ t)).take (m / 8)) =
      if (B.getD r 0).testBit t then byteOnes (B.take (m / 8))
      else byteOnes (B.take (m / 8)) + 1 := by
  obtain ⟨-, -, -, -, hB, -⟩ := h
  have hdiv := div8_le_words m hm
  have hrB : r < B.length := by omega
  have hrT : r < (B.take (m / 8)).length := by
    rw [List.length_take]
    omega
  have hget : (B.take (m / 8)).getD r 0 = B.getD r 0 := by
    rw [List.getD_eq_getElem _ _ hrT, List.getD_eq_getElem _ _ hrB, List.getElem_take]
  have h1 := byteOnes_set_eq (B.take (m / 8)) r (B.getD r 0 ||| 2 ^ t) hrT
  rw [hget, OnesCount_or_two_pow_eq _ _ (by omega)] at h1
  rw [List.set_take]
  split_ifs with hb
  · rw [if_pos hb] at h1
    omega
  · rw [if_neg hb] at h1
    omega

/-- The padding loop of `ReqBFGen` returns the filter of the bytes that the loop on the
bytes alone returns. -/
theorem ReqBFGen.pad_of_padBytes (reqPara : ReqPara) (m k : Nat) (hm : m ≤ bitset.Cap - 63)
    (hk : k < 2 ^ 64) (hlen : reqPara.BfLength = (m : Int)) :
    ∀ (draws : List (Nat × Nat)) (f : BloomFilter) (B : List Nat) (cnt : Nat) (B' : List Nat),
      PadState m k f B → byteOnes (B.take (m / 8)) = cnt →
      ReqBFGen.padBytes reqPara.BfNumOnes (m / 8) draws B cnt = .ok (some B') →
      ReqBFGen.pad reqPara draws f (frameHeader m k ++ B) =
        .ok (some ⟨m, k, ⟨m, readWords (wordsNeeded m) B'⟩⟩)
  | [], f, B, cnt, B', hinv, hc, h => by
    unfold ReqBFGen.padBytes at h
    unfold ReqBFGen.pad
    rw [hinv.count hm, hc]
    simp only [Except.ok_bind_eq]
    by_cases hlt : (cnt : Int) < reqPara.BfNumOnes
    · rw [if_pos hlt] at h
      cases h
    · rw [if_neg hlt] at h ⊢
      have e : B = B' := by
        simpa using h
      subst e
      rw [← hinv.eq_mk]
      rfl
  | d :: draws, f, B, cnt, B', hinv, hc, h => by
    unfold ReqBFGen.padBytes at h
    unfold ReqBFGen.pad
    rw [hinv.count hm, hc]
    simp only [Except.ok_bind_eq]
    by_cases hlt : (cnt : Int) < reqPara.BfNumOnes
    · rw [if_pos hlt] at h ⊢
      by_cases hz : m / 8 = 0
      · rw [if_pos hz] at h
        cases h
      rw [if_neg hz] at h
      have hdiv : Int.tdiv reqPara.BfLength 8 = ((m / 8 : Nat) : Int) := by
        rw [hlen, Int.tdiv_eq_ediv (by positivity) (by norm_num)]
        push_cast
        rfl
      have hI1 : Intn 8 d.1 = .ok (d.1 % 8) := by
        unfold Intn
        rw [if_neg (by norm_num)]
        rfl
      have hI2 : Intn (Int.tdiv reqPara.BfLength 8) d.2 = .ok (d.2 % (m / 8)) := by
        unfold Intn
        rw [hdiv, if_neg (by push_cast; omega), Int.toNat_ofNat]
      have hr : d.2 % (m / 8) < m / 8 := Nat.mod_lt _ (by omega)
      have ht : d.1 % 8 < 8 := Nat.mod_lt _ (by norm_num)
      obtain ⟨hget, hinv', -⟩ := hinv.round hm hk _ _ hr ht
      have hcnt' := hinv.round_count hm _ _ hr ht
      rw [hc] at hcnt'
      have hhdr : (frameHeader m k).length = 24 := by
        simp [frameHeader, length_be64]
      have hidx : (frameHeader m k ++ B)[24 + d.2 % (m / 8)]? =
          some (B.getD (d.2 % (m / 8)) 0) := by
        rw [List.getElem?_append_right (by omega), hhdr, Nat.add_sub_cancel_left, hget]
      have hsetg : (frameHeader m k ++ B).set (24 + d.2 % (m / 8))
          (B.getD (d.2 % (m / 8)) 0 ||| 2 ^ (d.1 % 8)) =
          frameHeader m k ++ B.set (d.2 % (m / 8)) (B.getD (d.2 % (m / 8)) 0 ||| 2 ^ (d.1 % 8)) := by
        rw [List.set_append_right _ _ (by omega), hhdr, Nat.add_sub_cancel_left]
      simp only [hI1, hI2, Except.ok_bind_eq, hidx, hsetg]
      exact ReqBFGen.pad_of_padBytes reqPara m k hm hk hlen draws _ _ _ B' hinv' hcnt' h
    · rw [if_neg hlt] at h ⊢
      have e : B = B' := by
        simpa using h
      subst e
      rw [← hinv.eq_mk]
      rfl

end pcr

namespace pcr
open bloom bitset elgamal

/-- What `ReqBFGen` returns, from what `Add` returns and what the loop on the bytes alone
returns. -/
theorem ReqBFGen_of_padBytes (L : Lib) (pk : PublicKey) (reqPara : ReqPara) (pwd : List Nat)
    (draws : List (Nat × Nat)) (m k : Nat) (hm : m ≤ bitset.Cap - 63) (hk : k < 2 ^ 64)
    (hlen : reqPara.BfLength = (m : Int)) (fA : BloomFilter) (B B' : List Nat) (cnt : Nat)
    (hadd : (bloom.New (uint reqPara.BfLength) (uint reqPara.NumHashFuncs)).Add L
      (HashSha256 L pwd) = .ok fA)
    (hst : PadState m k fA B) (hcnt : byteOnes8 (B.take (m / 8)) = cnt)
    (hpad : ReqBFGen.padBytes reqPara.BfNumOnes (m / 8) draws B cnt = .ok (some B')) :
    ReqBFGen L pk reqPara pwd draws =
      .ok (some ⟨m, k, ⟨m, readWords (wordsNeeded m) B'⟩⟩) := by
  have hgob : fA.GobEncode = frameHeader m k ++ B := by
    obtain ⟨hfm, hfk, hl, hs, hB, hlt⟩ := hst
    simp only [BloomFilter.GobEncode, BitSet.WriteTo, hs, flatten_be64_readWords _ B hB hlt,
      List.append_assoc, frameHeader, hfm, hfk, hl]
  have hc : byteOnes (B.take (m / 8)) = cnt := by
    rw [byteOnes_eq_byteOnes8 _ (fun b hb => hst.2.2.2.2.2 b (List.mem_of_mem_take hb)), hcnt]
  unfold ReqBFGen
  dsimp only
  rw [hadd]
  simp only [Except.ok_bind_eq]
  rw [hgob]
  exact ReqBFGen.pad_of_padBytes reqPara m k hm hk hlen draws fA B cnt B' hst hc hpad

end pcr

namespace elgamal

/-- What `EncryptMul` returns, from the point that the search finds and the two scalar
multiples. -/
theorem EncryptMul_of_parts (L : Lib) (pk : PublicKey) (c : Curve) (hpk : pk.Curve = some c)
    (msg : List Nat) (z : Nat) (mx my : Int) (c1 hz c2 : Point)
    (hs : EncryptMul.search L c (2 ^ (PaddingBytes * 8))
      (big.SetBytes (msg ++ List.replicate PaddingBytes 0) : Int) 0 = .ok (mx, my))
    (hon : c.IsOnCurve mx my = true)
    (h1 : c.ScalarBaseMult (newCryptoRandom (big.Bytes c.N) z) = c1)
    (h2 : c.ScalarMult (pk.Hx, pk.Hy) (newCryptoRandom (big.Bytes c.N) z) = hz)
    (h3 : c.Add (mx, my) hz = c2) :
    pk.EncryptMul L msg z = .ok ⟨some c1.1, some c1.2, some c2.1, some c2.2⟩ := by
  simp only [PublicKey.EncryptMul, hpk, derefCurve_some, Except.ok_bind_eq, hs, hon,
    Bool.not_true, Bool.false_eq_true, if_false, h1, h2, h3, Except.pure_eq_ok]

/-- What `Decrypt` returns, from the scalar multiple of `C1` and its sum with `C2`. -/
theorem Decrypt_of_parts (sk : SecretKey) (c : Curve) (hsk : sk.Curve = some c)
    (c1x c1y c2x c2y : Int) (temp res : Point)
    (h1 : c.ScalarMult (c1x, c1y) (big.Bytes (c.N - (big.SetBytes sk.Priv : Int))) = temp)
    (h2 : c.Add (c2x, c2y) temp = res) :
    sk.Decrypt ⟨some c1x, some c1y, some c2x, some c2y⟩ =
      if (big.Bytes res.1).length < PaddingBytes then .error .sliceBounds
      else .ok ((big.Bytes res.1).take ((big.Bytes res.1).length - PaddingBytes)) := by
  simp only [SecretKey.Decrypt, hsk, derefCurve_some, Except.ok_bind_eq, derefPoint_some, h1, h2,
    Except.pure_eq_ok]

end elgamal

namespace weierstrass
open elgamal

theorem c77_draw_pwd :
    big.SetBytes (newCryptoRandom (big.Bytes c77.N) 123456789) = 123456789 := by decide!

theorem c77_baseMult_pwd :
    c77.ScalarBaseMult (newCryptoRandom (big.Bytes c77.N) 123456789) =
      (71164816667097924482711, 3012391171164077964961) := by
  refine (curve_scalarBaseMult p77 439 n77 _ _ _).trans ?_
  rw [c77_draw_pwd]
  exact smul_chunk4 p77 123456789 7 _
    (46532094669333873504326, 30380693942611000206715)
    (85930917551584194008659, 31960247446728074363264)
    (3938968677860662193099, 20570451955998124341596) _
    (by decide) (by decide) (by decide!) (by decide!) (by decide!) (by decide!)

theorem c77_mult_pwd :
    c77.ScalarMult (pk77.Hx, pk77.Hy) (newCryptoRandom (big.Bytes c77.N) 123456789) =
      (33297721639521565308073, 16997688238234494346401) := by
  refine (curve_scalarMult p77 439 n77 _ _ _ _).trans ?_
  rw [c77_draw_pwd]
  exact smul_chunk4 p77 123456789 7 _
    (6307415220863487283521, 71542664990346858199219)
    (10398807232828940152593, 68640341725141593202329)
    (47914973529185576410482, 30518730941632785535748) _
    (by decide) (by decide) (by decide!) (by decide!) (by decide!) (by decide!)

theorem c77_inv_priv :
    big.SetBytes (big.Bytes (c77.N - (big.SetBytes sk77.Priv : Int))) =
      86190654443352726326962 := by decide!

theorem c77_mult_inv :
    c77.ScalarMult (71164816667097924482711, 3012391171164077964961)
        (big.Bytes (c77.N - (big.SetBytes sk77.Priv : Int))) =
      (33297721639521565308073, 69192966205430056434850) := by
  refine (curve_scalarMult p77 439 n77 _ _ _ _).trans ?_
  rw [c77_inv_priv]
  exact smul_chunk4 p77 86190654443352726326962 20 _
    (8169300862137184359305, 80716496342110884454145)
    (6213311341861358791534, 68060735412729430930402)
    (5350377273876297479321, 78707247397169789845598) _
    (by decide) (by decide) (by decide!) (by decide!) (by decide!) (by decide!)

end weierstrass

namespace pcr
open bloom bitset elgamal

/-- What `ResponseDecrypt` returns when `Z1` passes the check, from what `Decrypt` returns
for `Z2`. -/
theorem ResponseDecrypt_of_decrypt (L : Lib) (pk : PublicKey) (sk : SecretKey)
    (reqPara : ReqPara) (r : ResponseMessage) (bf : BloomFilter) (z1 z2 : Ciphertext)
    (res : Except Fault (List Nat))
    (hz1 : pk.Bytes2Ciphertext r.Z1 reqPara.PointCompression = .ok z1)
    (hc : sk.DecryptAndCheck0 z1 = .ok true)
    (hz2 : pk.Bytes2Ciphertext r.Z2 reqPara.PointCompression = .ok z2)
    (hd : sk.Decrypt z2 = res) :
    ResponseDecrypt L pk sk reqPara r bf =
      res.bind fun pt => (bf.Test L (HashSha256 L pt)).bind fun t =>
        .ok (if t then (true, pt) else (false, "Responder is cheating!".data.map Char.toNat)) := by
  unfold ResponseDecrypt
  simp only [hz1, hc, hz2, hd, Except.ok_bind_eq, if_true]
  cases res with
  | error e => rfl
  | ok pt =>
    simp only [Except.ok_bind_eq, Except.bind]
    cases bf.Test L (HashSha256 L pt) with
    | error e => rfl
    | ok t => cases t <;> rfl

end pcr

namespace weierstrass
open pcr bloom bitset elgamal

/-! ### The filters of the worked examples -/

theorem add_simba :
    (bloom.New (uint rp128.BfLength) (uint rp128.NumHashFuncs)).Add lib77
      (HashSha256 lib77 simba) = .ok bfAddSimba := by decide!

theorem padState_addSimba : PadState 128 20 bfAddSimba
    [10, 2, 2, 1, 1, 1, 0, 192, 224, 32, 32, 32, 16, 16, 16, 12] :=
  ⟨rfl, rfl, rfl, by decide, by decide, by decide⟩

theorem byteOnes8_addSimba : byteOnes8 (List.take (128 / 8)
    [10, 2, 2, 1, 1, 1, 0, 192, 224, 32, 32, 32, 16, 16, 16, 12]) = 20 := by decide!

/-- `ReqBFGen` for `"Simba"` with the parameters `rp128` and the draws `padDraws`. -/
theorem reqBFGen_simba :
    ReqBFGen lib77 pk77 rp128 simba padDraws = .ok (some bfSimba) :=
  (ReqBFGen_of_padBytes lib77 pk77 rp128 simba padDraws 128 20 (by decide) (by decide) rfl
    bfAddSimba _ [10, 34, 6, 129, 17, 3, 64, 192, 225, 32, 36, 160, 16, 18, 16, 12] 20
    add_simba padState_addSimba byteOnes8_addSimba (by decide!)).trans (by decide)

/-- `ReqBFGen` for `"Simba"` when `Add` alone sets more bits than `BfNumOnes`. -/
theorem reqBFGen_simba_five :
    ReqBFGen lib77 pk77 ⟨256, 128, 5, 20, 4, true⟩ simba [] = .ok (some bfAddSimba) :=
  (ReqBFGen_of_padBytes lib77 pk77 ⟨256, 128, 5, 20, 4, true⟩ simba [] 128 20 (by decide)
    (by decide) rfl bfAddSimba _ [10, 2, 2, 1, 1, 1, 0, 192, 224, 32, 32, 32, 16, 16, 16, 12] 20
    add_simba padState_addSimba byteOnes8_addSimba (by decide!)).trans (by decide)

theorem getBFNumOnes_addSimba : GetBFNumOnes bfAddSimba = .ok 20 := by
  rw [padState_addSimba.count (by decide),
    byteOnes_eq_byteOnes8 _ (fun b hb => padState_addSimba.2.2.2.2.2 b (List.mem_of_mem_take hb)),
    byteOnes8_addSimba]
  rfl

/-- `ReqBFGen` for `"Simba"` with 72 filter bits, 9 of them set, and 3 hash functions. -/
theorem reqBFGen_simba72 :
    ReqBFGen lib77 pk77 ⟨256, 72, 9, 3, 4, true⟩ simba padDraws =
      .ok (some ⟨72, 3, ⟨72, [4652218483812212736, 288230376151711744]⟩⟩) :=
  (ReqBFGen_of_padBytes lib77 pk77 ⟨256, 72, 9, 3, 4, true⟩ simba padDraws 72 3 (by decide)
    (by decide) rfl ⟨72, 3, ⟨72, [4616189618056855552, 0]⟩⟩
    [64, 16, 0, 0, 0, 32, 0, 0, 0, 0, 0, 0, 0, 0, 0, 0]
    [64, 144, 0, 16, 1, 34, 32, 0, 4, 0, 0, 0, 0, 0, 0, 0] 3
    (by decide!) ⟨rfl, rfl, rfl, by decide, by decide, by decide⟩ (by decide!)
    (by decide!)).trans (by decide)

/-- `ReqBFGen` for `"Nala"` with 72 filter bits, 9 of them set, and 3 hash functions. -/
theorem reqBFGen_nala72 :
    ReqBFGen lib77 pk77 ⟨256, 72, 9, 3, 4, true⟩ nala padDraws =
      .ok (some ⟨72, 3, ⟨72, [612498414420238336, 288230376151711808]⟩⟩) :=
  (ReqBFGen_of_padBytes lib77 pk77 ⟨256, 72, 9, 3, 4, true⟩ nala padDraws 72 3 (by decide)
    (by decide) rfl ⟨72, 3, ⟨72, [576460752571858944, 64]⟩⟩
    [8, 0, 0, 0, 16, 0, 0, 0, 0, 0, 0, 0, 0, 0, 0, 64]
    [8, 128, 8, 16, 17, 2, 32, 0, 4, 0, 0, 0, 0, 0, 0, 64] 2
    (by decide!) ⟨rfl, rfl, rfl, by decide, by decide, by decide⟩ (by decide!)
    (by decide!)).trans (by decide)

/-! ### The ciphertexts of the worked examples -/

theorem encryptMul_zeroA :
    pk77.EncryptMul lib77 [0, 97] 123456789 =
      .ok ⟨some 71164816667097924482711, some 3012391171164077964961,
        some 8289330617563353971566, some 51759438842087574795757⟩ :=
  EncryptMul_of_parts lib77 pk77 c77 rfl [0, 97] 123456789 416611827712 63210410432970176742768
    _ _ (8289330617563353971566, 51759438842087574795757) (by decide!) (by decide!)
    c77_baseMult_pwd c77_mult_pwd (by decide!)

theorem encryptMul_empty :
    pk77.EncryptMul lib77 [] 123456789 =
      .ok ⟨some 71164816667097924482711, some 3012391171164077964961,
        some 76212564029370956662914, some 64490280334063070852306⟩ :=
  EncryptMul_of_parts lib77 pk77 c77 rfl [] 123456789 0 63358472541517332986994
    _ _ (76212564029370956662914, 64490280334063070852306) (by decide!) (by decide!)
    c77_baseMult_pwd c77_mult_pwd (by decide!)

theorem encryptMul_simba :
    pk77.EncryptMul lib77 simba 123456789 =
      .ok ⟨some 71164816667097924482711, some 3012391171164077964961,
        some 22314543010347043804339, some 67446733301202135066128⟩ :=
  EncryptMul_of_parts lib77 pk77 c77 rfl simba 123456789 1538676594433088028672
    73494804899906640958958 _ _ (22314543010347043804339, 67446733301202135066128)
    (by decide!) (by decide!) c77_baseMult_pwd c77_mult_pwd (by decide!)

theorem encryptMul_nala :
    pk77.EncryptMul lib77 nala 123456789 =
      .ok ⟨some 71164816667097924482711, some 3012391171164077964961,
        some 48728674898712437353402, some 47890659316036289835785⟩ :=
  EncryptMul_of_parts lib77 pk77 c77 rfl nala 123456789 5647914571566940160
    23334390438261552173562 _ _ (48728674898712437353402, 47890659316036289835785)
    (by decide!) (by decide!) c77_baseMult_pwd c77_mult_pwd (by decide!)

theorem decrypt_zeroA :
    sk77.Decrypt ⟨some 71164816667097924482711, some 3012391171164077964961,
        some 8289330617563353971566, some 51759438842087574795757⟩ = .ok [97] :=
  (Decrypt_of_parts sk77 c77 rfl _ _ _ _ _ (416611827712, 63210410432970176742768)
    c77_mult_inv (by decide!)).trans (by decide)

theorem decrypt_empty :
    sk77.Decrypt ⟨some 71164816667097924482711, some 3012391171164077964961,
        some 76212564029370956662914, some 64490280334063070852306⟩ = .error .sliceBounds :=
  (Decrypt_of_parts sk77 c77 rfl _ _ _ _ _ (0, 63358472541517332986994)
    c77_mult_inv (by decide!)).trans (by decide)

theorem decrypt_simba :
    sk77.Decrypt ⟨some 71164816667097924482711, some 3012391171164077964961,
        some 22314543010347043804339, some 67446733301202135066128⟩ = .ok simba :=
  (Decrypt_of_parts sk77 c77 rfl _ _ _ _ _ (1538676594433088028672, 73494804899906640958958)
    c77_mult_inv (by decide!)).trans (by decide)

end weierstrass

/-! # The claims -/

namespace elgamal

/-- C2. Completeness of the batched OR-proof. For a key pair with `H = [sk]G` on a lawful
curve, every vector `ms` with entries `+1` or `-1`, every choice of the random draws
`z, w, r_sim, d_sim` and worker counts of at least one, `EncryptSeqWithZKP(ms)` returns
`(cs, zkps, challenge)` and `VerifySeqZKP(cs, zkps, challenge)` returns true. -/
theorem verifySeqZKP_encryptSeqWithZKP (L : Lib) (c : Curve) (hc : c.Lawful) (pk : PublicKey)
    (sk : SecretKey) (hk : KeyPair c pk sk) (ms : List Int) (hms : ∀ m ∈ ms, m = 1 ∨ m = -1)
    (numThreads numThreads' : Int) (hT : 1 ≤ numThreads) (hT' : 1 ≤ numThreads')
    (draws : Nat → ZKPDraw) :
    ∃ cs zkps challenge,
      pk.EncryptSeqWithZKP L ms numThreads draws = .ok (cs, zkps, challenge) ∧
      cs.length = ms.length ∧ zkps.length = ms.length ∧
      pk.VerifySeqZKP L cs zkps challenge numThreads' = .ok true := by
  obtain ⟨Pt, _, ⟨M⟩⟩ := hc
  obtain ⟨slots, hslots, hlen, hgood⟩ := encryptAll_good M hk draws ms hms 0
  have hcl := length_commitAll pk c draws 0 slots
  obtain ⟨ch, hchdef⟩ : ∃ ch : Int, ch = (big.SetBytes (HashSha256 L
      ((slots.map EncSlot.bytes).flatten ++
        ((EncryptSeqWithZKP.commitAll pk c draws 0 slots).map CommitSlot.bytes).flatten)) : Int) %
      c.N := ⟨_, rfl⟩
  have hch : ch % c.N = ch := by
    rw [hchdef]
    exact Int.emod_emod_of_dvd _ (dvd_refl _)
  refine ⟨slots.map EncSlot.ciphertext, List.zipWith (EncryptSeqWithZKP.respond c ch) slots
    (EncryptSeqWithZKP.commitAll pk c draws 0 slots), ch, ?_, ?_, ?_, ?_⟩
  · simp only [PublicKey.EncryptSeqWithZKP, hk.1, derefCurve_some, Except.ok_bind_eq,
      workerChan_ok numThreads hT, hslots, Except.pure_eq_ok, ← hchdef]
    rfl
  · simp [hlen]
  · simp [hlen, hcl]
  · simp only [PublicKey.VerifySeqZKP, hk.1, derefCurve_some, Except.ok_bind_eq,
      mapM_ciphertext_bytes, mapM_respond_bytes c _ slots _ hcl, workerChan_ok numThreads' hT',
      ← hchdef, checkAll_respond_commitAll M draws ch hch slots hgood 0, Except.pure_eq_ok]
    simp

theorem verifySeqZKP_encryptSeqWithZKP_witness :
    ∃ cs zkps challenge,
      weierstrass.pk11.EncryptSeqWithZKP weierstrass.lib11 [1, -1, 1] 2
          (fun i => ⟨i + 2, 3 * i + 1, i + 5, 2 * i + 7⟩) = .ok (cs, zkps, challenge) ∧
      cs.length = 3 ∧ zkps.length = 3 ∧
      weierstrass.pk11.VerifySeqZKP weierstrass.lib11 cs zkps challenge 4 = .ok true :=
  verifySeqZKP_encryptSeqWithZKP weierstrass.lib11 weierstrass.c11 weierstrass.c11_lawful
    weierstrass.pk11 weierstrass.sk11 keyPair11 [1, -1, 1] (by decide) 2 4 (by decide)
    (by decide) (fun i => ⟨i + 2, 3 * i + 1, i + 5, 2 * i + 7⟩)

/-- C5 (amended). Round trip of the multiplicative encoding. For a key pair from `KeyGen`
on a lawful curve (private scalar at most `N`, sound `ModSqrt`), every byte string `s`
whose first byte is not zero, and every encryption randomness: when `pk.EncryptMul(s)`
returns a ciphertext, `sk.Decrypt` of it returns `s` byte for byte. -/
theorem decrypt_encryptMul (L : Lib) (hsound : L.ModSqrtSound) (secParam : Int)
    (pointCompression : Bool) (priv : List Nat) (c : Curve) (pk : PublicKey) (sk : SecretKey)
    (hcurve : initCurve L secParam = some c) (hc : c.Lawful)
    (hkey : KeyGen L secParam pointCompression priv = .ok (pk, sk))
    (hpriv : (big.SetBytes priv : Int) ≤ c.N)
    (b0 : Nat) (rest : List Nat) (hb0 : b0 ≠ 0) (hbytes : ∀ b ∈ b0 :: rest, b < 256)
    (z : Nat) (ct : Ciphertext) (hE : pk.EncryptMul L (b0 :: rest) z = .ok ct) :
    sk.Decrypt ct = .ok (b0 :: rest) := by
  obtain ⟨Pt, _, ⟨M⟩⟩ := hc
  obtain ⟨c', hc', hk, hsk, -, -⟩ := KeyGen_keyPair hkey
  have hcc : c' = c := Option.some.inj (hc'.symm.trans hcurve)
  rw [hcc] at hk
  obtain ⟨P, hPx, rfl⟩ := EncryptMul_eq M L hsound hk.1 (hk.H_eq M) (b0 :: rest) z ct hE
  rw [smul_comm, Decrypt_eq M hk.2.1 (by rw [hsk]; exact hpriv) _ P
    (by rw [smul_comm, M.order, smul_zero]), hPx]
  have hB : big.Bytes (big.SetBytes (b0 :: rest ++ List.replicate PaddingBytes 0) : Int) =
      b0 :: rest ++ List.replicate PaddingBytes 0 := by
    unfold big.Bytes
    rw [Int.natAbs_ofNat]
    apply big.natBytes_SetBytes
    · intro b hb
      rcases List.mem_append.1 hb with h | h
      · exact hbytes b h
      · rw [List.eq_of_mem_replicate h]
        norm_num
    · intro _
      exact hb0
  rw [hB, if_neg (by simp [PaddingBytes])]
  simp [PaddingBytes]

theorem decrypt_encryptMul_counterexample :
    KeyGen weierstrass.lib77 256 true [1, 35, 69] = .ok (weierstrass.pk77, weierstrass.sk77) ∧
    weierstrass.pk77.EncryptMul weierstrass.lib77 [0, 97] 123456789 =
      .ok ⟨some 71164816667097924482711, some 3012391171164077964961,
        some 8289330617563353971566, some 51759438842087574795757⟩ ∧
    weierstrass.sk77.Decrypt ⟨some 71164816667097924482711, some 3012391171164077964961,
        some 8289330617563353971566, some 51759438842087574795757⟩ = .ok [97] ∧
    weierstrass.pk77.EncryptMul weierstrass.lib77 [] 123456789 =
      .ok ⟨some 71164816667097924482711, some 3012391171164077964961,
        some 76212564029370956662914, some 64490280334063070852306⟩ ∧
    weierstrass.sk77.Decrypt ⟨some 71164816667097924482711, some 3012391171164077964961,
        some 76212564029370956662914, some 64490280334063070852306⟩ = .error .sliceBounds :=
  ⟨keyGen77, weierstrass.encryptMul_zeroA, weierstrass.decrypt_zeroA,
    weierstrass.encryptMul_empty, weierstrass.decrypt_empty⟩

theorem decrypt_encryptMul_witness :
    KeyGen weierstrass.lib77 256 true [1, 35, 69] = .ok (weierstrass.pk77, weierstrass.sk77) ∧
    weierstrass.pk77.EncryptMul weierstrass.lib77 [83, 105, 109, 98, 97] 123456789 =
      .ok ⟨some 71164816667097924482711, some 3012391171164077964961,
        some 22314543010347043804339, some 67446733301202135066128⟩ ∧
    weierstrass.sk77.Decrypt ⟨some 71164816667097924482711, some 3012391171164077964961,
        some 22314543010347043804339, some 67446733301202135066128⟩ =
      .ok [83, 105, 109, 98, 97] :=
  ⟨keyGen77, weierstrass.encryptMul_simba,
    decrypt_encryptMul weierstrass.lib77 (weierstrass.lib_modSqrtSound _) 256 true [1, 35, 69]
      weierstrass.c77 weierstrass.pk77 weierstrass.sk77 rfl weierstrass.c77_lawful keyGen77
      (by decide) 83 [105, 109, 98, 97] (by decide) (by decide) 123456789 _
      weierstrass.encryptMul_simba⟩

/-- C6. For a key pair from `KeyGen` on a lawful curve, every scalar `m ≥ 0` (in
particular every `m` of `[0, N)`) and every encryption randomness,
`sk.DecryptAndCheck(pk.Encrypt(m), m.Bytes())` returns true. -/
theorem decryptAndCheck_encrypt (L : Lib) (secParam : Int) (pointCompression : Bool)
    (priv : List Nat) (c : Curve) (pk : PublicKey) (sk : SecretKey)
    (hcurve : initCurve L secParam = some c) (hc : c.Lawful)
    (hkey : KeyGen L secParam pointCompression priv = .ok (pk, sk))
    (m : Int) (hm : 0 ≤ m) (z : Nat) :
    ∃ ct, pk.Encrypt m z = .ok ct ∧ sk.DecryptAndCheck ct (big.Bytes m) = .ok true := by
  obtain ⟨Pt, _, ⟨M⟩⟩ := hc
  obtain ⟨c', hc', hk, -, -, -⟩ := KeyGen_keyPair hkey
  have hcc : c' = c := Option.some.inj (hc'.symm.trans hcurve)
  rw [hcc] at hk
  refine ⟨_, Encrypt_eq M hk.1 (hk.H_eq M) m z, ?_⟩
  obtain ⟨b, hb, hiff⟩ := DecryptAndCheck_eq M hk.2.1 (c.draw z • M.g)
    (m • M.g + c.draw z • ((big.SetBytes sk.Priv : Int) • M.g)) (big.Bytes m)
  rw [hb]
  congr 1
  rw [hiff, big.SetBytes_Bytes m hm, smul_comm, add_comm]

theorem decryptAndCheck_encrypt_witness :
    KeyGen weierstrass.lib11 256 true [5] = .ok (weierstrass.pk11, weierstrass.sk11) ∧
    ∃ ct, weierstrass.pk11.Encrypt 3 7 = .ok ct ∧
      weierstrass.sk11.DecryptAndCheck ct (big.Bytes 3) = .ok true :=
  ⟨rfl, decryptAndCheck_encrypt weierstrass.lib11 256 true [5] weierstrass.c11 weierstrass.pk11
    weierstrass.sk11 rfl weierstrass.c11_lawful rfl 3 (by decide) 7⟩

/-- C7. `Add` is homomorphic. For a key pair with `H = [sk]G` on a lawful curve and
ciphertexts `A = ([a]G, Ma + [a]H)`, `B = ([b]G, Mb + [b]H)` of points `Ma`, `Mb`,
`pk.Add(A, B, rand)` returns, for either value of `rand` and any draw, a ciphertext `C`
with `C.C2 = (Ma + Mb) + [sk]C.C1`; with `rand = false` it is the component-wise sum. -/
theorem add_homomorphic (c : Curve) (hc : c.Lawful) (pk : PublicKey) (sk : SecretKey)
    (hk : KeyPair c pk sk) (Ma Mb : Point) (hMa : c.IsPoint Ma) (hMb : c.IsPoint Mb)
    (a b : List Nat) (rand : Bool) (z : Nat) :
    ∃ c1 c2,
      pk.Add (Ciphertext.ofPoints (c.ScalarBaseMult a) (c.Add Ma (c.ScalarMult (pk.Hx, pk.Hy) a)))
        (Ciphertext.ofPoints (c.ScalarBaseMult b) (c.Add Mb (c.ScalarMult (pk.Hx, pk.Hy) b)))
        rand z = .ok (Ciphertext.ofPoints c1 c2) ∧
      c2 = c.Add (c.Add Ma Mb) (c.ScalarMult c1 sk.Priv) ∧
      (rand = false →
        c1 = c.Add (c.ScalarBaseMult a) (c.ScalarBaseMult b) ∧
        c2 = c.Add (c.Add Ma (c.ScalarMult (pk.Hx, pk.Hy) a))
          (c.Add Mb (c.ScalarMult (pk.Hx, pk.Hy) b))) := by
  obtain ⟨Pt, _, ⟨M⟩⟩ := hc
  obtain ⟨ma, rfl⟩ := (M.isPoint_iff Ma).1 hMa
  obtain ⟨mb, rfl⟩ := (M.isPoint_iff Mb).1 hMb
  have hH := hk.H_eq M
  simp only [hH, M.scalarMult_nat, M.scalarBaseMult_nat, M.add_coords]
  cases rand with
  | false =>
    refine ⟨_, _, Add_eq M hk.1 _ _ _ _ z, ?_, fun _ => ⟨rfl, rfl⟩⟩
    rw [M.scalarMult_nat, M.add_coords, M.coords_eq_iff]
    simp only [smul_add, smul_smul]
    rw [mul_comm (big.SetBytes sk.Priv : Int), mul_comm (big.SetBytes sk.Priv : Int)]
    abel
  | true =>
    refine ⟨_, _, Add_rand_eq M hk.1 hH _ _ _ _ z, ?_, fun h => by cases h⟩
    rw [M.scalarMult_nat, M.add_coords, M.coords_eq_iff]
    simp only [smul_add, smul_smul]
    rw [mul_comm (big.SetBytes sk.Priv : Int), mul_comm (big.SetBytes sk.Priv : Int),
      mul_comm (big.SetBytes sk.Priv : Int)]
    abel

theorem add_homomorphic_witness :
    ∃ c1 c2,
      weierstrass.pk11.Add
        (Ciphertext.ofPoints (weierstrass.c11.ScalarBaseMult [3])
          (weierstrass.c11.Add (0, 1) (weierstrass.c11.ScalarMult (8, 7) [3])))
        (Ciphertext.ofPoints (weierstrass.c11.ScalarBaseMult [4])
          (weierstrass.c11.Add (7, 2) (weierstrass.c11.ScalarMult (8, 7) [4])))
        true 2 = .ok (Ciphertext.ofPoints c1 c2) ∧
      c2 = weierstrass.c11.Add (weierstrass.c11.Add (0, 1) (7, 2))
        (weierstrass.c11.ScalarMult c1 [5]) ∧
      (true = false →
        c1 = weierstrass.c11.Add (weierstrass.c11.ScalarBaseMult [3])
          (weierstrass.c11.ScalarBaseMult [4]) ∧
        c2 = weierstrass.c11.Add
          (weierstrass.c11.Add (0, 1) (weierstrass.c11.ScalarMult (8, 7) [3]))
          (weierstrass.c11.Add (7, 2) (weierstrass.c11.ScalarMult (8, 7) [4]))) :=
  add_homomorphic weierstrass.c11 weierstrass.c11_lawful weierstrass.pk11 weierstrass.sk11
    keyPair11 (0, 1) (7, 2) (Or.inr (by decide)) (Or.inr (by decide)) [3] [4] true 2

/-- C8. For a key pair with `H = [sk]G` on a lawful curve and a ciphertext `C` of a
point `C.C1` with `sk.DecryptAndCheck0(C) = true`, the output of
`pk.ScalarMultRandomizer(C, rerand)` passes `sk.DecryptAndCheck0` for every drawn scalar,
every encryption draw and either value of `rerand`. -/
theorem scalarMultRandomizer_check0 (c : Curve) (hc : c.Lawful) (pk : PublicKey)
    (sk : SecretKey) (hk : KeyPair c pk sk) (p q : Point) (hp : c.IsPoint p)
    (hC : sk.DecryptAndCheck0 (Ciphertext.ofPoints p q) = .ok true)
    (rerand : Bool) (r z : Nat) :
    ∃ C', pk.ScalarMultRandomizer (Ciphertext.ofPoints p q) rerand r z = .ok C' ∧
      sk.DecryptAndCheck0 C' = .ok true := by
  obtain ⟨Pt, _, ⟨M⟩⟩ := hc
  obtain ⟨a1, rfl⟩ := (M.isPoint_iff p).1 hp
  have hq : q = M.coords ((big.SetBytes sk.Priv : Int) • a1) := by
    simp only [SecretKey.DecryptAndCheck0, hk.2.1, derefCurve_some, Except.ok_bind_eq,
      ofPoints_C1x, ofPoints_C1y, ofPoints_C2x, ofPoints_C2y, derefPoint_some, deref_some,
      M.scalarMult_nat, Except.pure_eq_ok, cmp_points, Except.ok.injEq, decide_eq_true_eq] at hC
    exact hC.symm
  subst hq
  have hH := hk.H_eq M
  cases rerand with
  | false =>
    refine ⟨_, ScalarMultRandomizer_eq M hk.1 _ _ r z, ?_⟩
    obtain ⟨b, hb, hiff⟩ := DecryptAndCheck0_eq M hk.2.1 (c.draw r • a1)
      (c.draw r • ((big.SetBytes sk.Priv : Int) • a1))
    rw [hb]
    congr 1
    rw [hiff, smul_comm]
  | true =>
    refine ⟨_, ScalarMultRandomizer_rand_eq M hk.1 hH _ _ r z, ?_⟩
    obtain ⟨b, hb, hiff⟩ := DecryptAndCheck0_eq M hk.2.1 (c.draw r • a1 + c.draw z • M.g)
      (c.draw r • ((big.SetBytes sk.Priv : Int) • a1) +
        c.draw z • ((big.SetBytes sk.Priv : Int) • M.g))
    rw [hb]
    congr 1
    rw [hiff, smul_add, smul_comm, smul_comm (big.SetBytes sk.Priv : Int) (c.draw z)]

theorem scalarMultRandomizer_check0_witness :
    weierstrass.sk11.DecryptAndCheck0 (Ciphertext.ofPoints (7, 2) (0, 1)) = .ok true ∧
    ∃ C', weierstrass.pk11.ScalarMultRandomizer (Ciphertext.ofPoints (7, 2) (0, 1)) true 6 9 =
        .ok C' ∧ weierstrass.sk11.DecryptAndCheck0 C' = .ok true :=
  ⟨by decide, scalarMultRandomizer_check0 weierstrass.c11 weierstrass.c11_lawful
    weierstrass.pk11 weierstrass.sk11 keyPair11 (7, 2) (0, 1) (Or.inr (by decide))
    (by decide) true 6 9⟩

end elgamal

namespace pcr
open elgamal bloom

/-- C3 (amended). For a response message whose `Z1` and `Z2` both decode to pairs of
points and a Bloom filter of capacity `m ≥ 1`: `DecryptAndCheck0(Z1)` returns; when it is
false, `ResponseDecrypt` returns `(false, "")`; when it is true, `ResponseDecrypt` fails
(slice bounds out of range) exactly when `Decrypt(Z2)` does, that is when the decrypted
x-coordinate has fewer than `PaddingBytes` bytes, and otherwise returns `(true, pt)` when
`bf.Test(sha256(pt))` holds for `pt = Decrypt(Z2)` and
`(false, "Responder is cheating!")` when that test fails. -/
theorem responseDecrypt_eq (L : Lib) (c : Curve) (pk : PublicKey) (sk : SecretKey)
    (hsk : sk.Curve = some c) (reqPara : ReqPara)
    (responseMessage : ResponseMessage) (bf : BloomFilter) (hm : bf.m ≠ 0)
    (a b a' b' : Point)
    (h1 : pk.Bytes2Ciphertext responseMessage.Z1 reqPara.PointCompression =
      .ok (Ciphertext.ofPoints a b))
    (h2 : pk.Bytes2Ciphertext responseMessage.Z2 reqPara.PointCompression =
      .ok (Ciphertext.ofPoints a' b')) :
    ∃ zero : Bool, sk.DecryptAndCheck0 (Ciphertext.ofPoints a b) = .ok zero ∧
      ((zero = false ∧
          ResponseDecrypt L pk sk reqPara responseMessage bf = .ok (false, [])) ∨
        (zero = true ∧ sk.Decrypt (Ciphertext.ofPoints a' b') = .error .sliceBounds ∧
          ResponseDecrypt L pk sk reqPara responseMessage bf = .error .sliceBounds) ∨
        (zero = true ∧ ∃ pt t, sk.Decrypt (Ciphertext.ofPoints a' b') = .ok pt ∧
          bf.Test L (HashSha256 L pt) = .ok t ∧
          ResponseDecrypt L pk sk reqPara responseMessage bf =
            .ok (if t then (true, pt)
              else (false, "Responder is cheating!".data.map Char.toNat)))) := by
  have hz : ∃ zero, sk.DecryptAndCheck0 (Ciphertext.ofPoints a b) = .ok zero := by
    unfold SecretKey.DecryptAndCheck0
    simp only [hsk, derefCurve_some, Except.ok_bind_eq, derefPoint_some, deref_some,
      ofPoints_C1x, ofPoints_C1y, ofPoints_C2x, ofPoints_C2y, Except.pure_eq_ok]
    split
    · exact ⟨_, rfl⟩
    · exact ⟨_, rfl⟩
  obtain ⟨zero, hzero⟩ := hz
  refine ⟨zero, hzero, ?_⟩
  unfold ResponseDecrypt
  simp only [h1, h2, hzero, Except.ok_bind_eq]
  cases zero with
  | false => exact Or.inl ⟨rfl, rfl⟩
  | true =>
    right
    have hd : sk.Decrypt (Ciphertext.ofPoints a' b') = .error .sliceBounds ∨
        ∃ pt, sk.Decrypt (Ciphertext.ofPoints a' b') = .ok pt := by
      unfold SecretKey.Decrypt
      simp only [hsk, derefCurve_some, Except.ok_bind_eq, derefPoint_some,
        ofPoints_C1x, ofPoints_C1y, ofPoints_C2x, ofPoints_C2y, Except.pure_eq_ok]
      split
      · exact Or.inl rfl
      · exact Or.inr ⟨_, rfl⟩
    rcases hd with hd | ⟨pt, hd⟩
    · left
      refine ⟨rfl, hd, ?_⟩
      simp [hd, Except.error_bind_eq]
    · right
      obtain ⟨t, ht⟩ := BloomFilter.test_isOk L bf hm (HashSha256 L pt)
      refine ⟨rfl, pt, t, hd, ht, ?_⟩
      simp only [if_true, hd, ht, Except.ok_bind_eq]
      cases t <;> rfl

/-- C3 as stated fails: with the key pair `pk77`, `sk77`, a response whose `Z1` encrypts
zero and whose `Z2` encrypts the curve point with `x = 0` makes `ResponseDecrypt` panic
in the slice expression of `Decrypt`; a response that does not decode is a nil
dereference; and a filter decoded with `m = 0` is a division by zero. -/
theorem responseDecrypt_counterexample :
    weierstrass.sk77.DecryptAndCheck0
        (Ciphertext.ofPoints (38023799350182638110324, 18766331739484218117175)
          (23281899342141166558709, 35585190153966615464325)) = .ok true ∧
    weierstrass.pk77.Ciphertext2Bytes
        (Ciphertext.ofPoints (38023799350182638110324, 18766331739484218117175)
          (23281899342141166558709, 35585190153966615464325)) true =
      .ok ⟨[3, 8, 13, 70, 56, 18, 68, 157, 5, 198, 116],
        [3, 4, 238, 29, 66, 66, 227, 84, 233, 157, 245]⟩ ∧
    weierstrass.pk77.Bytes2Ciphertext
        ⟨[3, 15, 17, 218, 57, 159, 94, 9, 249, 182, 151],
          [2, 16, 35, 125, 202, 185, 62, 49, 18, 72, 130]⟩ true =
      .ok (Ciphertext.ofPoints (71164816667097924482711, 3012391171164077964961)
        (76212564029370956662914, 64490280334063070852306)) ∧
    ResponseDecrypt weierstrass.lib77 weierstrass.pk77 weierstrass.sk77
        ⟨256, 128, 30, 20, 4, true⟩
        ⟨⟨[3, 8, 13, 70, 56, 18, 68, 157, 5, 198, 116],
            [3, 4, 238, 29, 66, 66, 227, 84, 233, 157, 245]⟩,
          ⟨[3, 15, 17, 218, 57, 159, 94, 9, 249, 182, 151],
            [2, 16, 35, 125, 202, 185, 62, 49, 18, 72, 130]⟩⟩
        (bloom.New 128 20) = .error .sliceBounds ∧
    ResponseDecrypt weierstrass.lib77 weierstrass.pk77 weierstrass.sk77
        ⟨256, 128, 30, 20, 4, true⟩ ⟨⟨[], []⟩, ⟨[], []⟩⟩ (bloom.New 128 20) =
      .error .nilDeref ∧
    (bloom.New 1 1).GobDecode (List.replicate 8 0 ++ bitset.be64 1 ++ bitset.be64 0) =
      (⟨0, 1, ⟨0, []⟩⟩, true) ∧
    ResponseDecrypt weierstrass.lib77 weierstrass.pk77 weierstrass.sk77
        ⟨256, 128, 30, 20, 4, true⟩
        ⟨⟨[3, 8, 13, 70, 56, 18, 68, 157, 5, 198, 116],
            [3, 4, 238, 29, 66, 66, 227, 84, 233, 157, 245]⟩,
          ⟨[3, 15, 17, 218, 57, 159, 94, 9, 249, 182, 151],
            [2, 4, 185, 172, 126, 48, 101, 15, 80, 84, 179]⟩⟩
        ⟨0, 1, ⟨0, []⟩⟩ = .error .divideByZero := by
  have hz1 : weierstrass.pk77.Bytes2Ciphertext
      ⟨[3, 8, 13, 70, 56, 18, 68, 157, 5, 198, 116],
        [3, 4, 238, 29, 66, 66, 227, 84, 233, 157, 245]⟩ true =
      .ok (Ciphertext.ofPoints (38023799350182638110324, 18766331739484218117175)
        (23281899342141166558709, 35585190153966615464325)) := by decide!
  have hc : weierstrass.sk77.DecryptAndCheck0
      (Ciphertext.ofPoints (38023799350182638110324, 18766331739484218117175)
        (23281899342141166558709, 35585190153966615464325)) = .ok true := by decide!
  have hz2 : weierstrass.pk77.Bytes2Ciphertext
      ⟨[3, 15, 17, 218, 57, 159, 94, 9, 249, 182, 151],
        [2, 16, 35, 125, 202, 185, 62, 49, 18, 72, 130]⟩ true =
      .ok (Ciphertext.ofPoints (71164816667097924482711, 3012391171164077964961)
        (76212564029370956662914, 64490280334063070852306)) := by decide!
  have hz2' : weierstrass.pk77.Bytes2Ciphertext
      ⟨[3, 15, 17, 218, 57, 159, 94, 9, 249, 182, 151],
        [2, 4, 185, 172, 126, 48, 101, 15, 80, 84, 179]⟩ true =
      .ok (Ciphertext.ofPoints (71164816667097924482711, 3012391171164077964961)
        (22314543010347043804339, 67446733301202135066128)) := by decide!
  refine ⟨hc, by decide!, hz2, ?_, by decide!, by decide!, ?_⟩
  · exact (ResponseDecrypt_of_decrypt _ _ _ _ _ _ _ _ _ hz1 hc hz2
      weierstrass.decrypt_empty).trans rfl
  · exact (ResponseDecrypt_of_decrypt _ _ _ _ _ _ _ _ _ hz1 hc hz2'
      weierstrass.decrypt_simba).trans (by decide)

/-- The amended C3 at the key pair `pk77`, `sk77`: `Z1` encrypts zero, `Z2` encrypts
the embedding of `"Simba"`, and the filter is empty. -/
theorem responseDecrypt_eq_witness :
    ∃ zero : Bool,
      weierstrass.sk77.DecryptAndCheck0
          (Ciphertext.ofPoints (38023799350182638110324, 18766331739484218117175)
            (23281899342141166558709, 35585190153966615464325)) = .ok zero ∧
      ((zero = false ∧
          ResponseDecrypt weierstrass.lib77 weierstrass.pk77 weierstrass.sk77
            ⟨256, 128, 30, 20, 4, true⟩
            ⟨⟨[3, 8, 13, 70, 56, 18, 68, 157, 5, 198, 116],
                [3, 4, 238, 29, 66, 66, 227, 84, 233, 157, 245]⟩,
              ⟨[3, 15, 17, 218, 57, 159, 94, 9, 249, 182, 151],
                [2, 4, 185, 172, 126, 48, 101, 15, 80, 84, 179]⟩⟩
            (bloom.New 128 20) = .ok (false, [])) ∨
        (zero = true ∧
          weierstrass.sk77.Decrypt
            (Ciphertext.ofPoints (71164816667097924482711, 3012391171164077964961)
              (22314543010347043804339, 67446733301202135066128)) = .error .sliceBounds ∧
          ResponseDecrypt weierstrass.lib77 weierstrass.pk77 weierstrass.sk77
            ⟨256, 128, 30, 20, 4, true⟩
            ⟨⟨[3, 8, 13, 70, 56, 18, 68, 157, 5, 198, 116],
                [3, 4, 238, 29, 66, 66, 227, 84, 233, 157, 245]⟩,
              ⟨[3, 15, 17, 218, 57, 159, 94, 9, 249, 182, 151],
                [2, 4, 185, 172, 126, 48, 101, 15, 80, 84, 179]⟩⟩
            (bloom.New 128 20) = .error .sliceBounds) ∨
        (zero = true ∧ ∃ pt t,
          weierstrass.sk77.Decrypt
            (Ciphertext.ofPoints (71164816667097924482711, 3012391171164077964961)
              (22314543010347043804339, 67446733301202135066128)) = .ok pt ∧
          (bloom.New 128 20).Test weierstrass.lib77 (HashSha256 weierstrass.lib77 pt) = .ok t ∧
          ResponseDecrypt weierstrass.lib77 weierstrass.pk77 weierstrass.sk77
            ⟨256, 128, 30, 20, 4, true⟩
            ⟨⟨[3, 8, 13, 70, 56, 18, 68, 157, 5, 198, 116],
                [3, 4, 238, 29, 66, 66, 227, 84, 233, 157, 245]⟩,
              ⟨[3, 15, 17, 218, 57, 159, 94, 9, 249, 182, 151],
                [2, 4, 185, 172, 126, 48, 101, 15, 80, 84, 179]⟩⟩
            (bloom.New 128 20) =
            .ok (if t then (true, pt)
              else (false, "Responder is cheating!".data.map Char.toNat)))) :=
  responseDecrypt_eq weierstrass.lib77 weierstrass.c77 weierstrass.pk77 weierstrass.sk77 rfl
    ⟨256, 128, 30, 20, 4, true⟩ _ (bloom.New 128 20) (by decide) _ _ _ _ (by decide!)
    (by decide!)

/-- C9. For a query on a lawful curve whose public point is `H = [sk]G`, whose `EBF` has
`BfLength` entries (a Go `int`) that decode to ciphertexts of which exactly `BfNumOnes`
encrypt `+1` and the others encrypt `-1`, and whose proofs verify: `RespDeployment`
returns, and the aggregated ciphertext `C1` it emits passes `DecryptAndCheck0` under the
secret key: it is the encoding of a ciphertext on which the check returns true. -/
theorem respDeployment_c1_check0 (L : Lib) (c : Curve) (hc : c.Lawful) (q : QueryMessage)
    (sk : SecretKey) (hcurve : initCurve L q.PK.SecParam = some c) (hsk : sk.Curve = some c)
    (hH : (q.PK.Hx, q.PK.Hy) = c.ScalarBaseMult sk.Priv)
    (hlen : q.BfLength = q.EBF.length) (hrange : q.BfLength < 2 ^ 63)
    (ebf : List Ciphertext) (zkps : List ZKP)
    (hdec : RespDeployment.decode (q.PK.InitCurve L) q.PointCompression q.EBF q.ZKPs =
      .ok (ebf, zkps))
    (ms : List Int) (hms : ∀ m ∈ ms, m = 1 ∨ m = -1)
    (hcount : (ms.count 1 : Int) = q.BfNumOnes)
    (henc : List.Forall₂ (Encrypts c sk) ebf ms)
    (hver : (q.PK.InitCurve L).VerifySeqZKP L ebf zkps (big.SetBytes q.Challenge) q.NumThreads =
      .ok true)
    (zInv zZero : Nat) :
    ∃ qp resCT, RespDeployment L q zInv zZero = .ok qp ∧
      qp.PK.Ciphertext2Bytes resCT qp.PointCompression = .ok qp.C1 ∧
      sk.DecryptAndCheck0 resCT = .ok true := by
  obtain ⟨Pt, _, ⟨M⟩⟩ := hc
  have hpk : (q.PK.InitCurve L).Curve = some c := hcurve
  have hH' : ((q.PK.InitCurve L).Hx, (q.PK.InitCurve L).Hy) =
      M.coords ((big.SetBytes sk.Priv : Int) • M.g) := by
    rw [← M.scalarBaseMult_nat]
    exact hH
  obtain ⟨hl1, hl2⟩ := RespDeployment.decode_length _ _ _ _ _ _ hdec
  have hmslen : (ms.length : Int) = q.BfLength := by
    rw [hlen, ← hl1, henc.length_eq]
  have hwc : workerChan q.NumThreads q.EBF.length = .ok () :=
    workerChan_length (verifySeqZKP_workerChan hver) hl2.symm
  have hwrap : wrapInt64 (q.BfLength - 2 * q.BfNumOnes) = q.BfLength - 2 * q.BfNumOnes := by
    apply wrapInt64_eq
    · have h1 : (ms.count 1 : Int) ≤ ms.length := by exact_mod_cast List.count_le_length 1 ms
      omega
    · have h1 : (0 : Int) ≤ ms.count 1 := Int.natCast_nonneg _
      omega
  obtain ⟨ctInv, hInv, eInv⟩ := IsEnc.encrypt M hpk hH' (AddSubgroup.mem_top M.g)
    (wrapInt64 (q.BfLength - 2 * q.BfNumOnes)) zInv
  obtain ⟨ct₀, hZero, eZero⟩ := IsEnc.encrypt M hpk hH' (AddSubgroup.mem_top M.g) 0 zZero
  have hall : List.Forall₂
      (fun ct μ => IsEnc M ⊤ (big.SetBytes sk.Priv : Int) μ ct) ebf
      (ms.map (fun m => m • M.g)) := by
    rw [List.forall₂_map_right_iff]
    exact henc.imp (fun _ _ h => h.isEnc M)
  obtain ⟨ct₁, hSum, e₁⟩ := RespDeployment.sum_isEnc M hpk ebf _ hall ct₀ _ eZero
  obtain ⟨ct₂, hAdd, e₂⟩ := IsEnc.add M hpk e₁ eInv 0
  obtain ⟨Z, hZ, -⟩ := IsEnc.bytes_roundtrip M hpk e₂ q.PointCompression
  obtain ⟨b, hb, hiff⟩ := IsEnc.decryptAndCheck0 M hsk e₂
  have hzero : (0 : Int) • M.g + (ms.map (fun m => m • M.g)).sum +
      wrapInt64 (q.BfLength - 2 * q.BfNumOnes) • M.g = 0 := by
    rw [List.sum_map_zsmul, ← add_smul, ← add_smul, hwrap, sum_pm_one ms hms, hcount, hmslen]
    have : (0 : Int) + (2 * q.BfNumOnes - q.BfLength) + (q.BfLength - 2 * q.BfNumOnes) = 0 := by
      ring
    rw [this, zero_smul]
  have hbt : b = true := hiff.2 hzero
  subst hbt
  refine ⟨⟨q.BfLength, q.BfNumOnes, q.NumHashFuncs, q.NumThreads, q.PointCompression,
    q.PK.InitCurve L, q.EBF, Z⟩, ct₂, ?_, hZ, hb⟩
  unfold RespDeployment
  simp only [hwc, hdec, hver, hInv, hZero, hSum, hAdd, hZ, Except.ok_bind_eq, Except.pure_eq_ok,
    Bool.not_true, Bool.false_eq_true, if_false]

/-- C9 at a query of three ciphertexts on the curve with 17 points, encrypting
`+1, -1, +1`, with the proofs and the challenge that `EncryptSeqWithZKP` returns. -/
theorem respDeployment_c1_check0_witness :
    ∃ qp resCT, RespDeployment weierstrass.lib11 weierstrass.query11 6 9 = .ok qp ∧
      qp.PK.Ciphertext2Bytes resCT qp.PointCompression = .ok qp.C1 ∧
      weierstrass.sk11.DecryptAndCheck0 resCT = .ok true :=
  respDeployment_c1_check0 weierstrass.lib11 weierstrass.c11 weierstrass.c11_lawful
    weierstrass.query11 weierstrass.sk11 rfl rfl (by decide) (by decide) (by decide)
    [Ciphertext.ofPoints (0, 10) (6, 10), Ciphertext.ofPoints (7, 2) (7, 9),
      Ciphertext.ofPoints (5, 10) (5, 10)]
    [⟨some 0, some 10, some 4, some 8, some 2, some 5, some 8, some 7, some 7, some 3,
        some 5, some 12⟩,
      ⟨some 5, some 10, some 7, some 2, some 2, some 6, some 6, some 10, some 1, some 9,
        some 1, some 6⟩,
      ⟨some 0, some 0, some 8, some 7, some 4, some 8, some 2, some 5, some 11, some 16,
        some 7, some 11⟩]
    (by decide) [1, -1, 1] (by decide) (by decide)
    (.cons ⟨(0, 10), Or.inr (by decide), by decide⟩ (.cons ⟨(7, 2), Or.inr (by decide), by decide⟩
      (.cons ⟨(5, 10), Or.inr (by decide), by decide⟩ .nil)))
    (by decide) 6 9

end pcr

namespace pcr
open bloom bitset elgamal

end pcr

namespace pcr
open bloom bitset elgamal

end pcr

namespace pcr
open bloom bitset elgamal

end pcr

/-! ## Claims C11 to C20 -/

namespace pcr
open bloom bitset elgamal

/-- C11 (amended): for every password and all parameters with a positive `BfLength` and
`max 1 NumHashFuncs <= BfNumOnes`, whenever `ReqBFGen` returns a filter (for every sequence
of padding draws on which its loop ends), `GetBFNumOnes` reports exactly `BfNumOnes` for
it. The bounds `2 ^ 63` are those of the Go type `int`. -/
theorem reqBFGen_numOnes (L : Lib) (pk : PublicKey) (reqPara : ReqPara) (pwd : List Nat)
    (draws : List (Nat × Nat)) (bf : BloomFilter) (hm0 : 0 < reqPara.BfLength)
    (hm : reqPara.BfLength < 2 ^ 63) (hk0 : 0 ≤ reqPara.NumHashFuncs)
    (hk : reqPara.NumHashFuncs < 2 ^ 63)
    (hkK : max 1 reqPara.NumHashFuncs ≤ reqPara.BfNumOnes)
    (h : ReqBFGen L pk reqPara pwd draws = .ok (some bf)) :
    GetBFNumOnes bf = .ok reqPara.BfNumOnes := by
  obtain ⟨m, hmn⟩ := Int.eq_ofNat_of_zero_le (le_of_lt hm0)
  obtain ⟨k, hkn⟩ := Int.eq_ofNat_of_zero_le hk0
  refine ReqBFGen_general L pk reqPara pwd draws bf m k (by omega) (by omega) hmn hkn (by omega)
    ?_ h
  rw [hkn] at hkK
  have : ((max 1 k : Nat) : Int) = max 1 (k : Int) := by
    push_cast
    rfl
  rw [this]
  exact hkK

theorem reqBFGen_numOnes_witness :
    ReqBFGen weierstrass.lib77 weierstrass.pk77 ⟨256, 72, 9, 3, 4, true⟩ weierstrass.simba
        weierstrass.padDraws =
      .ok (some ⟨72, 3, ⟨72, [4652218483812212736, 288230376151711744]⟩⟩) ∧
    GetBFNumOnes ⟨72, 3, ⟨72, [4652218483812212736, 288230376151711744]⟩⟩ = .ok 9 :=
  ⟨weierstrass.reqBFGen_simba72,
    reqBFGen_numOnes weierstrass.lib77 weierstrass.pk77 ⟨256, 72, 9, 3, 4, true⟩
      weierstrass.simba weierstrass.padDraws _ (by decide) (by decide) (by decide) (by decide)
      (by decide) weierstrass.reqBFGen_simba72⟩

/-- C11 as stated fails when there are more hash functions than `BfNumOnes`: with
`BfLength = 128`, `BfNumOnes = 5 <= 128` and `NumHashFuncs = 20` the loop of `ReqBFGen`
ends at once and `GetBFNumOnes` reports 20 for the filter returned. -/
theorem reqBFGen_numOnes_counterexample :
    ReqBFGen weierstrass.lib77 weierstrass.pk77 ⟨256, 128, 5, 20, 4, true⟩ weierstrass.simba [] =
      .ok (some weierstrass.bfAddSimba) ∧
    GetBFNumOnes weierstrass.bfAddSimba = .ok 20 ∧
    GetBFNumOnes weierstrass.bfAddSimba ≠ .ok (5 : Int) :=
  ⟨weierstrass.reqBFGen_simba_five, weierstrass.getBFNumOnes_addSimba, by
    rw [weierstrass.getBFNumOnes_addSimba]
    decide⟩

end pcr

namespace bloom
open bitset

/-- C13: no false negatives. For every filter created by `New m k` (with `m` small enough
for `bitset.New` to give it all its words) and every sequence `ds` of `Add` calls, `Test d`
returns true for every `d` of `ds`, whatever was added before or after it. -/
theorem test_of_added (L : Lib) (m k : Nat) (hm : m ≤ bitset.Cap - 63)
    (ds : List (List Nat)) (d : List Nat) (hd : d ∈ ds) :
    ∃ f, ds.foldlM (fun g x => g.Add L x) (New m k) = .ok f ∧ f.Test L d = .ok true := by
  have hC : bitset.Cap = 2 ^ 64 - 1 := rfl
  have hNs : (New m k).b.set.length = wordsNeeded (New m k).b.length := by
    show (List.replicate (wordsNeeded m) 0).length = wordsNeeded m
    rw [List.length_replicate]
  obtain ⟨f, hf, hfm, hfk, -, hset⟩ := foldlM_Add_general L ds (New m k)
    (show max 1 m ≠ 0 by omega) (show max 1 m ≤ bitset.Cap - 63 by omega) hNs
    (show m ≤ bitset.Cap - 63 from hm)
  refine ⟨f, hf, ?_⟩
  unfold BloomFilter.Test
  apply BloomFilter.testLoop_true L f d (by rw [hfm]; show max 1 m ≠ 0; omega)
  intro j hj
  rw [Nat.zero_add, hfm]
  exact hset d hd j (by rw [← hfk]; exact hj)

theorem test_of_added_witness :
    ∃ f, [weierstrass.nala, weierstrass.simba, [7]].foldlM
        (fun g x => g.Add weierstrass.lib77 x) (New 100 20) = .ok f ∧
      f.Test weierstrass.lib77 weierstrass.simba = .ok true :=
  test_of_added weierstrass.lib77 100 20 (by decide) _ _ (by simp)

end bloom

namespace bloom
open bitset

/-- C14 (amended): for every input, `HashSha1 input` is the last 8 bytes (not the first 8)
of the 20-byte SHA-1 digest of `input` read as a big-endian unsigned 64-bit integer, and
`location data s` is that value for `data` followed by the 8-byte little-endian encoding
of `s`, reduced modulo `m`. -/
theorem hashSha1_last8 (L : Lib) (hlen : ∀ x, (L.Sha1 x).length = 20)
    (hlt : ∀ x, ∀ b ∈ L.Sha1 x, b < 256) (input : List Nat) (f : BloomFilter) (hm : f.m ≠ 0)
    (data : List Nat) (s : Nat) :
    HashSha1 L input = big.SetBytes ((L.Sha1 input).drop 12) ∧
      f.location L data s = .ok (big.SetBytes ((L.Sha1 (data ++ le64 s)).drop 12) % f.m) ∧
      (le64 s).length = 8 ∧ big.SetBytes (le64 s).reverse = s % 2 ^ 64 := by
  have h : ∀ x, HashSha1 L x = big.SetBytes ((L.Sha1 x).drop 12) := fun x =>
    big.SetBytes_mod_two_pow_64 (L.Sha1 x) 12 (hlen x) (hlt x)
  refine ⟨h input, ?_, by simp [le64], ?_⟩
  · rw [BloomFilter.location_ok L f hm, h]
  · simp only [le64, big.SetBytes, List.range_succ, List.range_zero, List.nil_append,
      List.map_append, List.map_cons, List.map_nil, List.reverse_append, List.reverse_cons,
      List.reverse_nil, List.foldl_append, List.foldl_cons, List.foldl_nil,
      Nat.shiftRight_eq_div_pow, List.cons_append, List.singleton_append]
    omega

theorem hashSha1_last8_witness :
    HashSha1 weierstrass.lib20 [1, 2, 3] =
        big.SetBytes ((weierstrass.lib20.Sha1 [1, 2, 3]).drop 12) ∧
      (New 128 20).location weierstrass.lib20 [1, 2, 3] 5 =
        .ok (big.SetBytes ((weierstrass.lib20.Sha1 ([1, 2, 3] ++ le64 5)).drop 12) % (New 128 20).m) ∧
      (le64 5).length = 8 ∧ big.SetBytes (le64 5).reverse = 5 % 2 ^ 64 :=
  hashSha1_last8 weierstrass.lib20 (fun x => by simp [weierstrass.lib20, weierstrass.digest20])
    (fun x b hb => by
      simp only [weierstrass.lib20, weierstrass.digest20, List.mem_map] at hb
      obtain ⟨i, -, rfl⟩ := hb
      exact Nat.mod_lt _ (by norm_num))
    [1, 2, 3] (New 128 20) (by decide) [1, 2, 3] 5

/-- C14 as stated fails: for the digest `0, 1, .., 19` of 20 bytes, `HashSha1` is the number
made of the bytes `12, .., 19`, not of the first 8 bytes `0, .., 7`. -/
theorem hashSha1_last8_counterexample :
    weierstrass.lib20.Sha1 [] = List.range 20 ∧
      HashSha1 weierstrass.lib20 [] = big.SetBytes [12, 13, 14, 15, 16, 17, 18, 19] ∧
      HashSha1 weierstrass.lib20 [] ≠ big.SetBytes ((weierstrass.lib20.Sha1 []).take 8) :=
  ⟨by decide, by decide!, by decide!⟩

end bloom

namespace elgamal

/-- C15 (amended): `Bytes2Ciphertext` makes no check of its own and never fails. For every
byte pair it returns a ciphertext; a component that the SEC1 decoder of the library
rejects leaves both its coordinates nil in that ciphertext, and a component that it
accepts leaves the decoded pair. Likewise `Bytes2ZKP` for its four point fields. -/
theorem bytes2Ciphertext_total (pk : PublicKey) (c : Curve) (hc : pk.Curve = some c)
    (cb : CiphertextByte) (zb : ZKPByte) (pc : Bool) :
    (∃ ct, pk.Bytes2Ciphertext cb pc = .ok ct ∧
      (ct.C1x, ct.C1y) = unmarshalled (decodePoint c pc cb.C1) ∧
      (ct.C2x, ct.C2y) = unmarshalled (decodePoint c pc cb.C2) ∧
      (decodePoint c pc cb.C1 = none → ct.C1x = none ∧ ct.C1y = none) ∧
      (decodePoint c pc cb.C2 = none → ct.C2x = none ∧ ct.C2y = none)) ∧
    (∃ z, pk.Bytes2ZKP zb pc = .ok z ∧
      (z.A1x, z.A1y) = unmarshalled (decodePoint c pc zb.A1) ∧
      (z.B1x, z.B1y) = unmarshalled (decodePoint c pc zb.B1) ∧
      (z.A2x, z.A2y) = unmarshalled (decodePoint c pc zb.A2) ∧
      (z.B2x, z.B2y) = unmarshalled (decodePoint c pc zb.B2) ∧
      (decodePoint c pc zb.A1 = none → z.A1x = none ∧ z.A1y = none) ∧
      (decodePoint c pc zb.B1 = none → z.B1x = none ∧ z.B1y = none) ∧
      (decodePoint c pc zb.A2 = none → z.A2x = none ∧ z.A2y = none) ∧
      (decodePoint c pc zb.B2 = none → z.B2x = none ∧ z.B2y = none)) := by
  have hnone : ∀ bs, decodePoint c pc bs = none →
      (unmarshalled (decodePoint c pc bs)).1 = none ∧
        (unmarshalled (decodePoint c pc bs)).2 = none := by
    intro bs h
    rw [h]
    exact ⟨rfl, rfl⟩
  have hct : pk.Bytes2Ciphertext cb pc = .ok ⟨(unmarshalled (decodePoint c pc cb.C1)).1,
      (unmarshalled (decodePoint c pc cb.C1)).2, (unmarshalled (decodePoint c pc cb.C2)).1,
      (unmarshalled (decodePoint c pc cb.C2)).2⟩ := by
    simp only [PublicKey.Bytes2Ciphertext, hc, derefCurve_some, Except.ok_bind_eq,
      Except.pure_eq_ok]
    rfl
  have hz : pk.Bytes2ZKP zb pc = .ok ⟨(unmarshalled (decodePoint c pc zb.A1)).1,
      (unmarshalled (decodePoint c pc zb.A1)).2, (unmarshalled (decodePoint c pc zb.B1)).1,
      (unmarshalled (decodePoint c pc zb.B1)).2, (unmarshalled (decodePoint c pc zb.A2)).1,
      (unmarshalled (decodePoint c pc zb.A2)).2, (unmarshalled (decodePoint c pc zb.B2)).1,
      (unmarshalled (decodePoint c pc zb.B2)).2, some (big.SetBytes zb.D1),
      some (big.SetBytes zb.D2), some (big.SetBytes zb.R1), some (big.SetBytes zb.R2)⟩ := by
    simp only [PublicKey.Bytes2ZKP, hc, derefCurve_some, Except.ok_bind_eq, Except.pure_eq_ok]
    rfl
  exact ⟨⟨_, hct, rfl, rfl, hnone _, hnone _⟩,
    ⟨_, hz, rfl, rfl, rfl, rfl, hnone _, hnone _, hnone _, hnone _⟩⟩

theorem bytes2Ciphertext_total_witness :
    (∃ ct, weierstrass.pk11.Bytes2Ciphertext ⟨[], [4, 2, 5]⟩ false = .ok ct ∧
      (ct.C1x, ct.C1y) = unmarshalled (decodePoint weierstrass.c11 false []) ∧
      (ct.C2x, ct.C2y) = unmarshalled (decodePoint weierstrass.c11 false [4, 2, 5]) ∧
      (decodePoint weierstrass.c11 false [] = none → ct.C1x = none ∧ ct.C1y = none) ∧
      (decodePoint weierstrass.c11 false [4, 2, 5] = none → ct.C2x = none ∧ ct.C2y = none)) ∧
    (∃ z, weierstrass.pk11.Bytes2ZKP ⟨[], [], [], [], [1], [2], [3], [4]⟩ false = .ok z ∧
      (z.A1x, z.A1y) = unmarshalled (decodePoint weierstrass.c11 false []) ∧
      (z.B1x, z.B1y) = unmarshalled (decodePoint weierstrass.c11 false []) ∧
      (z.A2x, z.A2y) = unmarshalled (decodePoint weierstrass.c11 false []) ∧
      (z.B2x, z.B2y) = unmarshalled (decodePoint weierstrass.c11 false []) ∧
      (decodePoint weierstrass.c11 false [] = none → z.A1x = none ∧ z.A1y = none) ∧
      (decodePoint weierstrass.c11 false [] = none → z.B1x = none ∧ z.B1y = none) ∧
      (decodePoint weierstrass.c11 false [] = none → z.A2x = none ∧ z.A2y = none) ∧
      (decodePoint weierstrass.c11 false [] = none → z.B2x = none ∧ z.B2y = none)) :=
  bytes2Ciphertext_total weierstrass.pk11 weierstrass.c11 rfl ⟨[], [4, 2, 5]⟩
    ⟨[], [], [], [], [1], [2], [3], [4]⟩ false

/-- C15 as stated fails: for the byte pair `([4, 2, 4], [])`, where `[4, 2, 4]` is the
uncompressed encoding of `(2, 4)`, which is not on the curve, and the empty string encodes
nothing, `Bytes2Ciphertext` returns a ciphertext, with four nil coordinates; `Bytes2ZKP`
returns a proof with eight nil coordinates. -/
theorem bytes2Ciphertext_total_counterexample :
    weierstrass.c11.IsOnCurve 2 4 = false ∧
    weierstrass.c11.Unmarshal [4, 2, 4] = none ∧ weierstrass.c11.Unmarshal [] = none ∧
    weierstrass.pk11.Bytes2Ciphertext ⟨[4, 2, 4], []⟩ false = .ok ⟨none, none, none, none⟩ ∧
    weierstrass.pk11.Bytes2ZKP ⟨[4, 2, 4], [], [], [], [1], [2], [3], [4]⟩ false =
      .ok ⟨none, none, none, none, none, none, none, none, some 1, some 2, some 3, some 4⟩ :=
  ⟨by decide, by decide, by decide, by decide, by decide⟩

end elgamal

namespace pcr

/-- C16 (code defect): for a valid gzip stream (`gzip.NewReader` and `Close` return no
error) `DecodeQuery` returns whatever `json.Unmarshal` left in the message, whether or not
`json.Unmarshal` returned an error, because that error is overwritten by the second
`r.Close()`; `DecodeResponse` panics when `json.Unmarshal` returns an error. -/
theorem decodeQuery_ignores_json_error {Q R : Type} (K : Codec Q R) (bytes : List Nat)
    (r : GzipReader) (hr : K.NewReader bytes = some r) (hclose : r.closeErr = false)
    (hresp : (K.UnmarshalResponse r.content).2 = true) :
    DecodeQuery K bytes = .ok (K.UnmarshalQuery r.content).1 ∧
      DecodeResponse K bytes = .error .panicked := by
  constructor
  · simp [DecodeQuery, hr, hclose]
  · simp [DecodeResponse, hr, hclose, hresp]

theorem decodeQuery_ignores_json_error_witness :
    DecodeQuery weierstrass.codec [31, 139, 123] = .ok 0 ∧
      DecodeResponse weierstrass.codec [31, 139, 123] = .error .panicked :=
  decodeQuery_ignores_json_error weierstrass.codec [31, 139, 123] ⟨[123], false⟩ rfl rfl rfl

end pcr

namespace elgamal

/-- C17: for a public key with its curve and at least one worker, `EncryptSeqWithZKP`
stops with "Invalid message space!" (exit status -1) if and only if some entry of `ms` is
neither `+1` nor `-1`; when every entry is `+1` or `-1` it returns a vector of ciphertexts
and a vector of proofs, both as long as `ms`. -/
theorem encryptSeqWithZKP_message_space (L : Lib) (pk : PublicKey) (c : Curve)
    (hc : pk.Curve = some c) (ms : List Int) (numThreads : Int) (hT : 1 ≤ numThreads)
    (draws : Nat → ZKPDraw) :
    (pk.EncryptSeqWithZKP L ms numThreads draws = .error (.exit (-1)) ↔
        ∃ m ∈ ms, m ≠ 1 ∧ m ≠ -1) ∧
      ((∀ m ∈ ms, m = 1 ∨ m = -1) →
        ∃ cs zkps challenge, pk.EncryptSeqWithZKP L ms numThreads draws =
            .ok (cs, zkps, challenge) ∧
          cs.length = ms.length ∧ zkps.length = ms.length) := by
  rcases encryptAll_cases pk c draws ms 0 with ⟨hex, herr⟩ | ⟨hall, slots, hok, hlen⟩
  · have hres : pk.EncryptSeqWithZKP L ms numThreads draws = .error (.exit (-1)) := by
      simp only [PublicKey.EncryptSeqWithZKP, hc, derefCurve_some, Except.ok_bind_eq,
        workerChan_ok numThreads hT, herr, Except.error_bind_eq]
    refine ⟨⟨fun _ => hex, fun _ => hres⟩, ?_⟩
    intro hall
    obtain ⟨m, hm, h1, h2⟩ := hex
    rcases hall m hm with h | h
    · exact absurd h h1
    · exact absurd h h2
  · have hres : pk.EncryptSeqWithZKP L ms numThreads draws =
        .ok (slots.map EncSlot.ciphertext,
          List.zipWith (EncryptSeqWithZKP.respond c (EncryptSeqWithZKP.challenge L pk c draws slots))
            slots (EncryptSeqWithZKP.commitAll pk c draws 0 slots),
          EncryptSeqWithZKP.challenge L pk c draws slots) := by
      simp only [PublicKey.EncryptSeqWithZKP, hc, derefCurve_some, Except.ok_bind_eq,
        workerChan_ok numThreads hT, hok, Except.pure_eq_ok]
      rfl
    refine ⟨⟨?_, ?_⟩, ?_⟩
    · intro h
      rw [hres] at h
      cases h
    · rintro ⟨m, hm, h1, h2⟩
      rcases hall m hm with h | h
      · exact absurd h h1
      · exact absurd h h2
    · intro _
      refine ⟨_, _, _, hres, ?_, ?_⟩
      · rw [List.length_map, hlen]
      · rw [List.length_zipWith, length_commitAll, Nat.min_self, hlen]

/-- C17 on the curve with 17 points: the entries `N - 1 = 16`, `0` and `2` are rejected,
and the vector `[1, -1]` gives two ciphertexts and two proofs. -/
theorem encryptSeqWithZKP_message_space_witness :
    (weierstrass.pk11.EncryptSeqWithZKP weierstrass.lib11 [1, 16, -1] 2 weierstrass.zkpDraws =
          .error (.exit (-1)) ↔
        ∃ m ∈ [(1 : Int), 16, -1], m ≠ 1 ∧ m ≠ -1) ∧
      ((∀ m ∈ [(1 : Int), 16, -1], m = 1 ∨ m = -1) →
        ∃ cs zkps challenge,
          weierstrass.pk11.EncryptSeqWithZKP weierstrass.lib11 [1, 16, -1] 2
              weierstrass.zkpDraws = .ok (cs, zkps, challenge) ∧
          cs.length = [(1 : Int), 16, -1].length ∧ zkps.length = [(1 : Int), 16, -1].length) :=
  encryptSeqWithZKP_message_space weierstrass.lib11 weierstrass.pk11 weierstrass.c11 rfl
    [1, 16, -1] 2 (by decide) weierstrass.zkpDraws

end elgamal

namespace elgamal

/-- C18 (amended): every scalar drawn by `newCryptoRandom(N)` lies in `[0, N)`: it is always
below the group order, and it is zero when the random source yields zero; every number of
`[0, N)` is the scalar of some draw. -/
theorem newCryptoRandom_range (N : Int) (hN : 0 < N) (draw : Nat) :
    (big.SetBytes (newCryptoRandom (big.Bytes N) draw) : Int) < N ∧
      (0 : Int) ≤ big.SetBytes (newCryptoRandom (big.Bytes N) draw) ∧
      ∀ r : Nat, (r : Int) < N → big.SetBytes (newCryptoRandom (big.Bytes N) r) = r := by
  have h : ∀ d, big.SetBytes (newCryptoRandom (big.Bytes N) d) = d % N.natAbs := by
    intro d
    unfold newCryptoRandom
    rw [big.SetBytes_Bytes_natCast]
    congr 1
    rw [big.Bytes, big.SetBytes_natBytes]
  have hpos : 0 < N.natAbs := by omega
  refine ⟨?_, Int.natCast_nonneg _, ?_⟩
  · rw [h]
    have := Nat.mod_lt draw hpos
    omega
  · intro r hr
    rw [h]
    exact Nat.mod_eq_of_lt (by omega)

theorem newCryptoRandom_range_witness :
    (big.SetBytes (newCryptoRandom (big.Bytes 17) 40) : Int) < 17 ∧
      (0 : Int) ≤ big.SetBytes (newCryptoRandom (big.Bytes 17) 40) ∧
      ∀ r : Nat, (r : Int) < 17 → big.SetBytes (newCryptoRandom (big.Bytes 17) r) = r :=
  newCryptoRandom_range 17 (by decide) 40

/-- C18 as stated fails: when the random source yields zero, the scalar drawn below the
order 17 is zero, and `Encrypt` uses it. -/
theorem newCryptoRandom_range_counterexample :
    big.SetBytes (newCryptoRandom (big.Bytes weierstrass.c11.N) 0) = 0 ∧
      weierstrass.pk11.Encrypt 1 0 = .ok (Ciphertext.ofPoints (0, 0)
        (weierstrass.c11.ScalarBaseMult (big.Bytes 1))) :=
  ⟨by decide, by decide⟩

/-- C19: for every key pair from `KeyGen` on a lawful curve whose base point has prime
order `N`, every integer `m` and every encryption randomness,
`sk.DecryptAndCheck0(pk.Encrypt(m))` is true if and only if `N` divides `m`; and for every
ciphertext `C` of two pairs of numbers, `sk.DecryptAndCheck0(C)` is true exactly when
`[sk]C.C1` equals `C.C2` in both coordinates. -/
theorem decryptAndCheck0_encrypt_iff (L : Lib) (secParam : Int) (pointCompression : Bool)
    (priv : List Nat) (c : Curve) (pk : PublicKey) (sk : SecretKey)
    (hcurve : initCurve L secParam = some c) (hc : c.Lawful) (hp : c.BasePrimeOrder)
    (hkey : KeyGen L secParam pointCompression priv = .ok (pk, sk)) (m : Int) (z : Nat) :
    (∃ ct b, pk.Encrypt m z = .ok ct ∧ sk.DecryptAndCheck0 ct = .ok b ∧
        (b = true ↔ m % c.N = 0)) ∧
      ∀ p1 p2 : Point, ∃ b, sk.DecryptAndCheck0 (Ciphertext.ofPoints p1 p2) = .ok b ∧
        (b = true ↔ (c.ScalarMult p1 sk.Priv).1 = p2.1 ∧ (c.ScalarMult p1 sk.Priv).2 = p2.2) := by
  obtain ⟨Pt, _, ⟨M⟩⟩ := hc
  obtain ⟨c', hc', hk, -, -, -⟩ := KeyGen_keyPair hkey
  have hcc : c' = c := Option.some.inj (hc'.symm.trans hcurve)
  rw [hcc] at hk
  constructor
  · obtain ⟨b, hb, hiff⟩ := DecryptAndCheck0_eq M hk.2.1 (c.draw z • M.g)
      (m • M.g + c.draw z • ((big.SetBytes sk.Priv : Int) • M.g))
    refine ⟨_, b, Encrypt_eq M hk.1 (hk.H_eq M) m z, hb, ?_⟩
    rw [hiff, smul_comm]
    constructor
    · intro h
      have h0 : m • M.g = 0 := by
        have := h.symm
        rwa [add_left_eq_self] at this
      exact Int.emod_eq_zero_of_dvd (M.dvd_of_zsmul_g_eq_zero hp m h0)
    · intro h
      rw [M.zsmul_g_eq_zero_of_dvd m (Int.dvd_of_emod_eq_zero h), zero_add]
  · intro p1 p2
    refine ⟨decide (c.ScalarMult p1 sk.Priv = p2), ?_, ?_⟩
    · simp only [SecretKey.DecryptAndCheck0, hk.2.1, derefCurve_some, Except.ok_bind_eq,
        ofPoints_C1x, ofPoints_C1y, ofPoints_C2x, ofPoints_C2y, derefPoint_some, deref_some,
        Except.pure_eq_ok, cmp_points]
    · rw [decide_eq_true_iff, Prod.ext_iff]

theorem decryptAndCheck0_encrypt_iff_witness :
    KeyGen weierstrass.lib77 256 true [1, 35, 69] = .ok (weierstrass.pk77, weierstrass.sk77) ∧
    ((∃ ct b, weierstrass.pk77.Encrypt (-3) 7 = .ok ct ∧
        weierstrass.sk77.DecryptAndCheck0 ct = .ok b ∧
        (b = true ↔ (-3 : Int) % weierstrass.c77.N = 0)) ∧
      ∀ p1 p2 : Point, ∃ b,
        weierstrass.sk77.DecryptAndCheck0 (Ciphertext.ofPoints p1 p2) = .ok b ∧
        (b = true ↔ (weierstrass.c77.ScalarMult p1 weierstrass.sk77.Priv).1 = p2.1 ∧
          (weierstrass.c77.ScalarMult p1 weierstrass.sk77.Priv).2 = p2.2)) :=
  ⟨keyGen77, decryptAndCheck0_encrypt_iff weierstrass.lib77 256 true [1, 35, 69] weierstrass.c77
    weierstrass.pk77 weierstrass.sk77 rfl weierstrass.c77_lawful weierstrass.c77_basePrimeOrder
    keyGen77 (-3) 7⟩

end elgamal

/-! ## Claims C21 to C30 -/

namespace bloom
open bitset

/-- C21: serialization round trip. For every filter `f` (a Go value: `m`, `k`, the bit
length and the words are below `2 ^ 64`, and the bit set holds the words its length
needs), `GobDecode` applied to `GobEncode(f)` reports no error and yields `f`: the same
`m`, the same `k` and the same value of every bit. The encoding is the 8-byte big-endian
`m`, the 8-byte big-endian `k`, then the bit set (its length and its words). -/
theorem gobDecode_gobEncode (f f₀ : BloomFilter) (hm : f.m < 2 ^ 64) (hk : f.k < 2 ^ 64)
    (hl : f.b.length < 2 ^ 64) (hs : f.b.set.length = wordsNeeded f.b.length)
    (hlt : ∀ x ∈ f.b.set, x < 2 ^ 64) :
    f₀.GobDecode f.GobEncode = (f, true) ∧
      (f₀.GobDecode f.GobEncode).1.m = f.m ∧ (f₀.GobDecode f.GobEncode).1.k = f.k ∧
      (∀ i, (f₀.GobDecode f.GobEncode).1.b.Test i = f.b.Test i) ∧
      f.GobEncode = be64 f.m ++ be64 f.k ++ (be64 f.b.length ++ (f.b.set.map be64).flatten) := by
  have henc : f.GobEncode =
      be64 f.m ++ (be64 f.k ++ (be64 f.b.length ++ (f.b.set.map be64).flatten)) := by
    simp [BloomFilter.GobEncode, BitSet.WriteTo]
  have hdec : f₀.GobDecode f.GobEncode = (f, true) := by
    have hlen : ¬ f.GobEncode.length < 16 := by
      rw [henc]
      simp only [List.length_append, length_be64]
      omega
    unfold BloomFilter.GobDecode
    rw [if_neg hlen, henc]
    have d16 : (be64 f.m ++ (be64 f.k ++ (be64 f.b.length ++ (f.b.set.map be64).flatten))).drop 16 =
        be64 f.b.length ++ (f.b.set.map be64).flatten := by
      rw [show (16 : Nat) = 8 + 8 from rfl, ← List.drop_drop, List.drop_left' (length_be64 _),
        List.drop_left' (length_be64 _)]
    have hwords : readWords (wordsNeeded f.b.length) (f.b.set.map be64).flatten = f.b.set := by
      have := readWords_be64 f.b.set [] hlt
      rwa [List.append_nil, hs] at this
    have hread : ReadFrom (be64 f.b.length ++ (f.b.set.map be64).flatten) = some f.b := by
      unfold ReadFrom
      rw [if_neg (by simp [length_be64])]
      simp only [List.take_left' (length_be64 _), List.drop_left' (length_be64 _),
        SetBytes_be64 _ hl, hwords]
      rw [if_neg (by rw [pcr.length_flatten_be64, hs]; omega)]
    simp only [d16, hread, List.take_left' (length_be64 _), List.drop_left' (length_be64 _),
      SetBytes_be64 _ hm, SetBytes_be64 _ hk]
  refine ⟨hdec, ?_, ?_, ?_, ?_⟩
  · rw [hdec]
  · rw [hdec]
  · intro i
    rw [hdec]
  · rw [henc]
    simp

theorem gobDecode_gobEncode_witness :
    (New 0 0).GobDecode weierstrass.bfSimba.GobEncode = (weierstrass.bfSimba, true) ∧
      ((New 0 0).GobDecode weierstrass.bfSimba.GobEncode).1.m = weierstrass.bfSimba.m ∧
      ((New 0 0).GobDecode weierstrass.bfSimba.GobEncode).1.k = weierstrass.bfSimba.k ∧
      (∀ i, ((New 0 0).GobDecode weierstrass.bfSimba.GobEncode).1.b.Test i =
        weierstrass.bfSimba.b.Test i) ∧
      weierstrass.bfSimba.GobEncode = be64 weierstrass.bfSimba.m ++ be64 weierstrass.bfSimba.k ++
        (be64 weierstrass.bfSimba.b.length ++ (weierstrass.bfSimba.b.set.map be64).flatten) :=
  gobDecode_gobEncode weierstrass.bfSimba (New 0 0) (by decide) (by decide) (by decide)
    (by decide) (by decide)

end bloom

namespace pcr
open bloom bitset elgamal

end pcr

namespace elgamal

/-- C23 (code defect): of the four key lengths that the help text of `-keyLength` lists,
`initCurve` selects a curve for 224, 256 and 384 and none for 512 (the value it knows is
521), so `KeyGen` with 512 stops on the nil curve. -/
theorem initCurve_keyLengthHelp (L : Lib) :
    main.keyLengthHelp = [224, 256, 384, 512] ∧
      initCurve L 224 = some L.P224 ∧ initCurve L 256 = some L.P256 ∧
      initCurve L 384 = some L.P384 ∧ initCurve L 512 = none ∧
      initCurve L 521 = some L.P521 ∧
      (∃ n ∈ main.keyLengthHelp, initCurve L n = none) ∧
      ∀ (pointCompression : Bool) (priv : List Nat),
        KeyGen L 512 pointCompression priv = .error .nilDeref := by
  refine ⟨rfl, rfl, rfl, rfl, rfl, rfl, ⟨512, by simp [main.keyLengthHelp], rfl⟩, ?_⟩
  intro pc priv
  rfl

end elgamal

namespace elgamal

/-- C24: `ScalarMultRandomizer` multiplies the plaintext by a nonzero scalar. For every
key pair with `H = [sk]G` on a lawful curve of prime order `N`, every ciphertext `C` of
two points of the curve and every drawn scalar `r` of `[1, N)`, the output
`([r]C.C1, [r]C.C2)` of `ScalarMultRandomizer(C, false)` passes `DecryptAndCheck0` if and
only if `C` does. -/
theorem scalarMultRandomizer_check0_iff (c : Curve) (hc : c.Lawful) (hprime : c.PrimeOrder)
    (pk : PublicKey) (sk : SecretKey) (hk : KeyPair c pk sk) (p q : Point)
    (hp : c.IsPoint p) (hq : c.IsPoint q) (r z : Nat) (hr : c.draw r ≠ 0) :
    ∃ b, pk.ScalarMultRandomizer (Ciphertext.ofPoints p q) false r z =
        .ok (Ciphertext.ofPoints (c.ScalarMult p (big.Bytes (c.draw r)))
          (c.ScalarMult q (big.Bytes (c.draw r)))) ∧
      sk.DecryptAndCheck0 (Ciphertext.ofPoints (c.ScalarMult p (big.Bytes (c.draw r)))
        (c.ScalarMult q (big.Bytes (c.draw r)))) = .ok b ∧
      sk.DecryptAndCheck0 (Ciphertext.ofPoints p q) = .ok b := by
  obtain ⟨Pt, _, ⟨M⟩⟩ := hc
  obtain ⟨a1, rfl⟩ := (M.isPoint_iff p).1 hp
  obtain ⟨a2, rfl⟩ := (M.isPoint_iff q).1 hq
  have hd0 := draw_nonneg c r
  rw [M.scalarMult_bytes _ _ hd0, M.scalarMult_bytes _ _ hd0]
  obtain ⟨b, hb, hiff⟩ := DecryptAndCheck0_eq M hk.2.1 (c.draw r • a1) (c.draw r • a2)
  obtain ⟨b', hb', hiff'⟩ := DecryptAndCheck0_eq M hk.2.1 a1 a2
  refine ⟨b, ScalarMultRandomizer_eq M hk.1 a1 a2 r z, hb, ?_⟩
  rw [hb']
  congr 1
  have hlt : c.draw r < c.N := by
    unfold Curve.draw
    have hN := M.N_pos
    have := Nat.mod_lt r (show 0 < c.N.natAbs by omega)
    omega
  have key : (big.SetBytes sk.Priv : Int) • (c.draw r • a1) = c.draw r • a2 ↔
      (big.SetBytes sk.Priv : Int) • a1 = a2 := by
    constructor
    · intro h
      by_contra hne
      have hx : (big.SetBytes sk.Priv : Int) • a1 - a2 ≠ 0 := sub_ne_zero.2 hne
      have h0 : c.draw r • ((big.SetBytes sk.Priv : Int) • a1 - a2) = 0 := by
        rw [smul_sub, smul_comm, h, sub_self]
      have hdvd := M.dvd_of_zsmul_eq_zero hprime.1 (M.exponent_of_primeOrder hprime) _ hx _ h0
      have := Int.le_of_dvd (lt_of_le_of_ne hd0 (Ne.symm hr)) hdvd
      omega
    · intro h
      rw [smul_comm, h]
  cases b <;> cases b' <;> simp_all

theorem scalarMultRandomizer_check0_iff_witness :
    ∃ b, weierstrass.pk11.ScalarMultRandomizer (Ciphertext.ofPoints (7, 2) (0, 10)) false 6 9 =
        .ok (Ciphertext.ofPoints
          (weierstrass.c11.ScalarMult (7, 2) (big.Bytes (weierstrass.c11.draw 6)))
          (weierstrass.c11.ScalarMult (0, 10) (big.Bytes (weierstrass.c11.draw 6)))) ∧
      weierstrass.sk11.DecryptAndCheck0 (Ciphertext.ofPoints
        (weierstrass.c11.ScalarMult (7, 2) (big.Bytes (weierstrass.c11.draw 6)))
        (weierstrass.c11.ScalarMult (0, 10) (big.Bytes (weierstrass.c11.draw 6)))) = .ok b ∧
      weierstrass.sk11.DecryptAndCheck0 (Ciphertext.ofPoints (7, 2) (0, 10)) = .ok b :=
  scalarMultRandomizer_check0_iff weierstrass.c11 weierstrass.c11_lawful
    weierstrass.c11_primeOrder weierstrass.pk11 weierstrass.sk11 keyPair11 (7, 2) (0, 10)
    (Or.inr (by decide)) (Or.inr (by decide)) 6 9 (by decide)

end elgamal

namespace pcr
open bloom bitset elgamal

/-- C25: for every Bloom length `m` and every number of workers `T >= 1`, the index ranges
that `ResponseGen` hands to its workers, `[t * (m / T), (t + 1) * (m / T))` for `t < T - 1`
and `[(T - 1) * (m / T), m)` for the last worker, put one after the other in the order of
the workers, are the indices `0, 1, .., m - 1`: they are contiguous and cover every index of
`[0, m)` exactly once. -/
theorem responseGen_ranges_partition (m T : Nat) (hT : 1 ≤ T) :
    (∀ t, ResponseGen.indices T (m / T) m t =
        List.range' (t * (m / T))
          ((if t < T - 1 then (t + 1) * (m / T) else m) - t * (m / T))) ∧
      ((List.range T).map (fun t => ResponseGen.indices T (m / T) m t)).flatten =
        List.range m ∧
      ∀ i < m, ((List.range T).map
        (fun t => (ResponseGen.indices T (m / T) m t).count i)).sum = 1 := by
  have hflat := ResponseGen.flatten_indices T m hT
  refine ⟨fun _ => rfl, hflat, ?_⟩
  intro i hi
  have hcount : ((List.range T).map (fun t => ResponseGen.indices T (m / T) m t)).flatten.count i =
      1 := by
    rw [hflat]
    exact List.count_eq_one_of_mem (List.nodup_range m) (List.mem_range.2 hi)
  rw [List.count_flatten, List.map_map] at hcount
  exact hcount

theorem responseGen_ranges_partition_witness :
    (∀ t, ResponseGen.indices 3 (10 / 3) 10 t =
        List.range' (t * (10 / 3))
          ((if t < 3 - 1 then (t + 1) * (10 / 3) else 10) - t * (10 / 3))) ∧
      ((List.range 3).map (fun t => ResponseGen.indices 3 (10 / 3) 10 t)).flatten =
        List.range 10 ∧
      ∀ i < 10, ((List.range 3).map
        (fun t => (ResponseGen.indices 3 (10 / 3) 10 t).count i)).sum = 1 :=
  responseGen_ranges_partition 10 3 (by decide)

end pcr

namespace elgamal

/-- C26: for a public key with its curve, at least one worker and a vector `ms` of `+1` and
`-1`, the challenge that `EncryptSeqWithZKP` returns with `(cs, zkps)` is the challenge of
the specification for `(cs, zkps)`: SHA-256, reduced modulo `N`, of the byte stream made of
`C1.x, C1.y, C2.x, C2.y` for every index in order followed by `A1.x, A1.y, B1.x, B1.y, A2.x,
A2.y, B2.x, B2.y` for every index in order; and the buffer that `VerifySeqZKP` fills from
the same `cs` and `zkps` is that byte stream. -/
theorem encryptSeqWithZKP_challenge_stream (L : Lib) (pk : PublicKey) (c : Curve)
    (hc : pk.Curve = some c) (ms : List Int) (hms : ∀ m ∈ ms, m = 1 ∨ m = -1)
    (numThreads : Int) (hT : 1 ≤ numThreads) (draws : Nat → ZKPDraw) :
    ∃ cs zkps challenge stream,
      pk.EncryptSeqWithZKP L ms numThreads draws = .ok (cs, zkps, challenge) ∧
      specStream cs zkps = some stream ∧
      specChallenge L c.N cs zkps = some challenge ∧
      challenge = (big.SetBytes (L.Sha256 stream) : Int) % c.N ∧
      ∃ cBytes pBytes, cs.mapM Ciphertext.bytes = .ok cBytes ∧
        zkps.mapM ZKP.bytes = .ok pBytes ∧ cBytes.flatten ++ pBytes.flatten = stream := by
  rcases encryptAll_cases pk c draws ms 0 with ⟨⟨m, hm, h1, h2⟩, -⟩ | ⟨-, slots, hok, -⟩
  · rcases hms m hm with h | h
    · exact absurd h h1
    · exact absurd h h2
  · have hres : pk.EncryptSeqWithZKP L ms numThreads draws =
        .ok (slots.map EncSlot.ciphertext,
          List.zipWith (EncryptSeqWithZKP.respond c (EncryptSeqWithZKP.challenge L pk c draws slots))
            slots (EncryptSeqWithZKP.commitAll pk c draws 0 slots),
          EncryptSeqWithZKP.challenge L pk c draws slots) := by
      simp only [PublicKey.EncryptSeqWithZKP, hc, derefCurve_some, Except.ok_bind_eq,
        workerChan_ok numThreads hT, hok, Except.pure_eq_ok]
      rfl
    have hstream := specStream_slots pk c (EncryptSeqWithZKP.challenge L pk c draws slots) draws
      slots
    refine ⟨_, _, _, _, hres, hstream, ?_, rfl, stream_of_specStream hstream⟩
    unfold specChallenge
    rw [hstream]
    rfl

theorem encryptSeqWithZKP_challenge_stream_witness :
    ∃ cs zkps challenge stream,
      weierstrass.pk11.EncryptSeqWithZKP weierstrass.lib11 [1, -1, 1] 2 weierstrass.zkpDraws =
        .ok (cs, zkps, challenge) ∧
      specStream cs zkps = some stream ∧
      specChallenge weierstrass.lib11 weierstrass.c11.N cs zkps = some challenge ∧
      challenge = (big.SetBytes (weierstrass.lib11.Sha256 stream) : Int) % weierstrass.c11.N ∧
      ∃ cBytes pBytes, cs.mapM Ciphertext.bytes = .ok cBytes ∧
        zkps.mapM ZKP.bytes = .ok pBytes ∧ cBytes.flatten ++ pBytes.flatten = stream :=
  encryptSeqWithZKP_challenge_stream weierstrass.lib11 weierstrass.pk11 weierstrass.c11 rfl
    [1, -1, 1] (by decide) 2 (by decide) weierstrass.zkpDraws

end elgamal

namespace pcr
open bloom bitset elgamal

/-- C27 (code defect): the goroutine that adds the worker results to `c2` runs without
synchronisation with the read of `c2`. In the run in which `c2` is read before any result
has been added (the empty schedule), `c2` is `Encrypt(0)` alone, every worker result is left
out of `c1PLUSc2`, and `Z1` passes `DecryptAndCheck0` for every candidate password, whether
or not its filter matches the query. -/
theorem responseGen_c2_unsynchronised (L : Lib) (hsound : L.ModSqrtSound) (secParam : Int)
    (pointCompression : Bool) (priv : List Nat) (c : Curve) (pk : PublicKey) (sk : SecretKey)
    (hcurve : initCurve L secParam = some c) (hc : c.Lawful)
    (hkey : KeyGen L secParam pointCompression priv = .ok (pk, sk))
    (reqPara : ReqPara) (w k : Nat) (hw0 : 0 < w) (hw : 64 * w < 2 ^ 63)
    (hlen : reqPara.BfLength = ((64 * w : Nat) : Int))
    (hkq : reqPara.NumHashFuncs = (k : Int)) (hk1 : 1 ≤ k) (hk63 : k < 2 ^ 63)
    (hkK : (k : Int) ≤ reqPara.BfNumOnes) (hT : 1 ≤ reqPara.NumThreads)
    (pwd : List Nat) (draws : List (Nat × Nat)) (bf : BloomFilter)
    (hbf : ReqBFGen L pk reqPara pwd draws = .ok (some bf))
    (qdraws : Nat → ZKPDraw) (zInv zZero : Nat) (cand : List Nat) (dr : RespDraws)
    (ctP : Ciphertext) (hP : pk.EncryptMul L cand dr.zPwd = .ok ctP) :
    (∀ (results : List Ciphertext) (c2 : Ciphertext),
        ResponseGen.collect pk results [] c2 = .ok c2) ∧
      ∃ q qp r z1,
        QueryGen L pk reqPara bf qdraws = .ok q ∧ RespDeployment L q zInv zZero = .ok qp ∧
        ResponseGen L sk qp cand dr [] = .ok r ∧
        pk.Bytes2Ciphertext r.Z1 reqPara.PointCompression = .ok z1 ∧
        sk.DecryptAndCheck0 z1 = .ok true := by
  refine ⟨fun _ _ => rfl, ?_⟩
  obtain ⟨Pt, _, ⟨M⟩⟩ := hc
  obtain ⟨c', hc', hk, -, hsp, -⟩ := KeyGen_keyPair hkey
  have hcc : c' = c := Option.some.inj (hc'.symm.trans hcurve)
  rw [hcc] at hk
  obtain ⟨fC, q, qp, r, z1, z2, P, -, hq, hqp, hr, hz1, ez1, -, -, -⟩ :=
    pipeline_spec M L hsound hk (by rw [hsp]; exact hcurve) reqPara w k hw0 hw hlen hkq hk1 hk63
      hkK hT pwd draws bf hbf qdraws zInv zZero cand dr [] ctP hP
  obtain ⟨b, hb, hiff⟩ := IsEnc.decryptAndCheck0 M hk.2.1 ez1
  have hbt : b = true := hiff.2 (by simp)
  rw [hbt] at hb
  exact ⟨q, qp, r, z1, hq, hqp, hr, hz1, hb⟩

/-- C27 for the requester's password `"Simba"` and the candidate `"Nala"`, which does not
match: with every worker result summed, `Z1` fails the check (`responseDecrypt_mismatch`);
with none summed it passes. -/
theorem responseGen_c2_unsynchronised_witness :
    (∀ (results : List Ciphertext) (c2 : Ciphertext),
        ResponseGen.collect weierstrass.pk77 results [] c2 = .ok c2) ∧
      ∃ q qp r z1,
        QueryGen weierstrass.lib77 weierstrass.pk77 weierstrass.rp128 weierstrass.bfSimba
          weierstrass.zkpDraws = .ok q ∧
        RespDeployment weierstrass.lib77 q 6 9 = .ok qp ∧
        ResponseGen weierstrass.lib77 weierstrass.sk77 qp weierstrass.nala weierstrass.respDraws
          [] = .ok r ∧
        weierstrass.pk77.Bytes2Ciphertext r.Z1 weierstrass.rp128.PointCompression = .ok z1 ∧
        weierstrass.sk77.DecryptAndCheck0 z1 = .ok true :=
  responseGen_c2_unsynchronised weierstrass.lib77 (weierstrass.lib_modSqrtSound _) 256 true
    [1, 35, 69] weierstrass.c77 weierstrass.pk77 weierstrass.sk77 rfl weierstrass.c77_lawful
    keyGen77 weierstrass.rp128 2 20 (by decide) (by decide) (by decide) (by decide) (by decide)
    (by decide) (by decide) (by decide) weierstrass.simba weierstrass.padDraws
    weierstrass.bfSimba weierstrass.reqBFGen_simba weierstrass.zkpDraws 6 9 weierstrass.nala
    weierstrass.respDraws
    ⟨some 71164816667097924482711, some 3012391171164077964961,
      some 48728674898712437353402, some 47890659316036289835785⟩ weierstrass.encryptMul_nala

end pcr

namespace elgamal

/-- C28: `VerifySeqZKP` only checks the ciphertexts that have a proof. For a public key
with its curve, every vector `cs` of ciphertexts (with their four coordinates, encrypting
anything), the empty vector of proofs and `rcvChallenge` the SHA-256 of the bytes of `cs`
reduced modulo `N`, `VerifySeqZKP` returns true. More generally the ciphertexts `extra` at
the indices from `len(zkps)` on enter the hash and none of the five tests per index: the
result is the test of the challenge together with the tests of the loop over `zkps`, which
reads the first `len(zkps)` ciphertexts only. -/
theorem verifySeqZKP_without_proofs (L : Lib) (pk : PublicKey) (c : Curve)
    (hc : pk.Curve = some c) (cs extra : List Ciphertext) (zkps : List ZKP)
    (numThreads : Int) (hT : 0 ≤ numThreads) :
    (∀ ch, specChallenge L c.N cs [] = some ch →
        pk.VerifySeqZKP L cs [] ch numThreads = .ok true) ∧
      (zkps.length = cs.length → 1 ≤ numThreads → ∀ ch rcv,
        specChallenge L c.N (cs ++ extra) zkps = some ch →
        pk.VerifySeqZKP L (cs ++ extra) zkps rcv numThreads =
          (VerifySeqZKP.checkAll pk c ch cs zkps).map
            (fun failed => decide ((if ch ≠ rcv then 1 else 0) + failed = 0))) := by
  constructor
  · intro ch hch
    have hw : workerChan numThreads ([] : List ZKP).length = .ok () := by
      unfold workerChan
      rw [if_neg (by omega), if_neg (by simp)]
    rw [VerifySeqZKP_of_specChallenge L hc hch ch numThreads hw]
    cases cs <;> simp [VerifySeqZKP.checkAll, Except.map]
  · intro hlen hT1 ch rcv hch
    rw [VerifySeqZKP_of_specChallenge L hc hch rcv numThreads (workerChan_ok numThreads hT1 _),
      checkAll_append pk c ch extra cs zkps (le_of_eq hlen)]

/-- C28 on the curve with 17 points: a ciphertext that encrypts nothing in particular
passes without a proof, and a second one behind a ciphertext with a proof is hashed and
not tested. -/
theorem verifySeqZKP_without_proofs_witness :
    (∀ ch, specChallenge weierstrass.lib11 weierstrass.c11.N
          [Ciphertext.ofPoints (7, 2) (0, 10)] [] = some ch →
        weierstrass.pk11.VerifySeqZKP weierstrass.lib11 [Ciphertext.ofPoints (7, 2) (0, 10)] []
          ch 2 = .ok true) ∧
      ([(⟨some 0, some 10, some 4, some 8, some 2, some 5, some 8, some 7, some 7, some 3,
            some 5, some 12⟩ : ZKP)].length = [Ciphertext.ofPoints (7, 2) (0, 10)].length →
        1 ≤ (2 : Int) → ∀ ch rcv,
        specChallenge weierstrass.lib11 weierstrass.c11.N
          ([Ciphertext.ofPoints (7, 2) (0, 10)] ++ [Ciphertext.ofPoints (0, 1) (2, 5)])
          [⟨some 0, some 10, some 4, some 8, some 2, some 5, some 8, some 7, some 7, some 3,
            some 5, some 12⟩] = some ch →
        weierstrass.pk11.VerifySeqZKP weierstrass.lib11
          ([Ciphertext.ofPoints (7, 2) (0, 10)] ++ [Ciphertext.ofPoints (0, 1) (2, 5)])
          [⟨some 0, some 10, some 4, some 8, some 2, some 5, some 8, some 7, some 7, some 3,
            some 5, some 12⟩] rcv 2 =
          (VerifySeqZKP.checkAll weierstrass.pk11 weierstrass.c11 ch
            [Ciphertext.ofPoints (7, 2) (0, 10)]
            [⟨some 0, some 10, some 4, some 8, some 2, some 5, some 8, some 7, some 7, some 3,
              some 5, some 12⟩]).map
            (fun failed => decide ((if ch ≠ rcv then 1 else 0) + failed = 0))) :=
  verifySeqZKP_without_proofs weierstrass.lib11 weierstrass.pk11 weierstrass.c11 rfl
    [Ciphertext.ofPoints (7, 2) (0, 10)] [Ciphertext.ofPoints (0, 1) (2, 5)]
    [⟨some 0, some 10, some 4, some 8, some 2, some 5, some 8, some 7, some 7, some 3,
      some 5, some 12⟩] 2 (by decide)

end elgamal

namespace elgamal

/-- C29: `Decrypt` is partial. For a key pair with `H = [sk]G` (`sk <= N`) on a lawful curve
of prime order and every ciphertext `C` of two points of the curve, `sk.Decrypt(C)` fails
with a slice-bounds error exactly when the x-coordinate of `C.C2 + [N - sk]C.C1` is below
`2 ^ 24` (fewer than `PaddingBytes = 4` bytes), and returns otherwise; in particular it
fails for every ciphertext that passes `DecryptAndCheck0`, such as `Encrypt(0)`. -/
theorem decrypt_sliceBounds_iff (c : Curve) (hc : c.Lawful) (hprime : c.PrimeOrder)
    (pk : PublicKey) (sk : SecretKey) (hk : KeyPair c pk sk)
    (hs : (big.SetBytes sk.Priv : Int) ≤ c.N) (p q : Point) (hp : c.IsPoint p)
    (hq : c.IsPoint q) :
    (sk.Decrypt (Ciphertext.ofPoints p q) = .error .sliceBounds ↔
        (c.Add q (c.ScalarMult p (big.Bytes (c.N - big.SetBytes sk.Priv)))).1 < 2 ^ 24) ∧
      ((2 : Int) ^ 24 ≤ (c.Add q (c.ScalarMult p (big.Bytes (c.N - big.SetBytes sk.Priv)))).1 →
        ∃ bs, sk.Decrypt (Ciphertext.ofPoints p q) = .ok bs) ∧
      (sk.DecryptAndCheck0 (Ciphertext.ofPoints p q) = .ok true →
        sk.Decrypt (Ciphertext.ofPoints p q) = .error .sliceBounds) ∧
      ∀ z, ∃ ct, pk.Encrypt 0 z = .ok ct ∧ sk.DecryptAndCheck0 ct = .ok true ∧
        sk.Decrypt ct = .error .sliceBounds := by
  obtain ⟨Pt, _, ⟨M⟩⟩ := hc
  obtain ⟨a, rfl⟩ := (M.isPoint_iff p).1 hp
  obtain ⟨b, rfl⟩ := (M.isPoint_iff q).1 hq
  have hexp := M.exponent_of_primeOrder hprime
  have hzero : ∀ a' : Pt, sk.Decrypt (Ciphertext.ofPoints (M.coords a')
      (M.coords ((big.SetBytes sk.Priv : Int) • a'))) = .error .sliceBounds := by
    intro a'
    have := Decrypt_eq M hk.2.1 hs a' 0 (hexp a')
    rw [zero_add] at this
    rw [this, M.coords_zero, if_pos (by decide)]
  have hdec : sk.Decrypt (Ciphertext.ofPoints (M.coords a) (M.coords b)) =
      if (big.Bytes (c.Add (M.coords b)
          (c.ScalarMult (M.coords a) (big.Bytes (c.N - big.SetBytes sk.Priv)))).1).length <
        PaddingBytes then .error .sliceBounds
      else .ok ((big.Bytes (c.Add (M.coords b)
          (c.ScalarMult (M.coords a) (big.Bytes (c.N - big.SetBytes sk.Priv)))).1).take
        ((big.Bytes (c.Add (M.coords b)
          (c.ScalarMult (M.coords a) (big.Bytes (c.N - big.SetBytes sk.Priv)))).1).length -
            PaddingBytes)) := by
    simp only [SecretKey.Decrypt, hk.2.1, derefCurve_some, Except.ok_bind_eq, ofPoints_C1x,
      ofPoints_C1y, ofPoints_C2x, ofPoints_C2y, derefPoint_some, Prod.mk.eta, Except.pure_eq_ok]
  have hlen : (big.Bytes (c.Add (M.coords b)
        (c.ScalarMult (M.coords a) (big.Bytes (c.N - big.SetBytes sk.Priv)))).1).length <
      PaddingBytes ↔
      (c.Add (M.coords b)
        (c.ScalarMult (M.coords a) (big.Bytes (c.N - big.SetBytes sk.Priv)))).1 < 2 ^ 24 := by
    rw [M.scalarMult_nat, M.add_coords]
    have hx := M.coords_x_nonneg (b + (big.SetBytes (big.Bytes (c.N - big.SetBytes sk.Priv)) : Int) • a)
    have h4 : PaddingBytes = 4 := rfl
    rw [big.Bytes, h4, big.length_natBytes_lt_four]
    omega
  refine ⟨?_, ?_, ?_, ?_⟩
  · rw [hdec]
    constructor
    · intro h
      by_contra hx
      rw [if_neg (fun h' => hx (hlen.1 h'))] at h
      cases h
    · intro h
      rw [if_pos (hlen.2 h)]
  · intro h
    rw [hdec, if_neg (fun h' => absurd (hlen.1 h') (by omega))]
    exact ⟨_, rfl⟩
  · intro hC
    obtain ⟨b', hb', hiff⟩ := DecryptAndCheck0_eq M hk.2.1 a b
    rw [hb'] at hC
    have hb : (big.SetBytes sk.Priv : Int) • a = b := hiff.1 (by injection hC)
    rw [← hb]
    exact hzero a
  · intro z
    refine ⟨_, Encrypt_eq M hk.1 (hk.H_eq M) 0 z, ?_, ?_⟩
    · obtain ⟨b', hb', hiff⟩ := DecryptAndCheck0_eq M hk.2.1 (c.draw z • M.g)
        ((0 : Int) • M.g + c.draw z • ((big.SetBytes sk.Priv : Int) • M.g))
      rw [hb']
      congr 1
      rw [hiff, zero_smul, zero_add, smul_comm]
    · rw [zero_smul, zero_add, smul_comm]
      exact hzero _

theorem decrypt_sliceBounds_iff_witness :
    (weierstrass.sk11.Decrypt (Ciphertext.ofPoints (7, 2) (0, 10)) = .error .sliceBounds ↔
        (weierstrass.c11.Add (0, 10) (weierstrass.c11.ScalarMult (7, 2)
          (big.Bytes (weierstrass.c11.N - big.SetBytes weierstrass.sk11.Priv)))).1 < 2 ^ 24) ∧
      ((2 : Int) ^ 24 ≤ (weierstrass.c11.Add (0, 10) (weierstrass.c11.ScalarMult (7, 2)
          (big.Bytes (weierstrass.c11.N - big.SetBytes weierstrass.sk11.Priv)))).1 →
        ∃ bs, weierstrass.sk11.Decrypt (Ciphertext.ofPoints (7, 2) (0, 10)) = .ok bs) ∧
      (weierstrass.sk11.DecryptAndCheck0 (Ciphertext.ofPoints (7, 2) (0, 10)) = .ok true →
        weierstrass.sk11.Decrypt (Ciphertext.ofPoints (7, 2) (0, 10)) = .error .sliceBounds) ∧
      ∀ z, ∃ ct, weierstrass.pk11.Encrypt 0 z = .ok ct ∧
        weierstrass.sk11.DecryptAndCheck0 ct = .ok true ∧
        weierstrass.sk11.Decrypt ct = .error .sliceBounds :=
  decrypt_sliceBounds_iff weierstrass.c11 weierstrass.c11_lawful weierstrass.c11_primeOrder
    weierstrass.pk11 weierstrass.sk11 keyPair11 (by decide) (7, 2) (0, 10)
    (Or.inr (by decide)) (Or.inr (by decide))

end elgamal

namespace pcr
open bloom bitset elgamal

/-- C30 (amended): the aggregate of `RespDeployment` enforces the popcount. For a query on
a lawful curve whose base point has prime order `N`, with public point `H = [sk]G`,
`0 <= BfNumOnes <= BfLength < N / 2`, whose `BfLength` ciphertexts each encrypt `+1` or
`-1` and whose proofs verify: if the number of `+1` entries differs from `BfNumOnes`, the
`C1` that `RespDeployment` emits is the encoding of a ciphertext that does not pass
`DecryptAndCheck0` under the secret key. -/
theorem respDeployment_c1_popcount (L : Lib) (c : Curve) (hc : c.Lawful)
    (hbase : c.BasePrimeOrder) (q : QueryMessage)
    (sk : SecretKey) (hcurve : initCurve L q.PK.SecParam = some c) (hsk : sk.Curve = some c)
    (hH : (q.PK.Hx, q.PK.Hy) = c.ScalarBaseMult sk.Priv)
    (hlen : q.BfLength = q.EBF.length) (hN : 2 * q.BfLength < c.N)
    (hK0 : 0 ≤ q.BfNumOnes) (hKm : q.BfNumOnes ≤ q.BfLength) (hrange : q.BfLength < 2 ^ 63)
    (ebf : List Ciphertext) (zkps : List ZKP)
    (hdec : RespDeployment.decode (q.PK.InitCurve L) q.PointCompression q.EBF q.ZKPs =
      .ok (ebf, zkps))
    (ms : List Int) (hms : ∀ m ∈ ms, m = 1 ∨ m = -1)
    (hcount : (ms.count 1 : Int) ≠ q.BfNumOnes)
    (henc : List.Forall₂ (Encrypts c sk) ebf ms)
    (hver : (q.PK.InitCurve L).VerifySeqZKP L ebf zkps (big.SetBytes q.Challenge) q.NumThreads =
      .ok true)
    (zInv zZero : Nat) :
    ∃ qp resCT, RespDeployment L q zInv zZero = .ok qp ∧
      qp.PK.Ciphertext2Bytes resCT qp.PointCompression = .ok qp.C1 ∧
      sk.DecryptAndCheck0 resCT = .ok false := by
  obtain ⟨Pt, _, ⟨M⟩⟩ := hc
  obtain ⟨qp, resCT, b, hqp, hC1, hb, hiff⟩ :=
    RespDeployment_check M L q sk hcurve hsk hH ebf zkps hdec ms henc hver zInv zZero
  obtain ⟨hl1, -⟩ := RespDeployment.decode_length _ _ _ _ _ _ hdec
  have hmslen : (ms.length : Int) = q.BfLength := by
    rw [hlen, ← hl1, henc.length_eq]
  have hcle : (ms.count 1 : Int) ≤ ms.length := by exact_mod_cast List.count_le_length 1 ms
  have hc0 : (0 : Int) ≤ ms.count 1 := Int.natCast_nonneg _
  have hwrap : wrapInt64 (q.BfLength - 2 * q.BfNumOnes) = q.BfLength - 2 * q.BfNumOnes := by
    apply wrapInt64_eq
    · omega
    · omega
  have hbf : b = false := by
    cases b
    · rfl
    · exfalso
      have h0 := hiff.1 rfl
      rw [hwrap, sum_pm_one ms hms, hmslen] at h0
      have hdvd := M.dvd_of_zsmul_g_eq_zero hbase _ h0
      have habs : |2 * (ms.count 1 : Int) - q.BfLength + (q.BfLength - 2 * q.BfNumOnes)| <
          c.N := by
        rw [abs_lt]
        constructor <;> omega
      have := Int.eq_zero_of_abs_lt_dvd hdvd habs
      omega
  subst hbf
  exact ⟨qp, resCT, hqp, hC1, hb⟩

/-- The amended C30 for the query of three ciphertexts on the curve with 17 points that
encrypt `+1, -1, +1`, sent with `BfNumOnes = 1`: the `C1` emitted fails the check. -/
theorem respDeployment_c1_popcount_witness :
    ∃ qp resCT, RespDeployment weierstrass.lib11 { weierstrass.query11 with BfNumOnes := 1 } 6 9 =
        .ok qp ∧
      qp.PK.Ciphertext2Bytes resCT qp.PointCompression = .ok qp.C1 ∧
      weierstrass.sk11.DecryptAndCheck0 resCT = .ok false :=
  respDeployment_c1_popcount weierstrass.lib11 weierstrass.c11 weierstrass.c11_lawful
    ⟨weierstrass.c11_primeOrder.1, weierstrass.c11_primeOrder.2.1⟩
    { weierstrass.query11 with BfNumOnes := 1 } weierstrass.sk11 rfl rfl (by decide) (by decide)
    (by decide) (by decide) (by decide) (by decide)
    [Ciphertext.ofPoints (0, 10) (6, 10), Ciphertext.ofPoints (7, 2) (7, 9),
      Ciphertext.ofPoints (5, 10) (5, 10)]
    [⟨some 0, some 10, some 4, some 8, some 2, some 5, some 8, some 7, some 7, some 3,
        some 5, some 12⟩,
      ⟨some 5, some 10, some 7, some 2, some 2, some 6, some 6, some 10, some 1, some 9,
        some 1, some 6⟩,
      ⟨some 0, some 0, some 8, some 7, some 4, some 8, some 2, some 5, some 11, some 16,
        some 7, some 11⟩]
    (by decide) [1, -1, 1] (by decide) (by decide)
    (.cons ⟨(0, 10), Or.inr (by decide), by decide⟩ (.cons ⟨(7, 2), Or.inr (by decide), by decide⟩
      (.cons ⟨(5, 10), Or.inr (by decide), by decide⟩ .nil)))
    (by decide) 6 9

/-- C30 as stated fails when `BfLength - 2 * BfNumOnes` overflows the 64-bit `int`. The
query of three ciphertexts (`3 < 17 / 2`) that encrypt `+1, -1, +1` has two entries `+1`;
sent with `BfNumOnes = 2 - 2 ^ 63`, which differs from 2, it makes `RespDeployment`
encrypt `-1` as it does for `BfNumOnes = 2`, and the `C1` emitted passes the check. -/
theorem respDeployment_c1_popcount_counterexample :
    2 * (3 : Int) < weierstrass.c11.N ∧
    (([1, -1, 1] : List Int).count 1 : Int) ≠ 2 - 2 ^ 63 ∧
    wrapInt64 (3 - 2 * (2 - 2 ^ 63)) = -1 ∧
    List.Forall₂ (Encrypts weierstrass.c11 weierstrass.sk11)
      [Ciphertext.ofPoints (0, 10) (6, 10), Ciphertext.ofPoints (7, 2) (7, 9),
        Ciphertext.ofPoints (5, 10) (5, 10)] [1, -1, 1] ∧
    ∃ qp resCT,
      RespDeployment weierstrass.lib11 { weierstrass.query11 with BfNumOnes := 2 - 2 ^ 63 } 6 9 =
        .ok qp ∧
      qp.PK.Ciphertext2Bytes resCT qp.PointCompression = .ok qp.C1 ∧
      weierstrass.sk11.DecryptAndCheck0 resCT = .ok true := by
  have henc : List.Forall₂ (Encrypts weierstrass.c11 weierstrass.sk11)
      [Ciphertext.ofPoints (0, 10) (6, 10), Ciphertext.ofPoints (7, 2) (7, 9),
        Ciphertext.ofPoints (5, 10) (5, 10)] [1, -1, 1] :=
    .cons ⟨(0, 10), Or.inr (by decide), by decide⟩ (.cons ⟨(7, 2), Or.inr (by decide), by decide⟩
      (.cons ⟨(5, 10), Or.inr (by decide), by decide⟩ .nil))
  refine ⟨by decide, by decide, by decide, henc, ?_⟩
  obtain ⟨Pt, _, ⟨M⟩⟩ := weierstrass.c11_lawful
  obtain ⟨qp, resCT, b, hqp, hC1, hb, hiff⟩ :=
    RespDeployment_check M weierstrass.lib11
      { weierstrass.query11 with BfNumOnes := 2 - 2 ^ 63 } weierstrass.sk11 rfl rfl (by decide)
      [Ciphertext.ofPoints (0, 10) (6, 10), Ciphertext.ofPoints (7, 2) (7, 9),
        Ciphertext.ofPoints (5, 10) (5, 10)]
      [⟨some 0, some 10, some 4, some 8, some 2, some 5, some 8, some 7, some 7, some 3,
          some 5, some 12⟩,
        ⟨some 5, some 10, some 7, some 2, some 2, some 6, some 6, some 10, some 1, some 9,
          some 1, some 6⟩,
        ⟨some 0, some 0, some 8, some 7, some 4, some 8, some 2, some 5, some 11, some 16,
          some 7, some 11⟩]
      (by decide) [1, -1, 1] henc (by decide) 6 9
  have hbt : b = true := by
    apply hiff.2
    have : ([1, -1, 1] : List Int).sum + wrapInt64
        ((({ weierstrass.query11 with BfNumOnes := 2 - 2 ^ 63 } : QueryMessage).BfLength) -
          2 * (({ weierstrass.query11 with BfNumOnes := 2 - 2 ^ 63 } : QueryMessage).BfNumOnes)) =
        0 := by decide
    rw [this, zero_smul]
  subst hbt
  exact ⟨qp, resCT, hqp, hC1, hb⟩

end pcr

/-! ## Claim C31 -/

namespace pcr
open bloom bitset elgamal

/-- C31 (amended): padding never clears a real bit. For every password `pwd` and every
sequence of padding draws, when the requested `BfLength` and `NumHashFuncs` are nonnegative
Go ints, the filter `bf` returned by `ReqBFGen` satisfies `bf.Test(sha256(pwd)) = true`, and
`bf.Cap()` and `bf.K()` equal `max(1, BfLength)` and `max(1, NumHashFuncs)`, which are the
requested values whenever these are at least 1. -/
theorem reqBFGen_keeps_password (L : Lib) (pk : PublicKey) (reqPara : ReqPara)
    (pwd : List Nat) (draws : List (Nat × Nat)) (bf : BloomFilter)
    (hlen : 0 ≤ reqPara.BfLength) (hlen63 : reqPara.BfLength < 2 ^ 63)
    (hk : 0 ≤ reqPara.NumHashFuncs) (hk63 : reqPara.NumHashFuncs < 2 ^ 63)
    (h : ReqBFGen L pk reqPara pwd draws = .ok (some bf)) :
    bf.Test L (HashSha256 L pwd) = .ok true ∧
      (bf.Cap : Int) = max 1 reqPara.BfLength ∧ (bf.K : Int) = max 1 reqPara.NumHashFuncs := by
  have em : reqPara.BfLength = (reqPara.BfLength.toNat : Int) := (Int.toNat_of_nonneg hlen).symm
  have ek : reqPara.NumHashFuncs = (reqPara.NumHashFuncs.toNat : Int) :=
    (Int.toNat_of_nonneg hk).symm
  obtain ⟨ht, hc, hK⟩ := ReqBFGen_keeps L pk reqPara pwd draws bf reqPara.BfLength.toNat
    reqPara.NumHashFuncs.toNat (by omega) em ek (by omega) h
  refine ⟨ht, ?_, ?_⟩
  · rw [hc]
    push_cast
    rw [← em]
  · rw [hK]
    push_cast
    rw [← ek]

theorem reqBFGen_keeps_password_witness :
    ReqBFGen weierstrass.lib77 weierstrass.pk77 ⟨256, 72, 9, 3, 4, true⟩ weierstrass.nala
        weierstrass.padDraws =
      .ok (some ⟨72, 3, ⟨72, [612498414420238336, 288230376151711808]⟩⟩) ∧
    BloomFilter.Test weierstrass.lib77 ⟨72, 3, ⟨72, [612498414420238336, 288230376151711808]⟩⟩
        (HashSha256 weierstrass.lib77 weierstrass.nala) = .ok true ∧
      ((BloomFilter.Cap ⟨72, 3, ⟨72, [612498414420238336, 288230376151711808]⟩⟩ : Nat) : Int) =
        max 1 72 ∧
      ((BloomFilter.K ⟨72, 3, ⟨72, [612498414420238336, 288230376151711808]⟩⟩ : Nat) : Int) =
        max 1 3 :=
  ⟨weierstrass.reqBFGen_nala72, reqBFGen_keeps_password weierstrass.lib77 weierstrass.pk77
    ⟨256, 72, 9, 3, 4, true⟩ weierstrass.nala weierstrass.padDraws _ (by decide) (by decide)
    (by decide) (by decide) weierstrass.reqBFGen_nala72⟩

theorem reqBFGen_keeps_password_counterexample :
    ReqBFGen weierstrass.lib77 weierstrass.pk77 ⟨256, 72, 1, 0, 4, true⟩ weierstrass.simba [] =
      .ok (some ⟨72, 1, ⟨72, [4611686018427387904, 0]⟩⟩) ∧
    ((BloomFilter.K ⟨72, 1, ⟨72, [4611686018427387904, 0]⟩⟩ : Nat) : Int) ≠
      (⟨256, 72, 1, 0, 4, true⟩ : ReqPara).NumHashFuncs ∧
    ReqBFGen weierstrass.lib77 weierstrass.pk77 ⟨256, 0, 0, 3, 4, true⟩ weierstrass.simba [] =
      .ok (some ⟨1, 3, ⟨1, [1]⟩⟩) ∧
    ((BloomFilter.Cap ⟨1, 3, ⟨1, [1]⟩⟩ : Nat) : Int) ≠
      (⟨256, 0, 0, 3, 4, true⟩ : ReqPara).BfLength :=
  ⟨by decide!, by decide, by decide!, by decide⟩

end pcr
